import Mathlib

/-!
# SubsetSum: a verification development

Shallow embedding of the zero-sum subset solver (`Controllers.cpp`, `HashWorkers.cpp`,
`NaiveWorkers.cpp`, `NodeHashGen.cpp`) and of the references used by its unit tests.

* `Int128` values are integers in `[-2^127, 2^127)`; every arithmetic operator of the class is
  followed by an explicit reduction `wrap128` (two's complement).
* `gint64` values are integers in `[-2^63, 2^63)`, reduced by `wrap64`.
* subset bitmasks (`Int128` used as a bit set) are natural numbers below `2^128`.
-/

set_option autoImplicit false

namespace SubsetSum

/-! ## Machine integers -/

/-- Two's-complement reduction of an integer to the signed 128-bit range. -/
def wrap128 (x : Int) : Int :=
  (x + 170141183460469231731687303715884105728) % 340282366920938463463374607431768211456
    - 170141183460469231731687303715884105728

/-- Two's-complement reduction of an integer to the signed 64-bit range. -/
def wrap64 (x : Int) : Int :=
  (x + 9223372036854775808) % 18446744073709551616 - 9223372036854775808

/-- `Int128::operator+=`. -/
def add128 (a b : Int) : Int := wrap128 (a + b)

/-- `Int128::operator-=`. -/
def sub128 (a b : Int) : Int := wrap128 (a - b)

/-- `Int128::operator-` (unary). -/
def neg128 (a : Int) : Int := wrap128 (-a)

/-- The value is representable as an `Int128`. -/
def IsInt128 (x : Int) : Prop :=
  -170141183460469231731687303715884105728 ≤ x ∧ x < 170141183460469231731687303715884105728

instance (x : Int) : Decidable (IsInt128 x) := by unfold IsInt128; infer_instance

/-- `Int128::operator<<` on a bitmask: bits shifted past position 127 are lost. -/
def shl128 (x n : Nat) : Nat := (x <<< n) % 340282366920938463463374607431768211456

/-- `Int128::operator++` on a bitmask. -/
def inc128 (x : Nat) : Nat := (x + 1) % 340282366920938463463374607431768211456

/-- The condition `x & (Int128(1) << i)` (conversion of the masked value to `bool`). -/
def bitSet (x i : Nat) : Bool := (x &&& shl128 1 i) != 0

/-- Array read `a[i]`; the programs below never read outside the array. -/
def rd (a : List Int) (i : Nat) : Int := a.getD i 0

/-! ## Specification-side sums -/

/-- Sum of the elements of `nums` selected by the bits of `B` (bit `i` selects `nums[i]`),
as a mathematical integer. -/
def selSum : List Int → Nat → Int
  | [], _ => 0
  | x :: xs, B => (if B % 2 = 1 then x else 0) + selSum xs (B / 2)

/-- The same sum in 128-bit arithmetic. -/
def selSum128 (nums : List Int) (B : Nat) : Int := wrap128 (selSum nums B)

/-! ## `SubsetSumController::solveSmallProblem` -/

/-- The inner loop shared by `solveSmallProblem`, `NaiveController::generateWork` and the
reference work generator:
`for (bitNum = 0; (bit & changes) && bitNum < limit; bit <<= 1, bitNum++)` adding
`numbers[bitNum]` when the bit is set in `subset` and subtracting it otherwise.
The first argument counts the remaining `limit - bitNum` iterations. -/
def toggleLoop (numbers : List Int) (subset changes : Nat) : Nat → Nat → Int → Int
  | 0, _, sum => sum
  | fuel + 1, bitNum, sum =>
    if bitSet changes bitNum then
      toggleLoop numbers subset changes fuel (bitNum + 1)
        (if bitSet subset bitNum then add128 sum (rd numbers bitNum)
         else sub128 sum (rd numbers bitNum))
    else sum

/-- The loop `for (Int128 subset = 1; subset != maxSubset; ++subset)` of `solveSmallProblem`;
the result is the sequence of arguments of `putSolution`, `none` when the iteration budget
(first argument) is exhausted before the loop exits. -/
def solveSmallLoop (numbers : List Int) (maxSubset : Nat) :
    Nat → Nat → Nat → Int → Option (List Nat)
  | 0, _, _, _ => none
  | fuel + 1, subset, prevSubset, sum =>
    if subset = maxSubset then some []
    else
      let sum1 := toggleLoop numbers subset (prevSubset ^^^ subset) 128 0 sum
      (solveSmallLoop numbers maxSubset fuel (inc128 subset) subset sum1).map
        (fun rest => if sum1 = 0 then subset :: rest else rest)

/-- `SubsetSumController::solveSmallProblem`: the sequence of `putSolution` calls. -/
def solveSmallProblem (numbers : List Int) : Option (List Nat) :=
  solveSmallLoop numbers (shl128 1 numbers.length) (2 ^ numbers.length) 1 0 0

/-! ## The preprocessor: `rangeForRegion`, `smallestRangeRegion`, `orderNumberRanges` -/

/-- `struct NumberEntry`: a value together with its index in the input. -/
structure NumberEntry where
  number : Int
  order : Nat
  deriving DecidableEq, Repr

/-- `struct MinMaxStep`. -/
structure MinMaxStep where
  minValue : Int
  maxValue : Int
  deriving DecidableEq, Repr

/-- The read `numbers[i].number`. -/
def num (numbers : List NumberEntry) (i : Nat) : Int :=
  match numbers.get? i with
  | some e => e.number
  | none => 0

/-- The read `numbers[i].order`. -/
def ord (numbers : List NumberEntry) (i : Nat) : Nat :=
  match numbers.get? i with
  | some e => e.order
  | none => 0

/-- State of the summation loop of `rangeForRegion` (and of the first loop of
`smallestRangeRegion`) after the given number of iterations over
`numbers[start], numbers[start+1], ...`: the pair `(minVal, maxVal)`. -/
def rangeSums (numbers : List NumberEntry) (start : Nat) : Nat → Int × Int
  | 0 => (0, 0)
  | i + 1 =>
    let st := rangeSums numbers start i
    let x := num numbers (start + i)
    if x < 0 then (add128 st.1 x, st.2)
    else if x > 0 then (st.1, add128 st.2 x)
    else st

/-- `rangeForRegion(count, numbers + start, minVal, maxVal)`. -/
def rangeForRegion (numbers : List NumberEntry) (start count : Nat) : Int × Int :=
  let st := rangeSums numbers start count
  (if st.1 = 0 then num numbers start else st.1,
   if st.2 = 0 then num numbers (start + count - 1) else st.2)

/-- Loop state of `smallestRangeRegion`. -/
structure RegionState where
  minVal : Int
  maxVal : Int
  bestRange : Int
  bestPos : Nat
  deriving DecidableEq, Repr

/-- State of `smallestRangeRegion` before its sliding loop. -/
def regionInit (regionSize : Nat) (numbers : List NumberEntry) : RegionState :=
  let p := rangeForRegion numbers 0 regionSize
  { minVal := p.1, maxVal := p.2, bestRange := sub128 p.2 p.1, bestPos := 0 }

/-- The update of `(minVal, maxVal)` in the body of the sliding loop of `smallestRangeRegion`
at position `pos`. -/
def slideMinMax (regionSize : Nat) (numbers : List NumberEntry) (pos : Nat)
    (minVal maxVal : Int) : Int × Int :=
  let prev := num numbers (pos - 1)
  let last := num numbers (pos + regionSize - 1)
  let minVal := if prev < 0 then sub128 minVal prev else minVal
  let minVal := if minVal ≥ 0 then num numbers pos else minVal
  let maxVal1 := if last > 0 then (if maxVal > 0 then add128 maxVal last else maxVal) else maxVal
  let minVal := if last > 0 then minVal else (if minVal < 0 then add128 minVal last else minVal)
  let maxVal := if maxVal1 < 0 then last
    else if prev > 0 then sub128 maxVal1 prev else maxVal1
  (minVal, maxVal)

/-- State of `smallestRangeRegion` after the iterations `pos = 1, ..., k` of
`for (pos = 1; pos < numbersNum - regionSize; pos++)`. -/
def regionSlide (regionSize : Nat) (numbers : List NumberEntry) : Nat → RegionState
  | 0 => regionInit regionSize numbers
  | k + 1 =>
    let st := regionSlide regionSize numbers k
    let mm := slideMinMax regionSize numbers (k + 1) st.minVal st.maxVal
    let range := sub128 mm.2 mm.1
    if range < st.bestRange then
      { minVal := mm.1, maxVal := mm.2, bestRange := range, bestPos := k + 1 }
    else
      { minVal := mm.1, maxVal := mm.2, bestRange := st.bestRange, bestPos := st.bestPos }

/-- `smallestRangeRegion(numbersNum, regionSize, numbers)`: the loop runs for
`pos = 1, ..., numbersNum - regionSize - 1`. -/
def smallestRangeRegion (numbersNum regionSize : Nat) (numbers : List NumberEntry) : Nat :=
  (regionSlide regionSize numbers (numbersNum - regionSize - 1)).bestPos

/-- State of `smallestRangeRegionReference` (`SmallestRegionTest.cpp`) after the iterations
`pos = 1, ..., k`: the pair `(bestRange, bestPos)`; every window is recomputed from scratch. -/
def regionRefSlide (regionSize : Nat) (numbers : List NumberEntry) : Nat → Int × Nat
  | 0 =>
    let p := rangeForRegion numbers 0 regionSize
    (sub128 p.2 p.1, 0)
  | k + 1 =>
    let st := regionRefSlide regionSize numbers k
    let p := rangeForRegion numbers (k + 1) regionSize
    let range := sub128 p.2 p.1
    if range < st.1 then (range, k + 1) else st

/-- `smallestRangeRegionReference(numbersNum, regionSize, numbers)`. -/
def smallestRangeRegionReference (numbersNum regionSize : Nat)
    (numbers : List NumberEntry) : Nat :=
  (regionRefSlide regionSize numbers (numbersNum - regionSize - 1)).2

/-- Entries with the given values, `order` being the position. -/
def entriesOf (vals : List Int) : List NumberEntry :=
  (List.range vals.length).map (fun i => { number := rd vals i, order := i })

/-- One output slot of `orderNumberRanges`: the values written to `destNumbers[destPos]`,
`destOrders[destPos]` and `destMinMax[destPos]` in one pass of its loop. -/
structure OrderEntry where
  number : Int
  order : Nat
  minMax : MinMaxStep
  deriving DecidableEq, Repr

/-- The loop `for (destPos = 0; left >= 0 || right < gint(numbersNum); destPos++)` of
`orderNumberRanges`; `left` and `right` are the `gint` cursors, the result lists what every
pass writes at `destPos`. The first argument bounds the number of passes (`none` when it
is exhausted). -/
def orderLoop (numbersNum : Nat) (numbers : List NumberEntry) :
    Nat → Int → Int → Int → Int → Option (List OrderEntry)
  | 0, left, right, _, _ =>
    if left ≥ 0 ∨ right < (numbersNum : Int) then none else some []
  | fuel + 1, left, right, minVal, maxVal =>
    if left ≥ 0 ∨ right < (numbersNum : Int) then
      let mm : MinMaxStep := { minValue := neg128 maxVal, maxValue := neg128 minVal }
      let nl := num numbers left.toNat
      let nr := num numbers right.toNat
      if left ≥ 0 ∧ right < (numbersNum : Int) then
        let newMinVal1 := if minVal > 0 then nl else add128 minVal nl
        let newMaxVal1 := if maxVal > 0 ∧ nl > 0 then add128 maxVal nl else maxVal
        let newMaxVal2 := if maxVal < 0 then nr else add128 maxVal nr
        let newMinVal2 := if minVal < 0 ∧ nr < 0 then add128 minVal nr else minVal
        let range1 := sub128 newMaxVal1 newMinVal1
        let range2 := sub128 newMaxVal2 newMinVal2
        if range1 < range2 then
          (orderLoop numbersNum numbers fuel (left - 1) right newMinVal1 newMaxVal1).map
            (fun rest => { number := nl, order := ord numbers left.toNat, minMax := mm } :: rest)
        else
          (orderLoop numbersNum numbers fuel left (right + 1) newMinVal2 newMaxVal2).map
            (fun rest => { number := nr, order := ord numbers right.toNat, minMax := mm } :: rest)
      else if left ≥ 0 then
        let minVal1 := if minVal > 0 then nl else add128 minVal nl
        let maxVal1 := if nl > 0 ∧ maxVal > 0 then add128 maxVal nl else maxVal
        (orderLoop numbersNum numbers fuel (left - 1) right minVal1 maxVal1).map
          (fun rest => { number := nl, order := ord numbers left.toNat, minMax := mm } :: rest)
      else
        let maxVal1 := if maxVal < 0 then nr else add128 maxVal nr
        let minVal1 := if nr < 0 ∧ minVal < 0 then add128 minVal nr else minVal
        (orderLoop numbersNum numbers fuel left (right + 1) minVal1 maxVal1).map
          (fun rest => { number := nr, order := ord numbers right.toNat, minMax := mm } :: rest)
    else some []

/-- What `orderNumberRanges` leaves in its three output arrays (the slots it has written). -/
structure OrderResult where
  destNumbers : List Int
  destOrders : List Nat
  destMinMax : List MinMaxStep
  deriving DecidableEq, Repr

/-- Collects the slots written by the loop; `destMinMax[0]` is also written before the loop
(with the value the first pass writes again), so it is present even when no pass runs. -/
def orderResult (first : MinMaxStep) (es : List OrderEntry) : OrderResult :=
  { destNumbers := es.map (fun e => e.number),
    destOrders := es.map (fun e => e.order),
    destMinMax := match es with
      | [] => [first]
      | _ :: _ => es.map (fun e => e.minMax) }

/-- `orderNumberRanges(startLeftPos, startRightPos, numbersNum, numbers, destNumbers,
destOrders, destMinMax)`. -/
def orderNumberRanges (startLeftPos startRightPos : Int) (numbersNum : Nat)
    (numbers : List NumberEntry) : Option OrderResult :=
  let p := rangeForRegion numbers (startLeftPos + 1).toNat
    (startRightPos - startLeftPos - 1).toNat
  let first : MinMaxStep := { minValue := neg128 p.2, maxValue := neg128 p.1 }
  (orderLoop numbersNum numbers numbersNum startLeftPos startRightPos p.1 p.2).map
    (orderResult first)

/-- The loop of `orderNumberRangesRef` (`OrderRangesTest.cpp`): the envelope is recomputed
by `rangeForRegion` over the enlarged region in every pass. -/
def orderLoopRef (numbersNum : Nat) (numbers : List NumberEntry) :
    Nat → Int → Int → Int → Int → Option (List OrderEntry)
  | 0, left, right, _, _ =>
    if left ≥ 0 ∨ right < (numbersNum : Int) then none else some []
  | fuel + 1, left, right, minVal, maxVal =>
    if left ≥ 0 ∨ right < (numbersNum : Int) then
      let mm : MinMaxStep := { minValue := neg128 maxVal, maxValue := neg128 minVal }
      let nl := num numbers left.toNat
      let nr := num numbers right.toNat
      if left ≥ 0 ∧ right < (numbersNum : Int) then
        let p1 := rangeForRegion numbers left.toNat (right - left).toNat
        let p2 := rangeForRegion numbers (left + 1).toNat (right - left).toNat
        let range1 := sub128 p1.2 p1.1
        let range2 := sub128 p2.2 p2.1
        if range1 < range2 then
          (orderLoopRef numbersNum numbers fuel (left - 1) right p1.1 p1.2).map
            (fun rest => { number := nl, order := ord numbers left.toNat, minMax := mm } :: rest)
        else
          (orderLoopRef numbersNum numbers fuel left (right + 1) p2.1 p2.2).map
            (fun rest => { number := nr, order := ord numbers right.toNat, minMax := mm } :: rest)
      else if left ≥ 0 then
        let p := rangeForRegion numbers ((left - 1) + 1).toNat (right - (left - 1) - 1).toNat
        (orderLoopRef numbersNum numbers fuel (left - 1) right p.1 p.2).map
          (fun rest => { number := nl, order := ord numbers left.toNat, minMax := mm } :: rest)
      else
        let p := rangeForRegion numbers (left + 1).toNat ((right + 1) - left - 1).toNat
        (orderLoopRef numbersNum numbers fuel left (right + 1) p.1 p.2).map
          (fun rest => { number := nr, order := ord numbers right.toNat, minMax := mm } :: rest)
    else some []

/-- `orderNumberRangesRef(startLeftPos, startRightPos, numbersNum, numbers, ...)`. -/
def orderNumberRangesRef (startLeftPos startRightPos : Int) (numbersNum : Nat)
    (numbers : List NumberEntry) : Option OrderResult :=
  let p := rangeForRegion numbers (startLeftPos + 1).toNat
    (startRightPos - startLeftPos - 1).toNat
  let first : MinMaxStep := { minValue := neg128 p.2, maxValue := neg128 p.1 }
  (orderLoopRef numbersNum numbers numbersNum startLeftPos startRightPos p.1 p.2).map
    (orderResult first)

/-! ## Specification-side notions for the preprocessor -/

/-- Largest `Int128` value, `2^127 - 1`. -/
def maxInt128 : Int := 170141183460469231731687303715884105727

/-- The array holds `Int128` values. -/
def AllInt128 (numbers : List NumberEntry) : Prop :=
  ∀ i, i < numbers.length → IsInt128 (num numbers i)

instance (numbers : List NumberEntry) : Decidable (AllInt128 numbers) := by
  unfold AllInt128; infer_instance

/-- The array is sorted in ascending order of `number` (the result of `std::sort`). -/
def Ascending (numbers : List NumberEntry) : Prop :=
  ∀ i, i < numbers.length - 1 → num numbers i ≤ num numbers (i + 1)

instance (numbers : List NumberEntry) : Decidable (Ascending numbers) := by
  unfold Ascending; infer_instance

/-- No element is zero. -/
def ZeroFree (numbers : List NumberEntry) : Prop :=
  ∀ i, i < numbers.length → num numbers i ≠ 0

instance (numbers : List NumberEntry) : Decidable (ZeroFree numbers) := by
  unfold ZeroFree; infer_instance

/-- Exact sum of the negative elements among `numbers[start .. start+count)`. -/
def negS (numbers : List NumberEntry) (start : Nat) : Nat → Int
  | 0 => 0
  | i + 1 => negS numbers start i + min (num numbers (start + i)) 0

/-- Exact sum of the positive elements among `numbers[start .. start+count)`. -/
def posS (numbers : List NumberEntry) (start : Nat) : Nat → Int
  | 0 => 0
  | i + 1 => posS numbers start i + max (num numbers (start + i)) 0

/-- The loader's overflow checks: the sum of the positive elements and the sum of the absolute
values of the negative elements both fit in an `Int128`. -/
def NoSignOverflow (numbers : List NumberEntry) : Prop :=
  posS numbers 0 numbers.length ≤ maxInt128 ∧ -maxInt128 ≤ negS numbers 0 numbers.length

instance (numbers : List NumberEntry) : Decidable (NoSignOverflow numbers) := by
  unfold NoSignOverflow; infer_instance

/-- The pair `(minVal, maxVal)` of a window recomputed from its elements with exact sums: the
sum of the negatives (the smallest element when there is none) and the sum of the positives
(the largest element when there is none). -/
def windowPair (numbers : List NumberEntry) (start count : Nat) : Int × Int :=
  (if negS numbers start count = 0 then num numbers start else negS numbers start count,
   if posS numbers start count = 0 then num numbers (start + count - 1)
   else posS numbers start count)

/-- Four ascending non-zero `Int128` values whose positive sum exceeds `2^127 - 1`
(the values are `1, 2^126, 2^126, 2^126`). -/
def overflowNumbers : List NumberEntry :=
  entriesOf [1, 85070591730234615865843651857942052864,
    85070591730234615865843651857942052864, 85070591730234615865843651857942052864]

/-- Four times the value `2^126`. -/
def overflowNumbers4 : List NumberEntry :=
  entriesOf [85070591730234615865843651857942052864, 85070591730234615865843651857942052864,
    85070591730234615865843651857942052864, 85070591730234615865843651857942052864]

/-- The range of a window as the specification defines it: the sum of the positives (or the
largest element when there is none) minus the sum of the negatives (or the smallest element
when there is none). -/
def windowRange (numbers : List NumberEntry) (start count : Nat) : Int :=
  (windowPair numbers start count).2 - (windowPair numbers start count).1

/-- The sorted array of the problem `{-100, -50, 1, 2, ..., 15}` (17 elements). -/
def lastWindowNumbers : List NumberEntry :=
  entriesOf [-100, -50, 1, 2, 3, 4, 5, 6, 7, 8, 9, 10, 11, 12, 13, 14, 15]

/-! ## Work packets and the hash producer `HashController::generateWork` -/

/-- `struct NodeSubset`: a work packet. -/
structure NodeSubset where
  sum : Int
  subset : Nat
  deriving DecidableEq, Repr

/-- The read `hashMinMaxTable[i]`. -/
def tbl (table : List MinMaxStep) (i : Nat) : MinMaxStep :=
  table.getD i { minValue := 0, maxValue := 0 }

/-- The test `sum >= step.minValue && sum <= step.maxValue`. -/
def inStep (step : MinMaxStep) (sum : Int) : Prop :=
  sum ≥ step.minValue ∧ sum ≤ step.maxValue

instance (step : MinMaxStep) (sum : Int) : Decidable (inStep step sum) := by
  unfold inStep; infer_instance

/-- `Int128::operator~` on a bitmask. -/
def not128 (x : Nat) : Nat := 340282366920938463463374607431768211455 - x

/-- The loop `while (rangeIndex >= 0 && sum >= hashMinMaxTable[rangeIndex].minValue &&
sum <= hashMinMaxTable[rangeIndex].maxValue) rangeIndex--;` of `generateWork`.
Argument and result are `rangeIndex + 1`, which is never negative. -/
def descend (table : List MinMaxStep) (sum : Int) : Nat → Nat
  | 0 => 0
  | r + 1 => if inStep (tbl table r) sum then descend table sum r else r + 1

/-- The loop `while ((subset & (Int128(1)<<rangeIndex)) && rangeIndex < gint(mainNumbersNum))`
of `generateWork`, which clears the bit, subtracts `mainProblem[rangeIndex]` and increments
`rangeIndex`; state `(subset, sum, rangeIndex)`. The first argument bounds the number of passes;
`mainNumbersNum` passes always suffice since `rangeIndex` grows by one in each. -/
def ascend (mainProblem : List Int) (mainNumbersNum : Nat) :
    Nat → Nat → Int → Nat → Nat × Int × Nat
  | 0, subset, sum, rangeIndex => (subset, sum, rangeIndex)
  | fuel + 1, subset, sum, rangeIndex =>
    if bitSet subset rangeIndex ∧ rangeIndex < mainNumbersNum then
      ascend mainProblem mainNumbersNum fuel (subset &&& not128 (shl128 1 rangeIndex))
        (sub128 sum (rd mainProblem rangeIndex)) (rangeIndex + 1)
    else (subset, sum, rangeIndex)

/-- The loop `while (true)` of `HashController::generateWork`; the state is
`(rangeIndex + 1, subset, sum)` at the top of a pass and the result is the sequence of pushed
packets (`none` when the budget of passes, the first argument, is exhausted). -/
def workLoop (table : List MinMaxStep) (mainProblem : List Int) (mainNumbersNum : Nat) :
    Nat → Nat → Nat → Int → Option (List NodeSubset)
  | 0, _, _, _ => none
  | fuel + 1, r, subset, sum =>
    let r1 := descend table sum r
    -- `if (rangeIndex == -1) { push; rangeIndex++; }`
    let pushed : List NodeSubset := if r1 = 0 then [{ sum := sum, subset := subset }] else []
    let rangeIndex := if r1 = 0 then 0 else r1 - 1
    let st := ascend mainProblem mainNumbersNum mainNumbersNum subset sum rangeIndex
    if st.2.2 ≥ mainNumbersNum then some pushed
    else
      (workLoop table mainProblem mainNumbersNum fuel (st.2.2 + 1)
        (st.1 ||| shl128 1 st.2.2) (add128 st.2.1 (rd mainProblem st.2.2))).map
        (fun rest => pushed ++ rest)

/-- `HashController::generateWork` for a problem with more than 16 elements (also
`TestHashController::generateWork`): the packets pushed, in order. -/
def hashGenerateWork (table : List MinMaxStep) (mainProblem : List Int)
    (mainNumbersNum : Nat) : Option (List NodeSubset) :=
  workLoop table mainProblem mainNumbersNum (2 ^ mainNumbersNum) mainNumbersNum 0 0

/-- `std::sort(tempNumbers, tempNumbers + numbersNum)` with `NumberEntry::operator<`. The
order in which `std::sort` leaves equal values is unspecified; here it is the input order. -/
def sortEntries (entries : List NumberEntry) : List NumberEntry :=
  entries.insertionSort (fun a b => a.number ≤ b.number)

/-- The 128-bit sum of the main-region elements selected by the bits of `B` at positions `j`
and above (the partial assignment of the main slots `j` and above). -/
def levelSum (mainProblem : List Int) (j B : Nat) : Int :=
  selSum128 mainProblem (2 ^ j * (B / 2 ^ j))

/-- The partial sums of `B` pass the gate `hashMinMaxTable[j]` at every level `j`. -/
def PassesAllLevels (table : List MinMaxStep) (mainProblem : List Int) (mainNumbersNum : Nat)
    (B : Nat) : Prop :=
  ∀ j, j < mainNumbersNum → inStep (tbl table j) (levelSum mainProblem j B)

instance (table : List MinMaxStep) (mainProblem : List Int) (mainNumbersNum B : Nat) :
    Decidable (PassesAllLevels table mainProblem mainNumbersNum B) := by
  unfold PassesAllLevels; infer_instance

/-- The packet of the main-region subset `B`: its 128-bit sum and its bitmask. -/
def packetOf (mainProblem : List Int) (B : Nat) : NodeSubset :=
  { sum := selSum128 mainProblem B, subset := B }

/-- The gate written for the region `numbers[L .. R)`: the negated envelope of the region. -/
def gateOf (numbers : List NumberEntry) (L R : Nat) : MinMaxStep :=
  { minValue := neg128 (windowPair numbers L (R - L)).2,
    maxValue := neg128 (windowPair numbers L (R - L)).1 }

/-- The slots `es` are a run of `orderNumberRanges` from the region `numbers[L .. R)`: every
slot holds the gate of the current region and the element next to it on the left or on the
right, by which the region then grows. -/
def EnvChain (numbers : List NumberEntry) : Nat → Nat → List OrderEntry → Prop
  | _, _, [] => True
  | L, R, e :: rest =>
    e.minMax = gateOf numbers L R ∧
    ((1 ≤ L ∧ e.number = num numbers (L - 1) ∧ e.order = ord numbers (L - 1) ∧
        EnvChain numbers (L - 1) R rest) ∨
     (R < numbers.length ∧ e.number = num numbers R ∧ e.order = ord numbers R ∧
        EnvChain numbers L (R + 1) rest))

/-- Sum of the positive elements of a problem. -/
def posTotal (problem : List Int) : Int := (problem.map (fun x => max x 0)).sum

/-- Sum of the negative elements of a problem. -/
def negTotal (problem : List Int) : Int := (problem.map (fun x => min x 0)).sum

/-- A problem that passes the loader's checks (`loadProblem`): no element is zero, and neither
the sum of the positive elements nor the sum of the absolute values of the negative elements
overflows an `Int128`. -/
def ValidProblem (problem : List Int) : Prop :=
  (∀ x ∈ problem, x ≠ 0) ∧ posTotal problem ≤ maxInt128 ∧ -maxInt128 ≤ negTotal problem

instance (problem : List Int) : Decidable (ValidProblem problem) := by
  unfold ValidProblem; infer_instance

/-- The conversion `gint64(x)` of an `Int128` (its low 64 bits, read as signed). -/
def toInt64 (x : Int) : Int := wrap64 x

/-- `gint64` addition. -/
def add64 (a b : Int) : Int := wrap64 (a + b)

/-- `gint64` subtraction. -/
def sub64 (a b : Int) : Int := wrap64 (a - b)

/-- The condition `(bit & i) != 0` for `bit = 1 << x` on unsigned machine words. -/
def wordBit (i x : Nat) : Bool := ((1 <<< x) &&& i) != 0

/-- The inner loop `for (x = 0; x < count; x++, bit <<= 1) if (bit & i) sum += gint64(a[base+x])`
of the constructors of `NaiveController` and `HashController`: the value of `sum` after the
given number of passes. -/
def prefixSum64 (a : List Int) (base i : Nat) : Nat → Int
  | 0 => 0
  | x + 1 =>
    let s := prefixSum64 a base i x
    if wordBit i x then add64 s (toInt64 (rd a (base + x))) else s

/-- The table `sumChanges[41]` filled by the constructor of `NaiveController`: 32 sums of the
five elements `numbers[N-14 .. N-10]` and the nine elements `numbers[N-9 .. N-1]`. -/
def naiveSumChanges (numbers : List Int) (numbersNum : Nat) : List Int :=
  (List.range 32).map (fun i => prefixSum64 numbers (numbersNum - 14) i 5) ++
  (List.range 9).map (fun i => toInt64 (rd numbers (numbersNum - 9 + i)))

/-- The constants `(v_k, s_k)` of `subsetSumNaiveMethod`: `v0 = sumChanges[32]` (also the
running total `s0`), then `v_k = sumChanges[32+k] - s_(k-1)` and
`s_k = s_(k-1) + sumChanges[32+k]`. -/
def naiveVS (sumChanges : List Int) : Nat → Int × Int
  | 0 => (rd sumChanges 32, rd sumChanges 32)
  | k + 1 =>
    let p := naiveVS sumChanges k
    (sub64 (rd sumChanges (32 + (k + 1))) p.2, add64 p.2 (rd sumChanges (32 + (k + 1))))

/-- The addends of the macro `NAIVE_CORE_k` in the order of its expansion: `NAIVE_CORE_1` adds
`v0, v1, v0` and `NAIVE_CORE_(k+1)` is `NAIVE_CORE_k`, then `v_(k+1)`, then `NAIVE_CORE_k`
(level 0 is the single statement `sum += v0`). -/
def naiveCore (v : Nat → Int) : Nat → List Int
  | 0 => [v 0]
  | k + 1 => naiveCore v k ++ [v (k + 1)] ++ naiveCore v k

/-- One expanded pair `sum += d; find |= (sum == 0);` on the state `(sum, find)`. -/
def naiveStep (st : Int × Bool) (d : Int) : Int × Bool :=
  (add64 st.1 d, st.2 || (add64 st.1 d == 0))

/-- The value of `find` at the end of the body of the loop over `current` in
`subsetSumNaiveMethod`. -/
def naiveFind (sumChanges : List Int) (inputSum : Int) (current : Nat) : Bool :=
  let sum := add64 inputSum (rd sumChanges current)
  ((naiveCore (fun k => (naiveVS sumChanges k).1) 8).foldl naiveStep (sum, sum == 0)).2

/-- `subsetSumNaiveMethod(sumChanges, inputSum, foundIndices)`: the found indices in the order
they are stored. -/
def subsetSumNaiveMethod (sumChanges : List Int) (inputSum : Int) : List Nat :=
  (List.range 32).filter (naiveFind sumChanges inputSum)

/-- The first loop of a `checkAndSendSolution`: `for (x = 0; x < count; x++, bit <<= 1)
if ((bit & foundIndex) != 0) sum += a[base + x];` in 128-bit arithmetic, after the given number
of passes. -/
def indexSum128 (a : List Int) (base : Nat) (initialSum : Int) (foundIndex : Nat) : Nat → Int
  | 0 => initialSum
  | x + 1 =>
    let s := indexSum128 a base initialSum foundIndex x
    if wordBit foundIndex x then add128 s (rd a (base + x)) else s

/-- The loop `for (guint subset = 0; subset < 512; subset++)` of
`NaiveWorker::checkAndSendSolution`; the first argument is the number `512 - subset` of passes
left, the result lists the arguments of `putSolution`. -/
def naiveCheckLoop (numbers : List Int) (numbersNum initialSubset foundIndex : Nat) :
    Nat → Nat → Nat → Int → List Nat
  | 0, _, _, _ => []
  | left + 1, subset, prevSubset, sum =>
    let sum1 := toggleLoop (numbers.drop (numbersNum - 9)) subset (prevSubset ^^^ subset) 9 0 sum
    let finalSubset := initialSubset ||| shl128 subset (numbersNum - 9) |||
      shl128 foundIndex (numbersNum - 14)
    (if sum1 = 0 ∧ finalSubset ≠ 0 then [finalSubset] else []) ++
      naiveCheckLoop numbers numbersNum initialSubset foundIndex left (subset + 1) subset sum1

/-- `NaiveWorker::checkAndSendSolution(initialSubset, initialSum, foundIndex)`. -/
def naiveCheckAndSend (numbers : List Int) (numbersNum initialSubset : Nat) (initialSum : Int)
    (foundIndex : Nat) : List Nat :=
  naiveCheckLoop numbers numbersNum initialSubset foundIndex 512 0 0
    (indexSum128 numbers (numbersNum - 14) initialSum foundIndex 5)

/-- The loop `for (Int128 subset = 0; subset != maxSubset; ++subset)` of
`NaiveController::generateWork`: the packets pushed (`none` when the budget is exhausted). -/
def naiveWorkLoop (numbers : List Int) (maxSubset : Nat) :
    Nat → Nat → Nat → Int → Option (List NodeSubset)
  | 0, _, _, _ => none
  | fuel + 1, subset, prevSubset, sum =>
    if subset = maxSubset then some []
    else
      let sum1 := toggleLoop numbers subset (prevSubset ^^^ subset) 128 0 sum
      (naiveWorkLoop numbers maxSubset fuel (inc128 subset) subset sum1).map
        (fun rest => { sum := sum1, subset := subset } :: rest)

/-- `NaiveController::generateWork` for a problem with more than 16 elements. -/
def naiveGenerateWork (numbers : List Int) : Option (List NodeSubset) :=
  naiveWorkLoop numbers (shl128 1 (numbers.length - 14)) (2 ^ (numbers.length - 14) + 1) 0 0 0

/-- What the scalar `NaiveCpuWorker::run` does with one popped packet. -/
def naiveProcessPacket (numbers : List Int) (node : NodeSubset) : List Nat :=
  (subsetSumNaiveMethod (naiveSumChanges numbers numbers.length) (toInt64 node.sum)).flatMap
    (fun foundIndex => naiveCheckAndSend numbers numbers.length node.subset node.sum foundIndex)

/-- A whole run of the naive method on a problem with more than 16 elements: every produced
packet is processed once, in production order; the result lists the emitted bitmasks. -/
def naiveRun (numbers : List Int) : Option (List Nat) :=
  (naiveGenerateWork numbers).map (fun packets => packets.flatMap (naiveProcessPacket numbers))

/-! ## The hash method: `HashController`, the serial node-hash builder, `HashWorker` -/

/-- Array read `a[i]` on a table of indices. -/
def rdN (a : List Nat) (i : Nat) : Nat := a.getD i 0

/-- The pair `(nodeHashBits, nodeHashedNumbers)` after the defaulting at the head of the
constructor of `HashController` (for `numbersNum > 16`). -/
def hashParams (numbersNum initNodeHashBits initNodeHashedNumbers : Nat) : Nat × Nat :=
  let p : Nat × Nat :=
    if initNodeHashedNumbers = 0 ∧ initNodeHashBits ≠ 0 then
      (initNodeHashBits, if initNodeHashBits ≥ 3 then initNodeHashBits - 2 else 1)
    else if initNodeHashedNumbers ≠ 0 ∧ initNodeHashBits = 0 then
      let hn := if initNodeHashedNumbers + 8 > numbersNum - 1 then numbersNum - 10
        else initNodeHashedNumbers
      (hn + 2, hn)
    else if initNodeHashedNumbers = 0 ∧ initNodeHashBits = 0 then (20, 18)
    else (initNodeHashBits, initNodeHashedNumbers)
  (p.1, if p.2 + 8 > numbersNum - 1 then numbersNum - 10 else p.2)

/-- The entries visited by a loop `for (i = a; i < b; i++)` over `numbers[i]`. -/
def copyRange (numbers : List NumberEntry) (a b : Nat) : List NumberEntry :=
  (numbers.drop a).take (b - a)

/-- The fields of `HashController` set by its constructor (for `numbersNum > 16`). The member
arrays `mainProblem[112]`, `mainTransTable[112]`, `hashMinMaxTable[112]`, `nodeProblem[64]`
and `nodeTransTable[64]` are the lists of the entries written to them, without a bound on
their length. -/
structure HashController where
  numbersNum : Nat
  nodeHashBits : Nat
  nodeHashedNumbers : Nat
  nodeBits : Nat
  nodeProblem : List Int
  nodeTransTable : List Nat
  mainProblem : List Int
  mainTransTable : List Nat
  hashMinMaxTable : List MinMaxStep
  sumChanges : List Int

/-- The entries copied to `nodeProblem`/`nodeTransTable` by the three copy loops of the
constructor: the node window without the hashed window, then the hashed window. -/
def nodeEntries (tempNumbers : List NumberEntry) (nodeBestRegPos hashedBestRegPos nodeBits
    nodeHashedNumbers : Nat) : List NumberEntry :=
  copyRange tempNumbers nodeBestRegPos hashedBestRegPos ++
  copyRange tempNumbers (hashedBestRegPos + nodeHashedNumbers) (nodeBestRegPos + nodeBits) ++
  copyRange tempNumbers hashedBestRegPos (hashedBestRegPos + nodeHashedNumbers)

/-- The constructor `HashController::HashController(problem, ..., initNodeHashBits,
initNodeHashedNumbers, ...)` for a problem with more than 16 elements (`none` only when the
loop of `orderNumberRanges` exhausts its budget, which does not happen). The lists returned
are the entries the constructor writes, in the order of the indices; they are the contents of
the member arrays when `numbersNum - nodeBits <= 112` and `nodeBits <= 64`, and otherwise
the writes at the indices from 112 (from 64) on fall outside the arrays. -/
def hashControllerInit (problem : List Int) (initNodeHashBits initNodeHashedNumbers : Nat) :
    Option HashController :=
  let numbersNum := problem.length
  let p := hashParams numbersNum initNodeHashBits initNodeHashedNumbers
  let nodeBits := 8 + p.2
  let tempNumbers := sortEntries (entriesOf problem)
  let nodeBestRegPos := smallestRangeRegion numbersNum nodeBits tempNumbers
  let hashedBestRegPos :=
    smallestRangeRegion nodeBits p.2 (tempNumbers.drop nodeBestRegPos) + nodeBestRegPos
  let ne := nodeEntries tempNumbers nodeBestRegPos hashedBestRegPos nodeBits p.2
  let nodeProblem := ne.map (fun e => e.number)
  (orderNumberRanges ((nodeBestRegPos : Int) - 1) ((nodeBestRegPos : Int) + (nodeBits : Int))
      numbersNum tempNumbers).map
    (fun o =>
      { numbersNum := numbersNum,
        nodeHashBits := p.1,
        nodeHashedNumbers := p.2,
        nodeBits := nodeBits,
        nodeProblem := nodeProblem,
        nodeTransTable := ne.map (fun e => e.order),
        mainProblem := o.destNumbers,
        mainTransTable := o.destOrders,
        hashMinMaxTable := o.destMinMax,
        sumChanges := (List.range 256).map (fun i => prefixSum64 nodeProblem 0 i 8) })

/-- The two loops of `HashController::translateSubset`: the value of `out` after the passes
`i = 0, ..., k - 1` (`mainNumbersNum = numbersNum - nodeBits`). -/
def translateLoop (mainTransTable nodeTransTable : List Nat) (mainNumbersNum subset : Nat) :
    Nat → Nat
  | 0 => 0
  | i + 1 =>
    let out := translateLoop mainTransTable nodeTransTable mainNumbersNum subset i
    if bitSet subset i then
      out ||| shl128 1 (if i < mainNumbersNum then rdN mainTransTable i
        else rdN nodeTransTable (i - mainNumbersNum))
    else out

/-- `HashController::translateSubset(subset)`. -/
def translateSubset (c : HashController) (subset : Nat) : Nat :=
  translateLoop c.mainTransTable c.nodeTransTable (c.numbersNum - c.nodeBits) subset
    c.numbersNum

/-- The conversion `guint32(x)` of a 64-bit value. -/
def toUInt32 (x : Int) : Nat := (x % 4294967296).toNat

/-- `getNodeHashKey(sum)` (`Controllers.h`, `NodeHashGen.h`; the same expression is inlined in
`subsetSumHashMethod`) for `nodeHashBits < 32`: `sum >> nodeHashBits` is the arithmetic shift
of a `gint64`, the shifts of `temph1 .. temph3` are 32-bit logical shifts, and the final
`& hmask` acts on the two's-complement bit pattern of `sum`. -/
def getNodeHashKey (nodeHashBits : Nat) (sum : Int) : Nat :=
  let hmask := 2 ^ nodeHashBits - 1
  let temph1 := toUInt32 (sum / 2 ^ nodeHashBits)
  let temph2 := temph1 >>> nodeHashBits
  let temph3 := temph2 >>> nodeHashBits
  let temph4 := temph3 >>> nodeHashBits
  (((sum % 18446744073709551616).toNat ^^^ temph1 ^^^ temph2 ^^^ temph3 ^^^ temph4) &&& hmask)

/-- `struct NodeHashEntry` (three `guint16` fields). -/
structure NodeHashEntry where
  poslo : Nat
  poshi : Nat
  size : Nat
  deriving DecidableEq, Repr

/-- `NodeHashEntry::setPos(pos)`. -/
def NodeHashEntry.setPos (e : NodeHashEntry) (pos : Nat) : NodeHashEntry :=
  { e with poslo := pos % 65536, poshi := (pos >>> 16) % 65536 }

/-- `NodeHashEntry::getPos()`. -/
def NodeHashEntry.getPos (e : NodeHashEntry) : Nat := (e.poshi <<< 16) ||| e.poslo

/-- `struct TempNodeHashListEntry`. -/
structure TempNodeHashListEntry where
  subset : Nat
  next : Nat
  deriving DecidableEq, Repr

/-- The inner loop of `genSubsumTbls` (and of `genSubsumsTbl`):
`for (bitNum = 0; (bit & changes) != 0 && bitNum < numbersNum; bit <<= 1, bitNum++)`,
subtracting `nodeProblem[numberPos + bitNum]` when the bit is set in `subset` and adding it
otherwise, in `gint64` arithmetic. The first argument counts the remaining
`numbersNum - bitNum` iterations. -/
def negToggleLoop (nodeProblem : List Int) (numberPos subset changes : Nat) :
    Nat → Nat → Int → Int
  | 0, _, sum => sum
  | fuel + 1, bitNum, sum =>
    if wordBit changes bitNum then
      negToggleLoop nodeProblem numberPos subset changes fuel (bitNum + 1)
        (if wordBit subset bitNum then sub64 sum (rd nodeProblem (numberPos + bitNum))
         else add64 sum (rd nodeProblem (numberPos + bitNum)))
    else sum

/-- The value stored in `subsumTbls[512*t + subset]` by the loop over `subset` of
`genSubsumTbls` for the chunk at `numberPos` with `numbersNum` elements. -/
def subsumEntry (nodeProblem : List Int) (numberPos numbersNum : Nat) : Nat → Int
  | 0 => 0
  | s + 1 =>
    negToggleLoop nodeProblem numberPos (s + 1) (s ^^^ (s + 1)) numbersNum 0
      (subsumEntry nodeProblem numberPos numbersNum s)

/-- The read `subsumTbls[idx]` after `NodeHashGenController::genSubsumTbls`
(`nodeProblem` holds the `gint64` values of the hashed numbers). -/
def subsumTbls (nodeProblem : List Int) (nodeHashedNumbers idx : Nat) : Int :=
  subsumEntry nodeProblem (idx / 512 * 9) (min 9 (nodeHashedNumbers - idx / 512 * 9))
    (idx % 512)

/-- The sum of chunk lookups computed for `subset` in `singleThreadDoHashGen` (the four cases
`nodeHashedNumbers <= 9`, `<= 18`, `<= 27` and above). -/
def hashedSum (nodeProblem : List Int) (nodeHashedNumbers subset : Nat) : Int :=
  let t := subsumTbls nodeProblem nodeHashedNumbers
  if nodeHashedNumbers ≤ 9 then t subset
  else if nodeHashedNumbers ≤ 18 then add64 (t (subset &&& 511)) (t (512 + (subset >>> 9)))
  else if nodeHashedNumbers ≤ 27 then
    add64 (add64 (t (subset &&& 511)) (t (512 + ((subset >>> 9) &&& 511))))
      (t (1024 + (subset >>> 18)))
  else
    add64 (add64 (add64 (t (subset &&& 511)) (t (512 + ((subset >>> 9) &&& 511))))
      (t (1024 + ((subset >>> 18) &&& 511)))) (t (1536 + (subset >>> 27)))

/-- State of the first loop of `singleThreadDoHashGen`. -/
structure PutState where
  nodeHash : Nat → NodeHashEntry
  tmpHashLists : Nat → TempNodeHashListEntry
  listPos : Nat

/-- One pass of the loop `for (subset = 0; subset < hashedSubsets; subset++)` of
`singleThreadDoHashGen`; `none` stands for the thrown `SubsetSumException`. -/
def putSubset (nodeHashBits : Nat) (sumOf : Nat → Int) (st : PutState) (subset : Nat) :
    Option PutState :=
  let hkey := getNodeHashKey nodeHashBits (sumOf subset)
  let e := st.nodeHash hkey
  if e.size = 0 then
    some { nodeHash := Function.update st.nodeHash hkey { (e.setPos st.listPos) with size := 1 },
           tmpHashLists := Function.update st.tmpHashLists st.listPos
             { subset := subset, next := 4294967295 },
           listPos := st.listPos + 1 }
  else if e.size = 65535 then none
  else
    some { nodeHash := Function.update st.nodeHash hkey
             ({ e with size := (e.size + 1) % 65536 }.setPos st.listPos),
           tmpHashLists := Function.update st.tmpHashLists st.listPos
             { subset := subset, next := e.getPos },
           listPos := st.listPos + 1 }

/-- The first loop of `singleThreadDoHashGen` after the passes `subset = 0, ..., k - 1`. -/
def putLoop (nodeHashBits : Nat) (sumOf : Nat → Int) : Nat → Option PutState
  | 0 => some { nodeHash := fun _ => { poslo := 0, poshi := 0, size := 0 },
                tmpHashLists := fun _ => { subset := 0, next := 0 },
                listPos := 0 }
  | k + 1 => (putLoop nodeHashBits sumOf k).bind (fun st => putSubset nodeHashBits sumOf st k)

/-- The inner loop `for (k = size - 1; k >= 0; k--)` of the ordering pass: the subsets read
from the chain starting at `current`, in the order they are read (they are stored at
`nodeHashSubsets[listPos + k]` for `k = size - 1, ..., 0`). -/
def drainChain (tmpHashLists : Nat → TempNodeHashListEntry) : Nat → Nat → List Nat
  | 0, _ => []
  | k + 1, current =>
    (tmpHashLists current).subset :: drainChain tmpHashLists k (tmpHashLists current).next

/-- State of the ordering loop of `singleThreadDoHashGen`; `nodeHashSubsets` holds the cells
`0 .. listPos - 1` written so far. -/
structure OrderState where
  nodeHash : Nat → NodeHashEntry
  nodeHashSubsets : List Nat
  listPos : Nat

/-- The ordering loop `for (i = 0; i < nodeHashSize; i++)` of `singleThreadDoHashGen` after
the passes `i = 0, ..., k - 1`. A bucket writes the cells `listPos .. listPos + size - 1`,
last cell first, so its block is the chain in reverse. -/
def orderingLoop (tmpHashLists : Nat → TempNodeHashListEntry) (nodeHash : Nat → NodeHashEntry) :
    Nat → OrderState
  | 0 => { nodeHash := nodeHash, nodeHashSubsets := [], listPos := 0 }
  | i + 1 =>
    let st := orderingLoop tmpHashLists nodeHash i
    let e := st.nodeHash i
    if e.size = 0 then st
    else
      { nodeHash := Function.update st.nodeHash i (e.setPos st.listPos),
        nodeHashSubsets :=
          st.nodeHashSubsets ++ (drainChain tmpHashLists e.size e.getPos).reverse,
        listPos := st.listPos + e.size }

/-- The tables left by the node-hash builder. -/
structure NodeHashTables where
  nodeHash : Nat → NodeHashEntry
  nodeHashSubsets : List Nat
  nodeHashLists : List Int

/-- `NodeHashGenController::genSubsumTbls` followed by `singleThreadDoHashGen` for
`nodeHashedNumbers` hashed numbers and `nodeHashBits < 32` hash bits (`nodeProblem` holds the
hashed numbers); `none` stands for the thrown `SubsetSumException`. -/
def singleThreadDoHashGen (nodeHashedNumbers nodeHashBits : Nat) (nodeProblem : List Int) :
    Option NodeHashTables :=
  let np64 := nodeProblem.map toInt64
  (putLoop nodeHashBits (hashedSum np64 nodeHashedNumbers) (2 ^ nodeHashedNumbers)).map
    (fun st =>
      let o := orderingLoop st.tmpHashLists st.nodeHash (2 ^ nodeHashBits)
      { nodeHash := o.nodeHash,
        nodeHashSubsets := o.nodeHashSubsets,
        nodeHashLists := o.nodeHashSubsets.map (hashedSum np64 nodeHashedNumbers) })

/-- `subsetSumHashMethod(sumChanges, hashBits, hashTable, hashLists, inputSum, foundIndices)`:
the found indices in the order they are stored. -/
def subsetSumHashMethod (sumChanges : List Int) (hashBits : Nat)
    (hashTable : Nat → NodeHashEntry) (hashLists : List Int) (inputSum : Int) : List Nat :=
  (List.range 256).filter (fun current =>
    let sum := add64 inputSum (rd sumChanges current)
    let e := hashTable (getNodeHashKey hashBits sum)
    e.size != 0 && (List.range e.size).any (fun j => rd hashLists (e.getPos + j) == sum))

/-- `HashWorker::checkAndSendSolution(initialSubset, initialSum, foundIndex)`: the arguments
of `putSolution`, in order. -/
def hashCheckAndSend (c : HashController) (t : NodeHashTables) (initialSubset : Nat)
    (initialSum : Int) (foundIndex : Nat) : List Nat :=
  let indexSum := indexSum128 c.nodeProblem 0 initialSum foundIndex 8
  let e := t.nodeHash (getNodeHashKey c.nodeHashBits (toInt64 indexSum))
  if e.size ≠ 0 then
    (List.range e.size).flatMap (fun j =>
      let hashedSubset := rdN t.nodeHashSubsets (e.getPos + j)
      let sum := indexSum128 c.nodeProblem 8 indexSum hashedSubset c.nodeHashedNumbers
      let finalSolution := initialSubset ||| shl128 foundIndex (c.numbersNum - c.nodeBits) |||
        shl128 hashedSubset (c.numbersNum - c.nodeHashedNumbers)
      if sum = 0 ∧ finalSolution ≠ 0 then [translateSubset c finalSolution] else [])
  else []

/-- What the scalar `HashCpuWorker::run` (without `useHashSubsets`) does with one popped
packet. -/
def hashProcessPacket (c : HashController) (t : NodeHashTables) (node : NodeSubset) :
    List Nat :=
  (subsetSumHashMethod c.sumChanges c.nodeHashBits t.nodeHash t.nodeHashLists
      (toInt64 node.sum)).flatMap
    (fun foundIndex => hashCheckAndSend c t node.subset node.sum foundIndex)

/-- A whole run of the hash method on a problem with more than 16 elements: the constructor,
the serial node-hash builder over `nodeProblem + 8`, the producer, and every packet processed
once, in production order. The result lists the emitted bitmasks; `none` stands for a run
that aborts with the builder's exception. -/
def hashRun (problem : List Int) (initNodeHashBits initNodeHashedNumbers : Nat) :
    Option (List Nat) :=
  (hashControllerInit problem initNodeHashBits initNodeHashedNumbers).bind (fun c =>
    (singleThreadDoHashGen c.nodeHashedNumbers c.nodeHashBits (c.nodeProblem.drop 8)).bind
      (fun t =>
        (hashGenerateWork c.hashMinMaxTable c.mainProblem (c.numbersNum - c.nodeBits)).map
          (fun packets => packets.flatMap (hashProcessPacket c t))))

/-! ## Specification-side notions for the node hash -/

/-- The subsets below `n` whose key (under `keyOf`) is `k`, in increasing order. -/
def bucketOf (keyOf : Nat → Nat) (k n : Nat) : List Nat :=
  (List.range n).filter (fun s => keyOf s = k)

/-- The key of the hashed-suffix subset `s`: the hash key of the sum of chunk lookups. -/
def subsetKey (nodeHashedNumbers nodeHashBits : Nat) (nodeProblem : List Int) (s : Nat) : Nat :=
  getNodeHashKey nodeHashBits (hashedSum (nodeProblem.map toInt64) nodeHashedNumbers s)

/-- The cells of `tmpHashLists` starting at `current` form a linked chain holding the subsets
`l` (every cell sits at the position equal to its subset). -/
def Chain (tmpHashLists : Nat → TempNodeHashListEntry) : Nat → List Nat → Prop
  | _, [] => True
  | current, s :: rest =>
    current = s ∧ (tmpHashLists s).subset = s ∧
      Chain tmpHashLists (tmpHashLists s).next rest

/-- What holds after `n` passes of the first loop of the serial builder. -/
def PutInv (keyOf : Nat → Nat) (st : PutState) (n : Nat) : Prop :=
  st.listPos = n ∧
  (∀ k, (st.nodeHash k).size = (bucketOf keyOf k n).length) ∧
  (∀ k, Chain st.tmpHashLists (st.nodeHash k).getPos (bucketOf keyOf k n).reverse)

/-- A valid 17-element problem whose only zero-sum subset `{1000, -1000}` (bitmask `3`) lies
outside the node window chosen by the preprocessor (the fifteen positive numbers). -/
def mainOnlyProblem : List Int :=
  [1000, -1000, 1, 2, 3, 4, 5, 6, 7, 8, 9, 10, 11, 12, 13, 14, 15]

/-- The `NumberEntry` written by a pass of `orderNumberRanges` (value and original index). -/
def OrderEntry.toEntry (e : OrderEntry) : NumberEntry :=
  { number := e.number, order := e.order }

/-! ## The ring buffer `MemQueue` (`Queue.cpp`)

The `gsize` counters are natural numbers: in every reachable state they stay below
`2 * queueSize` (theorem `C15`), so for `queueSize < 2^63` no `gsize` operation wraps. Cells
hold one element each; an element is a natural number. Every public call is one atomic step
(the mutex is held for the whole call). A call that would wait on a condition variable is
represented by the call giving up (as `tryDoPushing`/`tryDoPopping` and the timed variants
do): the finishing half has taken effect and nothing is reserved. -/

/-- `struct ConcurEntry`. -/
structure ConcurEntry where
  startPos : Nat
  endPos : Nat
  processed : Bool
  deriving DecidableEq, Repr

/-- The value `CONCURID_NONE` (`G_MAXUINT`). -/
def CONCURID_NONE : Nat := 4294967295

/-- The fields of `MemQueue` (and of `AbstractMemQueue`). -/
structure MemQueue where
  queueSize : Nat
  queueData : Nat → Nat
  readPos : Nat
  writePos : Nat
  newReadPos : Nat
  newWritePos : Nat
  pushConcurAllocated : Nat
  pushConcurStart : Nat
  pushConcurUsed : Nat
  pushConcurEntries : Nat → ConcurEntry
  popConcurAllocated : Nat
  popConcurStart : Nat
  popConcurUsed : Nat
  popConcurEntries : Nat → ConcurEntry
  concurPushes : Nat
  closingQueue : Bool
  closedQueue : Nat
  cancelledQueue : Nat
  pausedQueue : Nat
  noDataQueue : Nat

/-- `MemQueue::MemQueue(elemSize, elemsNum, pushConcurTasks, popConcurTasks)` with non-zero
task counts; the ring starts empty at offset `0`. -/
def MemQueue.create (elemsNum pushConcurTasks popConcurTasks : Nat) : MemQueue :=
  { queueSize := elemsNum,
    queueData := fun _ => 0,
    readPos := 0, writePos := 0, newReadPos := 0, newWritePos := 0,
    pushConcurAllocated := pushConcurTasks, pushConcurStart := 0, pushConcurUsed := 0,
    pushConcurEntries := fun _ => { startPos := 0, endPos := 0, processed := false },
    popConcurAllocated := popConcurTasks, popConcurStart := 0, popConcurUsed := 0,
    popConcurEntries := fun _ => { startPos := 0, endPos := 0, processed := false },
    concurPushes := 0, closingQueue := false, closedQueue := 0, cancelledQueue := 0,
    pausedQueue := 0, noDataQueue := 0 }

/-- The idiom `x < queueSize ? x : x - queueSize` (also `if (x >= queueSize) x -= queueSize`). -/
def ringPos (queueSize x : Nat) : Nat := if x < queueSize then x else x - queueSize

/-- `memmove(queueData + dst, queueData + src, len)` in cells. -/
def memmove (data : Nat → Nat) (dst src len : Nat) : Nat → Nat :=
  fun i => if dst ≤ i ∧ i < dst + len then data (src + (i - dst)) else data i

/-- `MemQueue::allocPushConcur(elemsNum, pushPos)`: the new state, the push id and `pushPos`. -/
def allocPushConcur (q : MemQueue) (elemsNum : Nat) : MemQueue × Nat × Nat :=
  let pushId := ringPos q.pushConcurAllocated (q.pushConcurStart + q.pushConcurUsed)
  let entry : ConcurEntry :=
    { startPos := q.newWritePos, endPos := q.newWritePos + elemsNum, processed := true }
  ({ q with pushConcurUsed := q.pushConcurUsed + 1,
            pushConcurEntries := Function.update q.pushConcurEntries pushId entry,
            newWritePos := q.newWritePos + elemsNum },
   pushId, ringPos q.queueSize q.newWritePos)

/-- The block `if (wPos != sPos && blockSize != 0) { ... }` of the folding loop of
`finishPushConcur`: the block of `blockSize` cells at `sPos` is moved to `wPos` in up to three
linear pieces, the first piece first. -/
def pushFoldMove (queueSize : Nat) (data : Nat → Nat) (wPos sPos blockSize : Nat) : Nat → Nat :=
  let b1 := if sPos + blockSize > queueSize then queueSize - sPos else blockSize
  let b2 := if wPos + blockSize > queueSize ∧ b1 < blockSize then queueSize - wPos
    else blockSize
  let b1 := if wPos + blockSize > queueSize ∧ ¬ b1 < blockSize then queueSize - wPos else b1
  let data1 := memmove data wPos sPos b1
  if b1 < blockSize then
    let wPos1 := ringPos queueSize (wPos + b1)
    let sPos1 := ringPos queueSize (sPos + b1)
    let data2 := memmove data1 wPos1 sPos1 (b2 - b1)
    if b2 < blockSize then
      memmove data2 (ringPos queueSize (wPos1 + (b2 - b1))) (ringPos queueSize (sPos1 + (b2 - b1)))
        (blockSize - b2)
    else data2
  else data1

/-- State of the folding loop of `finishPushConcur`. -/
structure PushFold where
  tmpPushConcurUsed : Nat
  tmpPushConcurStart : Nat
  tmpWritePos : Nat
  queueData : Nat → Nat

/-- The loop `while (tmpPushConcurUsed != 0 && !pushConcurEntries[tmpPushConcurStart].processed)`
of `finishPushConcur`; the first argument is `tmpPushConcurUsed`, which drops by one in every
pass. -/
def pushFoldLoop (queueSize pushConcurAllocated : Nat) (entries : Nat → ConcurEntry) :
    Nat → Nat → Nat → (Nat → Nat) → PushFold
  | 0, tmpStart, tmpWritePos, data =>
    { tmpPushConcurUsed := 0, tmpPushConcurStart := tmpStart, tmpWritePos := tmpWritePos,
      queueData := data }
  | used + 1, tmpStart, tmpWritePos, data =>
    if (entries tmpStart).processed then
      { tmpPushConcurUsed := used + 1, tmpPushConcurStart := tmpStart,
        tmpWritePos := tmpWritePos, queueData := data }
    else
      let toFold := entries tmpStart
      let wPos := ringPos queueSize tmpWritePos
      let sPos := ringPos queueSize toFold.startPos
      let blockSize := toFold.endPos - toFold.startPos
      let data1 := if wPos ≠ sPos ∧ blockSize ≠ 0
        then pushFoldMove queueSize data wPos sPos blockSize else data
      pushFoldLoop queueSize pushConcurAllocated entries used
        (ringPos pushConcurAllocated (tmpStart + 1)) (tmpWritePos + blockSize) data1

/-- `MemQueue::finishPushConcur(pushId, elemsNum, lock, fixed)`: the new state and `success`.
(The test `oldWritePos == writePos + queueSize` compares `writePos` with itself plus
`queueSize`, no other thread running in between.) -/
def finishPushConcur (q : MemQueue) (pushId elemsNum : Nat) : MemQueue × Bool :=
  if q.pushConcurUsed = 0 then (q, true)
  else
    let pushId := ringPos q.pushConcurAllocated pushId
    let entry := q.pushConcurEntries pushId
    let success : Bool := ¬ (entry.endPos - entry.startPos < elemsNum)
    let entry1 : ConcurEntry :=
      { startPos := entry.startPos,
        endPos := if success then entry.startPos + elemsNum else entry.startPos,
        processed := false }
    let entries := Function.update q.pushConcurEntries pushId entry1
    let f := pushFoldLoop q.queueSize q.pushConcurAllocated entries q.pushConcurUsed
      q.pushConcurStart q.writePos q.queueData
    let writePos := if q.writePos = q.writePos + q.queueSize then f.tmpWritePos - q.queueSize
      else f.tmpWritePos
    let q1 : MemQueue :=
      { q with pushConcurEntries := entries, queueData := f.queueData, writePos := writePos,
               pushConcurStart := f.tmpPushConcurStart, pushConcurUsed := f.tmpPushConcurUsed }
    (if q1.pushConcurUsed = 0 then { q1 with pushConcurStart := 0, newWritePos := q1.writePos }
     else q1, success)

/-- `MemQueue::finishPushingInt(oldElemsNum, pushId, lock)`: the new state and `success`. -/
def finishPushingInt (q : MemQueue) (oldElemsNum pushId : Nat) : MemQueue × Bool :=
  if pushId ≠ CONCURID_NONE then
    let r := finishPushConcur q pushId oldElemsNum
    let q1 := r.1
    let q2 := if q1.pausedQueue ≠ 0 ∧ q1.readPos = q1.writePos ∧ q1.pushConcurUsed = 0 ∧
        q1.popConcurUsed = 0 then { q1 with pausedQueue := 2 } else q1
    ({ q2 with concurPushes := (q2.concurPushes + 4294967295) % 4294967296 }, r.2)
  else (q, true)

/-- What a call of `doPushing`/`doPopping` hands back: whether it threw, the granted size,
the new id and the queue position. -/
structure Grant where
  threw : Bool
  taken : Nat
  id : Nat
  queuePos : Nat
  deriving DecidableEq, Repr

/-- `MemQueue::doPushing(elemsNum, oldElemsNum, pushId, queuePos, timeout)` (also
`tryDoPushing`): finish the previous push, then reserve. -/
def doPushing (q : MemQueue) (elemsNum oldElemsNum pushId queuePos : Nat) : MemQueue × Grant :=
  let r := finishPushingInt q oldElemsNum pushId
  let q1 := r.1
  if ¬ r.2 then (q1, { threw := true, taken := 0, id := CONCURID_NONE, queuePos := queuePos })
  else if q1.closingQueue ∨ q1.closedQueue ≠ 0 ∨ q1.cancelledQueue ≠ 0 then
    (q1, { threw := false, taken := 0, id := CONCURID_NONE, queuePos := queuePos })
  else if q1.pausedQueue ≠ 0 ∨ q1.queueSize - (q1.newWritePos - q1.readPos) = 0 ∨
      q1.pushConcurUsed = q1.pushConcurAllocated then
    (q1, { threw := false, taken := 0, id := CONCURID_NONE, queuePos := queuePos })
  else
    let taken := min elemsNum (q1.queueSize - (q1.newWritePos - q1.readPos))
    let a := allocPushConcur { q1 with concurPushes := (q1.concurPushes + 1) % 4294967296 } taken
    (a.1, { threw := false, taken := taken, id := a.2.1, queuePos := a.2.2 })

/-- `MemQueue::finishPushing(oldElemsNum, pushId)`: the new state and whether it threw. -/
def finishPushing (q : MemQueue) (oldElemsNum pushId : Nat) : MemQueue × Bool :=
  let r := finishPushingInt q oldElemsNum pushId
  (r.1, ! r.2)

/-- `MemQueue::allocPopConcur(elemsNum, popPos)`: the new state, the pop id and `popPos`. -/
def allocPopConcur (q : MemQueue) (elemsNum : Nat) : MemQueue × Nat × Nat :=
  let popId := ringPos q.popConcurAllocated (q.popConcurStart + q.popConcurUsed)
  let entry : ConcurEntry :=
    { startPos := q.newReadPos, endPos := q.newReadPos + elemsNum, processed := true }
  ({ q with popConcurUsed := q.popConcurUsed + 1,
            popConcurEntries := Function.update q.popConcurEntries popId entry,
            newReadPos := q.newReadPos + elemsNum },
   popId, ringPos q.queueSize q.newReadPos)

/-- State of the first loop ("removes unused") of `finishPopConcur`. -/
structure PopHead where
  tmpPopConcurUsed : Nat
  tmpPopConcurStart : Nat
  tmpReadPos : Nat

/-- The loop `while (tmpPopConcurUsed != 0 && !entries[tmpPopConcurStart].processed &&
entries[tmpPopConcurStart].startPos == entries[tmpPopConcurStart].endPos)` of
`finishPopConcur`. -/
def popHeadLoop (queueSize popConcurAllocated : Nat) (entries : Nat → ConcurEntry) :
    Nat → Nat → Nat → PopHead
  | 0, tmpStart, tmpReadPos =>
    { tmpPopConcurUsed := 0, tmpPopConcurStart := tmpStart, tmpReadPos := tmpReadPos }
  | used + 1, tmpStart, tmpReadPos =>
    let toDel := entries tmpStart
    if ¬ toDel.processed ∧ toDel.startPos = toDel.endPos then
      popHeadLoop queueSize popConcurAllocated entries used
        (ringPos popConcurAllocated (tmpStart + 1))
        (if toDel.endPos - tmpReadPos > queueSize then toDel.endPos - queueSize
         else toDel.endPos)
    else
      { tmpPopConcurUsed := used + 1, tmpPopConcurStart := tmpStart, tmpReadPos := tmpReadPos }

/-- The block `if (ePos != dPos && blockSize != 0) { ... }` of the second loop of
`finishPopConcur`: the unread block of `blockSize` cells at `sPos` is moved so that it ends
at `dPos`, in up to three linear pieces, the last piece first. -/
def popFoldMove (queueSize : Nat) (data : Nat → Nat) (dPos0 sPos blockSize : Nat) : Nat → Nat :=
  let dPos := if dPos0 ≥ blockSize then dPos0 - blockSize else dPos0 + (queueSize - blockSize)
  let b1 := if dPos + blockSize > queueSize then queueSize - dPos else blockSize
  let b2 := if sPos + blockSize > queueSize ∧ b1 < blockSize then queueSize - sPos
    else blockSize
  let b1 := if sPos + blockSize > queueSize ∧ ¬ b1 < blockSize then queueSize - sPos else b1
  if b1 < blockSize then
    let dPos1 := ringPos queueSize (dPos + b1)
    let sPos1 := ringPos queueSize (sPos + b1)
    let data1 := if b2 < blockSize then
        memmove data (ringPos queueSize (dPos1 + (b2 - b1)))
          (ringPos queueSize (sPos1 + (b2 - b1))) (blockSize - b2)
      else data
    let data2 := memmove data1 dPos1 sPos1 (b2 - b1)
    memmove data2 dPos sPos b1
  else memmove data dPos sPos b1

/-- State of the second loop ("move unread data to front") of `finishPopConcur`. -/
structure PopTail where
  tmpPopConcurUsed : Nat
  tmpNewReadPos : Nat
  queueData : Nat → Nat
  addedToUnreaded : Bool

/-- The loop `while (tmpPopConcurUsed != 0 && !popConcurEntries[itPopId].processed)` of
`finishPopConcur`. -/
def popTailLoop (queueSize popConcurAllocated : Nat) (entries : Nat → ConcurEntry) :
    Nat → Nat → Nat → (Nat → Nat) → Bool → PopTail
  | 0, _, tmpNewReadPos, data, added =>
    { tmpPopConcurUsed := 0, tmpNewReadPos := tmpNewReadPos, queueData := data,
      addedToUnreaded := added }
  | used + 1, itPopId, tmpNewReadPos, data, added =>
    if (entries itPopId).processed then
      { tmpPopConcurUsed := used + 1, tmpNewReadPos := tmpNewReadPos, queueData := data,
        addedToUnreaded := added }
    else
      let toFold := entries itPopId
      let sPos := ringPos queueSize toFold.startPos
      let dPos := ringPos queueSize tmpNewReadPos
      let ePos := ringPos queueSize toFold.endPos
      let blockSize := toFold.endPos - toFold.startPos
      let data1 := if ePos ≠ dPos ∧ blockSize ≠ 0
        then popFoldMove queueSize data dPos sPos blockSize else data
      popTailLoop queueSize popConcurAllocated entries used
        (if itPopId = 0 then popConcurAllocated - 1 else itPopId - 1)
        (tmpNewReadPos - blockSize) data1 (added || decide (blockSize ≠ 0))

/-- `MemQueue::finishPopConcur(popId, elemsNum, lock)`: the new state and `success`. -/
def finishPopConcur (q : MemQueue) (popId elemsNum : Nat) : MemQueue × Bool :=
  if q.popConcurUsed = 0 then (q, true)
  else
    let popId := ringPos q.popConcurAllocated popId
    let entry := q.popConcurEntries popId
    let success : Bool := ¬ (entry.endPos - entry.startPos < elemsNum)
    let entry1 : ConcurEntry :=
      { startPos := if success then entry.startPos + elemsNum else entry.startPos,
        endPos := entry.endPos, processed := false }
    let entries := Function.update q.popConcurEntries popId entry1
    let hd := popHeadLoop q.queueSize q.popConcurAllocated entries q.popConcurUsed
      q.popConcurStart q.readPos
    let itPopId := ringPos q.popConcurAllocated (hd.tmpPopConcurStart + hd.tmpPopConcurUsed - 1)
    let tl := popTailLoop q.queueSize q.popConcurAllocated entries hd.tmpPopConcurUsed itPopId
      q.newReadPos q.queueData false
    let q1 : MemQueue :=
      { q with popConcurEntries := entries, queueData := tl.queueData,
               readPos := hd.tmpReadPos, newReadPos := tl.tmpNewReadPos,
               popConcurStart := hd.tmpPopConcurStart, popConcurUsed := tl.tmpPopConcurUsed }
    (if q1.popConcurUsed = 0 then { q1 with readPos := q1.newReadPos, popConcurStart := 0 }
     else q1, success)

/-- `MemQueue::finishPoppingInt(oldElemsNum, popId, lock)`: the new state and `success`. -/
def finishPoppingInt (q : MemQueue) (oldElemsNum popId : Nat) : MemQueue × Bool :=
  if popId ≠ CONCURID_NONE then
    let r := finishPopConcur q popId oldElemsNum
    let q1 := r.1
    let q2 := if q1.cancelledQueue ≠ 0 ∨ (q1.closedQueue ≠ 0 ∧ q1.readPos = q1.writePos ∧
        q1.popConcurUsed = 0) then { q1 with noDataQueue := 1 } else q1
    let q3 := if q2.pausedQueue ≠ 0 ∧ q2.readPos = q2.writePos ∧ q2.popConcurUsed = 0
      then { q2 with pausedQueue := 2 } else q2
    (if q3.readPos ≥ q3.queueSize then
       { q3 with readPos := q3.readPos - q3.queueSize, writePos := q3.writePos - q3.queueSize,
                 newReadPos := q3.newReadPos - q3.queueSize,
                 newWritePos := q3.newWritePos - q3.queueSize }
     else q3, r.2)
  else (q, true)

/-- `MemQueue::doPopping(elemsNum, oldElemsNum, popId, queuePos, timeout)` (also
`tryDoPopping`): finish the previous pop, then reserve. -/
def doPopping (q : MemQueue) (elemsNum oldElemsNum popId queuePos : Nat) : MemQueue × Grant :=
  let r := finishPoppingInt q oldElemsNum popId
  let q1 := r.1
  if ¬ r.2 then (q1, { threw := true, taken := 0, id := CONCURID_NONE, queuePos := queuePos })
  else if q1.cancelledQueue ≠ 0 ∨ (q1.closedQueue ≠ 0 ∧ q1.popConcurUsed = 0 ∧
      q1.readPos = q1.writePos) then
    (q1, { threw := false, taken := 0, id := CONCURID_NONE, queuePos := queuePos })
  else if q1.writePos - q1.newReadPos = 0 ∨ q1.popConcurUsed = q1.popConcurAllocated then
    (q1, { threw := false, taken := 0, id := CONCURID_NONE, queuePos := queuePos })
  else
    let taken := min elemsNum (q1.writePos - q1.newReadPos)
    let a := allocPopConcur q1 taken
    (a.1, { threw := false, taken := taken, id := a.2.1, queuePos := a.2.2 })

/-- `MemQueue::finishPopping(oldElemsNum, popId)`: the new state and whether it threw. -/
def finishPopping (q : MemQueue) (oldElemsNum popId : Nat) : MemQueue × Bool :=
  let r := finishPoppingInt q oldElemsNum popId
  (r.1, ! r.2)

/-- `MemQueue::close()`: with a push in flight the call waits on `closeCond` (the state then
has `closingQueue` set); otherwise the queue becomes closed. -/
def MemQueue.close (q : MemQueue) : MemQueue :=
  if q.closedQueue ≠ 0 then q
  else
    let q1 := { q with closingQueue := true }
    if q1.concurPushes ≠ 0 ∧ q1.cancelledQueue = 0 then q1
    else if q1.closedQueue ≠ 0 ∨ q1.cancelledQueue ≠ 0 then q1
    else
      { q1 with closedQueue := 1,
                noDataQueue := if q1.popConcurUsed = 0 ∧ q1.readPos = q1.writePos then 1
                  else q1.noDataQueue }

/-- The calls made by the clients of a queue, each one atomic step. The calls with an id
finish that reservation; `pushNext`/`popNext` are `doPushing`/`doPopping` called with the id
of the previous reservation. -/
inductive QueueOp where
  | pushBegin (elemsNum : Nat)
  | pushFinish (pushId count : Nat)
  | pushNext (pushId count elemsNum : Nat)
  | popBegin (elemsNum : Nat)
  | popFinish (popId count : Nat)
  | popNext (popId count elemsNum : Nat)
  | close
  deriving DecidableEq, Repr

/-- The slot `id` lies in the window of `used` slots starting at `start` of a table with
`allocated` slots. -/
def inWindow (allocated start used id : Nat) : Prop :=
  id < allocated ∧ (id + allocated - start) % allocated < used

instance (allocated start used id : Nat) : Decidable (inWindow allocated start used id) := by
  unfold inWindow; infer_instance

/-- The push reservation `id` has been granted and not yet finished. -/
def PushOutstanding (q : MemQueue) (id : Nat) : Prop :=
  inWindow q.pushConcurAllocated q.pushConcurStart q.pushConcurUsed id ∧
    (q.pushConcurEntries id).processed = true

instance (q : MemQueue) (id : Nat) : Decidable (PushOutstanding q id) := by
  unfold PushOutstanding; infer_instance

/-- The pop reservation `id` has been granted and not yet finished. -/
def PopOutstanding (q : MemQueue) (id : Nat) : Prop :=
  inWindow q.popConcurAllocated q.popConcurStart q.popConcurUsed id ∧
    (q.popConcurEntries id).processed = true

instance (q : MemQueue) (id : Nat) : Decidable (PopOutstanding q id) := by
  unfold PopOutstanding; infer_instance

/-- The call respects the interface: a requested size is non-zero ("must be non-zero",
`Queue.h`) and an id passed back is the id of a reservation that is still outstanding. -/
def QueueOp.Valid (q : MemQueue) : QueueOp → Prop
  | .pushBegin n => 1 ≤ n
  | .pushFinish id _ => PushOutstanding q id
  | .pushNext id _ n => PushOutstanding q id ∧ 1 ≤ n
  | .popBegin n => 1 ≤ n
  | .popFinish id _ => PopOutstanding q id
  | .popNext id _ n => PopOutstanding q id ∧ 1 ≤ n
  | .close => True

instance (q : MemQueue) (op : QueueOp) : Decidable (op.Valid q) := by
  cases op <;> (unfold QueueOp.Valid; infer_instance)

/-- The state after a call (the results handed back to the caller are dropped). -/
def QueueOp.apply (q : MemQueue) : QueueOp → MemQueue
  | .pushBegin n => (doPushing q n 0 CONCURID_NONE 0).1
  | .pushFinish id count => (finishPushing q count id).1
  | .pushNext id count n => (doPushing q n count id 0).1
  | .popBegin n => (doPopping q n 0 CONCURID_NONE 0).1
  | .popFinish id count => (finishPopping q count id).1
  | .popNext id count n => (doPopping q n count id 0).1
  | .close => q.close

/-- One step of the ring: a call that respects the interface is executed, any other call
is not made. -/
def queueStep (q : MemQueue) (op : QueueOp) : MemQueue :=
  if op.Valid q then op.apply q else q

/-- The state reached from `q` by a sequence of calls. -/
def queueRun (q : MemQueue) (ops : List QueueOp) : MemQueue :=
  ops.foldl queueStep q

/-! ## Specification-side notions for the ring -/

/-- The entries of the `used` slots starting at slot `start` of a reservation table, oldest
first. -/
def windowOf (allocated : Nat) (entries : Nat → ConcurEntry) (start used : Nat) :
    List ConcurEntry :=
  (List.range used).map (fun j => entries (ringPos allocated (start + j)))

/-- The push reservations `es` (oldest first) lie one after the other between `lo` and `hi`.
The positions stored in an entry are those of the time it was granted: they exceed the
current ones by `k = queueSize` when the counters have been reduced by `queueSize` since. -/
def PushChain (queueSize : Nat) : List ConcurEntry → Nat → Nat → Prop
  | [], lo, hi => lo ≤ hi
  | e :: rest, lo, hi =>
    ∃ k, (k = 0 ∨ k = queueSize) ∧ k ≤ e.startPos ∧ lo ≤ e.startPos - k ∧
      e.startPos ≤ e.endPos ∧ e.endPos < 2 * queueSize ∧
      PushChain queueSize rest (e.endPos - k) hi

/-- The pop reservations `es` (oldest first) lie one after the other between `lo` and `hi`;
every one of them ends after `lo` (it was granted at least one cell). -/
def PopChain (queueSize : Nat) : List ConcurEntry → Nat → Nat → Prop
  | [], lo, hi => lo ≤ hi
  | e :: rest, lo, hi =>
    ∃ k, (k = 0 ∨ k = queueSize) ∧ k ≤ e.startPos ∧ lo ≤ e.startPos - k ∧
      e.startPos ≤ e.endPos ∧ lo < e.endPos - k ∧ e.endPos < 2 * queueSize ∧
      PopChain queueSize rest (e.endPos - k) hi

/-- The invariant of the ring. -/
structure QueueInv (q : MemQueue) : Prop where
  size_pos : 1 ≤ q.queueSize
  read_lt : q.readPos < q.queueSize
  read_le : q.readPos ≤ q.newReadPos
  newRead_le : q.newReadPos ≤ q.writePos
  write_le : q.writePos ≤ q.newWritePos
  newWrite_le : q.newWritePos ≤ q.readPos + q.queueSize
  pushAlloc_pos : 1 ≤ q.pushConcurAllocated
  pushAlloc_lt : q.pushConcurAllocated < 4294967295
  pushStart_lt : q.pushConcurStart < q.pushConcurAllocated
  pushUsed_le : q.pushConcurUsed ≤ q.pushConcurAllocated
  popAlloc_pos : 1 ≤ q.popConcurAllocated
  popAlloc_lt : q.popConcurAllocated < 4294967295
  popStart_lt : q.popConcurStart < q.popConcurAllocated
  popUsed_le : q.popConcurUsed ≤ q.popConcurAllocated
  pushChain : PushChain q.queueSize
    (windowOf q.pushConcurAllocated q.pushConcurEntries q.pushConcurStart q.pushConcurUsed)
    q.writePos q.newWritePos
  pushEmpty : q.pushConcurUsed = 0 → q.newWritePos = q.writePos
  popChain : PopChain q.queueSize
    (windowOf q.popConcurAllocated q.popConcurEntries q.popConcurStart q.popConcurUsed)
    q.readPos q.newReadPos
  popEmpty : q.popConcurUsed = 0 → q.newReadPos = q.readPos
  pushes : q.concurPushes =
    ((windowOf q.pushConcurAllocated q.pushConcurEntries q.pushConcurStart
      q.pushConcurUsed).filter (fun e => e.processed)).length
  notCancelled : q.cancelledQueue = 0
  notPaused : q.pausedQueue = 0

/-- The cells of the push reservations that are finished but still wait behind an unfinished
one; the fold commits them when it reaches them. -/
def pushPending (q : MemQueue) : Nat :=
  (((windowOf q.pushConcurAllocated q.pushConcurEntries q.pushConcurStart
      q.pushConcurUsed).filter (fun e => !e.processed)).map
    (fun e => e.endPos - e.startPos)).sum

/-! ## The class `Int128` (`Int128.h`, the variant without a native 128-bit type) -/

/-- `class Int128`: the fields `guint64 lo` and `gint64 hi`. -/
structure Int128 where
  lo : Nat
  hi : Int
  deriving DecidableEq, Repr

/-- The fields hold a `guint64` and a `gint64`. -/
def Int128.WF (v : Int128) : Prop :=
  v.lo < 18446744073709551616 ∧ -9223372036854775808 ≤ v.hi ∧ v.hi < 9223372036854775808

instance (v : Int128) : Decidable v.WF := by unfold Int128.WF; infer_instance

/-- The signed 128-bit integer represented by the pair. -/
def Int128.val (v : Int128) : Int := v.hi * 18446744073709551616 + v.lo

/-- The conversion of a `gint64` to `guint64`. -/
def toU64 (x : Int) : Nat := (x % 18446744073709551616).toNat

/-- The conversion of a `guint64` to `gint64`. -/
def toI64 (x : Nat) : Int := wrap64 x

/-- The conversion of a comparison result to an integer. -/
def boolInt (b : Bool) : Int := if b then 1 else 0

/-- `Int128::Int128(guint64 x)`. -/
def Int128.ofU64 (x : Nat) : Int128 := { lo := x, hi := 0 }

/-- `Int128::Int128(gint64 x)`. -/
def Int128.ofI64 (x : Int) : Int128 := { lo := toU64 x, hi := if x < 0 then -1 else 0 }

/-- `Int128::operator+=(const Int128& x)`. -/
def Int128.addAssign (a x : Int128) : Int128 :=
  let tmp := x.lo
  let lo := (a.lo + x.lo) % 18446744073709551616
  { lo := lo, hi := wrap64 (a.hi + wrap64 (x.hi + boolInt (decide (lo < tmp)))) }

/-- `Int128::operator+=(guint64 x)`. -/
def Int128.addAssignU64 (a : Int128) (x : Nat) : Int128 :=
  let lo := (a.lo + x) % 18446744073709551616
  { lo := lo, hi := wrap64 (a.hi + boolInt (decide (lo < x))) }

/-- `Int128::operator+=(gint64 x)`. -/
def Int128.addAssignI64 (a : Int128) (x : Int) : Int128 :=
  let lo := (a.lo + toU64 x) % 18446744073709551616
  if x ≥ 0 then { lo := lo, hi := wrap64 (a.hi + boolInt (decide (lo < toU64 x))) }
  else { lo := lo, hi := wrap64 (a.hi - boolInt (decide (lo ≥ toU64 x))) }

/-- `Int128::operator-=(const Int128& x)`. -/
def Int128.subAssign (a x : Int128) : Int128 :=
  let tmp := a.lo
  let lo := (a.lo + (18446744073709551616 - x.lo)) % 18446744073709551616
  { lo := lo, hi := wrap64 (a.hi - wrap64 (x.hi + boolInt (decide (lo > tmp)))) }

/-- `Int128::operator-=(guint64 x)`. -/
def Int128.subAssignU64 (a : Int128) (x : Nat) : Int128 :=
  let tmp := a.lo
  let lo := (a.lo + (18446744073709551616 - x)) % 18446744073709551616
  { lo := lo, hi := wrap64 (a.hi - boolInt (decide (lo > tmp))) }

/-- `Int128::operator-=(gint64 x)`. -/
def Int128.subAssignI64 (a : Int128) (x : Int) : Int128 :=
  let tmp := a.lo
  let lo := (a.lo + (18446744073709551616 - toU64 x)) % 18446744073709551616
  if x ≥ 0 then { lo := lo, hi := wrap64 (a.hi - boolInt (decide (lo > tmp))) }
  else { lo := lo, hi := wrap64 (a.hi + boolInt (decide (lo ≤ tmp))) }

/-- `Int128::operator-() const`: `Int128(-lo, -hi - (-lo != 0))`. -/
def Int128.neg (a : Int128) : Int128 :=
  let nlo := (18446744073709551616 - a.lo) % 18446744073709551616
  { lo := nlo, hi := wrap64 (wrap64 (-a.hi) - boolInt (decide (nlo ≠ 0))) }

/-- `Int128::operator<<=(int x)` for `x ≥ 0`. -/
def Int128.shlAssign (v : Int128) (x : Nat) : Int128 :=
  if x = 0 then v
  else if x < 64 then
    let tmp := v.lo >>> (64 - x)
    { lo := (v.lo <<< x) % 18446744073709551616,
      hi := toI64 (((toU64 v.hi <<< x) % 18446744073709551616) ||| tmp) }
  else if x < 128 then
    { lo := 0, hi := toI64 ((v.lo <<< (x - 64)) % 18446744073709551616) }
  else { lo := 0, hi := 0 }

/-- `Int128::operator>>=(int x)` for `x ≥ 0`; `hi >> x` is the arithmetic shift of a
`gint64`. -/
def Int128.shrAssign (v : Int128) (x : Nat) : Int128 :=
  if x = 0 then v
  else if x < 64 then
    let tmp := (toU64 v.hi <<< (64 - x)) % 18446744073709551616
    { lo := (v.lo >>> x) ||| tmp, hi := v.hi / 2 ^ x }
  else if x < 128 then
    { lo := toU64 (v.hi / 2 ^ (x - 64)), hi := v.hi / 2 ^ 63 }
  else { lo := toU64 (v.hi / 2 ^ 63), hi := v.hi / 2 ^ 63 }

/-- `Int128::operator==`. -/
def Int128.eq (a x : Int128) : Bool := decide (a.lo = x.lo ∧ a.hi = x.hi)

/-- `Int128::operator!=`. -/
def Int128.ne (a x : Int128) : Bool := decide (a.lo ≠ x.lo ∨ a.hi ≠ x.hi)

/-- `Int128::operator<`. -/
def Int128.lt (a x : Int128) : Bool := decide (a.hi < x.hi ∨ (a.hi = x.hi ∧ a.lo < x.lo))

/-- `Int128::operator<=`. -/
def Int128.le (a x : Int128) : Bool := decide (a.hi < x.hi ∨ (a.hi = x.hi ∧ a.lo ≤ x.lo))

/-- `Int128::operator>`. -/
def Int128.gt (a x : Int128) : Bool := decide (a.hi > x.hi ∨ (a.hi = x.hi ∧ a.lo > x.lo))

/-- `Int128::operator>=`. -/
def Int128.ge (a x : Int128) : Bool := decide (a.hi > x.hi ∨ (a.hi = x.hi ∧ a.lo ≥ x.lo))

/-! ## `strtoint128` (`Int128.cpp`) -/

/-- The loop of `strtoint128` over the characters from `pos` on; `radix` counts the
characters consumed and `curVal` is the `Int128` accumulated so far. `none` stands for a
thrown `Int128Exception`. -/
def strtoint128Loop (isneg : Bool) (firstDigit : Nat) : List Char → Nat → Int → Option Int
  | [], _, curVal => some curVal
  | c :: rest, radix, curVal =>
    if c.toNat < 48 ∨ c.toNat > 57 then none
    else if radix = 38 ∧ firstDigit > 49 then none
    else
      let curVal1 := add128 (wrap128 (curVal * 2 ^ 3)) (wrap128 (curVal * 2 ^ 1))
      let curVal2 := add128 curVal1 ((c.toNat - 48 : Nat) : Int)
      if curVal2 < 0 ∧ (¬ isneg ∨ curVal2 ≠ -170141183460469231731687303715884105728)
      then none
      else strtoint128Loop isneg firstDigit rest (radix + 1) curVal2

/-- `strtoint128(inputStr)`: the parsed value, `none` for a thrown `Int128Exception`. -/
def strtoint128 (inputStr : List Char) : Option Int :=
  match inputStr with
  | [] => none
  | c0 :: rest =>
    let isneg : Bool := c0 = '-'
    let digits := if c0 = '+' ∨ c0 = '-' then rest else inputStr
    match digits with
    | [] => none
    | d0 :: _ =>
      (strtoint128Loop isneg d0.toNat digits 0 0).map
        (fun curVal => if isneg then neg128 curVal else curVal)

/-- The number written by a string of decimal digits. -/
def decimalValue (digits : List Char) : Int :=
  digits.foldl (fun acc c => acc * 10 + ((c.toNat - 48 : Nat) : Int)) 0

/-- A digit string of 40 characters without leading zero, the number `11 * 10^38`. -/
def longDigits : List Char := '1' :: '1' :: List.replicate 38 '0'

/-! ## The loader's checks (`loadProblem`, constructor of `SubsetSumController`) -/

/-- The loop of `loadProblem` over the parsed values with the accumulators `psum` and `msum`:
`false` stands for a thrown `SubsetSumException` ("Sum of all positive/negative values is out
of range"). -/
def loadProblemSums : List Int → Int → Int → Bool
  | [], _, _ => true
  | x :: rest, psum, msum =>
    if x > 0 then
      let psum1 := add128 psum x
      if psum1 ≤ 0 then false else loadProblemSums rest psum1 msum
    else if x < 0 then
      let msum1 := sub128 msum x
      if msum1 ≤ 0 then false else loadProblemSums rest psum msum1
    else loadProblemSums rest psum msum

/-- The checks of `loadProblem` on the parsed list pass (no exception is thrown). -/
def loadProblemChecks (problem : List Int) : Bool :=
  if problem.isEmpty then false
  else if problem.contains 0 then false
  else loadProblemSums problem 0 0

/-- The constructor of `SubsetSumController` does not throw. -/
def controllerAccepts (problem : List Int) : Bool :=
  if problem.length = 0 then false
  else if problem.length > 128 then false
  else true

/-- The problem `{2^127 - 1, -(2^127 - 1)}`. -/
def extremeProblem : List Int :=
  [170141183460469231731687303715884105727, -170141183460469231731687303715884105727]

/-! ## The three copies of the hash key -/

/-- `NodeHashGenController::getNodeHashKey(sum)` (`NodeHashGen.h`). -/
def NodeHashGenController.getNodeHashKey (nodeHashBits : Nat) (sum : Int) : Nat :=
  let hmask := 2 ^ nodeHashBits - 1
  let temph1 := toUInt32 (sum / 2 ^ nodeHashBits)
  let temph2 := temph1 >>> nodeHashBits
  let temph3 := temph2 >>> nodeHashBits
  let temph4 := temph3 >>> nodeHashBits
  (((sum % 18446744073709551616).toNat ^^^ temph1 ^^^ temph2 ^^^ temph3 ^^^ temph4) &&& hmask)

/-- The key `hkey` computed inline in `subsetSumHashMethod` (and in the four
`subsetSumHashSubsets` methods) for `sum`. -/
def subsetSumHashMethod_hkey (hashBits : Nat) (sum : Int) : Nat :=
  let hmask := 2 ^ hashBits - 1
  let temph1 := toUInt32 (sum / 2 ^ hashBits)
  let temph2 := temph1 >>> hashBits
  let temph3 := temph2 >>> hashBits
  let temph4 := temph3 >>> hashBits
  (((sum % 18446744073709551616).toNat ^^^ temph1 ^^^ temph2 ^^^ temph3 ^^^ temph4) &&& hmask)

/-- The key as the specification writes it:
`(x ^ (x>>h) ^ (x>>2h) ^ (x>>3h) ^ (x>>4h)) & (2^h - 1)`, every shift being a shift of the
64-bit value `x` (arithmetic, `x` being a `gint64`), on two's-complement bit patterns. -/
def foldKey (h : Nat) (x : Int) : Nat :=
  (toU64 x ^^^ toU64 (x / 2 ^ h) ^^^ toU64 (x / 2 ^ (2 * h)) ^^^ toU64 (x / 2 ^ (3 * h))
    ^^^ toU64 (x / 2 ^ (4 * h))) &&& (2 ^ h - 1)

/-- The same with logical shifts of the 64-bit pattern of `x`. -/
def foldKeyLogical (h : Nat) (x : Int) : Nat :=
  (toU64 x ^^^ (toU64 x >>> h) ^^^ (toU64 x >>> (2 * h)) ^^^ (toU64 x >>> (3 * h))
    ^^^ (toU64 x >>> (4 * h))) &&& (2 ^ h - 1)

/-! ## Lookup with subset storage (`useHashSubsets`) -/

/-- The read `subsumsTbl[idx]` after `HashController::genSubsumsTbl`; `nodeProblem` is the
array of the controller, read at `8 + numberPos + bitNum` and converted to `gint64`. Only the
first `2^numbersNum` entries of every 256-entry table are written by the code. -/
def subsumsTbl (nodeProblem : List Int) (nodeHashedNumbers idx : Nat) : Int :=
  subsumEntry (nodeProblem.map toInt64) (8 + idx / 256 * 8)
    (min 8 (nodeHashedNumbers - idx / 256 * 8)) (idx % 256)

/-- `subsetSumHashSubsets8Method`. -/
def subsetSumHashSubsets8Method (sumChanges : List Int) (subsumsTbl : Nat → Int)
    (hashBits : Nat) (hashTable : Nat → NodeHashEntry) (hashSubsets : List Nat)
    (inputSum : Int) : List Nat :=
  (List.range 256).filter (fun current =>
    let sum := add64 inputSum (rd sumChanges current)
    let e := hashTable (subsetSumHashMethod_hkey hashBits sum)
    e.size != 0 && (List.range e.size).any (fun j =>
      let hsum := subsumsTbl (rdN hashSubsets (e.getPos + j))
      hsum == sum))

/-- `subsetSumHashSubsets16Method`. -/
def subsetSumHashSubsets16Method (sumChanges : List Int) (subsumsTbl : Nat → Int)
    (hashBits : Nat) (hashTable : Nat → NodeHashEntry) (hashSubsets : List Nat)
    (inputSum : Int) : List Nat :=
  (List.range 256).filter (fun current =>
    let sum := add64 inputSum (rd sumChanges current)
    let e := hashTable (subsetSumHashMethod_hkey hashBits sum)
    e.size != 0 && (List.range e.size).any (fun j =>
      let hsubset := rdN hashSubsets (e.getPos + j)
      let hsum := add64 (subsumsTbl (hsubset &&& 255)) (subsumsTbl (256 + (hsubset >>> 8)))
      hsum == sum))

/-- `subsetSumHashSubsets24Method`. -/
def subsetSumHashSubsets24Method (sumChanges : List Int) (subsumsTbl : Nat → Int)
    (hashBits : Nat) (hashTable : Nat → NodeHashEntry) (hashSubsets : List Nat)
    (inputSum : Int) : List Nat :=
  (List.range 256).filter (fun current =>
    let sum := add64 inputSum (rd sumChanges current)
    let e := hashTable (subsetSumHashMethod_hkey hashBits sum)
    e.size != 0 && (List.range e.size).any (fun j =>
      let hsubset := rdN hashSubsets (e.getPos + j)
      let hsum := add64 (add64 (subsumsTbl (hsubset &&& 255))
        (subsumsTbl (256 + ((hsubset >>> 8) &&& 255)))) (subsumsTbl (512 + (hsubset >>> 16)))
      hsum == sum))

/-- `subsetSumHashSubsets32Method`. -/
def subsetSumHashSubsets32Method (sumChanges : List Int) (subsumsTbl : Nat → Int)
    (hashBits : Nat) (hashTable : Nat → NodeHashEntry) (hashSubsets : List Nat)
    (inputSum : Int) : List Nat :=
  (List.range 256).filter (fun current =>
    let sum := add64 inputSum (rd sumChanges current)
    let e := hashTable (subsetSumHashMethod_hkey hashBits sum)
    e.size != 0 && (List.range e.size).any (fun j =>
      let hsubset := rdN hashSubsets (e.getPos + j)
      let hsum := add64 (add64 (add64 (subsumsTbl (hsubset &&& 255))
        (subsumsTbl (256 + ((hsubset >>> 8) &&& 255))))
        (subsumsTbl (512 + ((hsubset >>> 16) &&& 255)))) (subsumsTbl (768 + (hsubset >>> 24)))
      hsum == sum))

/-- The method called by `HashCpuWorker::run` with `useHashSubsets`, selected by
`nodeHashedNumbers`. -/
def subsetSumHashSubsetsMethod (nodeHashedNumbers : Nat) (sumChanges : List Int)
    (subsumsTbl : Nat → Int) (hashBits : Nat) (hashTable : Nat → NodeHashEntry)
    (hashSubsets : List Nat) (inputSum : Int) : List Nat :=
  if nodeHashedNumbers ≤ 8 then
    subsetSumHashSubsets8Method sumChanges subsumsTbl hashBits hashTable hashSubsets inputSum
  else if nodeHashedNumbers ≤ 16 then
    subsetSumHashSubsets16Method sumChanges subsumsTbl hashBits hashTable hashSubsets inputSum
  else if nodeHashedNumbers ≤ 24 then
    subsetSumHashSubsets24Method sumChanges subsumsTbl hashBits hashTable hashSubsets inputSum
  else
    subsetSumHashSubsets32Method sumChanges subsumsTbl hashBits hashTable hashSubsets inputSum

/-- The sum of chunk lookups that the method selected for `nodeHashedNumbers` rebuilds for the
stored subset `hsubset`. -/
def storedSum (nodeHashedNumbers : Nat) (subsumsTbl : Nat → Int) (hsubset : Nat) : Int :=
  if nodeHashedNumbers ≤ 8 then subsumsTbl hsubset
  else if nodeHashedNumbers ≤ 16 then
    add64 (subsumsTbl (hsubset &&& 255)) (subsumsTbl (256 + (hsubset >>> 8)))
  else if nodeHashedNumbers ≤ 24 then
    add64 (add64 (subsumsTbl (hsubset &&& 255))
      (subsumsTbl (256 + ((hsubset >>> 8) &&& 255)))) (subsumsTbl (512 + (hsubset >>> 16)))
  else
    add64 (add64 (add64 (subsumsTbl (hsubset &&& 255))
      (subsumsTbl (256 + ((hsubset >>> 8) &&& 255))))
      (subsumsTbl (512 + ((hsubset >>> 16) &&& 255)))) (subsumsTbl (768 + (hsubset >>> 24)))

/-! ## The parallel node-hash builder (`NodeHashGenController::doHashGen` and `worker`) -/

/-- `static const guint putSubsetBlockSize = 4096`. -/
def putSubsetBlockSize : Nat := 4096

/-- The field `putSubsetPartsNum`, set to 2 by the constructor. -/
def putSubsetPartsNum : Nat := 2

/-- The loop `for (guint v = 1; v < threadsNum; v<<=1, threadBits++);` of the constructor of
`NodeHashGenController`, `v` being a `guint`. The first argument bounds the number of passes;
`none` stands for a loop that has not ended within them. -/
def threadBitsLoop (threadsNum : Nat) : Nat → Nat → Nat → Option Nat
  | 0, _, _ => none
  | fuel + 1, v, threadBits =>
    if v < threadsNum then
      threadBitsLoop threadsNum fuel ((v <<< 1) % 4294967296) (threadBits + 1)
    else some threadBits

/-- The value of `threadBits` at the end of the constructor (the loop ends within 32 passes
when `threadsNum <= 2^31`; for a larger `threadsNum` the `guint` `v` becomes 0 and the loop
does not end). -/
def threadBits (threadsNum : Nat) : Option Nat := threadBitsLoop threadsNum 33 1 0

/-- The field `hashPartBits = min(nodeHashBits, threadBits+4)`. -/
def hashPartBits (threadsNum nodeHashBits : Nat) : Nat :=
  min nodeHashBits ((threadBits threadsNum).getD 0 + 4)

/-- The field `subsetPartBits = min(nodeHashedNumbers, threadBits+4)`. -/
def subsetPartBits (threadsNum nodeHashedNumbers : Nat) : Nat :=
  min nodeHashedNumbers ((threadBits threadsNum).getD 0 + 4)

/-- The sum of chunk lookups computed for `subset` by `NodeHashGenController::worker` (the
cases `nodeHashedNumbers <= 27` and above; the worker throws when
`nodeHashedNumbers <= 18`). -/
def workerSum (nodeProblem : List Int) (nodeHashedNumbers subset : Nat) : Int :=
  let t := subsumTbls nodeProblem nodeHashedNumbers
  if nodeHashedNumbers ≤ 27 then
    add64 (add64 (t (subset &&& 511)) (t (512 + ((subset >>> 9) &&& 511))))
      (t (1024 + (subset >>> 18)))
  else
    add64 (add64 (add64 (t (subset &&& 511)) (t (512 + ((subset >>> 9) &&& 511))))
      (t (1024 + ((subset >>> 18) &&& 511)))) (t (1536 + (subset >>> 27)))

/-- The locals of a worker inside the put-subset phase: the loop variable `subset`, the
current block `lp`, the fill `lpx` of that block, the array `blockSizes`, and whether the
worker has left the phase. -/
structure PutWorker where
  subset : Nat
  lp : Nat
  lpx : Nat
  blockSizes : Nat → Nat
  finished : Bool

/-- The shared state of the put-subset phase; `workers part` holds the locals of the worker
that drew `putSubsetPart = part`, once it has started. -/
structure PutPhaseState where
  nodeHash : Nat → NodeHashEntry
  tmpHashLists : Nat → TempNodeHashListEntry
  putSubsetBlockCount : Nat
  nodeHashListsBlocksSize : Nat → Nat
  workers : Nat → Option PutWorker

/-- The body of the put-subset loop after the cell has been chosen: `subset` is linked in
front of the chain of `hkey`, in the cell `pos` of `tmpHashLists`; `none` stands for the thrown
`SubsetSumException`. -/
def putSubsetAt (nodeHash : Nat → NodeHashEntry) (tmpHashLists : Nat → TempNodeHashListEntry)
    (hkey subset pos : Nat) :
    Option ((Nat → NodeHashEntry) × (Nat → TempNodeHashListEntry)) :=
  let e := nodeHash hkey
  if e.size = 0 then
    some (Function.update nodeHash hkey { (e.setPos pos) with size := 1 },
          Function.update tmpHashLists pos { subset := subset, next := 4294967295 })
  else if e.size = 65535 then none
  else
    some (Function.update nodeHash hkey ({ e with size := (e.size + 1) % 65536 }.setPos pos),
          Function.update tmpHashLists pos { subset := subset, next := e.getPos })

/-- One atomic step of the worker that drew `putSubsetPart = part`: its start (the first
`g_atomic_int_add(&putSubsetBlockCount, putSubsetBlockSize)` and the check of
`nodeHashedNumbers`), one pass of the loop over `subset`, or, after the loop, the copy of
`blockSizes` into `nodeHashListsBlocks`. A worker that has left the phase does nothing.
`hashPartBits >= 1` and `nodeHashBits >= 1` are assumed by the shifts of the source. -/
def putSubsetStep (nodeHashedNumbers nodeHashBits hashPartBits : Nat) (sumOf : Nat → Int)
    (st : PutPhaseState) (part : Nat) : Option PutPhaseState :=
  match st.workers part with
  | none =>
    if nodeHashedNumbers ≤ 18 then none
    else
      some { st with
        putSubsetBlockCount := (st.putSubsetBlockCount + putSubsetBlockSize) % 4294967296,
        workers := Function.update st.workers part
          (some { subset := 0, lp := st.putSubsetBlockCount, lpx := 0,
                  blockSizes := fun _ => 0, finished := false }) }
  | some w =>
    if w.finished then some st
    else if w.subset < 2 ^ nodeHashedNumbers then
      let hkey := getNodeHashKey nodeHashBits (sumOf w.subset)
      if hkey >>> (nodeHashBits - 1) ≠ part then
        some { st with
          workers := Function.update st.workers part (some { w with subset := w.subset + 1 }) }
      else
        let full := w.lpx = putSubsetBlockSize
        let lp := if full then st.putSubsetBlockCount else w.lp
        let lpx := if full then 0 else w.lpx
        let count := if full then (st.putSubsetBlockCount + putSubsetBlockSize) % 4294967296
          else st.putSubsetBlockCount
        let b := (hkey >>> (nodeHashBits - hashPartBits)) &&& (2 ^ (hashPartBits - 1) - 1)
        (putSubsetAt st.nodeHash st.tmpHashLists hkey w.subset
            ((lp + lpx) % 4294967296)).map
          (fun r =>
            { st with
              nodeHash := r.1,
              tmpHashLists := r.2,
              putSubsetBlockCount := count,
              workers := Function.update st.workers part
                (some { w with
                  subset := w.subset + 1, lp := lp, lpx := lpx + 1,
                  blockSizes := Function.update w.blockSizes b
                    ((w.blockSizes b + 1) % 4294967296) }) })
    else
      some { st with
        nodeHashListsBlocksSize := fun i =>
          if part * 2 ^ (hashPartBits - 1) ≤ i ∧ i < part * 2 ^ (hashPartBits - 1)
              + 2 ^ (hashPartBits - 1) then
            w.blockSizes (i - part * 2 ^ (hashPartBits - 1))
          else st.nodeHashListsBlocksSize i,
        workers := Function.update st.workers part (some { w with finished := true }) }

/-- The put-subset phase under a schedule: the list names, step by step, the worker (by its
`putSubsetPart`) that moves next. Only the first `threadsNum` parts are drawn, and only a part
below `putSubsetPartsNum` does anything in this phase. -/
def putSubsetRun (threadsNum nodeHashedNumbers nodeHashBits hashPartBits : Nat)
    (sumOf : Nat → Int) : PutPhaseState → List Nat → Option PutPhaseState
  | st, [] => some st
  | st, part :: rest =>
    if part < threadsNum ∧ part < putSubsetPartsNum then
      (putSubsetStep nodeHashedNumbers nodeHashBits hashPartBits sumOf st part).bind
        (fun st1 =>
          putSubsetRun threadsNum nodeHashedNumbers nodeHashBits hashPartBits sumOf st1 rest)
    else putSubsetRun threadsNum nodeHashedNumbers nodeHashBits hashPartBits sumOf st rest

/-- The loop of `doHashGen` that turns the sizes of `nodeHashListsBlocks` into positions:
`pos` of block `i`. -/
def nodeHashListsBlocksPos (size : Nat → Nat) : Nat → Nat
  | 0 => 0
  | i + 1 => nodeHashListsBlocksPos size i + size i

/-- State of a pass of the ordering phase: the shared `nodeHash` and `nodeHashSubsets`, and
the local `listPos`. -/
structure OrderPartState where
  nodeHash : Nat → NodeHashEntry
  nodeHashSubsets : Nat → Nat
  listPos : Nat

/-- The inner loop `for (k = size - 1; k >= 0; k--)` of the ordering phase of the worker:
`nodeHashSubsets[listPos + k] = tmpHashLists[current].subset` along the chain. The first
argument is `k + 1`. -/
def orderingWrite (tmpHashLists : Nat → TempNodeHashListEntry) (listPos : Nat) :
    Nat → Nat → (Nat → Nat) → (Nat → Nat)
  | 0, _, a => a
  | k + 1, current, a =>
    orderingWrite tmpHashLists listPos k (tmpHashLists current).next
      (Function.update a (listPos + k) (tmpHashLists current).subset)

/-- The loop `for (i = hashStart; i < hashEnd; i++)` of the ordering phase after the passes
`i = hashStart, ..., hashStart + j - 1`. -/
def orderingPartLoop (tmpHashLists : Nat → TempNodeHashListEntry) (hashStart : Nat)
    (st0 : OrderPartState) : Nat → OrderPartState
  | 0 => st0
  | j + 1 =>
    let st := orderingPartLoop tmpHashLists hashStart st0 j
    let e := st.nodeHash (hashStart + j)
    if e.size = 0 then st
    else
      { nodeHash := Function.update st.nodeHash (hashStart + j) (e.setPos st.listPos),
        nodeHashSubsets := orderingWrite tmpHashLists st.listPos e.size e.getPos
          st.nodeHashSubsets,
        listPos := st.listPos + e.size }

/-- One drawn `orderingPart` of the ordering phase, from `hashStart` to `hashEnd`, starting
at `nodeHashListsBlocks[orderingPart].pos`. -/
def orderingPart (tmpHashLists : Nat → TempNodeHashListEntry)
    (nodeHashBits hashPartBits : Nat) (blocksPos : Nat → Nat) (st : OrderPartState)
    (part : Nat) : OrderPartState :=
  orderingPartLoop tmpHashLists (part <<< (nodeHashBits - hashPartBits))
    { st with listPos := blocksPos part }
    (((part + 1) <<< (nodeHashBits - hashPartBits)) - (part <<< (nodeHashBits - hashPartBits)))

/-- The loop `for (i = partHashSubsetStart; i < partHashSubsetsEnd; i++)` of the fill-value
phase after `j` passes. -/
def fillValueLoop (sumOf : Nat → Int) (nodeHashSubsets : Nat → Nat) (start : Nat)
    (lists0 : Nat → Int) : Nat → (Nat → Int)
  | 0 => lists0
  | j + 1 =>
    Function.update (fillValueLoop sumOf nodeHashSubsets start lists0 j) (start + j)
      (sumOf (nodeHashSubsets (start + j)))

/-- One drawn `fillValuePart` of the fill-value phase. -/
def fillValuePart (nodeHashedNumbers subsetPartBits : Nat) (sumOf : Nat → Int)
    (nodeHashSubsets : Nat → Nat) (lists : Nat → Int) (part : Nat) : Nat → Int :=
  fillValueLoop sumOf nodeHashSubsets (part <<< (nodeHashedNumbers - subsetPartBits)) lists
    (((part + 1) <<< (nodeHashedNumbers - subsetPartBits))
      - (part <<< (nodeHashedNumbers - subsetPartBits)))

/-- `NodeHashGenController::doHashGen` (after the constructor) without `useHashSubsets`.
`tmp0`, `subsets0` and `lists0` are the initial contents of the freshly allocated arrays.
`putSched` is the interleaving of the put-subset workers; the main thread waits for them,
which is modelled by letting each worker run on afterwards until it has left the phase (a
step of a worker that has left does nothing). `orderSched` and `fillSched` list the parts of
the ordering and fill-value phases in the order in which they are processed. The arrays
`nodeHashSubsets` and `nodeHashLists` are returned as the lists of their `2^nodeHashedNumbers`
cells; `none` stands for a thrown `SubsetSumException` or a constructor that does not
return. -/
def doHashGen (threadsNum nodeHashedNumbers nodeHashBits : Nat) (nodeProblem : List Int)
    (tmp0 : Nat → TempNodeHashListEntry) (subsets0 : Nat → Nat) (lists0 : Nat → Int)
    (putSched orderSched fillSched : List Nat) : Option NodeHashTables :=
  (threadBits threadsNum).bind (fun tb =>
    if threadsNum = 1 ∨ nodeHashedNumbers < 20 then
      singleThreadDoHashGen nodeHashedNumbers nodeHashBits nodeProblem
    else
      let spb := min nodeHashedNumbers (tb + 4)
      let hpb := min nodeHashBits (tb + 4)
      let sumOf := workerSum (nodeProblem.map toInt64) nodeHashedNumbers
      (putSubsetRun threadsNum nodeHashedNumbers nodeHashBits hpb sumOf
          { nodeHash := fun _ => { poslo := 0, poshi := 0, size := 0 },
            tmpHashLists := tmp0,
            putSubsetBlockCount := 0,
            nodeHashListsBlocksSize := fun _ => 0,
            workers := fun _ => none }
          (putSched ++ List.replicate (2 ^ nodeHashedNumbers + 2) 0
            ++ List.replicate (2 ^ nodeHashedNumbers + 2) 1)).map
        (fun st =>
          let blocksPos := nodeHashListsBlocksPos st.nodeHashListsBlocksSize
          let o := orderSched.foldl
            (orderingPart st.tmpHashLists nodeHashBits hpb blocksPos)
            { nodeHash := st.nodeHash, nodeHashSubsets := subsets0, listPos := 0 }
          let lists := fillSched.foldl
            (fillValuePart nodeHashedNumbers spb sumOf o.nodeHashSubsets) lists0
          { nodeHash := o.nodeHash,
            nodeHashSubsets := (List.range (2 ^ nodeHashedNumbers)).map o.nodeHashSubsets,
            nodeHashLists := (List.range (2 ^ nodeHashedNumbers)).map lists }))

/-! ## Notions used to reason about the parallel node-hash builder -/

/-- The cells of `tmpHashLists` starting at `current` form a linked chain holding the subsets
`l`, every cell of the chain lying in the set `U`. -/
def ChainU (tmpHashLists : Nat → TempNodeHashListEntry) (U : Nat → Prop) :
    Nat → List Nat → Prop
  | _, [] => True
  | current, s :: rest =>
    U current ∧ (tmpHashLists current).subset = s ∧
      ChainU tmpHashLists U (tmpHashLists current).next rest

/-- The loop variable of the put-subset worker of `part` (0 before it starts). -/
def PutPhaseState.cursor (st : PutPhaseState) (part : Nat) : Nat :=
  match st.workers part with
  | none => 0
  | some w => w.subset

/-- A cell of `tmpHashLists` that some put-subset worker has filled: it lies below
`putSubsetBlockCount` and outside the unfilled rest of the current block of every worker. -/
def PutPhaseState.Used (st : PutPhaseState) (q : Nat) : Prop :=
  q < st.putSubsetBlockCount ∧
    ∀ p w, st.workers p = some w → ¬ (w.lp + w.lpx ≤ q ∧ q < w.lp + putSubsetBlockSize)

/-- How far the put-subset worker of `part` has come: 0 before its start, `subset + 1` inside
the loop, `2^m + 2` once it has left the phase. -/
def PutPhaseState.progress (m : Nat) (st : PutPhaseState) (part : Nat) : Nat :=
  match st.workers part with
  | none => 0
  | some w => if w.finished then 2 ^ m + 2 else w.subset + 1

/-- The number of subsets below `n` whose key has the top bit `part`. -/
def shardCount (keyOf : Nat → Nat) (h part n : Nat) : Nat :=
  (List.range n).countP (fun s => keyOf s >>> (h - 1) == part)

/-- The number of subsets below `n` that the worker of `part` counts in `blockSizes[i]`. -/
def blockCount (keyOf : Nat → Nat) (h hpb part i n : Nat) : Nat :=
  (List.range n).countP (fun s => keyOf s >>> (h - 1) == part &&
    (keyOf s >>> (h - hpb)) &&& (2 ^ (hpb - 1) - 1) == i)

/-- The cells drawn from `putSubsetBlockCount` by a worker: none before its start, afterwards
the filled cells plus the unfilled rest of its current block. -/
def AllocRel (keyOf : Nat → Nat) (h part : Nat) : Option PutWorker → Nat → Prop
  | none, a => a = 0
  | some w, a => a + w.lpx = putSubsetBlockSize + shardCount keyOf h part w.subset

/-- The invariant of the put-subset phase. -/
structure PutPhaseInv (m h hpb : Nat) (keyOf : Nat → Nat) (st : PutPhaseState) : Prop where
  none_ge : ∀ p, 2 ≤ p → st.workers p = none
  size : ∀ k, (st.nodeHash k).size = (bucketOf keyOf k (st.cursor (k >>> (h - 1)))).length
  zero : ∀ k, (st.nodeHash k).size = 0 → st.nodeHash k = { poslo := 0, poshi := 0, size := 0 }
  chain : ∀ k, ChainU st.tmpHashLists st.Used (st.nodeHash k).getPos
    (bucketOf keyOf k (st.cursor (k >>> (h - 1)))).reverse
  wk : ∀ p w, st.workers p = some w →
    w.subset ≤ 2 ^ m ∧ w.lpx ≤ putSubsetBlockSize ∧
    w.lp + putSubsetBlockSize ≤ st.putSubsetBlockCount ∧
    (w.finished = true → w.subset = 2 ^ m) ∧
    (∀ i, w.blockSizes i = blockCount keyOf h hpb p i w.subset)
  fin : ∀ p w, st.workers p = some w → w.finished = true → ∀ i, i < 2 ^ (hpb - 1) →
    st.nodeHashListsBlocksSize (p * 2 ^ (hpb - 1) + i) = blockCount keyOf h hpb p i (2 ^ m)
  disj : ∀ w0 w1, st.workers 0 = some w0 → st.workers 1 = some w1 →
    w0.lp + putSubsetBlockSize ≤ w1.lp ∨ w1.lp + putSubsetBlockSize ≤ w0.lp
  alloc : ∃ a0 a1, AllocRel keyOf h 0 (st.workers 0) a0 ∧ AllocRel keyOf h 1 (st.workers 1) a1 ∧
    st.putSubsetBlockCount = a0 + a1

/-- The entry of `nodeHash` for a bucket of `n` subsets laid out from position `pos`. -/
def canonEntry (pos n : Nat) : NodeHashEntry :=
  if n = 0 then { poslo := 0, poshi := 0, size := 0 }
  else { poslo := pos % 65536, poshi := (pos >>> 16) % 65536, size := n }

/-- The number of subsets below `n` whose key is below `k`: the position of bucket `k` in the
linearised lists. -/
def keyPos (keyOf : Nat → Nat) (n k : Nat) : Nat :=
  ((List.range k).flatMap (fun j => bucketOf keyOf j n)).length

/-- The invariant of the ordering phase: the blocks in `D` have been processed (their buckets
are final and laid out in `nodeHashSubsets`), the others are as the put-subset phase left
them. -/
def OrderInv (keyOf : Nat → Nat) (n d : Nat) (nh : Nat → NodeHashEntry) (D : Nat → Prop)
    (s : OrderPartState) : Prop :=
  (∀ k, D (k >>> d) →
    s.nodeHash k = canonEntry (keyPos keyOf n k) (bucketOf keyOf k n).length) ∧
  (∀ k, ¬ D (k >>> d) → s.nodeHash k = nh k) ∧
  (∀ k, D (k >>> d) → ∀ i, i < (bucketOf keyOf k n).length →
    s.nodeHashSubsets (keyPos keyOf n k + i) = (bucketOf keyOf k n).getD i 0)

/-- Twenty hashed numbers `-1, -2, -4, ..., -2^19`: the residuals of the `2^20` subsets are
the subsets themselves, so with 20 hash bits every bucket holds one subset. -/
def negPowersProblem : List Int := (List.range 20).map (fun i => -(1 * (2 : Int) ^ i))

/-! ## `HashController`: small problems and array capacities; `updateProgress` -/

/-- The field `nodeBits` at the end of the constructor of `HashController`: the constructor
of `SubsetSumController` sets it to 0 and `HashController` returns early when
`numbersNum <= 16`. -/
def hashControllerNodeBits (numbersNum initNodeHashBits initNodeHashedNumbers : Nat) : Nat :=
  if numbersNum ≤ 16 then 0
  else 8 + (hashParams numbersNum initNodeHashBits initNodeHashedNumbers).2

/-- What `HashController::generateWork` produces: for `numbersNum <= 16` the solutions put by
`solveSmallProblem`, otherwise the packets pushed into the queue. -/
def hashControllerGenerateWork (problem : List Int)
    (initNodeHashBits initNodeHashedNumbers : Nat) : Option (List Nat ⊕ List NodeSubset) :=
  if problem.length ≤ 16 then (solveSmallProblem problem).map Sum.inl
  else
    (hashControllerInit problem initNodeHashBits initNodeHashedNumbers).bind (fun c =>
      (hashGenerateWork c.hashMinMaxTable c.mainProblem (c.numbersNum - c.nodeBits)).map
        Sum.inr)

/-- The size of the arrays `mainProblem[112]`, `mainTransTable[112]` and
`hashMinMaxTable[112]` of `HashController`. -/
def mainProblemCapacity : Nat := 112

/-- The size of the arrays `nodeProblem[64]` and `nodeTransTable[64]` of `HashController`. -/
def nodeProblemCapacity : Nat := 64

/-- The tables of the constructor fit the member arrays of `HashController`: it writes
`numbersNum - nodeBits` entries to `mainProblem[112]`, `mainTransTable[112]` and
`hashMinMaxTable[112]`, and `nodeBits` entries to `nodeProblem[64]` and `nodeTransTable[64]`.
The lists of `hashControllerInit` describe these arrays exactly under this condition; beyond
it the constructor writes past the end of the arrays. -/
def FitsCapacity (numbersNum initNodeHashBits initNodeHashedNumbers : Nat) : Prop :=
  numbersNum - hashControllerNodeBits numbersNum initNodeHashBits initNodeHashedNumbers
    ≤ mainProblemCapacity ∧
  hashControllerNodeBits numbersNum initNodeHashBits initNodeHashedNumbers ≤ nodeProblemCapacity

instance (numbersNum initNodeHashBits initNodeHashedNumbers : Nat) :
    Decidable (FitsCapacity numbersNum initNodeHashBits initNodeHashedNumbers) := by
  unfold FitsCapacity; infer_instance

/-- The 128-element problem `1, 2, ..., 128`. -/
def countingProblem128 : List Int := (List.range 128).map (fun i => (i : Int) + 1)

/-- The counters `mNodesCount` (`guint64`) and `subMegas` (`guint`) of
`SubsetSumController`. -/
structure Progress where
  mNodesCount : Nat
  subMegas : Nat
  deriving DecidableEq, Repr

/-- The counters as the constructor of `SubsetSumController` leaves them. -/
def Progress.init : Progress := { mNodesCount := 0, subMegas := 0 }

/-- The counting part of `SubsetSumController::updateProgress(nodesCount, lastSubset)`, with
`nodesCount` a `guint64`. -/
def updateProgress (p : Progress) (nodesCount : Nat) : Progress :=
  let diffM := nodesCount / 1000000
  let subMegaDiff := nodesCount - diffM * 1000000
  let mNodesCount := (p.mNodesCount + diffM) % 18446744073709551616
  let subMegas := (p.subMegas + subMegaDiff) % 4294967296
  if subMegas ≥ 1000000 then
    { mNodesCount := (mNodesCount + 1) % 18446744073709551616, subMegas := subMegas - 1000000 }
  else { mNodesCount := mNodesCount, subMegas := subMegas }

/-- The values taken by `sum` after each statement `sum += d` of an expanded macro, started
at `sum = s`. -/
def naiveSteps : Int → List Int → List Int
  | _, [] => []
  | s, d :: ds => add64 s d :: naiveSteps (add64 s d) ds

/-- All values of `sum` that `subsetSumNaiveMethod` tests against zero in the pass `current`
of its loop: the initial `inputSum + sumChanges[current]` and the value after each of the
additions of `NAIVE_CORE_8`. -/
def naiveVisited (sumChanges : List Int) (inputSum : Int) (current : Nat) : List Int :=
  add64 inputSum (rd sumChanges current) ::
    naiveSteps (add64 inputSum (rd sumChanges current))
      (naiveCore (fun k => (naiveVS sumChanges k).1) 8)

/-- The indices at which the loop of `descend` reads `hashMinMaxTable`, in order (the read at
`rangeIndex` happens only behind the test `rangeIndex >= 0`; the argument is
`rangeIndex + 1`). -/
def descendReads (table : List MinMaxStep) (sum : Int) : Nat → List Nat
  | 0 => []
  | r + 1 => r :: (if inStep (tbl table r) sum then descendReads table sum r else [])

/-- The indices at which the loop of `ascend` reads `mainProblem`, in order. -/
def ascendReads (mainNumbersNum : Nat) : Nat → Nat → Nat → List Nat
  | 0, _, _ => []
  | fuel + 1, subset, rangeIndex =>
    if bitSet subset rangeIndex ∧ rangeIndex < mainNumbersNum then
      rangeIndex :: ascendReads mainNumbersNum fuel (subset &&& not128 (shl128 1 rangeIndex))
        (rangeIndex + 1)
    else []

/-- What one pass of the loop `while (true)` of `HashController::generateWork` does: the value
of `subset` at the top of the pass, the packets pushed, and the indices at which
`hashMinMaxTable` and `mainProblem` are read. -/
structure WorkPass where
  subset : Nat
  pushed : List NodeSubset
  tableReads : List Nat
  mainReads : List Nat
  deriving DecidableEq, Repr

/-- The loop `while (true)` of `HashController::generateWork` as in `workLoop`, recording every
pass (`none` when the budget of passes, the first argument, is exhausted). -/
def workTrace (table : List MinMaxStep) (mainProblem : List Int) (mainNumbersNum : Nat) :
    Nat → Nat → Nat → Int → Option (List WorkPass)
  | 0, _, _, _ => none
  | fuel + 1, r, subset, sum =>
    let r1 := descend table sum r
    let pushed : List NodeSubset := if r1 = 0 then [{ sum := sum, subset := subset }] else []
    let rangeIndex := if r1 = 0 then 0 else r1 - 1
    let st := ascend mainProblem mainNumbersNum mainNumbersNum subset sum rangeIndex
    let reads := ascendReads mainNumbersNum mainNumbersNum subset rangeIndex
    if st.2.2 ≥ mainNumbersNum then
      some [{ subset := subset, pushed := pushed, tableReads := descendReads table sum r,
              mainReads := reads }]
    else
      (workTrace table mainProblem mainNumbersNum fuel (st.2.2 + 1)
        (st.1 ||| shl128 1 st.2.2) (add128 st.2.1 (rd mainProblem st.2.2))).map
        (fun rest => { subset := subset, pushed := pushed,
                       tableReads := descendReads table sum r,
                       mainReads := reads ++ [st.2.2] } :: rest)

/-! ## The SSE2 kernel `subsetSumNaiveMethodSSE2` (`NaiveMethodSSE2.cpp`) -/

/-- A value of type `__m128i`, as its two 64-bit lanes (`q0` holds the bits `0..63`), each an
unsigned number below `2^64`. -/
structure M128 where
  q0 : Nat
  q1 : Nat
  deriving DecidableEq, Repr

/-- `_mm_setzero_si128()`. -/
def _mm_setzero_si128 : M128 := { q0 := 0, q1 := 0 }

/-- `_mm_set1_epi64((__m64)x)` for a `gint64` `x`: both lanes hold the bits of `x`. -/
def _mm_set1_epi64 (x : Int) : M128 := { q0 := toU64 x, q1 := toU64 x }

/-- `_mm_set_epi64((__m64)x1, (__m64)x0)`: the first argument is the high lane. -/
def _mm_set_epi64 (x1 x0 : Int) : M128 := { q0 := toU64 x0, q1 := toU64 x1 }

/-- `_mm_add_epi64(a, b)`: addition modulo `2^64` in each lane. -/
def _mm_add_epi64 (a b : M128) : M128 :=
  { q0 := (a.q0 + b.q0) % 18446744073709551616, q1 := (a.q1 + b.q1) % 18446744073709551616 }

/-- `_mm_sub_epi64(a, b)`: subtraction modulo `2^64` in each lane. -/
def _mm_sub_epi64 (a b : M128) : M128 :=
  { q0 := (a.q0 + (18446744073709551616 - b.q0 % 18446744073709551616)) % 18446744073709551616,
    q1 := (a.q1 + (18446744073709551616 - b.q1 % 18446744073709551616)) % 18446744073709551616 }

/-- One 64-bit lane of `_mm_cmpeq_epi32`: each of its two 32-bit halves is all ones when the
halves of the operands are equal and zero otherwise. -/
def cmpeq32Lane (a b : Nat) : Nat :=
  (if a % 4294967296 = b % 4294967296 then 4294967295 else 0) +
  4294967296 *
    (if a / 4294967296 % 4294967296 = b / 4294967296 % 4294967296 then 4294967295 else 0)

/-- `_mm_cmpeq_epi32(a, b)`. -/
def _mm_cmpeq_epi32 (a b : M128) : M128 :=
  { q0 := cmpeq32Lane a.q0 b.q0, q1 := cmpeq32Lane a.q1 b.q1 }

/-- `_mm_srli_epi64(a, n)` for `n <= 63`: logical right shift of each lane. -/
def _mm_srli_epi64 (a : M128) (n : Nat) : M128 :=
  { q0 := a.q0 >>> n, q1 := a.q1 >>> n }

/-- `_mm_and_si128(a, b)`. -/
def _mm_and_si128 (a b : M128) : M128 := { q0 := a.q0 &&& b.q0, q1 := a.q1 &&& b.q1 }

/-- `_mm_or_si128(a, b)`. -/
def _mm_or_si128 (a b : M128) : M128 := { q0 := a.q0 ||| b.q0, q1 := a.q1 ||| b.q1 }

/-- `_mm_extract_epi16(a, imm)` for `imm < 8`: the 16-bit word number `imm`. -/
def _mm_extract_epi16 (a : M128) (imm : Nat) : Nat :=
  if imm < 4 then (a.q0 >>> (16 * imm)) % 65536 else (a.q1 >>> (16 * (imm - 4))) % 65536

/-- The vector constants `(v_k, s_k)` of `subsetSumNaiveMethodSSE2` after the block of
`_mm_add_epi64`/`_mm_sub_epi64` at its head: `v0` (also the running total `s0`), then
`v_k = set1(sumChanges[32+k]) - s_(k-1)` and `s_k = s_(k-1) + set1(sumChanges[32+k])`. -/
def naiveVSSSE2 (sumChanges : List Int) : Nat → M128 × M128
  | 0 => (_mm_set1_epi64 (rd sumChanges 32), _mm_set1_epi64 (rd sumChanges 32))
  | k + 1 =>
    let p := naiveVSSSE2 sumChanges k
    (_mm_sub_epi64 (_mm_set1_epi64 (rd sumChanges (32 + (k + 1)))) p.2,
     _mm_add_epi64 p.2 (_mm_set1_epi64 (rd sumChanges (32 + (k + 1)))))

/-- The addends of the macro `NAIVE_CORE_SSE2_k` in the order of its expansion (level 0 is the
single statement `sum = _mm_add_epi64(sum, v0)` with its test). -/
def naiveCoreSSE2 (v : Nat → M128) : Nat → List M128
  | 0 => [v 0]
  | k + 1 => naiveCoreSSE2 v k ++ [v (k + 1)] ++ naiveCoreSSE2 v k

/-- The update `tmpm = _mm_cmpeq_epi32(sum, zero);
find = _mm_or_si128(find, _mm_and_si128(_mm_srli_epi64(tmpm, 32), tmpm));`. -/
def findUpdateSSE2 (find sum : M128) : M128 :=
  let tmpm := _mm_cmpeq_epi32 sum _mm_setzero_si128
  _mm_or_si128 find (_mm_and_si128 (_mm_srli_epi64 tmpm 32) tmpm)

/-- One expanded triple `sum = _mm_add_epi64(sum, d); tmpm = ...; find = ...;` on the state
`(sum, find)`. -/
def naiveStepSSE2 (st : M128 × M128) (d : M128) : M128 × M128 :=
  (_mm_add_epi64 st.1 d, findUpdateSSE2 st.2 (_mm_add_epi64 st.1 d))

/-- The value of `find` at the end of the body of the loop over `current` in
`subsetSumNaiveMethodSSE2`. -/
def naiveFindSSE2 (sumChanges : List Int) (inputSum1 inputSum2 : Int) (current : Nat) : M128 :=
  let inputSums := _mm_set_epi64 inputSum2 inputSum1
  let sum := _mm_add_epi64 (_mm_set1_epi64 (rd sumChanges current)) inputSums
  ((naiveCoreSSE2 (fun k => (naiveVSSSE2 sumChanges k).1) 8).foldl naiveStepSSE2
    (sum, findUpdateSSE2 _mm_setzero_si128 sum)).2

/-- `subsetSumNaiveMethodSSE2(sumChanges, inputSum1, inputSum2, foundIndices)`: the found
indices in the order they are stored. -/
def subsetSumNaiveMethodSSE2 (sumChanges : List Int) (inputSum1 inputSum2 : Int) : List Nat :=
  (List.range 32).flatMap (fun current =>
    (if _mm_extract_epi16 (naiveFindSSE2 sumChanges inputSum1 inputSum2 current) 0 ≠ 0
      then [current] else []) ++
    (if _mm_extract_epi16 (naiveFindSSE2 sumChanges inputSum1 inputSum2 current) 4 ≠ 0
      then [current + 32] else []))

/-- The pattern held by a lane of `find`: all ones in the low half once a zero sum has been
seen. -/
def findMask (b : Bool) : Nat := if b then 4294967295 else 0

/-- The lanes of the vector state `(sum, find)` follow two runs of the scalar kernel. -/
def LaneSim (st : M128 × M128) (a b : Int × Bool) : Prop :=
  st.1.q0 = toU64 a.1 ∧ st.1.q1 = toU64 b.1 ∧
  st.2.q0 = findMask a.2 ∧ st.2.q1 = findMask b.2

/-- A `sumChanges` table of 41 entries: the prefix sums `1 .. 32` and the suffix values
`-1, -2, ..., -9`. -/
def exampleSumChanges : List Int :=
  (List.range 32).map (fun i => (i : Int) + 1) ++ (List.range 9).map (fun i => -((i : Int) + 1))

/-! ## `int128tostr` (`Int128.cpp`) -/

/-- The table `radix128Tbl[39]` as written in the source: the arguments `(lo, hi)` of
`Int128(guint64 lo, gint64 hi)`. -/
def radix128Tbl : List (Nat × Int) :=
  [(1, 0), (10, 0), (100, 0), (1000, 0), (10000, 0), (100000, 0), (1000000, 0), (10000000, 0),
   (100000000, 0), (1000000000, 0), (10000000000, 0), (100000000000, 0), (1000000000000, 0),
   (10000000000000, 0), (100000000000000, 0), (1000000000000000, 0), (10000000000000000, 0),
   (100000000000000000, 0), (1000000000000000000, 0), (10000000000000000000, 0),
   (7766279631452241920, 5), (3875820019684212736, 54), (1864712049423024128, 542),
   (200376420520689664, 5421), (2003764205206896640, 54210), (1590897978359414784, 542101),
   (15908979783594147840, 5421010), (11515845246265065472, 54210108),
   (4477988020393345024, 542101086), (7886392056514347008, 5421010862),
   (5076944270305263616, 54210108624), (13875954555633532928, 542101086242),
   (9632337040368467968, 5421010862427), (4089650035136921600, 54210108624275),
   (4003012203950112768, 542101086242752), (3136633892082024448, 5421010862427522),
   (12919594847110692864, 54210108624275221), (68739955140067328, 542101086242752217),
   (687399551400673280, 5421010862427522170)]

/-- The read `radix128Tbl[i]`, as the value of the `Int128`. -/
def radix128 (i : Nat) : Int :=
  (radix128Tbl.getD i (0, 0)).2 * 18446744073709551616 + ((radix128Tbl.getD i (0, 0)).1 : Int)

/-- The loop `for (; decIdx < 39 && radix128Tbl[decIdx] <= absVal; decIdx++);` of
`int128tostr`: the value of `decIdx` when it ends. The first argument bounds the number of
passes; 39 suffice since `decIdx` grows by one in each. -/
def decIdxLoop (absVal : Int) : Nat → Nat → Nat
  | 0, decIdx => decIdx
  | fuel + 1, decIdx =>
    if decIdx < 39 ∧ radix128 decIdx ≤ absVal then decIdxLoop absVal fuel (decIdx + 1)
    else decIdx

/-- The loop `for (guint x = xstart; x > 0; x >>= 1)` of `int128tostr` for `xstart = 2^(n-1)`
(`n` passes, with `x = 2^(n-1), ..., 2, 1`); state `(radixVal, absVal, digitVal)`, result
`(digitVal, absVal)`. -/
def digitLoop : Nat → Int → Int → Nat → Nat × Int
  | 0, _, absVal, digitVal => (digitVal, absVal)
  | n + 1, radixVal, absVal, digitVal =>
    if radixVal ≤ absVal then
      digitLoop n (radixVal / 2) (sub128 absVal radixVal) (digitVal ||| 2 ^ n)
    else digitLoop n (radixVal / 2) absVal digitVal

/-- The loop `for (; decIdx >= 0; decIdx--)` of `int128tostr`, entered with `decIdx = n - 1`:
the characters appended to `out`. -/
def tostrLoop : Nat → Int → List Char
  | 0, _ => []
  | decIdx + 1, absVal =>
    let r := if decIdx ≠ 38 then digitLoop 4 (wrap128 (radix128 decIdx * 2 ^ 3)) absVal 0
      else digitLoop 1 (radix128 decIdx) absVal 0
    Char.ofNat ((48 + r.1) % 256) :: tostrLoop decIdx r.2

/-- `int128tostr(value)`. -/
def int128tostr (value : Int) : List Char :=
  let isneg : Bool := value < 0
  let absVal := if isneg then neg128 value else value
  if value = -170141183460469231731687303715884105728 then
    "-170141183460469231731687303715884105728".toList
  else
    let decIdx := decIdxLoop absVal 39 0
    if decIdx = 0 then ['0']
    else (if isneg then ['-'] else []) ++ tostrLoop decIdx absVal

/-- The characters are decimal digits. -/
def AllDigits (s : List Char) : Prop := ∀ c ∈ s, 48 ≤ c.toNat ∧ c.toNat ≤ 57

instance (s : List Char) : Decidable (AllDigits s) := by
  unfold AllDigits; infer_instance

/-- The canonical decimal representation of `v`: a `-` for a negative value, then the decimal
digits of `|v|` without a leading zero (the single digit `0` for zero). -/
def CanonicalDecimal (v : Int) (s : List Char) : Prop :=
  ∃ ds, s = (if v < 0 then ['-'] else []) ++ ds ∧ AllDigits ds ∧ ds ≠ [] ∧
    (ds.head? = some '0' → ds = ['0']) ∧ decimalValue ds = |v|

/-! ## Theorems -/

theorem wrap128_add_left (a b : Int) : wrap128 (wrap128 a + b) = wrap128 (a + b) := by
  unfold wrap128; omega

theorem wrap128_sub_left (a b : Int) : wrap128 (wrap128 a - b) = wrap128 (a - b) := by
  unfold wrap128; omega

theorem wrap128_idem (a : Int) : wrap128 (wrap128 a) = wrap128 a := by
  unfold wrap128; omega

theorem wrap128_of_range (a : Int) (h : IsInt128 a) : wrap128 a = a := by
  unfold IsInt128 at h; unfold wrap128; omega

theorem wrap128_range (a : Int) : IsInt128 (wrap128 a) := by
  unfold IsInt128 wrap128; omega

theorem shl128_one (i : Nat) (h : i < 128) : shl128 1 i = 2 ^ i := by
  unfold shl128
  rw [Nat.one_shiftLeft]
  apply Nat.mod_eq_of_lt
  calc 2 ^ i < 2 ^ 128 := Nat.pow_lt_pow_right (by decide) h
    _ = 340282366920938463463374607431768211456 := by norm_num

theorem shl128_one_ge (i : Nat) (h : 128 ≤ i) : shl128 1 i = 0 := by
  unfold shl128
  rw [Nat.one_shiftLeft]
  obtain ⟨d, rfl⟩ := Nat.exists_eq_add_of_le h
  rw [Nat.pow_add]
  have : (2:Nat) ^ 128 = 340282366920938463463374607431768211456 := by norm_num
  rw [this]; exact Nat.mul_mod_right _ _

theorem and_two_pow_ne_zero (x i : Nat) : ((x &&& 2 ^ i) != 0) = x.testBit i := by
  cases h : x.testBit i
  · have : x &&& 2 ^ i = 0 := by
      apply Nat.eq_of_testBit_eq
      intro j
      rw [Nat.testBit_and, Nat.testBit_two_pow, Nat.zero_testBit]
      by_cases hij : i = j
      · subst hij; simp [h]
      · simp [hij]
    simp [this]
  · have h1 : (x &&& 2 ^ i).testBit i = true := by
      rw [Nat.testBit_and, Nat.testBit_two_pow_self, h]; rfl
    have : x &&& 2 ^ i ≠ 0 := by
      intro h0; rw [h0, Nat.zero_testBit] at h1; exact Bool.noConfusion h1
    simp [this]

theorem bitSet_lt (x i : Nat) (h : i < 128) : bitSet x i = x.testBit i := by
  unfold bitSet; rw [shl128_one i h]; exact and_two_pow_ne_zero x i

theorem bitSet_ge (x i : Nat) (h : 128 ≤ i) : bitSet x i = false := by
  unfold bitSet; rw [shl128_one_ge i h]; simp

theorem rd_nil (i : Nat) : rd [] i = 0 := by simp [rd]

theorem rd_cons_succ (x : Int) (xs : List Int) (i : Nat) : rd (x :: xs) (i + 1) = rd xs i := by
  simp [rd]

theorem rd_cons_zero (x : Int) (xs : List Int) : rd (x :: xs) 0 = x := by
  simp [rd]

/-- The recursive selection sum is the sum over bit positions. -/
theorem selSum_eq_sum (nums : List Int) : ∀ (B n : Nat), nums.length ≤ n →
    selSum nums B = ∑ i in Finset.range n, (if B.testBit i then rd nums i else 0) := by
  induction nums with
  | nil =>
    intro B n _
    simp [selSum, rd_nil]
  | cons x xs ih =>
    intro B n hn
    obtain ⟨m, rfl⟩ : ∃ m, n = m + 1 := ⟨n - 1, by simp at hn; omega⟩
    rw [Finset.sum_range_succ', selSum, ih (B / 2) m (by simp at hn; omega)]
    simp only [Nat.testBit_succ, rd_cons_succ, rd_cons_zero, Nat.testBit_zero]
    rw [add_comm]
    congr 1
    by_cases h : B % 2 = 1 <;> simp [h]

/-- Position of the lowest set bit of a positive number and the bits of its predecessor. -/
theorem lowbit (s : Nat) (hs : 0 < s) : ∃ k,
    (∀ i, i < k → s.testBit i = false ∧ (s - 1).testBit i = true) ∧
    s.testBit k = true ∧ (s - 1).testBit k = false ∧
    (∀ i, k < i → (s - 1).testBit i = s.testBit i) := by
  induction s using Nat.strong_induction_on with
  | _ s ih =>
    by_cases hodd : s % 2 = 1
    · refine ⟨0, ?_, ?_, ?_, ?_⟩
      · intro i hi; omega
      · simp [Nat.testBit_zero, hodd]
      · simp [Nat.testBit_zero]; omega
      · intro i hi
        obtain ⟨j, rfl⟩ : ∃ j, i = j + 1 := ⟨i - 1, by omega⟩
        rw [Nat.testBit_succ, Nat.testBit_succ]
        have : (s - 1) / 2 = s / 2 := by omega
        rw [this]
    · obtain ⟨k, h1, h2, h3, h4⟩ := ih (s / 2) (by omega) (by omega)
      have hpred : (s - 1) / 2 = s / 2 - 1 := by omega
      refine ⟨k + 1, ?_, ?_, ?_, ?_⟩
      · intro i hi
        cases i with
        | zero =>
          constructor
          · simp [Nat.testBit_zero]; omega
          · simp [Nat.testBit_zero]; omega
        | succ j =>
          rw [Nat.testBit_succ, Nat.testBit_succ, hpred]
          exact h1 j (by omega)
      · rw [Nat.testBit_succ]; exact h2
      · rw [Nat.testBit_succ, hpred]; exact h3
      · intro i hi
        obtain ⟨j, rfl⟩ : ∃ j, i = j + 1 := ⟨i - 1, by omega⟩
        rw [Nat.testBit_succ, Nat.testBit_succ, hpred]
        exact h4 j (by omega)

theorem sum_range_diff (f g r : Nat → Int) (k : Nat)
    (h1 : ∀ i, i < k → f i - g i = - r i) (h2 : f k - g k = r k)
    (h3 : ∀ i, k < i → f i = g i) :
    ∀ n, k + 1 ≤ n →
      ∑ i in Finset.range n, f i - ∑ i in Finset.range n, g i =
        r k - ∑ i in Finset.range k, r i := by
  intro n hn
  induction n, hn using Nat.le_induction with
  | base =>
    rw [Finset.sum_range_succ, Finset.sum_range_succ]
    have : ∑ i in Finset.range k, f i - ∑ i in Finset.range k, g i
        = - ∑ i in Finset.range k, r i := by
      rw [← Finset.sum_sub_distrib, ← Finset.sum_neg_distrib]
      apply Finset.sum_congr rfl
      intro i hi
      exact h1 i (Finset.mem_range.mp hi)
    linarith
  | succ n hn ih =>
    rw [Finset.sum_range_succ, Finset.sum_range_succ, h3 n (by omega)]
    linarith

/-- Going from `s - 1` to `s` adds the element at the lowest set bit `k` of `s` and removes
the elements below it. -/
theorem selSum_succ_diff (nums : List Int) (s k : Nat)
    (h1 : ∀ i, i < k → s.testBit i = false ∧ (s - 1).testBit i = true)
    (h2 : s.testBit k = true) (h3 : (s - 1).testBit k = false)
    (h4 : ∀ i, k < i → (s - 1).testBit i = s.testBit i) :
    selSum nums s - selSum nums (s - 1) = rd nums k - ∑ i in Finset.range k, rd nums i := by
  rw [selSum_eq_sum nums s (nums.length + k + 1) (by omega),
    selSum_eq_sum nums (s - 1) (nums.length + k + 1) (by omega)]
  apply sum_range_diff _ _ (fun i => rd nums i) k _ _ _ _ (by omega)
  · intro i hi
    simp [(h1 i hi).1, (h1 i hi).2]
  · simp [h2, h3]
  · intro i hi
    simp [h4 i hi]

theorem selSum_zero (nums : List Int) : selSum nums 0 = 0 := by
  induction nums with
  | nil => rfl
  | cons x xs ih => simp [selSum, ih]

theorem toggleLoop_succ (nums : List Int) (s ch fuel b : Nat) (sum : Int) :
    toggleLoop nums s ch (fuel + 1) b sum =
      if bitSet ch b then
        toggleLoop nums s ch fuel (b + 1)
          (if bitSet s b then add128 sum (rd nums b) else sub128 sum (rd nums b))
      else sum := rfl

/-- One run of the toggle loop (with limit `lim` on `bitNum`) when `changes` has exactly the
bits `0..k` set below `k+2` and `subset` has bit `k` set and the bits below it clear. -/
theorem toggleLoop_run (nums : List Int) (s ch k lim : Nat) (hk : k < lim) (hlim : lim ≤ 128)
    (hch : ∀ i, i ≤ k → ch.testBit i = true) (hch1 : ch.testBit (k + 1) = false)
    (hs : ∀ i, i < k → s.testBit i = false) (hsk : s.testBit k = true) :
    ∀ (d b : Nat) (A : Int), b + d = k →
      toggleLoop nums s ch (lim - b) b (wrap128 A) =
        wrap128 (A + rd nums k - ∑ i in Finset.Ico b k, rd nums i) := by
  intro d
  induction d with
  | zero =>
    intro b A hb
    have hbk : b = k := by omega
    subst hbk
    obtain ⟨m, hm⟩ : ∃ m, lim - b = m + 1 := ⟨lim - 1 - b, by omega⟩
    rw [hm, toggleLoop_succ, bitSet_lt _ _ (by omega), hch b (le_refl _),
      bitSet_lt _ _ (by omega), hsk]
    simp only [if_true, Finset.Ico_self, Finset.sum_empty, sub_zero]
    have hadd : add128 (wrap128 A) (rd nums b) = wrap128 (A + rd nums b) := by
      unfold add128; exact wrap128_add_left _ _
    cases m with
    | zero => simp [toggleLoop, hadd]
    | succ m =>
      rw [toggleLoop_succ, bitSet_lt _ _ (by omega), hch1]
      simp [hadd]
  | succ d ih =>
    intro b A hb
    have hbk : b < k := by omega
    obtain ⟨m, hm⟩ : ∃ m, lim - b = m + 1 := ⟨lim - 1 - b, by omega⟩
    have hm' : m = lim - (b + 1) := by omega
    rw [hm, toggleLoop_succ, bitSet_lt _ _ (by omega), hch b (by omega),
      bitSet_lt _ _ (by omega), hs b hbk]
    simp only [if_true, Bool.false_eq_true, if_false]
    have hsub : sub128 (wrap128 A) (rd nums b) = wrap128 (A - rd nums b) := by
      unfold sub128; exact wrap128_sub_left _ _
    rw [hsub, hm', ih (b + 1) (A - rd nums b) (by omega), Finset.sum_eq_sum_Ico_succ_bot hbk]
    congr 1
    ring

theorem two_pow_128 : (2 : Nat) ^ 128 = 340282366920938463463374607431768211456 := by norm_num

/-- The toggle loop turns the 128-bit sum of subset `s - 1` into the 128-bit sum of `s`. -/
theorem toggleLoop_step (nums : List Int) (s lim : Nat) (hs : 0 < s) (hlt : s < 2 ^ lim)
    (hlim : lim ≤ 128) :
    toggleLoop nums s ((s - 1) ^^^ s) lim 0 (wrap128 (selSum nums (s - 1))) =
      wrap128 (selSum nums s) := by
  obtain ⟨k, h1, h2, h3, h4⟩ := lowbit s hs
  have hk : k < lim := by
    by_contra hge
    have : s < 2 ^ k := lt_of_lt_of_le hlt (Nat.pow_le_pow_right (by decide) (by omega))
    rw [Nat.testBit_lt_two_pow this] at h2
    exact Bool.noConfusion h2
  have hrun := toggleLoop_run nums s ((s - 1) ^^^ s) k lim hk hlim
    (by
      intro i hi
      rw [Nat.testBit_xor]
      rcases Nat.lt_or_eq_of_le hi with hlt | heq
      · rw [(h1 i hlt).1, (h1 i hlt).2]; rfl
      · subst heq; rw [h2, h3]; rfl)
    (by rw [Nat.testBit_xor, h4 (k + 1) (by omega)]; simp)
    (fun i hi => (h1 i hi).1) h2 k 0 (selSum nums (s - 1)) (by omega)
  rw [Nat.sub_zero] at hrun
  rw [hrun, ← Finset.range_eq_Ico]
  congr 1
  have := selSum_succ_diff nums s k h1 h2 h3 h4
  linarith

theorem solveSmallLoop_eq (nums : List Int) (N : Nat) (hN : N ≤ 127) :
    ∀ (j s : Nat), 1 ≤ s → s + j = 2 ^ N →
      solveSmallLoop nums (2 ^ N) (j + 1) s (s - 1) (wrap128 (selSum nums (s - 1))) =
        some ((List.range' s j).filter (fun B => decide (selSum128 nums B = 0))) := by
  have hpow : 2 ^ N < 2 ^ 128 := Nat.pow_lt_pow_right (by decide) (by omega)
  intro j
  induction j with
  | zero =>
    intro s _ hs
    simp [solveSmallLoop, hs.symm]
  | succ j ih =>
    intro s hs1 hs
    have hne : s ≠ 2 ^ N := by omega
    have hinc : inc128 s = s + 1 := by
      unfold inc128; rw [← two_pow_128]; exact Nat.mod_eq_of_lt (by omega)
    rw [solveSmallLoop]
    simp only [hne, if_false]
    rw [toggleLoop_step nums s 128 (by omega) (by omega) (le_refl _), hinc]
    have := ih (s + 1) (by omega) (by omega)
    rw [Nat.add_sub_cancel] at this
    rw [this, List.range'_succ, List.filter_cons]
    simp only [Option.map_some', selSum128]
    by_cases h0 : wrap128 (selSum nums s) = 0 <;> simp [h0]

/-- C3. For every problem with at most 16 elements `solveSmallProblem` terminates and calls
`putSolution` exactly once for each bitmask `B` in `[1, 2^N)` whose selected elements sum to
zero in 128-bit arithmetic, in increasing order of `B`, and for no other bitmask; for the input
`{1,-1}` the only mask emitted is `11` (binary). -/
theorem C3_solveSmallProblem :
    (∀ numbers : List Int, 1 ≤ numbers.length → numbers.length ≤ 16 →
      solveSmallProblem numbers =
        some ((List.range' 1 (2 ^ numbers.length - 1)).filter
          (fun B => decide (selSum128 numbers B = 0)))) ∧
    solveSmallProblem [1, -1] = some [3] := by
  refine ⟨?_, by decide⟩
  intro numbers _ h16
  unfold solveSmallProblem
  rw [shl128_one _ (by omega)]
  have hpos : 0 < 2 ^ numbers.length := Nat.pow_pos (by decide)
  have := solveSmallLoop_eq numbers numbers.length (by omega) (2 ^ numbers.length - 1) 1
    (le_refl _) (by omega)
  rw [Nat.sub_add_cancel hpos] at this
  simpa [selSum_zero, wrap128] using this

theorem C3_solveSmallProblem_witness :
    solveSmallProblem [3, -3, 7] =
      some ((List.range' 1 (2 ^ [3, -3, (7 : Int)].length - 1)).filter
        (fun B => decide (selSum128 [3, -3, 7] B = 0))) :=
  C3_solveSmallProblem.1 [3, -3, 7] (by decide) (by decide)

theorem negS_nonpos (numbers : List NumberEntry) (start : Nat) :
    ∀ count, negS numbers start count ≤ 0 := by
  intro count
  induction count with
  | zero => simp [negS]
  | succ n ih => simp only [negS]; omega

theorem posS_nonneg (numbers : List NumberEntry) (start : Nat) :
    ∀ count, 0 ≤ posS numbers start count := by
  intro count
  induction count with
  | zero => simp [posS]
  | succ n ih => simp only [posS]; omega

theorem negS_add (numbers : List NumberEntry) (start a : Nat) :
    ∀ b, negS numbers start (a + b) = negS numbers start a + negS numbers (start + a) b := by
  intro b
  induction b with
  | zero => simp [negS]
  | succ n ih => rw [← Nat.add_assoc, negS, negS, ih, Nat.add_assoc]; omega

theorem posS_add (numbers : List NumberEntry) (start a : Nat) :
    ∀ b, posS numbers start (a + b) = posS numbers start a + posS numbers (start + a) b := by
  intro b
  induction b with
  | zero => simp [posS]
  | succ n ih => rw [← Nat.add_assoc, posS, posS, ih, Nat.add_assoc]; omega

theorem negS_one (numbers : List NumberEntry) (start : Nat) :
    negS numbers start 1 = min (num numbers start) 0 := by
  simp [negS]

theorem posS_one (numbers : List NumberEntry) (start : Nat) :
    posS numbers start 1 = max (num numbers start) 0 := by
  simp [posS]


theorem ascending_le (numbers : List NumberEntry) (hs : Ascending numbers) :
    ∀ i j, i ≤ j → j < numbers.length → num numbers i ≤ num numbers j := by
  intro i j hij hj
  induction j, hij using Nat.le_induction with
  | base => exact le_refl _
  | succ k hk ih =>
    exact le_trans (ih (by omega)) (hs k (by omega))

theorem negS_eq_zero_of_pos (numbers : List NumberEntry) (hs : Ascending numbers)
    (start : Nat) (hpos : 0 < num numbers start) :
    ∀ count, start + count ≤ numbers.length → negS numbers start count = 0 := by
  intro count
  induction count with
  | zero => intro _; rfl
  | succ n ih =>
    intro h
    have := ascending_le numbers hs start (start + n) (by omega) (by omega)
    rw [negS, ih (by omega)]
    omega

theorem posS_eq_zero_of_neg (numbers : List NumberEntry) (hs : Ascending numbers)
    (start : Nat) :
    ∀ count, start + count ≤ numbers.length → 1 ≤ count →
      num numbers (start + count - 1) < 0 → posS numbers start count = 0 := by
  intro count
  induction count with
  | zero => intro _ h; omega
  | succ n ih =>
    intro h _ hneg
    rw [posS]
    have hlast : start + (n + 1) - 1 = start + n := by omega
    rw [hlast] at hneg
    rcases Nat.eq_zero_or_pos n with h0 | hn
    · subst h0
      simp only [posS, Nat.add_zero] at hneg ⊢
      omega
    · have := ascending_le numbers hs (start + n - 1) (start + n) (by omega) (by omega)
      rw [ih (by omega) hn (by omega)]
      omega

theorem negS_le_first (numbers : List NumberEntry) (start count : Nat) (hc : 1 ≤ count) :
    negS numbers start count ≤ min (num numbers start) 0 := by
  obtain ⟨r, rfl⟩ : ∃ r, count = 1 + r := ⟨count - 1, by omega⟩
  rw [negS_add, negS_one]
  have := negS_nonpos numbers (start + 1) r
  omega

theorem posS_ge_last (numbers : List NumberEntry) (start count : Nat) (hc : 1 ≤ count) :
    max (num numbers (start + count - 1)) 0 ≤ posS numbers start count := by
  obtain ⟨r, rfl⟩ : ∃ r, count = r + 1 := ⟨count - 1, by omega⟩
  rw [posS]
  have := posS_nonneg numbers start r
  have : start + (r + 1) - 1 = start + r := by omega
  rw [this]
  omega

theorem negS_succ_left (numbers : List NumberEntry) (start count : Nat) :
    negS numbers start (count + 1) = min (num numbers start) 0 + negS numbers (start + 1) count := by
  rw [Nat.add_comm count 1, negS_add, negS_one]

theorem posS_succ_left (numbers : List NumberEntry) (start count : Nat) :
    posS numbers start (count + 1) = max (num numbers start) 0 + posS numbers (start + 1) count := by
  rw [Nat.add_comm count 1, posS_add, posS_one]

/-- A window's negative sum is bounded below by the total over the whole array. -/
theorem negS_window_ge (numbers : List NumberEntry) (start count : Nat)
    (h : start + count ≤ numbers.length) :
    negS numbers 0 numbers.length ≤ negS numbers start count := by
  obtain ⟨r, hr⟩ := Nat.exists_eq_add_of_le h
  have h1 := negS_add numbers 0 (start + count) r
  have h2 := negS_add numbers 0 start count
  rw [← hr] at h1
  simp only [Nat.zero_add] at h1 h2
  have := negS_nonpos numbers 0 start
  have := negS_nonpos numbers (start + count) r
  omega

theorem posS_window_le (numbers : List NumberEntry) (start count : Nat)
    (h : start + count ≤ numbers.length) :
    posS numbers start count ≤ posS numbers 0 numbers.length := by
  obtain ⟨r, hr⟩ := Nat.exists_eq_add_of_le h
  have h1 := posS_add numbers 0 (start + count) r
  have h2 := posS_add numbers 0 start count
  rw [← hr] at h1
  simp only [Nat.zero_add] at h1 h2
  have := posS_nonneg numbers 0 start
  have := posS_nonneg numbers (start + count) r
  omega

/-- Without overflow the summation loop computes the exact sums. -/
theorem rangeSums_eq (numbers : List NumberEntry) (start : Nat) :
    ∀ count, -maxInt128 ≤ negS numbers start count → posS numbers start count ≤ maxInt128 →
      rangeSums numbers start count = (negS numbers start count, posS numbers start count) := by
  intro count
  induction count with
  | zero => intro _ _; rfl
  | succ n ih =>
    intro hneg hpos
    have hn0 := negS_nonpos numbers start n
    have hp0 := posS_nonneg numbers start n
    rw [negS] at hneg
    rw [posS] at hpos
    have hrec := ih (by omega) (by omega)
    unfold maxInt128 at hneg hpos
    rw [rangeSums, negS, posS]
    simp only [hrec]
    by_cases hx : num numbers (start + n) < 0
    · simp only [hx, if_true]
      unfold add128
      rw [wrap128_of_range _ (by unfold IsInt128; omega)]
      congr 1 <;> omega
    · by_cases hx2 : num numbers (start + n) > 0
      · simp only [hx, hx2, if_true, if_false]
        unfold add128
        rw [wrap128_of_range _ (by unfold IsInt128; omega)]
        congr 1 <;> omega
      · simp only [hx, hx2, if_false]
        congr 1 <;> omega

theorem rangeForRegion_eq (numbers : List NumberEntry) (start count : Nat)
    (hneg : -maxInt128 ≤ negS numbers start count) (hpos : posS numbers start count ≤ maxInt128) :
    rangeForRegion numbers start count = windowPair numbers start count := by
  unfold rangeForRegion windowPair
  rw [rangeSums_eq numbers start count hneg hpos]

theorem rangeForRegion_eq_of_valid (numbers : List NumberEntry) (hv : NoSignOverflow numbers)
    (start count : Nat) (h : start + count ≤ numbers.length) :
    rangeForRegion numbers start count = windowPair numbers start count := by
  apply rangeForRegion_eq
  · exact le_trans hv.2 (negS_window_ge numbers start count h)
  · exact le_trans (posS_window_le numbers start count h) hv.1

theorem add128_exact (a b : Int) (h1 : -maxInt128 ≤ a + b)
    (h2 : a + b ≤ maxInt128) : add128 a b = a + b := by
  unfold maxInt128 at h1 h2; unfold add128 wrap128; omega

theorem sub128_exact (a b : Int) (h1 : -maxInt128 ≤ a - b)
    (h2 : a - b ≤ maxInt128) : sub128 a b = a - b := by
  unfold maxInt128 at h1 h2; unfold sub128 wrap128; omega

theorem neg128_exact (a : Int) (h1 : -maxInt128 ≤ a)
    (h2 : a ≤ maxInt128) : neg128 a = -a := by
  unfold maxInt128 at h1 h2; unfold neg128 wrap128; omega

theorem maxInt128_pos : 0 < maxInt128 := by unfold maxInt128; omega

/-- Arithmetic of one pass of the sliding loop: `a` leaves the window, `b` enters it, `c` and
`d` are the first and last of the elements that stay, `nm` and `pm` their negative and
positive sums. -/
theorem slide_arith (a c d b nm pm : Int)
    (hac : a ≤ c) (hcd : c ≤ d) (hdb : d ≤ b)
    (ha : a ≠ 0) (hb : b ≠ 0) (_hc : c ≠ 0) (hd : d ≠ 0)
    (hnm0 : nm ≤ 0) (hpm0 : 0 ≤ pm)
    (hnmc : nm ≤ min c 0) (hnmz : 0 < c → nm = 0)
    (hpmd : max d 0 ≤ pm) (hpmz : d < 0 → pm = 0)
    (hlo : -maxInt128 ≤ min a 0 + nm + min b 0)
    (hhi : max a 0 + pm + max b 0 ≤ maxInt128)
    (mn mx : Int)
    (hmn : mn = if min a 0 + nm = 0 then a else min a 0 + nm)
    (hmx : mx = if max a 0 + pm = 0 then d else max a 0 + pm) :
    (let minVal := if a < 0 then sub128 mn a else mn
     let minVal := if minVal ≥ 0 then c else minVal
     let maxVal1 := if b > 0 then (if mx > 0 then add128 mx b else mx) else mx
     let minVal := if b > 0 then minVal else (if minVal < 0 then add128 minVal b else minVal)
     let maxVal := if maxVal1 < 0 then b
       else if a > 0 then sub128 maxVal1 a else maxVal1
     (minVal, maxVal)) =
    (if nm + min b 0 = 0 then c else nm + min b 0,
     if pm + max b 0 = 0 then b else pm + max b 0) := by
  have hM := maxInt128_pos
  rcases lt_or_gt_of_ne ha with ha' | ha'
  · -- the leaving element is negative
    have hmn' : mn = a + nm := by
      rw [hmn, if_neg (by omega)]; omega
    have e1 : sub128 mn a = nm := by
      rw [hmn', sub128_exact _ _ (by omega) (by omega)]; omega
    have hmx' : mx = if pm = 0 then d else pm := by
      rw [hmx]; have : max a 0 + pm = pm := by omega
      rw [this]
    rcases lt_or_gt_of_ne hb with hb' | hb'
    · -- everything is negative
      have hpm : pm = 0 := hpmz (by omega)
      have hnm : nm < 0 := by omega
      have e2 : add128 nm b = nm + b := add128_exact _ _ (by omega) (by omega)
      have hmx2 : mx = d := by rw [hmx', if_pos hpm]
      simp only [ha', if_true, e1, ge_iff_le, not_le.mpr hnm, if_false,
        not_lt.mpr (le_of_lt hb'), gt_iff_lt, hnm, e2, hmx2, (by omega : d < 0)]
      congr 1
      · rw [if_neg (by omega)]; omega
      · rw [if_pos (by omega)]
    · rcases lt_or_gt_of_ne hd with hd' | hd'
      · -- the entering element is the only positive one
        have hpm : pm = 0 := hpmz hd'
        have hnm : nm < 0 := by omega
        have hmx2 : mx = d := by rw [hmx', if_pos hpm]
        simp only [ha', if_true, e1, ge_iff_le, not_le.mpr hnm, if_false, gt_iff_lt, hb',
          hmx2, not_lt.mpr (le_of_lt hd'), hd']
        congr 1
        · rw [if_neg (by omega)]; omega
        · rw [if_neg (by omega)]; omega
      · have hpm : 0 < pm := by omega
        have hmx2 : mx = pm := by rw [hmx', if_neg (by omega)]
        have e3 : add128 pm b = pm + b := add128_exact _ _ (by omega) (by omega)
        simp only [ha', if_true, e1, ge_iff_le, gt_iff_lt, hb', hmx2, hpm, e3,
          not_lt.mpr (le_of_lt ha'), if_false, not_lt.mpr (by omega : (0:Int) ≤ pm + b)]
        congr 1
        · by_cases hn : nm = 0
          · rw [if_pos (by omega), if_pos (by omega)]
          · rw [if_neg (by omega), if_neg (by omega)]; omega
        · rw [if_neg (by omega)]; omega
  · -- everything is positive
    have hnm : nm = 0 := hnmz (by omega)
    have hmn' : mn = a := by
      rw [hmn, if_pos (by omega)]
    have hpm : 0 < pm := by omega
    have hmx' : mx = a + pm := by
      rw [hmx, if_neg (by omega)]; omega
    have hb' : 0 < b := by omega
    have e3 : add128 (a + pm) b = a + pm + b := add128_exact _ _ (by omega) (by omega)
    have e4 : sub128 (a + pm + b) a = pm + b := by
      rw [sub128_exact _ _ (by omega) (by omega)]; omega
    simp only [not_lt.mpr (le_of_lt ha'), if_false, hmn', ge_iff_le, le_of_lt ha', if_true,
      gt_iff_lt, hb', hmx', (by omega : 0 < a + pm), e3,
      not_lt.mpr (by omega : (0:Int) ≤ a + pm + b), ha', e4]
    congr 1
    · rw [if_pos (by omega)]
    · rw [if_neg (by omega)]; omega

theorem slideMinMax_eq (numbers : List NumberEntry) (hs : Ascending numbers)
    (hz : ZeroFree numbers) (hv : NoSignOverflow numbers) (q V : Nat)
    (hin : q + 1 + (V + 2) ≤ numbers.length) :
    slideMinMax (V + 2) numbers (q + 1) (windowPair numbers q (V + 2)).1
      (windowPair numbers q (V + 2)).2 = windowPair numbers (q + 1) (V + 2) := by
  have hle := ascending_le numbers hs
  have e1 : q + 1 - 1 = q := by omega
  have e2 : q + 1 + (V + 2) - 1 = q + 1 + (V + 1) := by omega
  have e3 : q + (V + 2) - 1 = q + 1 + V := by omega
  have n1 : negS numbers q (V + 2) = min (num numbers q) 0 + negS numbers (q + 1) (V + 1) :=
    negS_succ_left numbers q (V + 1)
  have n2 : negS numbers (q + 1) (V + 2)
      = negS numbers (q + 1) (V + 1) + min (num numbers (q + 1 + (V + 1))) 0 := rfl
  have p1 : posS numbers q (V + 2) = max (num numbers q) 0 + posS numbers (q + 1) (V + 1) :=
    posS_succ_left numbers q (V + 1)
  have p2 : posS numbers (q + 1) (V + 2)
      = posS numbers (q + 1) (V + 1) + max (num numbers (q + 1 + (V + 1))) 0 := rfl
  have hlo : -maxInt128 ≤ negS numbers q (V + 3) :=
    le_trans hv.2 (negS_window_ge numbers q (V + 3) (by omega))
  have hhi : posS numbers q (V + 3) ≤ maxInt128 :=
    le_trans (posS_window_le numbers q (V + 3) (by omega)) hv.1
  have n3 : negS numbers q (V + 3) = negS numbers q (V + 2)
      + min (num numbers (q + (V + 2))) 0 := rfl
  have p3 : posS numbers q (V + 3) = posS numbers q (V + 2)
      + max (num numbers (q + (V + 2))) 0 := rfl
  have e4 : q + (V + 2) = q + 1 + (V + 1) := by omega
  rw [n3, n1, e4] at hlo
  rw [p3, p1, e4] at hhi
  have hd := posS_ge_last numbers (q + 1) (V + 1) (by omega)
  have hdz := posS_eq_zero_of_neg numbers hs (q + 1) (V + 1) (by omega) (by omega)
  have e5 : q + 1 + (V + 1) - 1 = q + 1 + V := by omega
  rw [e5] at hd hdz
  have key := slide_arith (num numbers q) (num numbers (q + 1)) (num numbers (q + 1 + V))
    (num numbers (q + 1 + (V + 1))) (negS numbers (q + 1) (V + 1)) (posS numbers (q + 1) (V + 1))
    (hle _ _ (by omega) (by omega)) (hle _ _ (by omega) (by omega))
    (hle _ _ (by omega) (by omega))
    (hz _ (by omega)) (hz _ (by omega)) (hz _ (by omega)) (hz _ (by omega))
    (negS_nonpos _ _ _) (posS_nonneg _ _ _)
    (negS_le_first numbers (q + 1) (V + 1) (by omega))
    (fun h => negS_eq_zero_of_pos numbers hs (q + 1) h (V + 1) (by omega))
    hd hdz hlo hhi
    (windowPair numbers q (V + 2)).1 (windowPair numbers q (V + 2)).2
    (by simp only [windowPair, n1])
    (by simp only [windowPair, p1, e3])
  unfold slideMinMax
  simp only [e1, e2]
  rw [key]
  simp only [windowPair, n2, p2, e2]

theorem regionSlide_pair (numbers : List NumberEntry) (hs : Ascending numbers)
    (hz : ZeroFree numbers) (hv : NoSignOverflow numbers) (V : Nat) :
    ∀ k, k + (V + 2) ≤ numbers.length →
      ((regionSlide (V + 2) numbers k).minVal, (regionSlide (V + 2) numbers k).maxVal)
        = windowPair numbers k (V + 2) := by
  intro k
  induction k with
  | zero =>
    intro h
    simp only [regionSlide, regionInit]
    rw [rangeForRegion_eq_of_valid numbers hv 0 (V + 2) (by omega)]
  | succ k ih =>
    intro h
    have hprev := ih (by omega)
    have hstep := slideMinMax_eq numbers hs hz hv k V (by omega)
    rw [← hprev] at hstep
    simp only at hstep
    rw [← hstep]
    simp only [regionSlide]
    split_ifs <;> rfl

theorem regionRefSlide_eq (numbers : List NumberEntry) (hs : Ascending numbers)
    (hz : ZeroFree numbers) (hv : NoSignOverflow numbers) (V : Nat) :
    ∀ k, k + (V + 2) ≤ numbers.length →
      regionRefSlide (V + 2) numbers k
        = ((regionSlide (V + 2) numbers k).bestRange, (regionSlide (V + 2) numbers k).bestPos) := by
  intro k
  induction k with
  | zero =>
    intro _
    simp only [regionRefSlide, regionSlide, regionInit]
  | succ k ih =>
    intro h
    have hprev := regionSlide_pair numbers hs hz hv V k (by omega)
    have hstep := slideMinMax_eq numbers hs hz hv k V (by omega)
    rw [← hprev] at hstep
    simp only at hstep
    simp only [regionRefSlide, regionSlide, ih (by omega),
      rangeForRegion_eq_of_valid numbers hv (k + 1) (V + 2) (by omega), hstep]
    split_ifs <;> rfl

/-- C9 (as amended). For every ascending array of non-zero values whose per-sign sums do not
overflow and every region size `W` with `2 ≤ W ≤ N - 2`, the incremental
`smallestRangeRegion` returns the same position as `smallestRangeRegionReference`, and at every
visited position `pos` the running pair `(minVal, maxVal)` equals the pair recomputed from the
window's elements. -/
theorem C9_smallestRangeRegion_incremental (numbers : List NumberEntry) (W : Nat)
    (hs : Ascending numbers) (hz : ZeroFree numbers) (hv : NoSignOverflow numbers)
    (hW : 2 ≤ W) (hN : W + 2 ≤ numbers.length) :
    smallestRangeRegion numbers.length W numbers
        = smallestRangeRegionReference numbers.length W numbers ∧
    ∀ pos, 1 ≤ pos → pos < numbers.length - W →
      ((regionSlide W numbers pos).minVal, (regionSlide W numbers pos).maxVal)
        = rangeForRegion numbers pos W := by
  obtain ⟨V, rfl⟩ : ∃ V, W = V + 2 := ⟨W - 2, by omega⟩
  constructor
  · unfold smallestRangeRegion smallestRangeRegionReference
    rw [regionRefSlide_eq numbers hs hz hv V _ (by omega)]
  · intro pos _ hpos
    rw [regionSlide_pair numbers hs hz hv V pos (by omega),
      rangeForRegion_eq_of_valid numbers hv pos (V + 2) (by omega)]

theorem C9_smallestRangeRegion_incremental_witness :
    smallestRangeRegion 5 2 (entriesOf [-7, -2, 3, 4, 9])
        = smallestRangeRegionReference 5 2 (entriesOf [-7, -2, 3, 4, 9]) ∧
    ∀ pos, 1 ≤ pos → pos < 5 - 2 →
      ((regionSlide 2 (entriesOf [-7, -2, 3, 4, 9]) pos).minVal,
        (regionSlide 2 (entriesOf [-7, -2, 3, 4, 9]) pos).maxVal)
        = rangeForRegion (entriesOf [-7, -2, 3, 4, 9]) pos 2 :=
  C9_smallestRangeRegion_incremental (entriesOf [-7, -2, 3, 4, 9]) 2
    (by decide) (by decide) (by decide) (by decide) (by decide)

/-- C9 as stated fails when the sums overflow: for the ascending non-zero `Int128` values
`1, 2^126, 2^126, 2^126` and region size `2 ≤ N - 2`, at the visited position `1` the running
pair of `smallestRangeRegion` differs from the pair recomputed from the window. -/
theorem C9_counterexample :
    AllInt128 overflowNumbers ∧ Ascending overflowNumbers ∧ ZeroFree overflowNumbers ∧
    2 ≤ overflowNumbers.length - 2 ∧ 1 < overflowNumbers.length - 2 ∧
    ((regionSlide 2 overflowNumbers 1).minVal, (regionSlide 2 overflowNumbers 1).maxVal)
      ≠ rangeForRegion overflowNumbers 1 2 := by
  decide

/-- C10 (failing input). For the sorted array `-100, -50, 1, ..., 15` and window width 15 the
window positions are `0, 1, 2`; the window at position `2` has a strictly smaller range than
the two others, but the loop of `smallestRangeRegion` stops before the last position and
returns `1`. -/
theorem C10_last_window_skipped :
    Ascending lastWindowNumbers ∧ ZeroFree lastWindowNumbers ∧
    NoSignOverflow lastWindowNumbers ∧ lastWindowNumbers.length = 17 ∧
    smallestRangeRegion 17 15 lastWindowNumbers = 1 ∧
    windowRange lastWindowNumbers 2 15 < windowRange lastWindowNumbers 1 15 ∧
    windowRange lastWindowNumbers 2 15 < windowRange lastWindowNumbers 0 15 := by
  decide

theorem extLeft_arith (a f l nR pR mn mx : Int)
    (haf : a ≤ f) (hfl : f ≤ l) (ha : a ≠ 0) (hf : f ≠ 0) (hl : l ≠ 0)
    (hn0 : nR ≤ 0) (hp0 : 0 ≤ pR)
    (hnf : nR ≤ min f 0) (hnz : 0 < f → nR = 0)
    (hpl : max l 0 ≤ pR) (hpz : l < 0 → pR = 0)
    (hlo : -maxInt128 ≤ min a 0 + nR) (hhi : max a 0 + pR ≤ maxInt128)
    (hmn : mn = if nR = 0 then f else nR) (hmx : mx = if pR = 0 then l else pR) :
    ((if mn > 0 then a else add128 mn a),
      (if mx > 0 ∧ a > 0 then add128 mx a else mx)) =
    ((if min a 0 + nR = 0 then a else min a 0 + nR),
      (if max a 0 + pR = 0 then l else max a 0 + pR)) := by
  have hM := maxInt128_pos
  congr 1
  · rcases lt_or_gt_of_ne hf with hf' | hf'
    · have h1 : nR < 0 := by omega
      have h2 : mn = nR := by rw [hmn, if_neg (by omega)]
      rw [h2, if_neg (by omega), add128_exact _ _ (by omega) (by omega),
        if_neg (by omega)]
      omega
    · have h1 : nR = 0 := hnz hf'
      have h2 : mn = f := by rw [hmn, if_pos h1]
      rw [h2, if_pos (by omega)]
      split_ifs <;> omega
  · rcases lt_or_gt_of_ne hl with hl' | hl'
    · have h1 : pR = 0 := hpz hl'
      have h2 : mx = l := by rw [hmx, if_pos h1]
      rw [h2, if_neg (by omega), if_pos (by omega)]
    · have h1 : 0 < pR := by omega
      have h2 : mx = pR := by rw [hmx, if_neg (by omega)]
      rw [h2]
      rcases lt_or_gt_of_ne ha with ha' | ha'
      · rw [if_neg (by omega), if_neg (by omega)]; omega
      · rw [if_pos ⟨h1, ha'⟩, add128_exact _ _ (by omega) (by omega), if_neg (by omega)]
        omega

theorem extRight_arith (b f l nR pR mn mx : Int)
    (hlb : l ≤ b) (hfl : f ≤ l) (hb : b ≠ 0) (hf : f ≠ 0) (hl : l ≠ 0)
    (hn0 : nR ≤ 0) (hp0 : 0 ≤ pR)
    (hnf : nR ≤ min f 0) (hnz : 0 < f → nR = 0)
    (hpl : max l 0 ≤ pR) (hpz : l < 0 → pR = 0)
    (hlo : -maxInt128 ≤ nR + min b 0) (hhi : pR + max b 0 ≤ maxInt128)
    (hmn : mn = if nR = 0 then f else nR) (hmx : mx = if pR = 0 then l else pR) :
    ((if mn < 0 ∧ b < 0 then add128 mn b else mn),
      (if mx < 0 then b else add128 mx b)) =
    ((if nR + min b 0 = 0 then f else nR + min b 0),
      (if pR + max b 0 = 0 then b else pR + max b 0)) := by
  have hM := maxInt128_pos
  congr 1
  · rcases lt_or_gt_of_ne hf with hf' | hf'
    · have h1 : nR < 0 := by omega
      have h2 : mn = nR := by rw [hmn, if_neg (by omega)]
      rw [h2]
      rcases lt_or_gt_of_ne hb with hb' | hb'
      · rw [if_pos ⟨h1, hb'⟩, add128_exact _ _ (by omega) (by omega), if_neg (by omega)]
        omega
      · rw [if_neg (by omega), if_neg (by omega)]; omega
    · have h1 : nR = 0 := hnz hf'
      have h2 : mn = f := by rw [hmn, if_pos h1]
      rw [h2, if_neg (by omega), if_pos (by omega)]
  · rcases lt_or_gt_of_ne hl with hl' | hl'
    · have h1 : pR = 0 := hpz hl'
      have h2 : mx = l := by rw [hmx, if_pos h1]
      rw [h2, if_pos hl']
      split_ifs <;> omega
    · have h1 : 0 < pR := by omega
      have h2 : mx = pR := by rw [hmx, if_neg (by omega)]
      rw [h2, if_neg (by omega), add128_exact _ _ (by omega) (by omega), if_neg (by omega)]
      omega

theorem windowPair_extLeft (numbers : List NumberEntry) (hs : Ascending numbers)
    (hz : ZeroFree numbers) (hv : NoSignOverflow numbers) (q c : Nat) (hc : 1 ≤ c)
    (hin : q + 1 + c ≤ numbers.length) :
    ((if (windowPair numbers (q + 1) c).1 > 0 then num numbers q
        else add128 (windowPair numbers (q + 1) c).1 (num numbers q)),
      (if (windowPair numbers (q + 1) c).2 > 0 ∧ num numbers q > 0
        then add128 (windowPair numbers (q + 1) c).2 (num numbers q)
        else (windowPair numbers (q + 1) c).2)) = windowPair numbers q (c + 1) := by
  have hle := ascending_le numbers hs
  have n1 : negS numbers q (c + 1) = min (num numbers q) 0 + negS numbers (q + 1) c :=
    negS_succ_left numbers q c
  have p1 : posS numbers q (c + 1) = max (num numbers q) 0 + posS numbers (q + 1) c :=
    posS_succ_left numbers q c
  have hlo : -maxInt128 ≤ negS numbers q (c + 1) :=
    le_trans hv.2 (negS_window_ge numbers q (c + 1) (by omega))
  have hhi : posS numbers q (c + 1) ≤ maxInt128 :=
    le_trans (posS_window_le numbers q (c + 1) (by omega)) hv.1
  rw [n1] at hlo
  rw [p1] at hhi
  have e1 : q + (c + 1) - 1 = q + 1 + c - 1 := by omega
  have key := extLeft_arith (num numbers q) (num numbers (q + 1)) (num numbers (q + 1 + c - 1))
    (negS numbers (q + 1) c) (posS numbers (q + 1) c)
    (windowPair numbers (q + 1) c).1 (windowPair numbers (q + 1) c).2
    (hle _ _ (by omega) (by omega)) (hle _ _ (by omega) (by omega))
    (hz _ (by omega)) (hz _ (by omega)) (hz _ (by omega))
    (negS_nonpos _ _ _) (posS_nonneg _ _ _)
    (negS_le_first numbers (q + 1) c hc)
    (fun h => negS_eq_zero_of_pos numbers hs (q + 1) h c (by omega))
    (posS_ge_last numbers (q + 1) c hc)
    (posS_eq_zero_of_neg numbers hs (q + 1) c (by omega) hc)
    hlo hhi rfl rfl
  rw [key]
  simp only [windowPair, n1, p1, e1]

theorem windowPair_extRight (numbers : List NumberEntry) (hs : Ascending numbers)
    (hz : ZeroFree numbers) (hv : NoSignOverflow numbers) (L c : Nat) (hc : 1 ≤ c)
    (hin : L + c < numbers.length) :
    ((if (windowPair numbers L c).1 < 0 ∧ num numbers (L + c) < 0
        then add128 (windowPair numbers L c).1 (num numbers (L + c))
        else (windowPair numbers L c).1),
      (if (windowPair numbers L c).2 < 0 then num numbers (L + c)
        else add128 (windowPair numbers L c).2 (num numbers (L + c))))
      = windowPair numbers L (c + 1) := by
  have hle := ascending_le numbers hs
  have n1 : negS numbers L (c + 1) = negS numbers L c + min (num numbers (L + c)) 0 := rfl
  have p1 : posS numbers L (c + 1) = posS numbers L c + max (num numbers (L + c)) 0 := rfl
  have hlo : -maxInt128 ≤ negS numbers L (c + 1) :=
    le_trans hv.2 (negS_window_ge numbers L (c + 1) (by omega))
  have hhi : posS numbers L (c + 1) ≤ maxInt128 :=
    le_trans (posS_window_le numbers L (c + 1) (by omega)) hv.1
  rw [n1] at hlo
  rw [p1] at hhi
  have e1 : L + (c + 1) - 1 = L + c := by omega
  have key := extRight_arith (num numbers (L + c)) (num numbers L) (num numbers (L + c - 1))
    (negS numbers L c) (posS numbers L c)
    (windowPair numbers L c).1 (windowPair numbers L c).2
    (hle _ _ (by omega) (by omega)) (hle _ _ (by omega) (by omega))
    (hz _ (by omega)) (hz _ (by omega)) (hz _ (by omega))
    (negS_nonpos _ _ _) (posS_nonneg _ _ _)
    (negS_le_first numbers L c hc)
    (fun h => negS_eq_zero_of_pos numbers hs L h c (by omega))
    (posS_ge_last numbers L c hc)
    (posS_eq_zero_of_neg numbers hs L c (by omega) hc)
    hlo hhi rfl rfl
  rw [key]
  simp only [windowPair, n1, p1, e1]

theorem order_cast_facts (L R n : Nat) (hLR : L < R) :
    ((L : Int) - 1).toNat = L - 1 ∧ (R : Int).toNat = R ∧
    ((R : Int) - ((L : Int) - 1)).toNat = R - L + 1 ∧
    ((L : Int) - 1 + 1).toNat = L ∧
    ((L : Int) - 1 - 1 + 1).toNat = L - 1 ∧
    ((R : Int) - ((L : Int) - 1 - 1) - 1).toNat = R - L + 1 ∧
    ((R : Int) + 1 - ((L : Int) - 1) - 1).toNat = R - L + 1 ∧
    ((R : Int) < (n : Int) ↔ R < n) ∧
    (R : Int) + 1 = ((R + 1 : Nat) : Int) := by
  refine ⟨?_, ?_, ?_, ?_, ?_, ?_, ?_, ?_, ?_⟩ <;> omega

theorem orderLoop_eq_ref (numbers : List NumberEntry) (hs : Ascending numbers)
    (hz : ZeroFree numbers) (hv : NoSignOverflow numbers) :
    ∀ (fuel L R : Nat) (mn mx : Int), L < R → R ≤ numbers.length →
      (mn, mx) = windowPair numbers L (R - L) →
      orderLoop numbers.length numbers fuel ((L : Int) - 1) (R : Int) mn mx
        = orderLoopRef numbers.length numbers fuel ((L : Int) - 1) (R : Int) mn mx := by
  intro fuel
  induction fuel with
  | zero =>
    intro L R mn mx _ _ _
    simp only [orderLoop, orderLoopRef]
  | succ fuel ih =>
    intro L R mn mx hLR hRn hinv
    have hmn : mn = (windowPair numbers L (R - L)).1 := congrArg Prod.fst hinv
    have hmx : mx = (windowPair numbers L (R - L)).2 := congrArg Prod.snd hinv
    obtain ⟨t1, t2, t3, t4, t5, t6, t7, hcR, eR⟩ := order_cast_facts L R numbers.length hLR
    simp only [orderLoop, orderLoopRef, t1, t2, t3, t4, t5, t6, t7, hcR]
    clear t1 t2 t3 t4 t5 t6 t7 hcR
    -- the right extension, available when `R < numbers.length`
    have extR : R < numbers.length →
        (if mn < 0 ∧ num numbers R < 0 then add128 mn (num numbers R) else mn)
          = (windowPair numbers L (R - L + 1)).1 ∧
        (if num numbers R < 0 ∧ mn < 0 then add128 mn (num numbers R) else mn)
          = (windowPair numbers L (R - L + 1)).1 ∧
        (if mx < 0 then num numbers R else add128 mx (num numbers R))
          = (windowPair numbers L (R - L + 1)).2 ∧
        rangeForRegion numbers L (R - L + 1) = windowPair numbers L (R - L + 1) := by
      intro hR
      have h := windowPair_extRight numbers hs hz hv L (R - L) (by omega) (by omega)
      have e : L + (R - L) = R := by omega
      rw [e, ← hmn, ← hmx] at h
      refine ⟨congrArg Prod.fst h, ?_, congrArg Prod.snd h,
        rangeForRegion_eq_of_valid numbers hv L (R - L + 1) (by omega)⟩
      rw [← congrArg Prod.fst h]
      simp only [and_comm]
    -- the left extension, available when `1 ≤ L`
    have extL : 1 ≤ L →
        (if mn > 0 then num numbers (L - 1) else add128 mn (num numbers (L - 1)))
          = (windowPair numbers (L - 1) (R - L + 1)).1 ∧
        (if mx > 0 ∧ num numbers (L - 1) > 0 then add128 mx (num numbers (L - 1)) else mx)
          = (windowPair numbers (L - 1) (R - L + 1)).2 ∧
        (if num numbers (L - 1) > 0 ∧ mx > 0 then add128 mx (num numbers (L - 1)) else mx)
          = (windowPair numbers (L - 1) (R - L + 1)).2 ∧
        rangeForRegion numbers (L - 1) (R - L + 1)
          = windowPair numbers (L - 1) (R - L + 1) := by
      intro hL
      obtain ⟨q, rfl⟩ : ∃ q, L = q + 1 := ⟨L - 1, by omega⟩
      have h := windowPair_extLeft numbers hs hz hv q (R - (q + 1)) (by omega) (by omega)
      rw [← hmn, ← hmx] at h
      rw [Nat.add_sub_cancel]
      refine ⟨congrArg Prod.fst h, congrArg Prod.snd h, ?_,
        rangeForRegion_eq_of_valid numbers hv q (R - (q + 1) + 1) (by omega)⟩
      rw [← congrArg Prod.snd h]
      simp only [and_comm]
    have ihL : 1 ≤ L → orderLoop numbers.length numbers fuel ((L : Int) - 1 - 1) (R : Int)
          (windowPair numbers (L - 1) (R - L + 1)).1 (windowPair numbers (L - 1) (R - L + 1)).2
        = orderLoopRef numbers.length numbers fuel ((L : Int) - 1 - 1) (R : Int)
          (windowPair numbers (L - 1) (R - L + 1)).1
          (windowPair numbers (L - 1) (R - L + 1)).2 := by
      intro hL
      have e : (L : Int) - 1 - 1 = ((L - 1 : Nat) : Int) - 1 := by omega
      have e2 : R - L + 1 = R - (L - 1) := by omega
      rw [e, e2]
      exact ih (L - 1) R _ _ (by omega) hRn rfl
    have ihR : R < numbers.length → orderLoop numbers.length numbers fuel ((L : Int) - 1)
          ((R : Int) + 1)
          (windowPair numbers L (R - L + 1)).1 (windowPair numbers L (R - L + 1)).2
        = orderLoopRef numbers.length numbers fuel ((L : Int) - 1) ((R : Int) + 1)
          (windowPair numbers L (R - L + 1)).1 (windowPair numbers L (R - L + 1)).2 := by
      intro hR
      have e2 : R - L + 1 = R + 1 - L := by omega
      rw [eR, e2]
      exact ih L (R + 1) _ _ (by omega) (by omega) rfl
    by_cases hL : 1 ≤ L
    · have hl0 : (L : Int) - 1 ≥ 0 := by omega
      obtain ⟨l1, l2, l3, l4⟩ := extL hL
      by_cases hR : R < numbers.length
      · obtain ⟨r1, r2, r3, r4⟩ := extR hR
        simp only [hl0, hR, true_or, and_self, if_true, l1, l2, l4, r1, r3, r4, ihL hL, ihR hR]
      · simp only [hl0, hR, true_or, and_false, if_true, if_false, l1, l3, l4, ihL hL]
    · have hl0 : ¬ ((L : Int) - 1 ≥ 0) := by omega
      by_cases hR : R < numbers.length
      · obtain ⟨r1, r2, r3, r4⟩ := extR hR
        simp only [hl0, hR, or_true, false_and, if_true, if_false, r2, r3, r4, ihR hR]
      · simp only [hl0, hR, or_false, if_false]

/-- With a budget of at least the number of elements outside the window, the loop of
`orderNumberRanges` exits, having written one slot per outside element. -/
theorem orderLoop_some (numbers : List NumberEntry) (n : Nat) :
    ∀ (fuel L R : Nat) (mn mx : Int), R ≤ n → L + (n - R) ≤ fuel →
      ∃ es, orderLoop n numbers fuel ((L : Int) - 1) (R : Int) mn mx = some es ∧
        es.length = L + (n - R) := by
  intro fuel
  induction fuel with
  | zero =>
    intro L R mn mx hR hf
    have h1 : ¬ ((L : Int) - 1 ≥ 0 ∨ (R : Int) < (n : Int)) := by omega
    refine ⟨[], ?_, by simp; omega⟩
    simp only [orderLoop, h1, if_false]
  | succ fuel ih =>
    intro L R mn mx hR hf
    by_cases hc : ((L : Int) - 1 ≥ 0 ∨ (R : Int) < (n : Int))
    · have eL : (L : Int) - 1 - 1 = ((L - 1 : Nat) : Int) - 1 ∨ L = 0 := by omega
      have eR : (R : Int) + 1 = ((R + 1 : Nat) : Int) := by omega
      have goL : 1 ≤ L → ∀ mn1 mx1 e, ∃ es,
          (orderLoop n numbers fuel ((L : Int) - 1 - 1) (R : Int) mn1 mx1).map
            (fun rest => e :: rest) = some es ∧ es.length = L + (n - R) := by
        intro hL mn1 mx1 e
        have e1 : (L : Int) - 1 - 1 = ((L - 1 : Nat) : Int) - 1 := by omega
        obtain ⟨es, h1, h2⟩ := ih (L - 1) R mn1 mx1 hR (by omega)
        rw [e1, h1]
        exact ⟨e :: es, rfl, by simp [h2]; omega⟩
      have goR : R < n → ∀ mn1 mx1 e, ∃ es,
          (orderLoop n numbers fuel ((L : Int) - 1) ((R : Int) + 1) mn1 mx1).map
            (fun rest => e :: rest) = some es ∧ es.length = L + (n - R) := by
        intro hR' mn1 mx1 e
        obtain ⟨es, h1, h2⟩ := ih L (R + 1) mn1 mx1 (by omega) (by omega)
        rw [eR, h1]
        exact ⟨e :: es, rfl, by simp [h2]; omega⟩
      simp only [orderLoop, hc, if_true]
      by_cases hL : (L : Int) - 1 ≥ 0
      · by_cases hR' : (R : Int) < (n : Int)
        · simp only [hL, hR', and_self, if_true]
          split_ifs <;> first | exact goL (by omega) _ _ _ | exact goR (by omega) _ _ _
        · simp only [hL, hR', and_false, if_false, if_true]
          exact goL (by omega) _ _ _
      · have hR' : (R : Int) < (n : Int) := by omega
        simp only [hL, hR', false_and, if_false]
        exact goR (by omega) _ _ _
    · refine ⟨[], ?_, by simp; omega⟩
      simp only [orderLoop, hc, if_false]

/-- C8 (as amended). For every ascending array of non-zero values whose per-sign sums do not
overflow and every window `-1 ≤ left`, `left + 2 ≤ right ≤ n`, `orderNumberRanges` returns and
writes the same `destNumbers`, `destOrders` and `destMinMax` entries as the reference
`orderNumberRangesRef`, which recomputes `rangeForRegion` over the enlarged region at every
step. -/
theorem C8_orderNumberRanges_eq_ref (numbers : List NumberEntry) (left right : Int)
    (hs : Ascending numbers) (hz : ZeroFree numbers) (hv : NoSignOverflow numbers)
    (hl : -1 ≤ left) (hlr : left + 2 ≤ right) (hr : right ≤ (numbers.length : Int)) :
    orderNumberRanges left right numbers.length numbers
        = orderNumberRangesRef left right numbers.length numbers ∧
    ∃ res, orderNumberRanges left right numbers.length numbers = some res ∧
      res.destNumbers.length = (left + 1).toNat + (numbers.length - right.toNat) := by
  obtain ⟨L, hL⟩ : ∃ L : Nat, left = (L : Int) - 1 := ⟨(left + 1).toNat, by omega⟩
  obtain ⟨R, hR⟩ : ∃ R : Nat, right = (R : Int) := ⟨right.toNat, by omega⟩
  subst hL hR
  have e1 : ((L : Int) - 1 + 1).toNat = L := by omega
  have e2 : ((R : Int) - ((L : Int) - 1) - 1).toNat = R - L := by omega
  have e3 : (R : Int).toNat = R := by omega
  have hLR : L < R := by omega
  have hRn : R ≤ numbers.length := by omega
  unfold orderNumberRanges orderNumberRangesRef
  simp only [e1, e2, e3]
  clear e1 e2 e3 hl hlr hr
  have hw := rangeForRegion_eq_of_valid numbers hv L (R - L) (by omega)
  constructor
  · rw [orderLoop_eq_ref numbers hs hz hv numbers.length L R _ _ hLR hRn
      (by rw [hw])]
  · obtain ⟨es, h1, h2⟩ := orderLoop_some numbers numbers.length numbers.length L R
      (rangeForRegion numbers L (R - L)).1 (rangeForRegion numbers L (R - L)).2 hRn (by omega)
    rw [h1]
    refine ⟨_, rfl, ?_⟩
    simp [orderResult, h2]

theorem C8_orderNumberRanges_eq_ref_witness :
    orderNumberRanges 1 3 (entriesOf [-7, -2, 3, 4, 9]).length (entriesOf [-7, -2, 3, 4, 9])
        = orderNumberRangesRef 1 3 (entriesOf [-7, -2, 3, 4, 9]).length
            (entriesOf [-7, -2, 3, 4, 9]) ∧
    ∃ res, orderNumberRanges 1 3 (entriesOf [-7, -2, 3, 4, 9]).length
        (entriesOf [-7, -2, 3, 4, 9]) = some res ∧
      res.destNumbers.length
        = ((1 : Int) + 1).toNat + ((entriesOf [-7, -2, 3, 4, 9]).length - (3 : Int).toNat) :=
  C8_orderNumberRanges_eq_ref (entriesOf [-7, -2, 3, 4, 9]) 1 3
    (by decide) (by decide) (by decide) (by decide) (by decide) (by decide)

/-- C8 as stated fails when the sums overflow: for the ascending non-zero `Int128` values
`2^126, 2^126, 2^126, 2^126` and the window `left = -1`, `right = 1` the two functions write
different `destMinMax` entries. -/
theorem C8_counterexample :
    AllInt128 overflowNumbers4 ∧ Ascending overflowNumbers4 ∧ ZeroFree overflowNumbers4 ∧
    (-1 : Int) ≤ -1 ∧ (-1 : Int) + 2 ≤ 1 ∧ (1 : Int) ≤ (overflowNumbers4.length : Int) ∧
    orderNumberRanges (-1) 1 overflowNumbers4.length overflowNumbers4
      ≠ orderNumberRangesRef (-1) 1 overflowNumbers4.length overflowNumbers4 := by
  decide

theorem testBit_pred_odd (a : Nat) (h : a % 2 = 1) (j : Nat) :
    (a - 1).testBit j = (decide (j ≠ 0) && a.testBit j) := by
  cases j with
  | zero => simp [Nat.testBit_zero]; omega
  | succ n =>
    rw [Nat.testBit_succ, Nat.testBit_succ]
    have : (a - 1) / 2 = a / 2 := by omega
    rw [this]; simp

theorem not128_eq (x : Nat) : not128 x = 2 ^ 128 - (x + 1) := by
  unfold not128; rw [two_pow_128]; omega

/-- Clearing bit `i` of a mask whose bits below `i` are clear and whose bit `i` is set. -/
theorem clear_bit_eq (a i : Nat) (hodd : a % 2 = 1) (hlt : 2 ^ i * a < 2 ^ 128) :
    (2 ^ i * a) &&& not128 (2 ^ i) = 2 ^ i * (a - 1) := by
  have hi : i < 128 := by
    by_contra hge
    have h1 : 2 ^ 128 ≤ 2 ^ i := Nat.pow_le_pow_right (by decide) (by omega)
    have h2 : 2 ^ i * 1 ≤ 2 ^ i * a := Nat.mul_le_mul_left _ (by omega)
    omega
  have hpi : 2 ^ i < 2 ^ 128 := Nat.pow_lt_pow_right (by decide) hi
  apply Nat.eq_of_testBit_eq
  intro j
  rw [Nat.testBit_and, not128_eq, Nat.testBit_two_pow_sub_succ hpi, Nat.testBit_mul_pow_two,
    Nat.testBit_mul_pow_two, testBit_pred_odd a hodd, Nat.testBit_two_pow]
  by_cases hj : j < 128
  · by_cases hij : i = j
    · subst hij; simp
    · have : j - i ≠ 0 ∨ ¬ (j ≥ i) := by omega
      rcases this with h | h
      · simp [hj, hij, h]
      · simp [h]
  · have hbig : 2 ^ i * a < 2 ^ j :=
      lt_of_lt_of_le hlt (Nat.pow_le_pow_right (by decide) (by omega))
    have h1 := Nat.testBit_lt_two_pow hbig
    rw [Nat.testBit_mul_pow_two] at h1
    by_cases hge : j ≥ i
    · simp only [hge, decide_True, Bool.true_and] at h1 ⊢
      simp [h1, hj]
    · simp [hge]

theorem testBit_succ_even (a : Nat) (h : a % 2 = 0) (j : Nat) :
    (a + 1).testBit j = (decide (j = 0) || a.testBit j) := by
  have h1 := testBit_pred_odd (a + 1) (by omega) j
  rw [Nat.add_sub_cancel] at h1
  cases j with
  | zero => simp [Nat.testBit_zero]; omega
  | succ n => simp [h1]

/-- Setting bit `i` of a mask whose bits below `i` and whose bit `i` are clear. -/
theorem set_bit_eq (a i : Nat) (heven : a % 2 = 0) :
    (2 ^ i * a) ||| 2 ^ i = 2 ^ i * (a + 1) := by
  apply Nat.eq_of_testBit_eq
  intro j
  rw [Nat.testBit_or, Nat.testBit_mul_pow_two, Nat.testBit_mul_pow_two,
    testBit_succ_even a heven, Nat.testBit_two_pow]
  by_cases hij : i = j
  · subst hij; simp
  · by_cases hge : j ≥ i
    · have : j - i ≠ 0 := by omega
      simp [hij, hge, this]
    · simp [hij, hge]

theorem bitSet_mul_pow (a i : Nat) (hi : i < 128) :
    bitSet (2 ^ i * a) i = decide (a % 2 = 1) := by
  rw [bitSet_lt _ _ hi, Nat.testBit_mul_pow_two]
  simp [Nat.testBit_zero]

theorem sum_range_single_diff (f g : Nat → Int) (i n : Nat) (hi : i < n)
    (h : ∀ j, j ≠ i → f j = g j) :
    ∑ j in Finset.range n, f j - ∑ j in Finset.range n, g j = f i - g i := by
  rw [← Finset.sum_sub_distrib]
  apply Finset.sum_eq_single i
  · intro j _ hji
    rw [h j hji]; ring
  · intro hni
    exact absurd (Finset.mem_range.mpr hi) hni

/-- The element at position `i` is what the sum gains when bit `i` is set. -/
theorem selSum_odd (nums : List Int) (a i : Nat) (hodd : a % 2 = 1) :
    selSum nums (2 ^ i * a) = selSum nums (2 ^ i * (a - 1)) + rd nums i := by
  have h := sum_range_single_diff
    (fun j => if (2 ^ i * a).testBit j then rd nums j else 0)
    (fun j => if (2 ^ i * (a - 1)).testBit j then rd nums j else 0) i (nums.length + i + 1)
    (by omega)
    (by
      intro j hj
      simp only [Nat.testBit_mul_pow_two, testBit_pred_odd a hodd]
      by_cases hge : j ≥ i
      · have : j - i ≠ 0 := by omega
        simp [hge, this]
      · simp [hge])
  rw [selSum_eq_sum nums (2 ^ i * a) (nums.length + i + 1) (by omega),
    selSum_eq_sum nums (2 ^ i * (a - 1)) (nums.length + i + 1) (by omega)]
  simp only [Nat.testBit_mul_pow_two, testBit_pred_odd a hodd] at h ⊢
  have e : (a.testBit 0) = true := by simp [Nat.testBit_zero, hodd]
  simp only [ge_iff_le, le_refl, decide_True, Nat.sub_self, ne_eq, not_true_eq_false,
    decide_False, Bool.false_and, Bool.and_false, e, Bool.and_self, if_true,
    Bool.false_eq_true, if_false, sub_zero] at h
  linarith

theorem pow_mul_half (i a : Nat) (hodd : a % 2 = 1) : 2 ^ (i + 1) * (a / 2) = 2 ^ i * (a - 1) := by
  have : a - 1 = 2 * (a / 2) := by omega
  rw [this, Nat.pow_succ, Nat.mul_assoc]

theorem pow_mul_half_even (i a : Nat) (heven : a % 2 = 0) :
    2 ^ (i + 1) * (a / 2) = 2 ^ i * a := by
  have : a = 2 * (a / 2) := by omega
  rw [Nat.pow_succ, Nat.mul_assoc, ← this]

theorem mul_pow_div (i j x : Nat) (hij : i ≤ j) : (2 ^ i * x) / 2 ^ j = x / 2 ^ (j - i) := by
  obtain ⟨e, rfl⟩ := Nat.exists_eq_add_of_le hij
  rw [Nat.add_sub_cancel_left, Nat.pow_add, Nat.mul_div_mul_left _ _ (Nat.pow_pos (by decide))]

/-- Bits above position `i` do not change when bit `i` is cleared. -/
theorem div_pow_pred_odd (i j a : Nat) (hij : i < j) (hodd : a % 2 = 1) :
    (2 ^ i * (a - 1)) / 2 ^ j = (2 ^ i * a) / 2 ^ j := by
  rw [mul_pow_div i j _ (by omega), mul_pow_div i j _ (by omega)]
  obtain ⟨e, he⟩ : ∃ e, j - i = e + 1 := ⟨j - i - 1, by omega⟩
  rw [he, Nat.pow_succ', ← Nat.div_div_eq_div_mul, ← Nat.div_div_eq_div_mul]
  have : (a - 1) / 2 = a / 2 := by omega
  rw [this]

theorem ascend_succ (main : List Int) (M fuel subset ri : Nat) (sum : Int) :
    ascend main M (fuel + 1) subset sum ri =
      if bitSet subset ri ∧ ri < M then
        ascend main M fuel (subset &&& not128 (shl128 1 ri)) (sub128 sum (rd main ri)) (ri + 1)
      else (subset, sum, ri) := rfl

/-- The backtracking loop of `generateWork` on a mask `2^ri * a` (bits below `ri` clear): it
strips the run of set bits starting at `ri`. -/
theorem ascend_spec (main : List Int) (M : Nat) (hM : M ≤ 127) :
    ∀ (fuel ri a : Nat), ri ≤ M → M - ri ≤ fuel → 2 ^ ri * a < 2 ^ M →
      ∃ a2 ri2,
        ascend main M fuel (2 ^ ri * a) (wrap128 (selSum main (2 ^ ri * a))) ri
          = (2 ^ ri2 * a2, wrap128 (selSum main (2 ^ ri2 * a2)), ri2) ∧
        ri ≤ ri2 ∧ ri2 ≤ M ∧ 2 ^ ri2 * (a2 + 1) = 2 ^ ri * (a + 1) ∧
        (ri2 < M → a2 % 2 = 0) ∧ 2 ^ ri2 * a2 < 2 ^ M ∧
        (∀ j, ri2 < j → (2 ^ ri2 * a2) / 2 ^ j = (2 ^ ri * a) / 2 ^ j) := by
  intro fuel
  induction fuel with
  | zero =>
    intro ri a hri hf hlt
    exact ⟨a, ri, rfl, le_refl _, hri, rfl, fun h => by omega, hlt, fun _ _ => rfl⟩
  | succ fuel ih =>
    intro ri a hri hf hlt
    rw [ascend_succ]
    by_cases hc : a % 2 = 1 ∧ ri < M
    · obtain ⟨hodd, hriM⟩ := hc
      have hbit : bitSet (2 ^ ri * a) ri = true := by
        rw [bitSet_mul_pow _ _ (by omega)]; simp [hodd]
      have h128 : 2 ^ ri * a < 2 ^ 128 :=
        lt_of_lt_of_le hlt (Nat.pow_le_pow_right (by decide) (by omega))
      have hmask : (2 ^ ri * a) &&& not128 (shl128 1 ri) = 2 ^ (ri + 1) * (a / 2) := by
        rw [shl128_one _ (by omega), clear_bit_eq a ri hodd h128, pow_mul_half ri a hodd]
      have hsum : sub128 (wrap128 (selSum main (2 ^ ri * a))) (rd main ri)
          = wrap128 (selSum main (2 ^ (ri + 1) * (a / 2))) := by
        unfold sub128
        rw [wrap128_sub_left, pow_mul_half ri a hodd, selSum_odd main a ri hodd]
        congr 1; ring
      have hlt' : 2 ^ (ri + 1) * (a / 2) < 2 ^ M := by
        rw [pow_mul_half ri a hodd]
        exact lt_of_le_of_lt (Nat.mul_le_mul_left _ (Nat.sub_le _ _)) hlt
      obtain ⟨a2, ri2, h1, h2, h3, h4, h5, h6, h7⟩ :=
        ih (ri + 1) (a / 2) (by omega) (by omega) hlt'
      refine ⟨a2, ri2, ?_, by omega, h3, ?_, h5, h6, ?_⟩
      · rw [if_pos ⟨hbit, hriM⟩, hmask, hsum, h1]
      · rw [h4, Nat.pow_succ, Nat.mul_assoc]
        congr 1; omega
      · intro j hj
        rw [h7 j hj, pow_mul_half ri a hodd, div_pow_pred_odd ri j a (by omega) hodd]
    · have hcond : ¬ (bitSet (2 ^ ri * a) ri = true ∧ ri < M) := by
        intro ⟨hb, hr⟩
        rw [bitSet_mul_pow _ _ (by omega)] at hb
        exact hc ⟨by simpa using hb, hr⟩
      rw [if_neg hcond]
      refine ⟨a, ri, rfl, le_refl _, hri, rfl, ?_, hlt, fun _ _ => rfl⟩
      intro hr
      by_contra hne
      exact hc ⟨by omega, hr⟩

theorem descend_spec (table : List MinMaxStep) (sum : Int) :
    ∀ r, descend table sum r ≤ r ∧
      (∀ j, descend table sum r ≤ j → j < r → inStep (tbl table j) sum) ∧
      (0 < descend table sum r → ¬ inStep (tbl table (descend table sum r - 1)) sum) := by
  intro r
  induction r with
  | zero => simp [descend]
  | succ r ih =>
    by_cases h : inStep (tbl table r) sum
    · simp only [descend, h, if_true]
      refine ⟨by omega, ?_, ih.2.2⟩
      intro j hj hjr
      rcases Nat.lt_or_eq_of_le (Nat.lt_succ_iff.mp hjr) with hlt | heq
      · exact ih.2.1 j hj hlt
      · rw [heq]; exact h
    · simp only [descend, h, if_false]
      refine ⟨le_refl _, ?_, ?_⟩
      · intro j hj hjr; omega
      · intro _; simpa using h

theorem levelSum_of_dvd (main : List Int) (j B : Nat) (h : 2 ^ j ∣ B) :
    levelSum main j B = selSum128 main B := by
  unfold levelSum
  rw [Nat.mul_div_cancel' h]

theorem levelSum_congr (main : List Int) (j B B' : Nat) (h : B / 2 ^ j = B' / 2 ^ j) :
    levelSum main j B = levelSum main j B' := by
  unfold levelSum
  rw [h]

theorem block_div (i s B : Nat) (hd : 2 ^ i ∣ s) (h1 : s ≤ B) (h2 : B < s + 2 ^ i) :
    B / 2 ^ i = s / 2 ^ i := by
  obtain ⟨q, rfl⟩ := hd
  obtain ⟨t, rfl⟩ := Nat.exists_eq_add_of_le h1
  have hpos : 0 < 2 ^ i := Nat.pow_pos (by decide)
  rw [Nat.mul_add_div hpos, Nat.mul_div_cancel_left _ hpos, Nat.div_eq_of_lt (by omega)]
  rfl

theorem add_le_of_dvd_lt (d x y : Nat) (hx : d ∣ x) (hy : d ∣ y) (h : x < y) : x + d ≤ y := by
  obtain ⟨u, rfl⟩ := hx
  obtain ⟨v, rfl⟩ := hy
  have huv : u < v := by
    by_contra hge
    have := Nat.mul_le_mul_left d (Nat.le_of_not_lt hge)
    omega
  calc d * u + d = d * (u + 1) := by ring
    _ ≤ d * v := Nat.mul_le_mul_left d huv

theorem workLoop_succ (table : List MinMaxStep) (main : List Int) (M fuel r subset : Nat)
    (sum : Int) :
    workLoop table main M (fuel + 1) r subset sum =
      if (ascend main M M subset sum
          (if descend table sum r = 0 then 0 else descend table sum r - 1)).2.2 ≥ M then
        some (if descend table sum r = 0 then [{ sum := sum, subset := subset }] else [])
      else
        (workLoop table main M fuel
          ((ascend main M M subset sum
            (if descend table sum r = 0 then 0 else descend table sum r - 1)).2.2 + 1)
          ((ascend main M M subset sum
            (if descend table sum r = 0 then 0 else descend table sum r - 1)).1 |||
            shl128 1 (ascend main M M subset sum
              (if descend table sum r = 0 then 0 else descend table sum r - 1)).2.2)
          (add128 (ascend main M M subset sum
              (if descend table sum r = 0 then 0 else descend table sum r - 1)).2.1
            (rd main (ascend main M M subset sum
              (if descend table sum r = 0 then 0 else descend table sum r - 1)).2.2))).map
          (fun rest =>
            (if descend table sum r = 0 then [{ sum := sum, subset := subset }] else [])
              ++ rest) := rfl

/-- The pruned enumeration, started at the top of a pass with the mask `2^(r-1) * a`, emits the
packets of exactly the remaining masks that pass the gates of all levels, in increasing order. -/
theorem workLoop_spec (table : List MinMaxStep) (main : List Int) (M : Nat) (hM : M ≤ 127) :
    ∀ (fuel r a : Nat), r ≤ M → 2 ^ (r - 1) * a < 2 ^ M → 2 ^ M - 2 ^ (r - 1) * a ≤ fuel →
      (∀ j, r ≤ j → j < M → inStep (tbl table j) (levelSum main j (2 ^ (r - 1) * a))) →
      workLoop table main M fuel r (2 ^ (r - 1) * a) (wrap128 (selSum main (2 ^ (r - 1) * a)))
        = some (((List.range' (2 ^ (r - 1) * a) (2 ^ M - 2 ^ (r - 1) * a)).filter
            (fun B => decide (PassesAllLevels table main M B))).map (packetOf main)) := by
  intro fuel
  induction fuel with
  | zero =>
    intro r a _ hlt hf _
    omega
  | succ fuel ih =>
    intro r a hr hlt hf he
    rw [workLoop_succ]
    obtain ⟨hd1, hd2, hd3⟩ := descend_spec table (wrap128 (selSum main (2 ^ (r - 1) * a))) r
    generalize hr1 : descend table (wrap128 (selSum main (2 ^ (r - 1) * a))) r = r1 at *
    generalize hri : (if r1 = 0 then 0 else r1 - 1) = ri at *
    have hri_le : ri ≤ r - 1 := by
      rw [← hri]; split_ifs <;> omega
    have hri_ge : r1 ≤ ri + 1 := by
      rw [← hri]; split_ifs <;> omega
    have hs : 2 ^ (r - 1) * a = 2 ^ ri * (2 ^ (r - 1 - ri) * a) := by
      rw [← Nat.mul_assoc, ← Nat.pow_add]
      congr 2; omega
    obtain ⟨a2, ri2, h1, h2, h3, h4, h5, h6, h7⟩ :=
      ascend_spec main M hM M ri (2 ^ (r - 1 - ri) * a) (by omega) (by omega)
        (by rw [← hs]; exact hlt)
    rw [← hs] at h1 h7
    have hblock : 2 ^ ri2 * (a2 + 1) = 2 ^ (r - 1) * a + 2 ^ ri := by
      rw [h4, Nat.mul_add, ← hs, Nat.mul_one]
    clear h4
    -- abbreviate the current mask
    generalize hsdef : 2 ^ (r - 1) * a = s at *
    have hdvd_r : ∀ j, j < r → 2 ^ j ∣ s := by
      intro j hj
      rw [← hsdef]
      exact Dvd.dvd.mul_right (Nat.pow_dvd_pow 2 (by omega)) a
    have hdvd_ri : 2 ^ ri ∣ s := by
      rw [hs]; exact Nat.dvd_mul_right _ _
    have hlev : ∀ j, j < r → levelSum main j s = wrap128 (selSum main s) := by
      intro j hj
      rw [levelSum_of_dvd main j s (hdvd_r j hj)]; rfl
    have hpass : ∀ j, r1 ≤ j → j < M → inStep (tbl table j) (levelSum main j s) := by
      intro j hj hjM
      by_cases hjr : j < r
      · rw [hlev j hjr]; exact hd2 j hj hjr
      · exact he j (by omega) hjM
    have hpos : 0 < 2 ^ ri := Nat.pow_pos (by decide)
    have hfit : s + 2 ^ ri ≤ 2 ^ M :=
      add_le_of_dvd_lt _ _ _ hdvd_ri (Nat.pow_dvd_pow 2 (by omega)) hlt
    -- the masks skipped in this pass
    have hfirst : ((List.range' s (2 ^ ri)).filter
          (fun B => decide (PassesAllLevels table main M B))).map (packetOf main)
        = if r1 = 0 then [{ sum := wrap128 (selSum main s), subset := s }] else [] := by
      by_cases h0 : r1 = 0
      · have hri0 : ri = 0 := by rw [← hri, if_pos h0]
        have hgood : PassesAllLevels table main M s := fun j hj => hpass j (by omega) hj
        rw [if_pos h0, hri0]
        simp [List.range', hgood, packetOf, selSum128]
      · rw [if_neg h0]
        have hrie : ri = r1 - 1 := by rw [← hri, if_neg h0]
        have hnone : (List.range' s (2 ^ ri)).filter
            (fun B => decide (PassesAllLevels table main M B)) = [] := by
          rw [List.filter_eq_nil_iff]
          intro B hB
          rw [List.mem_range'_1] at hB
          simp only [decide_eq_true_eq]
          intro hgood
          have hcong := levelSum_congr main ri B s (block_div ri s B hdvd_ri hB.1 hB.2)
          have hfail := hd3 (by omega)
          rw [← hrie] at hfail
          apply hfail
          rw [← hlev ri (by omega), ← hcong]
          exact hgood ri (by omega)
        rw [hnone]; rfl
    have hsplit : List.range' s (2 ^ M - s)
        = List.range' s (2 ^ ri) ++ List.range' (s + 2 ^ ri) (2 ^ M - (s + 2 ^ ri)) := by
      rw [List.range'_append_1]
      congr 1; omega
    rw [h1]
    by_cases hend : ri2 ≥ M
    · -- the carry leaves the main region: the enumeration is over
      have hri2 : ri2 = M := by omega
      have ha2 : a2 = 0 := by
        by_contra hne
        have : 2 ^ ri2 * 1 ≤ 2 ^ ri2 * a2 := Nat.mul_le_mul_left _ (by omega)
        rw [hri2] at this h6
        omega
      have hfull : s + 2 ^ ri = 2 ^ M := by
        rw [← hblock, ha2, hri2]; simp
      rw [if_pos hend, hsplit, hfull, Nat.sub_self]
      simp only [List.range', List.append_nil]
      rw [hfirst]
    · have hri2 : ri2 < M := by omega
      have heven : a2 % 2 = 0 := h5 hri2
      have hset : (2 ^ ri2 * a2) ||| shl128 1 ri2 = 2 ^ (ri2 + 1 - 1) * (a2 + 1) := by
        rw [shl128_one _ (by omega), set_bit_eq a2 ri2 heven, Nat.add_sub_cancel]
      have hsum : add128 (wrap128 (selSum main (2 ^ ri2 * a2))) (rd main ri2)
          = wrap128 (selSum main (2 ^ (ri2 + 1 - 1) * (a2 + 1))) := by
        unfold add128
        rw [wrap128_add_left, Nat.add_sub_cancel, selSum_odd main (a2 + 1) ri2 (by omega),
          Nat.add_sub_cancel]
      have hnext : 2 ^ (ri2 + 1 - 1) * (a2 + 1) = s + 2 ^ ri := by
        rw [Nat.add_sub_cancel]; exact hblock
      have hlt2 : 2 ^ (ri2 + 1 - 1) * (a2 + 1) < 2 ^ M := by
        rw [Nat.add_sub_cancel]
        have hd : 2 ^ (ri2 + 1) ∣ 2 ^ ri2 * a2 := by
          rw [← pow_mul_half_even ri2 a2 heven]; exact Nat.dvd_mul_right _ _
        have := add_le_of_dvd_lt _ _ _ hd (Nat.pow_dvd_pow 2 (by omega)) h6
        have h2p : 2 ^ (ri2 + 1) = 2 ^ ri2 + 2 ^ ri2 := by rw [Nat.pow_succ]; omega
        have hp2 : 0 < 2 ^ ri2 := Nat.pow_pos (by decide)
        rw [Nat.mul_add, Nat.mul_one]
        omega
      have hrec := ih (ri2 + 1) (a2 + 1) (by omega) hlt2 (by rw [hnext]; omega)
        (by
          intro j hj hjM
          have hc1 : (2 ^ (ri2 + 1 - 1) * (a2 + 1)) / 2 ^ j = s / 2 ^ j := by
            rw [Nat.add_sub_cancel, ← h7 j (by omega)]
            have := div_pow_pred_odd ri2 j (a2 + 1) (by omega) (by omega)
            rw [Nat.add_sub_cancel] at this
            exact this.symm
          rw [levelSum_congr main j _ s hc1]
          exact hpass j (by omega) hjM)
      rw [if_neg hend, hset, hsum, hrec, hnext, hsplit, List.filter_append, List.map_append,
        hfirst]
      rfl

theorem wrap128_zero : wrap128 0 = 0 := by decide

/-- `HashController::generateWork` terminates and pushes, in increasing order of the mask, the
packets of exactly the main-region subsets that pass the gates of all levels. -/
theorem hashGenerateWork_spec (table : List MinMaxStep) (main : List Int) (M : Nat)
    (hM : M ≤ 127) :
    hashGenerateWork table main M
      = some (((List.range (2 ^ M)).filter
          (fun B => decide (PassesAllLevels table main M B))).map (packetOf main)) := by
  have hpos : 0 < 2 ^ M := Nat.pow_pos (by decide)
  have h := workLoop_spec table main M hM (2 ^ M) M 0 (le_refl _) (by simp)
    (by simp) (by intro j h1 h2; omega)
  simp only [Nat.mul_zero, selSum_zero, wrap128_zero, Nat.sub_zero] at h
  unfold hashGenerateWork
  rw [h, List.range_eq_range']

theorem toggleLoop_zero (main : List Int) (s lim b : Nat) (sum : Int) :
    toggleLoop main s 0 lim b sum = sum := by
  cases lim with
  | zero => rfl
  | succ n =>
    rw [toggleLoop_succ]
    have : bitSet 0 b = false := by unfold bitSet; simp
    rw [this]; rfl

theorem orderLoop_chain (numbers : List NumberEntry) (hs : Ascending numbers)
    (hz : ZeroFree numbers) (hv : NoSignOverflow numbers) :
    ∀ (fuel L R : Nat) (es : List OrderEntry), L < R → R ≤ numbers.length →
      orderLoop numbers.length numbers fuel ((L : Int) - 1) (R : Int)
        (windowPair numbers L (R - L)).1 (windowPair numbers L (R - L)).2 = some es →
      EnvChain numbers L R es := by
  intro fuel
  induction fuel with
  | zero =>
    intro L R es _ _ h
    simp only [orderLoop] at h
    split_ifs at h
    cases h
    trivial
  | succ fuel ih =>
    intro L R es hLR hRn h
    obtain ⟨t1, t2, t3, t4, t5, t6, t7, hcR, eR⟩ := order_cast_facts L R numbers.length hLR
    simp only [orderLoop, t1, t2, hcR] at h
    clear t1 t2 t3 t4 t5 t6 t7 hcR
    have extR : R < numbers.length →
        (if (windowPair numbers L (R - L)).1 < 0 ∧ num numbers R < 0
          then add128 (windowPair numbers L (R - L)).1 (num numbers R)
          else (windowPair numbers L (R - L)).1)
          = (windowPair numbers L (R + 1 - L)).1 ∧
        (if num numbers R < 0 ∧ (windowPair numbers L (R - L)).1 < 0
          then add128 (windowPair numbers L (R - L)).1 (num numbers R)
          else (windowPair numbers L (R - L)).1)
          = (windowPair numbers L (R + 1 - L)).1 ∧
        (if (windowPair numbers L (R - L)).2 < 0 then num numbers R
          else add128 (windowPair numbers L (R - L)).2 (num numbers R))
          = (windowPair numbers L (R + 1 - L)).2 := by
      intro hR
      have h := windowPair_extRight numbers hs hz hv L (R - L) (by omega) (by omega)
      have e : L + (R - L) = R := by omega
      have e2 : R - L + 1 = R + 1 - L := by omega
      rw [e, e2] at h
      refine ⟨congrArg Prod.fst h, ?_, congrArg Prod.snd h⟩
      rw [← congrArg Prod.fst h]
      simp only [and_comm]
    have extL : 1 ≤ L →
        (if (windowPair numbers L (R - L)).1 > 0 then num numbers (L - 1)
          else add128 (windowPair numbers L (R - L)).1 (num numbers (L - 1)))
          = (windowPair numbers (L - 1) (R - (L - 1))).1 ∧
        (if (windowPair numbers L (R - L)).2 > 0 ∧ num numbers (L - 1) > 0
          then add128 (windowPair numbers L (R - L)).2 (num numbers (L - 1))
          else (windowPair numbers L (R - L)).2)
          = (windowPair numbers (L - 1) (R - (L - 1))).2 ∧
        (if num numbers (L - 1) > 0 ∧ (windowPair numbers L (R - L)).2 > 0
          then add128 (windowPair numbers L (R - L)).2 (num numbers (L - 1))
          else (windowPair numbers L (R - L)).2)
          = (windowPair numbers (L - 1) (R - (L - 1))).2 := by
      intro hL
      obtain ⟨q, rfl⟩ : ∃ q, L = q + 1 := ⟨L - 1, by omega⟩
      have h := windowPair_extLeft numbers hs hz hv q (R - (q + 1)) (by omega) (by omega)
      have e2 : R - (q + 1) + 1 = R - (q + 1 - 1) := by omega
      rw [e2] at h
      rw [Nat.add_sub_cancel] at h ⊢
      refine ⟨congrArg Prod.fst h, congrArg Prod.snd h, ?_⟩
      rw [← congrArg Prod.snd h]
      simp only [and_comm]
    have goL : 1 ≤ L → ∀ (e : OrderEntry) (rest : List OrderEntry),
        e.minMax = gateOf numbers L R → e.number = num numbers (L - 1) →
        e.order = ord numbers (L - 1) →
        orderLoop numbers.length numbers fuel ((L : Int) - 1 - 1) (R : Int)
          (windowPair numbers (L - 1) (R - (L - 1))).1
          (windowPair numbers (L - 1) (R - (L - 1))).2 = some rest →
        EnvChain numbers L R (e :: rest) := by
      intro hL e rest h1 h2 h3 h4
      have e1 : (L : Int) - 1 - 1 = ((L - 1 : Nat) : Int) - 1 := by omega
      rw [e1] at h4
      exact ⟨h1, Or.inl ⟨hL, h2, h3, ih (L - 1) R rest (by omega) hRn h4⟩⟩
    have goR : R < numbers.length → ∀ (e : OrderEntry) (rest : List OrderEntry),
        e.minMax = gateOf numbers L R → e.number = num numbers R →
        e.order = ord numbers R →
        orderLoop numbers.length numbers fuel ((L : Int) - 1) ((R : Int) + 1)
          (windowPair numbers L (R + 1 - L)).1
          (windowPair numbers L (R + 1 - L)).2 = some rest →
        EnvChain numbers L R (e :: rest) := by
      intro hR e rest h1 h2 h3 h4
      rw [eR] at h4
      exact ⟨h1, Or.inr ⟨hR, h2, h3, ih L (R + 1) rest (by omega) (by omega) h4⟩⟩
    by_cases hL : 1 ≤ L
    · have hl0 : (L : Int) - 1 ≥ 0 := by omega
      obtain ⟨l1, l2, l3⟩ := extL hL
      by_cases hR : R < numbers.length
      · obtain ⟨r1, r2, r3⟩ := extR hR
        simp only [hl0, hR, true_or, and_self, if_true, l1, l2, r1, r3] at h
        split_ifs at h
        · rw [Option.map_eq_some'] at h
          obtain ⟨rest, hrest, rfl⟩ := h
          exact goL hL _ rest rfl rfl rfl hrest
        · rw [Option.map_eq_some'] at h
          obtain ⟨rest, hrest, rfl⟩ := h
          exact goR hR _ rest rfl rfl rfl hrest
      · simp only [hl0, hR, true_or, and_false, if_true, if_false, l1, l3] at h
        rw [Option.map_eq_some'] at h
        obtain ⟨rest, hrest, rfl⟩ := h
        exact goL hL _ rest rfl rfl rfl hrest
    · have hl0 : ¬ ((L : Int) - 1 ≥ 0) := by omega
      by_cases hR : R < numbers.length
      · obtain ⟨r1, r2, r3⟩ := extR hR
        simp only [hl0, hR, or_true, false_and, if_true, if_false, r2, r3] at h
        rw [Option.map_eq_some'] at h
        obtain ⟨rest, hrest, rfl⟩ := h
        exact goR hR _ rest rfl rfl rfl hrest
      · simp only [hl0, hR, or_false, if_false] at h
        cases h
        trivial

theorem selSum_cons (x : Int) (xs : List Int) (B : Nat) :
    selSum (x :: xs) B = (if B % 2 = 1 then x else 0) + selSum xs (B / 2) := rfl

theorem num_eq_get (numbers : List NumberEntry) (i : Nat) (h : i < numbers.length) :
    num numbers i = (numbers.get ⟨i, h⟩).number := by
  unfold num
  rw [List.get?_eq_get h]

theorem num_cons_succ (x : NumberEntry) (xs : List NumberEntry) (i : Nat) :
    num (x :: xs) (i + 1) = num xs i := by
  unfold num; simp

theorem num_cons_zero (x : NumberEntry) (xs : List NumberEntry) :
    num (x :: xs) 0 = x.number := by
  unfold num; simp

theorem posS_cons_shift (x : NumberEntry) (xs : List NumberEntry) (s : Nat) :
    ∀ k, posS (x :: xs) (s + 1) k = posS xs s k := by
  intro k
  induction k with
  | zero => rfl
  | succ k ih =>
    rw [posS, posS, ih]
    have : s + 1 + k = (s + k) + 1 := by omega
    rw [this, num_cons_succ]

theorem negS_cons_shift (x : NumberEntry) (xs : List NumberEntry) (s : Nat) :
    ∀ k, negS (x :: xs) (s + 1) k = negS xs s k := by
  intro k
  induction k with
  | zero => rfl
  | succ k ih =>
    rw [negS, negS, ih]
    have : s + 1 + k = (s + k) + 1 := by omega
    rw [this, num_cons_succ]

theorem posS_eq_total (numbers : List NumberEntry) :
    posS numbers 0 numbers.length = posTotal (numbers.map (fun e => e.number)) := by
  induction numbers with
  | nil => rfl
  | cons x xs ih =>
    rw [List.length_cons, posS_succ_left, posS_cons_shift, ih, num_cons_zero]
    simp [posTotal]

theorem negS_eq_total (numbers : List NumberEntry) :
    negS numbers 0 numbers.length = negTotal (numbers.map (fun e => e.number)) := by
  induction numbers with
  | nil => rfl
  | cons x xs ih =>
    rw [List.length_cons, negS_succ_left, negS_cons_shift, ih, num_cons_zero]
    simp [negTotal]

theorem entriesOf_length (vals : List Int) : (entriesOf vals).length = vals.length := by
  simp [entriesOf]

theorem entriesOf_map_number (vals : List Int) :
    (entriesOf vals).map (fun e => e.number) = vals := by
  apply List.ext_get
  · simp [entriesOf]
  · intro i h1 h2
    simp [entriesOf, rd, List.getElem?_eq_getElem h2]

instance : IsTotal NumberEntry (fun a b => a.number ≤ b.number) :=
  ⟨fun a b => le_total a.number b.number⟩

instance : IsTrans NumberEntry (fun a b => a.number ≤ b.number) :=
  ⟨fun _ _ _ h1 h2 => le_trans h1 h2⟩

theorem sortEntries_perm (entries : List NumberEntry) :
    (sortEntries entries).Perm entries :=
  List.perm_insertionSort _ entries

theorem sortEntries_length (entries : List NumberEntry) :
    (sortEntries entries).length = entries.length :=
  List.length_insertionSort _ entries

theorem sortEntries_ascending (entries : List NumberEntry) :
    Ascending (sortEntries entries) := by
  intro i hi
  have hsorted : List.Sorted (fun a b : NumberEntry => a.number ≤ b.number)
      (sortEntries entries) := List.sorted_insertionSort _ entries
  rw [num_eq_get _ i (by omega), num_eq_get _ (i + 1) (by omega)]
  exact hsorted.rel_get_of_lt (by simp)

/-- The sorted entries of a valid problem are ascending, zero-free and satisfy the overflow
bounds. -/
theorem sorted_valid (problem : List Int) (hv : ValidProblem problem) :
    Ascending (sortEntries (entriesOf problem)) ∧
    ZeroFree (sortEntries (entriesOf problem)) ∧
    NoSignOverflow (sortEntries (entriesOf problem)) ∧
    (sortEntries (entriesOf problem)).length = problem.length := by
  have hperm := sortEntries_perm (entriesOf problem)
  have hmap : ((sortEntries (entriesOf problem)).map (fun e => e.number)).Perm problem := by
    have := hperm.map (fun e => e.number)
    rwa [entriesOf_map_number] at this
  refine ⟨sortEntries_ascending _, ?_, ?_, ?_⟩
  · intro i hi
    rw [num_eq_get _ i hi]
    apply hv.1
    apply hmap.subset
    exact List.mem_map_of_mem _ (List.get_mem _ _ _)
  · unfold NoSignOverflow
    rw [posS_eq_total, negS_eq_total]
    have h1 : posTotal ((sortEntries (entriesOf problem)).map (fun e => e.number))
        = posTotal problem := by
      unfold posTotal; exact (hmap.map _).sum_eq
    have h2 : negTotal ((sortEntries (entriesOf problem)).map (fun e => e.number))
        = negTotal problem := by
      unfold negTotal; exact (hmap.map _).sum_eq
    rw [h1, h2]
    exact hv.2
  · rw [sortEntries_length, entriesOf_length]

theorem regionSlide_bestPos_le (W : Nat) (numbers : List NumberEntry) :
    ∀ k, (regionSlide W numbers k).bestPos ≤ k := by
  intro k
  induction k with
  | zero => simp [regionSlide, regionInit]
  | succ k ih =>
    simp only [regionSlide]
    split_ifs
    · exact le_refl _
    · exact Nat.le_succ_of_le ih

theorem smallestRangeRegion_le (N W : Nat) (numbers : List NumberEntry) :
    smallestRangeRegion N W numbers ≤ N - W - 1 :=
  regionSlide_bestPos_le W numbers _

/-- `orderNumberRanges` started from the window `numbers[p .. p+W)` returns, and its output
slots form an envelope chain over the elements outside the window. -/
theorem orderNumberRanges_run (numbers : List NumberEntry) (hs : Ascending numbers)
    (hz : ZeroFree numbers) (hv : NoSignOverflow numbers) (p W : Nat) (hW : 1 ≤ W)
    (hpW : p + W ≤ numbers.length) :
    ∃ es, orderNumberRanges ((p : Int) - 1) ((p : Int) + (W : Int)) numbers.length numbers
        = some (orderResult (gateOf numbers p (p + W)) es) ∧
      es.length = numbers.length - W ∧ EnvChain numbers p (p + W) es := by
  have e1 : ((p : Int) - 1 + 1).toNat = p := by omega
  have e2 : ((p : Int) + (W : Int) - ((p : Int) - 1) - 1).toNat = W := by omega
  have e3 : (p : Int) + (W : Int) = ((p + W : Nat) : Int) := by omega
  have e4 : p + W - p = W := by omega
  unfold orderNumberRanges
  simp only [e1, e2]
  clear e1 e2
  have hw := rangeForRegion_eq_of_valid numbers hv p W hpW
  rw [hw, e3]
  obtain ⟨es, h1, h2⟩ := orderLoop_some numbers numbers.length numbers.length p (p + W)
    (windowPair numbers p W).1 (windowPair numbers p W).2 hpW (by omega)
  refine ⟨es, ?_, by omega, ?_⟩
  · rw [h1]
    simp only [Option.map_some', gateOf, e4]
  · apply orderLoop_chain numbers hs hz hv numbers.length p (p + W) es (by omega) hpW
    rw [e4]; exact h1

theorem orderResult_of_ne (first : MinMaxStep) (es : List OrderEntry) (h : 0 < es.length) :
    (orderResult first es).destMinMax = es.map (fun e => e.minMax) ∧
    (orderResult first es).destNumbers = es.map (fun e => e.number) ∧
    (orderResult first es).destOrders = es.map (fun e => e.order) := by
  cases es with
  | nil => simp at h
  | cons e rest => exact ⟨rfl, rfl, rfl⟩

theorem wrap64_add_left (a b : Int) : wrap64 (wrap64 a + b) = wrap64 (a + b) := by
  unfold wrap64; omega

theorem wrap64_add_right (a b : Int) : wrap64 (a + wrap64 b) = wrap64 (a + b) := by
  unfold wrap64; omega

theorem wrap64_idem (a : Int) : wrap64 (wrap64 a) = wrap64 a := by
  unfold wrap64; omega

theorem wrap64_congr_add (a b c : Int) (h : wrap64 a = wrap64 b) :
    wrap64 (a + c) = wrap64 (b + c) := by
  unfold wrap64 at *; omega

theorem wrap64_eq_zero_of_wrap128 (a : Int) (h : wrap128 a = 0) : wrap64 a = 0 := by
  unfold wrap128 at h; unfold wrap64; omega

theorem wrap64_wrap128 (a : Int) : wrap64 (wrap128 a) = wrap64 a := by
  unfold wrap128 wrap64; omega

/-- Adding the element at position `i` to a subset that lies below `2^i`. -/
theorem selSum_pow_add (nums : List Int) (i t : Nat) (ht : t < 2 ^ i) :
    selSum nums (2 ^ i + t) = selSum nums t + rd nums i := by
  have hor : 2 ^ i + t = 2 ^ i ||| t := by
    have := Nat.mul_add_lt_is_or ht 1
    simpa using this
  have hti : t.testBit i = false := Nat.testBit_lt_two_pow ht
  have h := sum_range_single_diff
    (fun j => if (2 ^ i + t).testBit j then rd nums j else 0)
    (fun j => if t.testBit j then rd nums j else 0) i (nums.length + i + 1)
    (by omega)
    (by
      intro j hj
      simp only [hor, Nat.testBit_or, Nat.testBit_two_pow]
      have : ¬ (i = j) := fun h => hj h.symm
      simp [this])
  rw [selSum_eq_sum nums (2 ^ i + t) (nums.length + i + 1) (by omega),
    selSum_eq_sum nums t (nums.length + i + 1) (by omega)]
  simp only [hor, Nat.testBit_or, Nat.testBit_two_pow_self, Bool.true_or, if_true, hti,
    Bool.false_eq_true, if_false, sub_zero] at h ⊢
  linarith

theorem selSum_pow (nums : List Int) (i : Nat) : selSum nums (2 ^ i) = rd nums i := by
  have := selSum_pow_add nums i 0 (Nat.pow_pos (by decide))
  simpa [selSum_zero] using this

/-- Exact value of the running total `s_k` and of the constant `v_(k+1)` modulo `2^64`. -/
theorem naiveVS_spec (sc : List Int) :
    ∀ k, wrap64 (naiveVS sc k).2 = wrap64 (selSum (sc.drop 32) (2 ^ (k + 1) - 1)) ∧
      wrap64 (naiveVS sc (k + 1)).1
        = wrap64 (rd (sc.drop 32) (k + 1) - selSum (sc.drop 32) (2 ^ (k + 1) - 1)) := by
  have hrd : ∀ i, rd sc (32 + i) = rd (sc.drop 32) i := by
    intro i; simp [rd, List.getD_eq_getElem?_getD, List.getElem?_drop]
  have hstep : ∀ k, wrap64 (naiveVS sc k).2 = wrap64 (selSum (sc.drop 32) (2 ^ (k + 1) - 1)) := by
    intro k
    induction k with
    | zero =>
      have := selSum_pow (sc.drop 32) 0
      simp only [pow_zero] at this
      simp only [naiveVS, zero_add, pow_one, Nat.add_one_sub_one, this]
      rw [← hrd 0]
    | succ k ih =>
      have hlt : 2 ^ (k + 1) - 1 < 2 ^ (k + 1) := by
        have : 0 < 2 ^ (k + 1) := Nat.pow_pos (by decide)
        omega
      have e : 2 ^ (k + 1 + 1) - 1 = 2 ^ (k + 1) + (2 ^ (k + 1) - 1) := by
        have : 0 < 2 ^ (k + 1) := Nat.pow_pos (by decide)
        rw [Nat.pow_succ]; omega
      rw [e, selSum_pow_add _ _ _ hlt]
      simp only [naiveVS, add64, hrd]
      generalize selSum (sc.drop 32) (2 ^ (k + 1) - 1) = T at *
      generalize (naiveVS sc k).2 = s at *
      unfold wrap64 at *; omega
  intro k
  refine ⟨hstep k, ?_⟩
  have := hstep k
  simp only [naiveVS, sub64, hrd]
  generalize selSum (sc.drop 32) (2 ^ (k + 1) - 1) = T at *
  generalize (naiveVS sc k).2 = s at *
  unfold wrap64 at *; omega

theorem foldl_naiveStep_fst_snd (ds : List Int) (σ : Int) (f : Bool) :
    (ds.foldl naiveStep (σ, f)).2 = (f || (ds.foldl naiveStep (σ, false)).2) ∧
    (ds.foldl naiveStep (σ, f)).1 = (ds.foldl naiveStep (σ, false)).1 := by
  induction ds generalizing σ f with
  | nil => simp
  | cons d ds ih =>
    simp only [List.foldl_cons, naiveStep]
    obtain ⟨h1, h2⟩ := ih (add64 σ d) (f || (add64 σ d == 0))
    obtain ⟨h3, h4⟩ := ih (add64 σ d) (false || (add64 σ d == 0))
    rw [h1, h2, h3, h4]
    simp [Bool.or_assoc]

/-- The walk of `NAIVE_CORE_k` started at `σ`: it ends at `σ` plus the sum of the elements
`0..k` and sets `find` exactly when the sum of some non-empty subset `t < 2^(k+1)` of these
elements, added to `σ`, is zero modulo `2^64`. -/
theorem naiveCore_walk (sc : List Int) :
    ∀ (k : Nat) (σ : Int),
      ((naiveCore (fun k => (naiveVS sc k).1) k).foldl naiveStep (σ, false)).1
          = wrap64 (σ + selSum (sc.drop 32) (2 ^ (k + 1) - 1)) ∧
      (((naiveCore (fun k => (naiveVS sc k).1) k).foldl naiveStep (σ, false)).2 = true ↔
        ∃ t, 1 ≤ t ∧ t < 2 ^ (k + 1) ∧ wrap64 (σ + selSum (sc.drop 32) t) = 0) := by
  have hrd : ∀ i, rd sc (32 + i) = rd (sc.drop 32) i := by
    intro i; simp [rd, List.getD_eq_getElem?_getD, List.getElem?_drop]
  intro k
  induction k with
  | zero =>
    intro σ
    have h1 : selSum (sc.drop 32) 1 = rd sc 32 := by
      have := selSum_pow (sc.drop 32) 0
      simp only [pow_zero] at this
      rw [this, ← hrd 0]
    simp only [naiveCore, naiveVS, List.foldl_cons, List.foldl_nil, naiveStep, add64,
      Bool.false_or, zero_add, pow_one, Nat.add_one_sub_one, h1, beq_iff_eq, true_and]
    constructor
    · intro h; exact ⟨1, le_refl _, by decide, by rw [h1]; exact h⟩
    · rintro ⟨t, ht1, ht2, ht3⟩
      have : t = 1 := by omega
      subst this; rw [h1] at ht3; exact ht3
  | succ k ih =>
    intro σ
    have hpos : 0 < 2 ^ (k + 1) := Nat.pow_pos (by decide)
    have hpow : 2 ^ (k + 1 + 1) = 2 ^ (k + 1) + 2 ^ (k + 1) := by rw [Nat.pow_succ]; omega
    obtain ⟨hv1, hv2⟩ := naiveVS_spec sc k
    -- first half
    obtain ⟨e1, f1⟩ := ih σ
    -- the middle step
    have hmid : add64 (wrap64 (σ + selSum (sc.drop 32) (2 ^ (k + 1) - 1))) (naiveVS sc (k + 1)).1
        = wrap64 (σ + rd (sc.drop 32) (k + 1)) := by
      unfold add64
      rw [wrap64_add_left, ← wrap64_add_right, hv2, wrap64_add_right]
      congr 1; ring
    obtain ⟨e2, f2⟩ := ih (wrap64 (σ + rd (sc.drop 32) (k + 1)))
    have hsplit : ∀ t, t < 2 ^ (k + 1) →
        selSum (sc.drop 32) (2 ^ (k + 1) + t) = selSum (sc.drop 32) t + rd (sc.drop 32) (k + 1) :=
      fun t ht => selSum_pow_add _ _ _ ht
    simp only [naiveCore, List.foldl_append, List.foldl_cons, List.foldl_nil]
    obtain ⟨g1, g2⟩ := foldl_naiveStep_fst_snd (naiveCore (fun k => (naiveVS sc k).1) k)
      (naiveStep (List.foldl naiveStep (σ, false) (naiveCore (fun k => (naiveVS sc k).1) k))
        (naiveVS sc (k + 1)).1).1
      (naiveStep (List.foldl naiveStep (σ, false) (naiveCore (fun k => (naiveVS sc k).1) k))
        (naiveVS sc (k + 1)).1).2
    have hst1 : (naiveStep (List.foldl naiveStep (σ, false)
        (naiveCore (fun k => (naiveVS sc k).1) k)) (naiveVS sc (k + 1)).1).1
        = wrap64 (σ + rd (sc.drop 32) (k + 1)) := by
      simp only [naiveStep, e1, hmid]
    have hst2 : (naiveStep (List.foldl naiveStep (σ, false)
        (naiveCore (fun k => (naiveVS sc k).1) k)) (naiveVS sc (k + 1)).1).2
        = ((List.foldl naiveStep (σ, false) (naiveCore (fun k => (naiveVS sc k).1) k)).2 ||
            (wrap64 (σ + rd (sc.drop 32) (k + 1)) == 0)) := by
      simp only [naiveStep, e1, hmid]
    have hpair : ∀ (p : Int × Bool), p = (p.1, p.2) := fun p => rfl
    rw [hpair (naiveStep _ _), g1, g2, hst1, hst2]
    constructor
    · rw [e2, wrap64_add_left]
      have e : 2 ^ (k + 1 + 1) - 1 = 2 ^ (k + 1) + (2 ^ (k + 1) - 1) := by omega
      rw [e, hsplit _ (by omega)]
      congr 1; ring
    · simp only [Bool.or_eq_true, f1, f2, beq_iff_eq]
      constructor
      · rintro ((⟨t, h1, h2, h3⟩ | h) | ⟨t, h1, h2, h3⟩)
        · exact ⟨t, h1, by omega, h3⟩
        · refine ⟨2 ^ (k + 1), by omega, by omega, ?_⟩
          rw [selSum_pow]; exact h
        · refine ⟨2 ^ (k + 1) + t, by omega, by omega, ?_⟩
          rw [hsplit t h2]
          rw [wrap64_add_left] at h3
          rw [← h3]; congr 1; ring
      · rintro ⟨t, h1, h2, h3⟩
        by_cases hlt : t < 2 ^ (k + 1)
        · exact Or.inl (Or.inl ⟨t, h1, hlt, h3⟩)
        · by_cases heq : t = 2 ^ (k + 1)
          · subst heq
            rw [selSum_pow] at h3
            exact Or.inl (Or.inr h3)
          · refine Or.inr ⟨t - 2 ^ (k + 1), by omega, by omega, ?_⟩
            have ht : t = 2 ^ (k + 1) + (t - 2 ^ (k + 1)) := by omega
            rw [ht, hsplit _ (by omega)] at h3
            rw [wrap64_add_left, ← h3]; congr 1; ring

/-- `find` is set for the prefix `current` exactly when some 9-bit suffix `t` makes the 64-bit
sum zero. -/
theorem naiveFind_iff (sc : List Int) (inputSum : Int) (current : Nat) :
    naiveFind sc inputSum current = true ↔
      ∃ t, t < 512 ∧ wrap64 (inputSum + rd sc current + selSum (sc.drop 32) t) = 0 := by
  unfold naiveFind
  simp only
  obtain ⟨g1, _⟩ := foldl_naiveStep_fst_snd (naiveCore (fun k => (naiveVS sc k).1) 8)
    (add64 inputSum (rd sc current)) (add64 inputSum (rd sc current) == 0)
  obtain ⟨_, f1⟩ := naiveCore_walk sc 8 (add64 inputSum (rd sc current))
  rw [g1, Bool.or_eq_true, f1, beq_iff_eq]
  unfold add64
  constructor
  · rintro (h | ⟨t, h1, h2, h3⟩)
    · exact ⟨0, by decide, by rw [selSum_zero, add_zero]; exact h⟩
    · refine ⟨t, by simpa using h2, ?_⟩
      rw [wrap64_add_left] at h3; exact h3
  · rintro ⟨t, h1, h2⟩
    by_cases h0 : t = 0
    · subst h0
      rw [selSum_zero, add_zero] at h2
      exact Or.inl h2
    · refine Or.inr ⟨t, by omega, by simpa using h1, ?_⟩
      rw [wrap64_add_left]; exact h2

theorem subsetSumNaiveMethod_mem (sc : List Int) (inputSum : Int) (c : Nat) :
    c ∈ subsetSumNaiveMethod sc inputSum ↔
      c < 32 ∧ ∃ t, t < 512 ∧ wrap64 (inputSum + rd sc c + selSum (sc.drop 32) t) = 0 := by
  unfold subsetSumNaiveMethod
  rw [List.mem_filter, List.mem_range, naiveFind_iff]

theorem wordBit_eq (i x : Nat) : wordBit i x = i.testBit x := by
  unfold wordBit
  rw [Nat.one_shiftLeft, Nat.and_comm]
  exact and_two_pow_ne_zero i x

theorem rd_drop (a : List Int) (base i : Nat) : rd (a.drop base) i = rd a (base + i) := by
  simp [rd, List.getD_eq_getElem?_getD, List.getElem?_drop]

/-- The selection sum of a subset below `2^k` only involves the first `k` elements. -/
theorem selSum_lt_pow (nums : List Int) (c k : Nat) (hc : c < 2 ^ k) :
    selSum nums c = ∑ x in Finset.range k, (if c.testBit x then rd nums x else 0) := by
  rw [selSum_eq_sum nums c (nums.length + k) (by omega), Nat.add_comm,
    Finset.sum_range_add]
  have : ∑ x in Finset.range nums.length, (if c.testBit (k + x) then rd nums (k + x) else 0)
      = 0 := by
    apply Finset.sum_eq_zero
    intro x _
    have : c.testBit (k + x) = false :=
      Nat.testBit_lt_two_pow (lt_of_lt_of_le hc (Nat.pow_le_pow_right (by decide) (by omega)))
    simp [this]
  rw [this, add_zero]

/-- The 64-bit prefix sums of the controller tables, modulo `2^64`. -/
theorem prefixSum64_spec (a : List Int) (base i : Nat) :
    ∀ k, wrap64 (prefixSum64 a base i k)
      = wrap64 (∑ x in Finset.range k, (if i.testBit x then rd (a.drop base) x else 0)) := by
  intro k
  induction k with
  | zero => simp [prefixSum64]
  | succ k ih =>
    rw [Finset.sum_range_succ, prefixSum64]
    simp only [wordBit_eq, rd_drop]
    by_cases hb : i.testBit k
    · simp only [hb, if_true, add64, toInt64, wrap64_idem]
      simp only [rd_drop] at ih
      rw [wrap64_add_right, wrap64_congr_add _ _ _ ih]
    · simp only [hb, Bool.false_eq_true, if_false, add_zero]
      simp only [rd_drop] at ih
      exact ih

/-- The 128-bit index sum of `checkAndSendSolution`. -/
theorem indexSum128_spec (a : List Int) (base : Nat) (A : Int) (c : Nat) :
    ∀ k, indexSum128 a base (wrap128 A) c k
      = wrap128 (A + ∑ x in Finset.range k, (if c.testBit x then rd (a.drop base) x else 0)) := by
  intro k
  induction k with
  | zero => simp [indexSum128]
  | succ k ih =>
    rw [Finset.sum_range_succ, indexSum128]
    simp only [wordBit_eq, rd_drop] at ih ⊢
    by_cases hb : c.testBit k
    · simp only [hb, if_true, add128, ih]
      rw [wrap128_add_left]; congr 1; ring
    · simp only [hb, Bool.false_eq_true, if_false, add_zero, ih]

/-- The toggle loop turns `A` plus the sum of subset `s - 1` into `A` plus the sum of `s`. -/
theorem toggleLoop_step_offset (nums : List Int) (s lim : Nat) (A : Int) (hs : 0 < s)
    (hlt : s < 2 ^ lim) (hlim : lim ≤ 128) :
    toggleLoop nums s ((s - 1) ^^^ s) lim 0 (wrap128 (A + selSum nums (s - 1))) =
      wrap128 (A + selSum nums s) := by
  obtain ⟨k, h1, h2, h3, h4⟩ := lowbit s hs
  have hk : k < lim := by
    by_contra hge
    have : s < 2 ^ k := lt_of_lt_of_le hlt (Nat.pow_le_pow_right (by decide) (by omega))
    rw [Nat.testBit_lt_two_pow this] at h2
    exact Bool.noConfusion h2
  have hrun := toggleLoop_run nums s ((s - 1) ^^^ s) k lim hk hlim
    (by
      intro i hi
      rw [Nat.testBit_xor]
      rcases Nat.lt_or_eq_of_le hi with hlt | heq
      · rw [(h1 i hlt).1, (h1 i hlt).2]; rfl
      · subst heq; rw [h2, h3]; rfl)
    (by rw [Nat.testBit_xor, h4 (k + 1) (by omega)]; simp)
    (fun i hi => (h1 i hi).1) h2 k 0 (A + selSum nums (s - 1)) (by omega)
  rw [Nat.sub_zero] at hrun
  rw [hrun, ← Finset.range_eq_Ico]
  congr 1
  have := selSum_succ_diff nums s k h1 h2 h3 h4
  linarith

/-- What one pass of the verification loop of `NaiveWorker::checkAndSendSolution` emits for
the suffix `t`. -/
theorem naiveCheckLoop_eq (numbers : List Int) (N S c : Nat) (A : Int) :
    ∀ (left s : Nat), 1 ≤ s → s + left = 512 →
      naiveCheckLoop numbers N S c left s (s - 1)
          (wrap128 (A + selSum (numbers.drop (N - 9)) (s - 1)))
        = (List.range' s left).flatMap (fun t =>
            if wrap128 (A + selSum (numbers.drop (N - 9)) t) = 0 ∧
                S ||| shl128 t (N - 9) ||| shl128 c (N - 14) ≠ 0
            then [S ||| shl128 t (N - 9) ||| shl128 c (N - 14)] else []) := by
  intro left
  induction left with
  | zero => intro s _ _; rfl
  | succ left ih =>
    intro s hs1 hs
    rw [naiveCheckLoop]
    rw [toggleLoop_step_offset _ s 9 A (by omega) (by norm_num; omega) (by decide)]
    have := ih (s + 1) (by omega) (by omega)
    rw [Nat.add_sub_cancel] at this
    rw [this, List.range'_succ, List.flatMap_cons]

theorem naiveCheckAndSend_eq (numbers : List Int) (N S c : Nat) (A : Int) :
    naiveCheckAndSend numbers N S (wrap128 A) c
      = (List.range 512).flatMap (fun t =>
          if wrap128 (A + (∑ x in Finset.range 5,
                (if c.testBit x then rd (numbers.drop (N - 14)) x else 0))
              + selSum (numbers.drop (N - 9)) t) = 0 ∧
              S ||| shl128 t (N - 9) ||| shl128 c (N - 14) ≠ 0
          then [S ||| shl128 t (N - 9) ||| shl128 c (N - 14)] else []) := by
  unfold naiveCheckAndSend
  rw [indexSum128_spec, naiveCheckLoop]
  simp only [Nat.xor_self, toggleLoop_zero]
  have h := naiveCheckLoop_eq numbers N S c
    (A + ∑ x in Finset.range 5, (if c.testBit x then rd (numbers.drop (N - 14)) x else 0))
    511 1 (le_refl _) (by norm_num)
  simp only [Nat.sub_self, selSum_zero, add_zero, Nat.zero_add] at h ⊢
  rw [h, List.range_eq_range']
  have hr : List.range' 0 512 = 0 :: List.range' 1 511 := rfl
  rw [hr, List.flatMap_cons]
  simp only [selSum_zero, add_zero]

theorem naiveWorkLoop_eq (numbers : List Int) (M : Nat) (hM : M ≤ 127) :
    ∀ (j s : Nat), 1 ≤ s → s + j = 2 ^ M →
      naiveWorkLoop numbers (2 ^ M) (j + 1) s (s - 1) (wrap128 (selSum numbers (s - 1))) =
        some ((List.range' s j).map (packetOf numbers)) := by
  have hpow : 2 ^ M < 2 ^ 128 := Nat.pow_lt_pow_right (by decide) (by omega)
  intro j
  induction j with
  | zero =>
    intro s _ hs
    simp [naiveWorkLoop, hs.symm]
  | succ j ih =>
    intro s hs1 hs
    have hne : s ≠ 2 ^ M := by omega
    have hinc : inc128 s = s + 1 := by
      unfold inc128; rw [← two_pow_128]; exact Nat.mod_eq_of_lt (by omega)
    rw [naiveWorkLoop]
    simp only [hne, if_false]
    rw [toggleLoop_step numbers s 128 (by omega) (by omega) (le_refl _), hinc]
    have := ih (s + 1) (by omega) (by omega)
    rw [Nat.add_sub_cancel] at this
    rw [this, List.range'_succ]
    simp [packetOf, selSum128]

/-- `NaiveController::generateWork` terminates and pushes the packet of every subset of the
first `N - 14` elements, in increasing order. -/
theorem naiveGenerateWork_spec (numbers : List Int) (hN : numbers.length - 14 ≤ 127) :
    naiveGenerateWork numbers
      = some ((List.range (2 ^ (numbers.length - 14))).map (packetOf numbers)) := by
  have hpos : 0 < 2 ^ (numbers.length - 14) := Nat.pow_pos (by decide)
  unfold naiveGenerateWork
  rw [shl128_one _ (by omega), naiveWorkLoop]
  have hne : (0 : Nat) ≠ 2 ^ (numbers.length - 14) := by omega
  have hinc : inc128 0 = 1 := by decide
  simp only [hne, if_false, Nat.xor_self, toggleLoop_zero, hinc]
  have h := naiveWorkLoop_eq numbers (numbers.length - 14) hN (2 ^ (numbers.length - 14) - 1) 1
    (le_refl _) (by omega)
  simp only [Nat.sub_self, selSum_zero, wrap128_zero] at h
  have e : 2 ^ (numbers.length - 14) - 1 + 1 = 2 ^ (numbers.length - 14) := by omega
  rw [e] at h
  rw [h, List.range_eq_range']
  have hr : List.range' 0 (2 ^ (numbers.length - 14))
      = 0 :: List.range' 1 (2 ^ (numbers.length - 14) - 1) := by
    have e2 : 2 ^ (numbers.length - 14) = (2 ^ (numbers.length - 14) - 1) + 1 := by omega
    conv_lhs => rw [e2]
    rw [List.range'_succ]
  rw [hr]
  simp [packetOf, selSum128, selSum_zero, wrap128_zero]

theorem selSum_append (xs ys : List Int) :
    ∀ B, selSum (xs ++ ys) B = selSum xs (B % 2 ^ xs.length) + selSum ys (B / 2 ^ xs.length) := by
  induction xs with
  | nil => intro B; simp [selSum, Nat.mod_one]
  | cons x xs ih =>
    intro B
    rw [List.cons_append, selSum_cons, selSum_cons, ih (B / 2), List.length_cons]
    have h1 : B % 2 ^ (xs.length + 1) % 2 = B % 2 := by
      rw [Nat.pow_succ]
      exact Nat.mod_mod_of_dvd B (Dvd.intro_left _ rfl)
    have h2 : B % 2 ^ (xs.length + 1) / 2 = B / 2 % 2 ^ xs.length := by
      rw [Nat.pow_succ, Nat.mul_comm]
      exact Nat.mod_mul_right_div_self B 2 (2 ^ xs.length)
    have h3 : B / 2 ^ (xs.length + 1) = B / 2 / 2 ^ xs.length := by
      rw [Nat.pow_succ, Nat.mul_comm, Nat.div_div_eq_div_mul]
    rw [h1, h2, h3]
    ring

theorem selSum_bounds (nums : List Int) : ∀ B,
    negTotal nums ≤ selSum nums B ∧ selSum nums B ≤ posTotal nums := by
  induction nums with
  | nil => intro B; simp [selSum, negTotal, posTotal]
  | cons x xs ih =>
    intro B
    obtain ⟨h1, h2⟩ := ih (B / 2)
    simp only [selSum_cons, negTotal, posTotal, List.map_cons, List.sum_cons] at *
    constructor <;> (split_ifs <;> omega)

/-- For a valid problem a 128-bit sum is zero exactly when the exact sum is. -/
theorem selSum128_eq_zero_iff (nums : List Int) (hv : ValidProblem nums) (B : Nat) :
    selSum128 nums B = 0 ↔ selSum nums B = 0 := by
  obtain ⟨h1, h2⟩ := selSum_bounds nums B
  obtain ⟨_, h3, h4⟩ := hv
  unfold selSum128 wrap128
  unfold maxInt128 at h3 h4
  constructor <;> intro h <;> omega

theorem sum_range_wrap64_congr (f g : Nat → Int) :
    ∀ k, (∀ x, x < k → wrap64 (f x) = wrap64 (g x)) →
      wrap64 (∑ x in Finset.range k, f x) = wrap64 (∑ x in Finset.range k, g x) := by
  intro k
  induction k with
  | zero => intro _; rfl
  | succ k ih =>
    intro h
    rw [Finset.sum_range_succ, Finset.sum_range_succ]
    have h1 := ih (fun x hx => h x (by omega))
    have h2 := h k (by omega)
    generalize ∑ x in Finset.range k, f x = a at *
    generalize ∑ x in Finset.range k, g x = b at *
    generalize f k = c at *
    generalize g k = d at *
    unfold wrap64 at *; omega

/-- The three fields of the final bitmask of the naive worker do not overlap. -/
theorem naive_mask_eq (N S c t : Nat) (hN14 : 14 ≤ N) (hN : N ≤ 128) (hS : S < 2 ^ (N - 14))
    (hc : c < 32) (ht : t < 512) :
    S ||| shl128 t (N - 9) ||| shl128 c (N - 14) = S + 2 ^ (N - 14) * (c + 32 * t) := by
  have hp9 : 2 ^ (N - 9) = 2 ^ (N - 14) * 32 := by
    have : N - 9 = N - 14 + 5 := by omega
    rw [this, Nat.pow_add]
  have hpN : 2 ^ (N - 14) * 16384 ≤ 2 ^ 128 := by
    have : (16384 : Nat) = 2 ^ 14 := by norm_num
    rw [this, ← Nat.pow_add]
    exact Nat.pow_le_pow_right (by decide) (by omega)
  have hpos : 0 < 2 ^ (N - 14) := Nat.pow_pos (by decide)
  have ht1 : shl128 t (N - 9) = 2 ^ (N - 9) * t := by
    unfold shl128
    rw [Nat.shiftLeft_eq, ← two_pow_128, Nat.mul_comm]
    apply Nat.mod_eq_of_lt
    rw [hp9]
    calc 2 ^ (N - 14) * 32 * t ≤ 2 ^ (N - 14) * 32 * 511 := Nat.mul_le_mul_left _ (by omega)
      _ < 2 ^ (N - 14) * 16384 := by omega
      _ ≤ 2 ^ 128 := hpN
  have hc1 : shl128 c (N - 14) = 2 ^ (N - 14) * c := by
    unfold shl128
    rw [Nat.shiftLeft_eq, ← two_pow_128, Nat.mul_comm]
    apply Nat.mod_eq_of_lt
    calc 2 ^ (N - 14) * c ≤ 2 ^ (N - 14) * 31 := Nat.mul_le_mul_left _ (by omega)
      _ < 2 ^ (N - 14) * 16384 := by omega
      _ ≤ 2 ^ 128 := hpN
  have hclt : 2 ^ (N - 14) * c < 2 ^ (N - 9) := by
    rw [hp9]
    exact (Nat.mul_lt_mul_left hpos).2 hc
  have e1 : 2 ^ (N - 9) * t + 2 ^ (N - 14) * c = 2 ^ (N - 9) * t ||| 2 ^ (N - 14) * c :=
    Nat.mul_add_lt_is_or hclt t
  have e2 : 2 ^ (N - 14) * (c + 32 * t) + S = 2 ^ (N - 14) * (c + 32 * t) ||| S :=
    Nat.mul_add_lt_is_or hS _
  have e3 : 2 ^ (N - 14) * (c + 32 * t) = 2 ^ (N - 9) * t + 2 ^ (N - 14) * c := by
    rw [hp9]; ring
  rw [ht1, hc1, Nat.add_comm S, e2, e3, e1]
  apply Nat.eq_of_testBit_eq
  intro j
  simp only [Nat.testBit_or]
  cases S.testBit j <;> cases (2 ^ (N - 9) * t).testBit j <;>
    cases (2 ^ (N - 14) * c).testBit j <;> rfl

theorem selSum_take (numbers : List Int) (k S : Nat) (hk : k ≤ numbers.length) (hS : S < 2 ^ k) :
    selSum numbers S = selSum (numbers.take k) S := by
  conv_lhs => rw [← List.take_append_drop k numbers]
  rw [selSum_append, List.length_take, Nat.min_eq_left hk, Nat.mod_eq_of_lt hS,
    Nat.div_eq_of_lt hS, selSum_zero, add_zero]

theorem selSum_split (numbers : List Int) (k S r : Nat) (hk : k ≤ numbers.length)
    (hS : S < 2 ^ k) :
    selSum numbers (S + 2 ^ k * r) = selSum numbers S + selSum (numbers.drop k) r := by
  rw [selSum_take numbers k S hk hS]
  conv_lhs => rw [← List.take_append_drop k numbers]
  rw [selSum_append, List.length_take, Nat.min_eq_left hk]
  have hpos : 0 < 2 ^ k := Nat.pow_pos (by decide)
  rw [Nat.add_mul_mod_self_left, Nat.mod_eq_of_lt hS, Nat.add_mul_div_left _ _ hpos,
    Nat.div_eq_of_lt hS, Nat.zero_add]

/-- The sum selected by a full bitmask splits into the sums of its three fields. -/
theorem naive_split (numbers : List Int) (S c t : Nat) (hN : 14 ≤ numbers.length)
    (hS : S < 2 ^ (numbers.length - 14)) (hc : c < 32) :
    selSum numbers (S + 2 ^ (numbers.length - 14) * (c + 32 * t))
      = selSum numbers S + selSum (numbers.drop (numbers.length - 14)) c
        + selSum (numbers.drop (numbers.length - 9)) t := by
  rw [selSum_split numbers _ S _ (by omega) hS]
  have h5 : 5 ≤ (numbers.drop (numbers.length - 14)).length := by
    rw [List.length_drop]; omega
  have := selSum_split (numbers.drop (numbers.length - 14)) 5 c t h5 (by norm_num; omega)
  rw [List.drop_drop] at this
  have e : numbers.length - 14 + 5 = numbers.length - 9 := by omega
  have e32 : (2 : Nat) ^ 5 = 32 := by norm_num
  rw [e, e32] at this
  rw [this]; ring

theorem naiveSumChanges_rd (numbers : List Int) (N c : Nat) (hc : c < 32) :
    rd (naiveSumChanges numbers N) c = prefixSum64 numbers (N - 14) c 5 := by
  unfold naiveSumChanges rd
  rw [List.getD_eq_getElem?_getD, List.getElem?_append_left (by simpa using hc)]
  simp [hc]

theorem naiveSumChanges_drop (numbers : List Int) (N : Nat) :
    (naiveSumChanges numbers N).drop 32
      = (List.range 9).map (fun i => toInt64 (rd numbers (N - 9 + i))) := by
  unfold naiveSumChanges
  rw [List.drop_append_eq_append_drop]
  simp

theorem naiveSuffix_congr (numbers : List Int) (N t : Nat) (ht : t < 512) :
    wrap64 (selSum ((naiveSumChanges numbers N).drop 32) t)
      = wrap64 (selSum (numbers.drop (N - 9)) t) := by
  rw [selSum_lt_pow _ t 9 (by norm_num; omega), selSum_lt_pow _ t 9 (by norm_num; omega)]
  apply sum_range_wrap64_congr
  intro x hx
  by_cases hb : t.testBit x
  · simp only [hb, if_true]
    rw [naiveSumChanges_drop, rd_drop]
    have : rd ((List.range 9).map (fun i => toInt64 (rd numbers (N - 9 + i)))) x
        = toInt64 (rd numbers (N - 9 + x)) := by
      unfold rd
      rw [List.getD_eq_getElem?_getD]
      simp [hx]
    rw [this]; unfold toInt64; rw [wrap64_idem]
  · simp only [hb, Bool.false_eq_true, if_false]

theorem wrap64_three (a p q f g : Int) (hp : wrap64 p = wrap64 f) (hq : wrap64 q = wrap64 g)
    (h0 : a + f + g = 0) : wrap64 (toInt64 (wrap128 a) + p + q) = 0 := by
  unfold toInt64
  rw [wrap64_wrap128]
  unfold wrap64 at *
  omega

/-- What one packet of the naive method contributes: the zero-sum non-empty bitmasks whose
low `N - 14` bits are the packet's subset. -/
theorem naiveProcessPacket_mem (numbers : List Int) (hv : ValidProblem numbers)
    (h16 : 16 < numbers.length) (h128 : numbers.length ≤ 128) (S B : Nat)
    (hS : S < 2 ^ (numbers.length - 14)) :
    B ∈ naiveProcessPacket numbers (packetOf numbers S) ↔
      (1 ≤ B ∧ B < 2 ^ numbers.length ∧ selSum numbers B = 0 ∧
        B % 2 ^ (numbers.length - 14) = S) := by
  have hpN : 2 ^ numbers.length = 2 ^ (numbers.length - 14) * 16384 := by
    have : (16384 : Nat) = 2 ^ 14 := by norm_num
    rw [this, ← Nat.pow_add]; congr 1; omega
  have hpos : 0 < 2 ^ (numbers.length - 14) := Nat.pow_pos (by decide)
  have hF : ∀ c, c < 32 → (∑ x in Finset.range 5,
      (if c.testBit x then rd (numbers.drop (numbers.length - 14)) x else 0))
      = selSum (numbers.drop (numbers.length - 14)) c := by
    intro c hc
    rw [selSum_lt_pow _ c 5 (by norm_num; omega)]
  unfold naiveProcessPacket
  simp only [packetOf, selSum128, List.mem_flatMap, subsetSumNaiveMethod_mem,
    naiveCheckAndSend_eq, List.mem_range]
  constructor
  · rintro ⟨c, ⟨hc, _⟩, t, ht, hB⟩
    rw [hF c hc, naive_mask_eq _ S c t (by omega) h128 hS hc ht,
      ← naive_split numbers S c t (by omega) hS hc] at hB
    split_ifs at hB with hcond
    · rw [List.mem_singleton] at hB
      rw [← hB] at hcond
      refine ⟨by omega, ?_, ?_, ?_⟩
      · rw [hB, hpN]
        calc S + 2 ^ (numbers.length - 14) * (c + 32 * t)
            < 2 ^ (numbers.length - 14) + 2 ^ (numbers.length - 14) * (c + 32 * t) := by omega
          _ = 2 ^ (numbers.length - 14) * (c + 32 * t + 1) := by ring
          _ ≤ 2 ^ (numbers.length - 14) * 16384 := Nat.mul_le_mul_left _ (by omega)
      · exact (selSum128_eq_zero_iff numbers hv B).1 hcond.1
      · rw [hB, Nat.add_mul_mod_self_left, Nat.mod_eq_of_lt hS]
    · simp at hB
  · rintro ⟨h1, hlt, hsum, hmod⟩
    have hr : B / 2 ^ (numbers.length - 14) < 16384 := by
      rw [Nat.div_lt_iff_lt_mul hpos, Nat.mul_comm, ← hpN]; exact hlt
    obtain ⟨c, t, hc, ht, hB⟩ : ∃ c t, c < 32 ∧ t < 512 ∧
        B = S + 2 ^ (numbers.length - 14) * (c + 32 * t) := by
      refine ⟨B / 2 ^ (numbers.length - 14) % 32, B / 2 ^ (numbers.length - 14) / 32,
        Nat.mod_lt _ (by decide), by omega, ?_⟩
      rw [Nat.mod_add_div, ← hmod, Nat.mod_add_div]
    have hsplit := naive_split numbers S c t (by omega) hS hc
    rw [← hB, hsum] at hsplit
    refine ⟨c, ⟨hc, t, ht, ?_⟩, t, ht, ?_⟩
    · apply wrap64_three _ _ _ (selSum (numbers.drop (numbers.length - 14)) c)
        (selSum (numbers.drop (numbers.length - 9)) t)
      · rw [naiveSumChanges_rd _ _ _ hc, prefixSum64_spec, hF c hc]
      · exact naiveSuffix_congr numbers _ t ht
      · exact hsplit.symm
    · rw [hF c hc, naive_mask_eq _ S c t (by omega) h128 hS hc ht, ← hB, ← hsplit]
      have : wrap128 0 = 0 := by decide
      simp [this]; omega

/-- C2: for every valid problem with more than 16 (and at most 128) elements the naive method
terminates and the set of bitmasks it emits is the set of the non-empty subsets of the input
whose elements sum to zero. -/
theorem C2_naive_emits_zero_sum_subsets (numbers : List Int) (hv : ValidProblem numbers)
    (h16 : 16 < numbers.length) (h128 : numbers.length ≤ 128) :
    ∃ emitted, naiveRun numbers = some emitted ∧
      ∀ B, B ∈ emitted ↔ (1 ≤ B ∧ B < 2 ^ numbers.length ∧ selSum numbers B = 0) := by
  have hpos : 0 < 2 ^ (numbers.length - 14) := Nat.pow_pos (by decide)
  unfold naiveRun
  rw [naiveGenerateWork_spec numbers (by omega)]
  refine ⟨_, rfl, ?_⟩
  intro B
  simp only [List.mem_flatMap, List.mem_map, List.mem_range]
  constructor
  · rintro ⟨pk, ⟨S, hS, rfl⟩, hB⟩
    obtain ⟨h1, h2, h3, _⟩ := (naiveProcessPacket_mem numbers hv h16 h128 S B hS).1 hB
    exact ⟨h1, h2, h3⟩
  · rintro ⟨h1, h2, h3⟩
    exact ⟨_, ⟨B % 2 ^ (numbers.length - 14), Nat.mod_lt _ hpos, rfl⟩,
      (naiveProcessPacket_mem numbers hv h16 h128 _ B (Nat.mod_lt _ hpos)).2 ⟨h1, h2, h3, rfl⟩⟩

theorem C2_naive_emits_zero_sum_subsets_witness :
    ∃ emitted, naiveRun [1000, -1000, 1, 2, 3, 4, 5, 6, 7, 8, 9, 10, 11, 12, 13, 14, 15]
        = some emitted ∧
      ∀ B, B ∈ emitted ↔ (1 ≤ B ∧
        B < 2 ^ [1000, -1000, 1, 2, 3, 4, 5, 6, 7, 8, 9, 10, 11, 12, 13, 14, (15 : Int)].length ∧
        selSum [1000, -1000, 1, 2, 3, 4, 5, 6, 7, 8, 9, 10, 11, 12, 13, 14, 15] B = 0) :=
  C2_naive_emits_zero_sum_subsets [1000, -1000, 1, 2, 3, 4, 5, 6, 7, 8, 9, 10, 11, 12, 13, 14, 15]
    (by decide) (by decide) (by decide)

theorem getPos_setPos (e : NodeHashEntry) (p : Nat) (hp : p < 4294967296) :
    (e.setPos p).getPos = p := by
  unfold NodeHashEntry.setPos NodeHashEntry.getPos
  simp only
  have h1 : (p >>> 16) % 65536 = p / 65536 := by
    rw [Nat.shiftRight_eq_div_pow]
    exact Nat.mod_eq_of_lt (by norm_num; omega)
  rw [h1, Nat.shiftLeft_eq]
  have h2 : p / 65536 * 2 ^ 16 = 2 ^ 16 * (p / 65536) := by ring
  rw [h2, ← Nat.mul_add_lt_is_or (by norm_num; omega)]
  norm_num
  omega

theorem size_setPos (e : NodeHashEntry) (p : Nat) : (e.setPos p).size = e.size := rfl

theorem bucketOf_succ (keyOf : Nat → Nat) (k n : Nat) :
    bucketOf keyOf k (n + 1) = bucketOf keyOf k n ++ (if keyOf n = k then [n] else []) := by
  unfold bucketOf
  rw [List.range_succ, List.filter_append]
  congr 1
  by_cases h : keyOf n = k <;> simp [h]

theorem bucketOf_lt (keyOf : Nat → Nat) (k n s : Nat) (hs : s ∈ bucketOf keyOf k n) : s < n := by
  unfold bucketOf at hs
  rw [List.mem_filter, List.mem_range] at hs
  exact hs.1

theorem bucketOf_zero (keyOf : Nat → Nat) (k : Nat) : bucketOf keyOf k 0 = [] := rfl

theorem chain_update (tmp : Nat → TempNodeHashListEntry) (p : Nat) (e : TempNodeHashListEntry) :
    ∀ (l : List Nat) (cur : Nat), (∀ s ∈ l, s ≠ p) → Chain tmp cur l →
      Chain (Function.update tmp p e) cur l := by
  intro l
  induction l with
  | nil => intro _ _ _; trivial
  | cons s rest ih =>
    intro cur hne hc
    obtain ⟨h1, h2, h3⟩ := hc
    have hsp : s ≠ p := hne s (List.mem_cons_self _ _)
    refine ⟨h1, ?_, ?_⟩
    · rw [Function.update_noteq hsp]; exact h2
    · rw [Function.update_noteq hsp]
      exact ih _ (fun x hx => hne x (List.mem_cons_of_mem _ hx)) h3

theorem drainChain_of_chain (tmp : Nat → TempNodeHashListEntry) :
    ∀ (l : List Nat) (cur : Nat), Chain tmp cur l → drainChain tmp l.length cur = l := by
  intro l
  induction l with
  | nil => intro _ _; rfl
  | cons s rest ih =>
    intro cur hc
    obtain ⟨h1, h2, h3⟩ := hc
    subst h1
    simp only [List.length_cons, drainChain, h2, ih _ h3]

/-- One pass of the first loop of the serial builder preserves the invariant, and throws
exactly when the bucket of the new subset is already full. -/
theorem putSubset_spec (h : Nat) (sumOf : Nat → Int) (st : PutState) (n : Nat)
    (hn : n < 4294967296)
    (hinv : PutInv (fun s => getNodeHashKey h (sumOf s)) st n) :
    (((bucketOf (fun s => getNodeHashKey h (sumOf s)) (getNodeHashKey h (sumOf n)) n).length
        < 65535) →
      ∃ st1, putSubset h sumOf st n = some st1 ∧
        PutInv (fun s => getNodeHashKey h (sumOf s)) st1 (n + 1)) ∧
    (((bucketOf (fun s => getNodeHashKey h (sumOf s)) (getNodeHashKey h (sumOf n)) n).length
        = 65535) → putSubset h sumOf st n = none) := by
  obtain ⟨hpos, hsize, hchain⟩ := hinv
  subst hpos
  have hne : ∀ k, ∀ s ∈ (bucketOf (fun s => getNodeHashKey h (sumOf s)) k st.listPos).reverse,
      s ≠ st.listPos := by
    intro k s hs
    rw [List.mem_reverse] at hs
    have := bucketOf_lt _ _ _ _ hs
    omega
  constructor
  · intro hlt
    unfold putSubset
    simp only
    by_cases h0 : (st.nodeHash (getNodeHashKey h (sumOf st.listPos))).size = 0
    · rw [if_pos h0]
      refine ⟨_, rfl, ?_, ?_, ?_⟩
      · rfl
      · intro k
        simp only [bucketOf_succ, List.length_append]
        by_cases hk : getNodeHashKey h (sumOf st.listPos) = k
        · subst hk
          simp [Function.update_same, ← hsize, h0]
        · rw [Function.update_noteq (Ne.symm hk), if_neg hk, hsize]; simp
      · intro k
        simp only [bucketOf_succ, List.reverse_append]
        by_cases hk : getNodeHashKey h (sumOf st.listPos) = k
        · subst hk
          have hnil : bucketOf (fun s => getNodeHashKey h (sumOf s))
              (getNodeHashKey h (sumOf st.listPos)) st.listPos = [] := by
            rw [← List.length_eq_zero, ← hsize, h0]
          simp only [Function.update_same, if_true, hnil, List.reverse_nil, List.append_nil,
            List.reverse_cons, List.nil_append]
          refine ⟨getPos_setPos (st.nodeHash (getNodeHashKey h (sumOf st.listPos))) _ hn,
            ?_, trivial⟩
          rw [Function.update_same]
        · rw [Function.update_noteq (Ne.symm hk), if_neg hk]
          simp only [List.reverse_nil, List.nil_append]
          exact chain_update _ _ _ _ _ (hne k) (hchain k)
    · rw [if_neg h0]
      have h1 : (st.nodeHash (getNodeHashKey h (sumOf st.listPos))).size ≠ 65535 := by
        rw [hsize]; omega
      rw [if_neg h1]
      refine ⟨_, rfl, ?_, ?_, ?_⟩
      · rfl
      · intro k
        simp only [bucketOf_succ, List.length_append]
        by_cases hk : getNodeHashKey h (sumOf st.listPos) = k
        · subst hk
          have hmod : ((st.nodeHash (getNodeHashKey h (sumOf st.listPos))).size + 1) % 65536
              = (st.nodeHash (getNodeHashKey h (sumOf st.listPos))).size + 1 := by
            apply Nat.mod_eq_of_lt
            rw [hsize]; omega
          simp [Function.update_same, ← hsize, size_setPos, hmod]
        · rw [Function.update_noteq (Ne.symm hk), if_neg hk, hsize]; simp
      · intro k
        simp only [bucketOf_succ, List.reverse_append]
        by_cases hk : getNodeHashKey h (sumOf st.listPos) = k
        · subst hk
          simp only [Function.update_same, if_true, List.reverse_cons, List.reverse_nil,
            List.nil_append, List.singleton_append]
          rw [getPos_setPos _ _ hn]
          refine ⟨rfl, ?_, ?_⟩
          · rw [Function.update_same]
          · rw [Function.update_same]
            exact chain_update _ _ _ _ _ (hne _) (hchain _)
        · rw [Function.update_noteq (Ne.symm hk), if_neg hk]
          simp only [List.reverse_nil, List.nil_append]
          exact chain_update _ _ _ _ _ (hne k) (hchain k)
  · intro heq
    unfold putSubset
    simp only
    have h0 : (st.nodeHash (getNodeHashKey h (sumOf st.listPos))).size ≠ 0 := by rw [hsize]; omega
    have h1 : (st.nodeHash (getNodeHashKey h (sumOf st.listPos))).size = 65535 := by rw [hsize]; exact heq
    rw [if_neg h0, if_pos h1]

theorem bucketOf_length_mono (keyOf : Nat → Nat) (k n : Nat) :
    (bucketOf keyOf k n).length ≤ (bucketOf keyOf k (n + 1)).length := by
  rw [bucketOf_succ, List.length_append]; omega

/-- The first loop of the serial builder: it completes, with the invariant, when no bucket
exceeds 65535 subsets, and throws otherwise. -/
theorem putLoop_spec (h : Nat) (sumOf : Nat → Int) : ∀ n, n ≤ 4294967296 →
    ((∀ k, (bucketOf (fun s => getNodeHashKey h (sumOf s)) k n).length ≤ 65535) →
      ∃ st, putLoop h sumOf n = some st ∧ PutInv (fun s => getNodeHashKey h (sumOf s)) st n) ∧
    ((∃ k, 65535 < (bucketOf (fun s => getNodeHashKey h (sumOf s)) k n).length) →
      putLoop h sumOf n = none) := by
  intro n
  induction n with
  | zero =>
    intro _
    constructor
    · intro _
      exact ⟨_, rfl, rfl, fun k => rfl, fun k => trivial⟩
    · rintro ⟨k, hk⟩
      simp [bucketOf_zero] at hk
  | succ n ih =>
    intro hn
    obtain ⟨ih1, ih2⟩ := ih (by omega)
    constructor
    · intro hall
      obtain ⟨st, hst, hinv⟩ := ih1 (fun k =>
        le_trans (bucketOf_length_mono _ k n) (hall k))
      have hk := hall (getNodeHashKey h (sumOf n))
      rw [bucketOf_succ, List.length_append] at hk
      simp only [if_true, List.length_singleton] at hk
      obtain ⟨st1, h1, h2⟩ := (putSubset_spec h sumOf st n (by omega) hinv).1 (by omega)
      exact ⟨st1, by rw [putLoop, hst]; exact h1, h2⟩
    · rintro ⟨k, hk⟩
      by_cases hprev : ∃ k, 65535 < (bucketOf (fun s => getNodeHashKey h (sumOf s)) k n).length
      · rw [putLoop, ih2 hprev]; rfl
      · have hall : ∀ k, (bucketOf (fun s => getNodeHashKey h (sumOf s)) k n).length ≤ 65535 := by
          intro k'
          by_contra hc
          exact hprev ⟨k', by omega⟩
        obtain ⟨st, hst, hinv⟩ := ih1 hall
        rw [bucketOf_succ, List.length_append] at hk
        have hkn := hall k
        by_cases hkey : getNodeHashKey h (sumOf n) = k
        · subst hkey
          simp only [if_true, List.length_singleton] at hk
          rw [putLoop, hst]
          exact (putSubset_spec h sumOf st n (by omega) hinv).2 (by omega)
        · simp only [hkey, if_false, List.length_nil] at hk
          omega

theorem flatMap_filter_perm (f : Nat → Nat) (l : List Nat) : ∀ K,
    ((List.range K).flatMap (fun k => l.filter (fun s => f s = k))).Perm
      (l.filter (fun s => f s < K)) := by
  intro K
  induction K with
  | zero => simp
  | succ K ih =>
    rw [List.range_succ, List.flatMap_append]
    simp only [List.flatMap_cons, List.flatMap_nil, List.append_nil]
    have h1 : (l.filter (fun s => f s < K + 1)).filter (fun s => f s < K)
        = l.filter (fun s => f s < K) := by
      rw [List.filter_filter]
      congr 1; funext s
      by_cases hs : f s < K <;> simp [hs]; omega
    have h2 : (l.filter (fun s => f s < K + 1)).filter (fun s => ! decide (f s < K))
        = l.filter (fun s => f s = K) := by
      rw [List.filter_filter]
      congr 1; funext s
      by_cases hs : f s < K
      · have : f s ≠ K := by omega
        simp [hs, this]
      · by_cases hs2 : f s = K
        · simp [hs2]
        · have : ¬ f s < K + 1 := by omega
          simp [hs, hs2, this]
    have h3 := List.filter_append_perm (fun s => decide (f s < K))
      (l.filter (fun s => f s < K + 1))
    rw [h1, h2] at h3
    exact (List.Perm.append_right _ ih).trans h3

theorem flatMap_bucket_length_le (keyOf : Nat → Nat) (N K : Nat) :
    ((List.range K).flatMap (fun k => bucketOf keyOf k N)).length ≤ N := by
  have h := (flatMap_filter_perm keyOf (List.range N) K).length_eq
  unfold bucketOf
  rw [h]
  exact le_trans (List.length_filter_le _ _) (by simp)

/-- All subsets occur exactly once when every key is below `K`. -/
theorem flatMap_bucket_perm (keyOf : Nat → Nat) (N K : Nat) (hkey : ∀ s, s < N → keyOf s < K) :
    ((List.range K).flatMap (fun k => bucketOf keyOf k N)).Perm (List.range N) := by
  have h := flatMap_filter_perm keyOf (List.range N) K
  have h2 : (List.range N).filter (fun s => keyOf s < K) = List.range N := by
    rw [List.filter_eq_self]
    intro s hs
    simpa using hkey s (List.mem_range.1 hs)
  rw [h2] at h
  exact h

/-- The ordering loop of the serial builder lays the buckets out one after the other. -/
theorem orderingLoop_spec (tmp : Nat → TempNodeHashListEntry) (nodeHash0 : Nat → NodeHashEntry)
    (keyOf : Nat → Nat) (N : Nat) (hN : N < 4294967296)
    (hsize : ∀ k, (nodeHash0 k).size = (bucketOf keyOf k N).length)
    (hchain : ∀ k, Chain tmp (nodeHash0 k).getPos (bucketOf keyOf k N).reverse) : ∀ i,
    (orderingLoop tmp nodeHash0 i).nodeHashSubsets
        = (List.range i).flatMap (fun k => bucketOf keyOf k N) ∧
    (orderingLoop tmp nodeHash0 i).listPos
        = ((List.range i).flatMap (fun k => bucketOf keyOf k N)).length ∧
    (∀ k, ((orderingLoop tmp nodeHash0 i).nodeHash k).size = (bucketOf keyOf k N).length) ∧
    (∀ k, k < i → bucketOf keyOf k N ≠ [] →
      ((orderingLoop tmp nodeHash0 i).nodeHash k).getPos
        = ((List.range k).flatMap (fun k => bucketOf keyOf k N)).length) ∧
    (∀ k, i ≤ k → (orderingLoop tmp nodeHash0 i).nodeHash k = nodeHash0 k) := by
  intro i
  induction i with
  | zero =>
    exact ⟨rfl, rfl, hsize, fun k hk => absurd hk (by omega), fun k _ => rfl⟩
  | succ i ih =>
    obtain ⟨h1, h2, h3, h4, h5⟩ := ih
    rw [orderingLoop]
    have hrange : (List.range (i + 1)).flatMap (fun k => bucketOf keyOf k N)
        = (List.range i).flatMap (fun k => bucketOf keyOf k N) ++ bucketOf keyOf i N := by
      rw [List.range_succ, List.flatMap_append]; simp
    by_cases h0 : ((orderingLoop tmp nodeHash0 i).nodeHash i).size = 0
    · rw [if_pos h0]
      have hnil : bucketOf keyOf i N = [] := by
        rw [← List.length_eq_zero, ← h3 i, h0]
      rw [hrange, hnil, List.append_nil]
      refine ⟨h1, h2, h3, ?_, fun k hk => h5 k (by omega)⟩
      intro k hk hne
      rcases Nat.lt_or_eq_of_le (Nat.lt_succ_iff.1 hk) with hlt | heq
      · exact h4 k hlt hne
      · subst heq; exact absurd hnil hne
    · rw [if_neg h0]
      simp only
      have hdrain : drainChain tmp ((orderingLoop tmp nodeHash0 i).nodeHash i).size
          ((orderingLoop tmp nodeHash0 i).nodeHash i).getPos = (bucketOf keyOf i N).reverse := by
        rw [h3 i, h5 i (le_refl _), ← List.length_reverse]
        exact drainChain_of_chain tmp _ _ (hchain i)
      rw [hdrain, List.reverse_reverse, hrange, h1, h2]
      refine ⟨rfl, ?_, ?_, ?_, ?_⟩
      · rw [List.length_append, h3 i]
      · intro k
        by_cases hk : k = i
        · subst hk; rw [Function.update_same, size_setPos]; exact h3 k
        · rw [Function.update_noteq hk]; exact h3 k
      · intro k hk hne
        by_cases hki : k = i
        · subst hki
          rw [Function.update_same]
          exact getPos_setPos _ _ (lt_of_le_of_lt (flatMap_bucket_length_le keyOf N k) hN)
        · rw [Function.update_noteq hki]
          exact h4 k (by omega) hne
      · intro k hk
        rw [Function.update_noteq (by omega)]
        exact h5 k (by omega)

theorem getNodeHashKey_lt (h : Nat) (sum : Int) : getNodeHashKey h sum < 2 ^ h := by
  unfold getNodeHashKey
  simp only
  have hpos : 0 < 2 ^ h := Nat.pow_pos (by decide)
  exact lt_of_le_of_lt Nat.and_le_right (by omega)

theorem selSum_split_gen (nums : List Int) : ∀ (k S r : Nat), S < 2 ^ k →
    selSum nums (S + 2 ^ k * r) = selSum nums S + selSum (nums.drop k) r := by
  induction nums with
  | nil => intro k S r _; simp [selSum]
  | cons x xs ih =>
    intro k S r hS
    cases k with
    | zero =>
      have : S = 0 := by simpa using hS
      subst this
      simp [selSum_zero]
    | succ k =>
      rw [selSum_cons, selSum_cons, List.drop_succ_cons]
      have e : 2 ^ (k + 1) * r = 2 * (2 ^ k * r) := by rw [Nat.pow_succ]; ring
      have h1 : (S + 2 ^ (k + 1) * r) % 2 = S % 2 := by
        rw [e]; omega
      have h2 : (S + 2 ^ (k + 1) * r) / 2 = S / 2 + 2 ^ k * r := by
        rw [e]; omega
      rw [h1, h2, ih k (S / 2) r (by rw [Nat.pow_succ] at hS; omega)]
      ring

theorem bitSet_eq_testBit (x i : Nat) (hi : i < 128) : bitSet x i = x.testBit i := by
  unfold bitSet
  rw [shl128_one i hi]
  exact and_two_pow_ne_zero x i

theorem wrap64_neg_wrap128 (a : Int) : wrap64 (-(wrap128 a)) = wrap64 (-a) := by
  unfold wrap64 wrap128; omega

theorem wrap64_neg_congr (a b : Int) (h : wrap64 a = wrap64 (-b)) (v : Int) :
    wrap64 (a - v) = wrap64 (-(b + v)) ∧ wrap64 (a + v) = wrap64 (-(b - v)) := by
  unfold wrap64 at *; omega

/-- The 64-bit negated toggle loop computes, modulo `2^64`, the negation of the 128-bit
toggle loop. -/
theorem negToggleLoop_eq (np : List Int) (pos s ch : Nat) : ∀ (fuel b : Nat) (x y : Int),
    fuel + b ≤ 128 → wrap64 x = wrap64 (-y) →
    wrap64 (negToggleLoop np pos s ch fuel b x)
      = wrap64 (-(toggleLoop (np.drop pos) s ch fuel b y)) := by
  intro fuel
  induction fuel with
  | zero => intro b x y _ hxy; exact hxy
  | succ fuel ih =>
    intro b x y hb hxy
    rw [negToggleLoop, toggleLoop_succ, wordBit_eq, wordBit_eq, bitSet_eq_testBit _ _ (by omega),
      bitSet_eq_testBit _ _ (by omega)]
    by_cases hc : ch.testBit b
    · simp only [hc, if_true]
      apply ih (b + 1) _ _ (by omega)
      rw [rd_drop]
      by_cases hs : s.testBit b
      · simp only [hs, if_true, sub64, add128, wrap64_idem, wrap64_neg_wrap128]
        exact (wrap64_neg_congr x y hxy _).1
      · simp only [hs, Bool.false_eq_true, if_false, add64, sub128, wrap64_idem,
          wrap64_neg_wrap128]
        exact (wrap64_neg_congr x y hxy _).2
    · simp only [hc, Bool.false_eq_true, if_false]
      exact hxy

theorem negToggleLoop_range (np : List Int) (pos s ch : Nat) : ∀ (fuel b : Nat) (x : Int),
    wrap64 x = x → wrap64 (negToggleLoop np pos s ch fuel b x)
      = negToggleLoop np pos s ch fuel b x := by
  intro fuel
  induction fuel with
  | zero => intro b x hx; exact hx
  | succ fuel ih =>
    intro b x hx
    rw [negToggleLoop]
    split_ifs
    · exact ih _ _ (by unfold sub64; rw [wrap64_idem])
    · exact ih _ _ (by unfold add64; rw [wrap64_idem])
    · exact hx

theorem subsumEntry_range (np : List Int) (pos nn : Nat) : ∀ s,
    wrap64 (subsumEntry np pos nn s) = subsumEntry np pos nn s := by
  intro s
  cases s with
  | zero => rfl
  | succ s =>
    rw [subsumEntry]
    apply negToggleLoop_range
    exact subsumEntry_range np pos nn s

/-- Each entry of a chunk table is the negated sum of the selected chunk elements, as a
`gint64`. -/
theorem subsumEntry_spec (np : List Int) (pos nn : Nat) (hnn : nn ≤ 128) : ∀ s, s < 2 ^ nn →
    subsumEntry np pos nn s = wrap64 (-(selSum (np.drop pos) s)) := by
  intro s
  induction s with
  | zero => intro _; simp [subsumEntry, selSum_zero, wrap64]
  | succ s ih =>
    intro hs
    rw [← subsumEntry_range, subsumEntry]
    have h1 := negToggleLoop_eq np pos (s + 1) (s ^^^ (s + 1)) nn 0
      (subsumEntry np pos nn s) (wrap128 (selSum (np.drop pos) s)) (by omega)
      (by rw [ih (by omega), wrap64_idem, wrap64_neg_wrap128])
    have h2 := toggleLoop_step (np.drop pos) (s + 1) nn (by omega) hs hnn
    rw [Nat.add_sub_cancel] at h2
    rw [h1, h2, wrap64_neg_wrap128]

theorem subsumTbls_chunk (np : List Int) (m c j : Nat) (hj : j < 512)
    (hjm : j < 2 ^ (min 9 (m - c * 9))) :
    subsumTbls np m (512 * c + j) = wrap64 (-(selSum (np.drop (c * 9)) j)) := by
  unfold subsumTbls
  have h1 : (512 * c + j) / 512 = c := by omega
  have h2 : (512 * c + j) % 512 = j := by omega
  rw [h1, h2]
  exact subsumEntry_spec np (c * 9) _ (by omega) j hjm

theorem wrap64_add_both (a b : Int) : wrap64 (wrap64 a + wrap64 b) = wrap64 (a + b) := by
  unfold wrap64; omega

theorem div_lt_pow_sub (s m k : Nat) (hk : k ≤ m) (hs : s < 2 ^ m) : s / 2 ^ k < 2 ^ (m - k) := by
  apply Nat.div_lt_of_lt_mul
  rw [← Nat.pow_add]
  have : k + (m - k) = m := by omega
  rw [this]; exact hs

theorem mod512_lt (x : Nat) : x % 512 < 2 ^ (min 9 9) := by
  have : (2 : Nat) ^ (min 9 9) = 512 := by norm_num
  rw [this]; exact Nat.mod_lt _ (by decide)

theorem selSum_split512 (np : List Int) (s : Nat) :
    selSum np s = selSum np (s % 512) + selSum (np.drop 9) (s / 512) := by
  have h := selSum_split_gen np 9 (s % 512) (s / 512) (by norm_num; omega)
  have e : s % 512 + 2 ^ 9 * (s / 512) = s := by norm_num; omega
  rw [e] at h
  exact h

/-- The sum of chunk lookups of the builder is the negated sum of the selected hashed
numbers, as a `gint64`. -/
theorem hashedSum_spec (np : List Int) (m s : Nat) (hm : m ≤ 36) (hs : s < 2 ^ m) :
    hashedSum np m s = wrap64 (-(selSum np s)) := by
  unfold hashedSum
  simp only
  have hand : ∀ x : Nat, x &&& 511 = x % 512 := by
    intro x
    exact Nat.and_pow_two_sub_one_eq_mod x 9
  by_cases h9 : m ≤ 9
  · rw [if_pos h9]
    have := subsumTbls_chunk np m 0 s
      (lt_of_lt_of_le hs (by
        have : (512 : Nat) = 2 ^ 9 := by norm_num
        rw [this]; exact Nat.pow_le_pow_right (by decide) h9))
      (by rw [Nat.zero_mul, Nat.sub_zero, Nat.min_eq_right h9]; exact hs)
    simpa using this
  · rw [if_neg h9]
    have c0 := subsumTbls_chunk np m 0 (s % 512) (Nat.mod_lt _ (by decide))
      (by
        have : min 9 (m - 0 * 9) = min 9 9 := by omega
        rw [this]; exact mod512_lt s)
    simp only [Nat.mul_zero, Nat.zero_add, Nat.zero_mul, List.drop_zero] at c0
    by_cases h18 : m ≤ 18
    · rw [if_pos h18, hand, Nat.shiftRight_eq_div_pow]
      have hlt := div_lt_pow_sub s m 9 (by omega) hs
      have c1 := subsumTbls_chunk np m 1 (s / 2 ^ 9)
        (lt_of_lt_of_le hlt (by
          have : (512 : Nat) = 2 ^ 9 := by norm_num
          rw [this]; exact Nat.pow_le_pow_right (by decide) (by omega)))
        (by
          have : min 9 (m - 1 * 9) = m - 9 := by omega
          rw [this]; exact hlt)
      simp only [Nat.mul_one, Nat.one_mul] at c1
      rw [c0, c1]
      unfold add64
      rw [wrap64_add_both, selSum_split512 np s]
      congr 1
      norm_num
      ring
    · rw [if_neg h18]
      have c1 := subsumTbls_chunk np m 1 (s / 512 % 512) (Nat.mod_lt _ (by decide))
        (by
          have : min 9 (m - 1 * 9) = min 9 9 := by omega
          rw [this]; exact mod512_lt _)
      simp only [Nat.mul_one, Nat.one_mul] at c1
      by_cases h27 : m ≤ 27
      · rw [if_pos h27, hand, hand, Nat.shiftRight_eq_div_pow, Nat.shiftRight_eq_div_pow]
        have hlt := div_lt_pow_sub s m 18 (by omega) hs
        have c2 := subsumTbls_chunk np m 2 (s / 2 ^ 18)
          (lt_of_lt_of_le hlt (by
            have : (512 : Nat) = 2 ^ 9 := by norm_num
            rw [this]; exact Nat.pow_le_pow_right (by decide) (by omega)))
          (by
            have : min 9 (m - 2 * 9) = m - 18 := by omega
            rw [this]; exact hlt)
        have e9 : s / 2 ^ 9 = s / 512 := by norm_num
        have e18 : s / 2 ^ 18 = s / 512 / 512 := by norm_num; omega
        have e1024 : 512 * 2 = 1024 := by norm_num
        rw [e1024] at c2
        rw [e9, c0, c1, c2]
        unfold add64
        rw [selSum_split512 np s, selSum_split512 (np.drop 9) (s / 512), e18]
        simp only [List.drop_drop]
        norm_num
        generalize selSum np (s % 512) = a
        generalize selSum (List.drop 9 np) (s / 512 % 512) = b
        generalize selSum (List.drop 18 np) (s / 512 / 512) = c
        unfold wrap64; omega
      · rw [if_neg h27, hand, hand, hand, Nat.shiftRight_eq_div_pow, Nat.shiftRight_eq_div_pow,
          Nat.shiftRight_eq_div_pow]
        have c2 := subsumTbls_chunk np m 2 (s / 512 / 512 % 512) (Nat.mod_lt _ (by decide))
          (by
            have : min 9 (m - 2 * 9) = min 9 9 := by omega
            rw [this]; exact mod512_lt _)
        have hlt := div_lt_pow_sub s m 27 (by omega) hs
        have c3 := subsumTbls_chunk np m 3 (s / 2 ^ 27)
          (lt_of_lt_of_le hlt (by
            have : (512 : Nat) = 2 ^ 9 := by norm_num
            rw [this]; exact Nat.pow_le_pow_right (by decide) (by omega)))
          (by
            have : min 9 (m - 3 * 9) = m - 27 := by omega
            rw [this]; exact hlt)
        have e9 : s / 2 ^ 9 = s / 512 := by norm_num
        have e18 : s / 2 ^ 18 = s / 512 / 512 := by norm_num; omega
        have e27 : s / 2 ^ 27 = s / 512 / 512 / 512 := by norm_num; omega
        have e1024 : 512 * 2 = 1024 := by norm_num
        have e1536 : 512 * 3 = 1536 := by norm_num
        rw [e1024] at c2
        rw [e1536] at c3
        rw [e9, e18, c0, c1, c2, c3]
        unfold add64
        rw [selSum_split512 np s, selSum_split512 (np.drop 9) (s / 512),
          selSum_split512 ((np.drop 9).drop 9) (s / 512 / 512), e27]
        simp only [List.drop_drop]
        norm_num
        generalize selSum np (s % 512) = a
        generalize selSum (List.drop 9 np) (s / 512 % 512) = b
        generalize selSum (List.drop 18 np) (s / 512 / 512 % 512) = c
        generalize selSum (List.drop 27 np) (s / 512 / 512 / 512) = d
        unfold wrap64; omega

theorem selSum_map_wrap64 (l : List Int) : ∀ s,
    wrap64 (-(selSum (l.map toInt64) s)) = wrap64 (-(selSum l s)) := by
  induction l with
  | nil => intro s; rfl
  | cons x xs ih =>
    intro s
    rw [List.map_cons, selSum_cons, selSum_cons]
    have := ih (s / 2)
    generalize selSum (xs.map toInt64) (s / 2) = a at *
    generalize selSum xs (s / 2) = b at *
    unfold toInt64
    split_ifs <;> (unfold wrap64 at *; omega)

/-- The key of a hashed-suffix subset is the hash key of its 64-bit residual, the negated sum
of the selected hashed numbers. -/
theorem subsetKey_eq (m h : Nat) (np : List Int) (s : Nat) (hm : m ≤ 36) (hs : s < 2 ^ m) :
    subsetKey m h np s = getNodeHashKey h (wrap64 (-(selSum np s))) := by
  unfold subsetKey
  rw [hashedSum_spec _ m s hm hs, selSum_map_wrap64]

theorem pow_le_of_le31 (m : Nat) (hm : m ≤ 31) : 2 ^ m < 4294967296 := by
  have : (4294967296 : Nat) = 2 ^ 32 := by norm_num
  rw [this]
  exact Nat.pow_lt_pow_right (by decide) (by omega)

/-- The serial builder: it throws exactly when some bucket holds more than 65535 subsets,
and otherwise leaves the buckets laid out one after the other in key order. -/
theorem singleThreadDoHashGen_spec (m h : Nat) (np : List Int) (hm : m ≤ 31) :
    ((∃ k, 65535 < (bucketOf (subsetKey m h np) k (2 ^ m)).length) →
      singleThreadDoHashGen m h np = none) ∧
    ((∀ k, (bucketOf (subsetKey m h np) k (2 ^ m)).length ≤ 65535) →
      ∃ t, singleThreadDoHashGen m h np = some t ∧
        t.nodeHashSubsets
          = (List.range (2 ^ h)).flatMap (fun k => bucketOf (subsetKey m h np) k (2 ^ m)) ∧
        t.nodeHashLists = t.nodeHashSubsets.map (hashedSum (np.map toInt64) m) ∧
        (∀ k, (t.nodeHash k).size = (bucketOf (subsetKey m h np) k (2 ^ m)).length) ∧
        (∀ k, k < 2 ^ h → bucketOf (subsetKey m h np) k (2 ^ m) ≠ [] →
          (t.nodeHash k).getPos
            = ((List.range k).flatMap
                (fun k => bucketOf (subsetKey m h np) k (2 ^ m))).length)) := by
  have hN := pow_le_of_le31 m hm
  obtain ⟨p1, p2⟩ := putLoop_spec h (hashedSum (np.map toInt64) m) (2 ^ m) (by omega)
  constructor
  · intro hex
    unfold singleThreadDoHashGen
    simp only
    rw [p2 hex]; rfl
  · intro hall
    obtain ⟨st, hst, _, hsize, hchain⟩ := p1 hall
    obtain ⟨o1, _, o3, o4, _⟩ := orderingLoop_spec st.tmpHashLists st.nodeHash
      (subsetKey m h np) (2 ^ m) hN hsize hchain (2 ^ h)
    unfold singleThreadDoHashGen
    simp only
    rw [hst]
    exact ⟨_, rfl, o1, rfl, o3, o4⟩

theorem bucketOf_length_le (keyOf : Nat → Nat) (k n : Nat) : (bucketOf keyOf k n).length ≤ n := by
  unfold bucketOf
  exact le_trans (List.length_filter_le _ _) (by simp)

theorem sum_map_length_flatMap (f : Nat → List Nat) (l : List Nat) :
    (l.flatMap f).length = (l.map (fun k => (f k).length)).sum := by
  induction l with
  | nil => rfl
  | cons a l ih => simp [List.flatMap_cons, ih]

/-- C11: when the serial node-hash builder succeeds for `m ≤ 31` hashed numbers and `h ≤ 31`
hash bits, `nodeHashSubsets` lists the subsets below `2^m` bucket after bucket in increasing
key order and in increasing order inside a bucket (that is, sorted by `(key(s), s)`), where
`key(s)` is the hash key of the 64-bit residual of `s`; every subset occurs exactly once;
`nodeHash[k].size` is the number of subsets with key `k`; and for every non-empty bucket
`nodeHash[k].getPos()` is the sum of the sizes of the buckets with smaller key. -/
theorem C11_serial_builder_layout (m h : Nat) (nodeProblem : List Int) (hm : m ≤ 31)
    (_hh : h ≤ 31) (hok : (singleThreadDoHashGen m h nodeProblem).isSome = true) :
    ∃ t, singleThreadDoHashGen m h nodeProblem = some t ∧
      (∀ s, s < 2 ^ m → subsetKey m h nodeProblem s
        = getNodeHashKey h (wrap64 (-(selSum nodeProblem s)))) ∧
      t.nodeHashSubsets = (List.range (2 ^ h)).flatMap (fun k =>
        (List.range (2 ^ m)).filter (fun s => subsetKey m h nodeProblem s = k)) ∧
      t.nodeHashSubsets.Perm (List.range (2 ^ m)) ∧
      ∀ k, k < 2 ^ h →
        (t.nodeHash k).size
          = ((List.range (2 ^ m)).filter (fun s => subsetKey m h nodeProblem s = k)).length ∧
        ((t.nodeHash k).size ≠ 0 →
          (t.nodeHash k).getPos = ((List.range k).map (fun j => (t.nodeHash j).size)).sum) := by
  obtain ⟨p1, p2⟩ := singleThreadDoHashGen_spec m h nodeProblem hm
  have hall : ∀ k, (bucketOf (subsetKey m h nodeProblem) k (2 ^ m)).length ≤ 65535 := by
    intro k
    by_contra hc
    rw [p1 ⟨k, by omega⟩] at hok
    exact Bool.noConfusion hok
  obtain ⟨t, ht, h1, _, h3, h4⟩ := p2 hall
  refine ⟨t, ht, fun s hs => subsetKey_eq m h nodeProblem s (by omega) hs, h1, ?_, ?_⟩
  · rw [h1]
    exact flatMap_bucket_perm _ _ _ (fun s _ => getNodeHashKey_lt h _)
  · intro k hk
    refine ⟨h3 k, ?_⟩
    intro hne
    rw [h4 k hk (by
      intro hnil
      rw [h3 k, hnil] at hne
      exact hne rfl), sum_map_length_flatMap]
    congr 1
    apply List.map_congr_left
    intro j _
    exact (h3 j).symm

theorem C11_serial_builder_layout_witness :
    ∃ t, singleThreadDoHashGen 2 1 [3, 5] = some t ∧
      (∀ s, s < 2 ^ 2 → subsetKey 2 1 [3, 5] s
        = getNodeHashKey 1 (wrap64 (-(selSum [3, 5] s)))) ∧
      t.nodeHashSubsets = (List.range (2 ^ 1)).flatMap (fun k =>
        (List.range (2 ^ 2)).filter (fun s => subsetKey 2 1 [3, 5] s = k)) ∧
      t.nodeHashSubsets.Perm (List.range (2 ^ 2)) ∧
      ∀ k, k < 2 ^ 1 →
        (t.nodeHash k).size
          = ((List.range (2 ^ 2)).filter (fun s => subsetKey 2 1 [3, 5] s = k)).length ∧
        ((t.nodeHash k).size ≠ 0 →
          (t.nodeHash k).getPos = ((List.range k).map (fun j => (t.nodeHash j).size)).sum) :=
  C11_serial_builder_layout 2 1 [3, 5] (by decide) (by decide) (by decide)

/-- C13: for `m ≤ 31` hashed numbers and `h ≤ 31` hash bits the serial node-hash builder
throws its exception if and only if some hash key is shared by more than 65535 subsets of
the hashed suffix; when it returns normally every `nodeHash[k].size` is at most 65535 and
equals the number of subsets with key `k`. -/
theorem C13_serial_builder_throws_iff (m h : Nat) (nodeProblem : List Int) (hm : m ≤ 31)
    (_hh : h ≤ 31) :
    (singleThreadDoHashGen m h nodeProblem = none ↔
      ∃ k, 65535 < (bucketOf (subsetKey m h nodeProblem) k (2 ^ m)).length) ∧
    (∀ t, singleThreadDoHashGen m h nodeProblem = some t →
      ∀ k, (t.nodeHash k).size ≤ 65535 ∧
        (t.nodeHash k).size = (bucketOf (subsetKey m h nodeProblem) k (2 ^ m)).length) := by
  obtain ⟨p1, p2⟩ := singleThreadDoHashGen_spec m h nodeProblem hm
  have hdich : (∃ k, 65535 < (bucketOf (subsetKey m h nodeProblem) k (2 ^ m)).length) ∨
      (∀ k, (bucketOf (subsetKey m h nodeProblem) k (2 ^ m)).length ≤ 65535) := by
    by_cases hex : ∃ k, 65535 < (bucketOf (subsetKey m h nodeProblem) k (2 ^ m)).length
    · exact Or.inl hex
    · refine Or.inr (fun k => ?_)
      by_contra hc
      exact hex ⟨k, by omega⟩
  constructor
  · constructor
    · intro hnone
      rcases hdich with hex | hall
      · exact hex
      · obtain ⟨t, ht, _⟩ := p2 hall
        rw [hnone] at ht
        exact Option.noConfusion ht
    · exact p1
  · intro t ht k
    rcases hdich with hex | hall
    · rw [p1 hex] at ht
      exact Option.noConfusion ht
    · obtain ⟨t1, ht1, _, _, h3, _⟩ := p2 hall
      rw [ht] at ht1
      cases ht1
      exact ⟨by rw [h3 k]; exact hall k, h3 k⟩

theorem C13_serial_builder_throws_iff_witness :
    (singleThreadDoHashGen 2 1 [3, 5] = none ↔
      ∃ k, 65535 < (bucketOf (subsetKey 2 1 [3, 5]) k (2 ^ 2)).length) ∧
    (∀ t, singleThreadDoHashGen 2 1 [3, 5] = some t →
      ∀ k, (t.nodeHash k).size ≤ 65535 ∧
        (t.nodeHash k).size = (bucketOf (subsetKey 2 1 [3, 5]) k (2 ^ 2)).length) :=
  C13_serial_builder_throws_iff 2 1 [3, 5] (by decide) (by decide)

/-- The serial builder cannot overflow a bucket when there are at most `2^15` subsets. -/
theorem singleThreadDoHashGen_isSome (m h : Nat) (np : List Int) (hm : m ≤ 15) :
    ∃ t, singleThreadDoHashGen m h np = some t := by
  obtain ⟨_, p2⟩ := singleThreadDoHashGen_spec m h np (by omega)
  have hall : ∀ k, (bucketOf (subsetKey m h np) k (2 ^ m)).length ≤ 65535 := by
    intro k
    have h1 := bucketOf_length_le (subsetKey m h np) k (2 ^ m)
    have h2 : 2 ^ m ≤ 2 ^ 15 := Nat.pow_le_pow_right (by decide) hm
    have h3 : (2 : Nat) ^ 15 = 32768 := by norm_num
    omega
  obtain ⟨t, ht, _⟩ := p2 hall
  exact ⟨t, ht⟩

/-- A run of the hash method whose producer pushes no packet emits nothing. -/
theorem hashRun_no_packets (problem : List Int) (hb hn : Nat) (c : HashController)
    (hc : hashControllerInit problem hb hn = some c) (hm : c.nodeHashedNumbers ≤ 15)
    (hgen : hashGenerateWork c.hashMinMaxTable c.mainProblem (c.numbersNum - c.nodeBits)
      = some []) :
    hashRun problem hb hn = some [] := by
  obtain ⟨t, ht⟩ := singleThreadDoHashGen_isSome c.nodeHashedNumbers c.nodeHashBits
    (c.nodeProblem.drop 8) hm
  unfold hashRun
  rw [hc]
  simp only [Option.some_bind, ht, hgen]
  rfl

theorem hashControllerInit_mainOnlyProblem :
    ∃ c, hashControllerInit mainOnlyProblem 0 0 = some c ∧
      c.numbersNum = 17 ∧ c.nodeHashBits = 20 ∧ c.nodeHashedNumbers = 7 ∧ c.nodeBits = 15 ∧
      c.nodeProblem = [8, 9, 10, 11, 12, 13, 14, 15, 1, 2, 3, 4, 5, 6, 7] ∧
      c.mainProblem = [1000, -1000] ∧ c.mainTransTable = [0, 1] ∧
      c.hashMinMaxTable = [{ minValue := -120, maxValue := -1 },
        { minValue := -1120, maxValue := -1 }] := by
  have hord : orderNumberRanges
      ((smallestRangeRegion mainOnlyProblem.length (8 + (hashParams mainOnlyProblem.length 0 0).2)
        (sortEntries (entriesOf mainOnlyProblem)) : Nat) - 1 : Int)
      ((smallestRangeRegion mainOnlyProblem.length (8 + (hashParams mainOnlyProblem.length 0 0).2)
        (sortEntries (entriesOf mainOnlyProblem)) : Nat) +
        ((8 + (hashParams mainOnlyProblem.length 0 0).2 : Nat) : Int))
      mainOnlyProblem.length (sortEntries (entriesOf mainOnlyProblem))
      = some { destNumbers := [1000, -1000], destOrders := [0, 1],
               destMinMax := [{ minValue := -120, maxValue := -1 },
                 { minValue := -1120, maxValue := -1 }] } := by
    decide
  unfold hashControllerInit
  simp only
  rw [hord]
  refine ⟨_, rfl, ?_, ?_, ?_, ?_, ?_, rfl, rfl, rfl⟩ <;> decide

/-- C1 fails on `mainOnlyProblem`, a valid problem with 17 elements: with the default
parameters the hash method runs to completion and emits no bitmask at all, although the
bitmask `3` (the elements `1000` and `-1000`) lies in `[1, 2^17)` and selects a zero sum. -/
theorem C1_hash_misses_main_only_solution :
    ValidProblem mainOnlyProblem ∧ 16 < mainOnlyProblem.length ∧ mainOnlyProblem.length ≤ 128 ∧
    hashRun mainOnlyProblem 0 0 = some [] ∧
    (1 ≤ 3 ∧ 3 < 2 ^ mainOnlyProblem.length ∧ selSum mainOnlyProblem 3 = 0) := by
  refine ⟨by decide, by decide, by decide, ?_, by decide, by decide, by decide⟩
  obtain ⟨c, hc, h1, _, h3, h4, _, h6, _, h8⟩ := hashControllerInit_mainOnlyProblem
  apply hashRun_no_packets _ _ _ c hc (by omega)
  rw [h1, h4, h6, h8]
  decide

/-- C6 fails on `mainOnlyProblem` at level `0`: the assignment that selects both main slots
has sum `0` and is completed to a zero total by selecting no node-region element, yet `0` is
outside `[hashMinMaxTable[0].minValue, hashMinMaxTable[0].maxValue] = [-120, -1]`. -/
theorem C6_gate_rejects_completable_assignment :
    ∃ c, hashControllerInit mainOnlyProblem 0 0 = some c ∧
      tbl c.hashMinMaxTable 0 = { minValue := -120, maxValue := -1 } ∧
      levelSum c.mainProblem 0 3 + selSum128 c.nodeProblem 0 = 0 ∧
      ¬ inStep (tbl c.hashMinMaxTable 0) (levelSum c.mainProblem 0 3) := by
  obtain ⟨c, hc, _, _, _, _, h5, h6, _, h8⟩ := hashControllerInit_mainOnlyProblem
  refine ⟨c, hc, ?_, ?_, ?_⟩
  · rw [h8]; rfl
  · rw [h5, h6]; decide
  · rw [h6, h8]; decide

theorem entry_eq_get (numbers : List NumberEntry) (i : Nat) (h : i < numbers.length) :
    ({ number := num numbers i, order := ord numbers i } : NumberEntry) = numbers.get ⟨i, h⟩ := by
  unfold num ord
  rw [List.get?_eq_get h]

theorem take_succ_get (numbers : List NumberEntry) (i : Nat) (h : i < numbers.length) :
    numbers.take (i + 1) = numbers.take i ++ [numbers.get ⟨i, h⟩] := by
  rw [List.take_succ, List.getElem?_eq_getElem h]
  rfl

theorem drop_eq_get_cons (numbers : List NumberEntry) (i : Nat) (h : i < numbers.length) :
    numbers.drop i = numbers.get ⟨i, h⟩ :: numbers.drop (i + 1) := by
  rw [List.get_eq_getElem]
  exact List.drop_eq_getElem_cons h

/-- The slots written by `orderNumberRanges` hold every element outside the start window
exactly once. -/
theorem chain_perm (numbers : List NumberEntry) : ∀ (es : List OrderEntry) (L R : Nat),
    L ≤ R → R ≤ numbers.length → es.length = L + (numbers.length - R) →
    EnvChain numbers L R es →
    (es.map OrderEntry.toEntry).Perm (numbers.take L ++ numbers.drop R) := by
  intro es
  induction es with
  | nil =>
    intro L R _ hR hlen _
    simp only [List.length_nil] at hlen
    have hL : L = 0 := by omega
    have hRn : R = numbers.length := by omega
    subst hL; subst hRn
    simp
  | cons e rest ih =>
    intro L R hLR hR hlen hc
    simp only [List.length_cons] at hlen
    obtain ⟨_, hcase⟩ := hc
    rcases hcase with ⟨h1, hn, ho, hrest⟩ | ⟨h1, hn, ho, hrest⟩
    · have hlt : L - 1 < numbers.length := by omega
      have he : e.toEntry = numbers.get ⟨L - 1, hlt⟩ := by
        rw [← entry_eq_get]; unfold OrderEntry.toEntry; rw [hn, ho]
      have ih1 := ih (L - 1) R (by omega) hR (by omega) hrest
      have htake : numbers.take L = numbers.take (L - 1) ++ [numbers.get ⟨L - 1, hlt⟩] := by
        have := take_succ_get numbers (L - 1) hlt
        rwa [Nat.sub_add_cancel h1] at this
      rw [List.map_cons, he, htake, List.append_assoc, List.singleton_append]
      exact (List.Perm.cons _ ih1).trans List.perm_middle.symm
    · have he : e.toEntry = numbers.get ⟨R, h1⟩ := by
        rw [← entry_eq_get]; unfold OrderEntry.toEntry; rw [hn, ho]
      have ih1 := ih L (R + 1) (by omega) (by omega) (by omega) hrest
      rw [List.map_cons, he, drop_eq_get_cons numbers R h1]
      exact (List.Perm.cons _ ih1).trans List.perm_middle.symm

theorem copyRange_append (numbers : List NumberEntry) (a b c : Nat) (hab : a ≤ b) (hbc : b ≤ c) :
    copyRange numbers a b ++ copyRange numbers b c = copyRange numbers a c := by
  unfold copyRange
  have e1 : c - a = (b - a) + (c - b) := by omega
  rw [e1, List.take_add, List.drop_drop]
  have e2 : a + (b - a) = b := by omega
  rw [e2]

/-- The three copy loops of the constructor copy every entry of the node window once. -/
theorem nodeEntries_perm (temp : List NumberEntry) (P H nb m : Nat) (h1 : P ≤ H)
    (h2 : H + m ≤ P + nb) :
    (nodeEntries temp P H nb m).Perm ((temp.drop P).take nb) := by
  unfold nodeEntries
  have e : (temp.drop P).take nb = copyRange temp P (P + nb) := by
    unfold copyRange; rw [Nat.add_sub_cancel_left]
  rw [e, ← copyRange_append temp P (H + m) (P + nb) (by omega) h2,
    ← copyRange_append temp P H (H + m) h1 (by omega), List.append_assoc, List.append_assoc]
  exact List.Perm.append_left _ List.perm_append_comm

theorem take_drop_perm (temp : List NumberEntry) (P nb : Nat) :
    ((temp.take P ++ temp.drop (P + nb)) ++ (temp.drop P).take nb).Perm temp := by
  have h1 : temp = temp.take P ++ ((temp.drop P).take nb ++ temp.drop (P + nb)) := by
    conv_lhs => rw [← List.take_append_drop P temp]
    congr 1
    conv_lhs => rw [← List.take_append_drop nb (temp.drop P)]
    rw [List.drop_drop]
  conv_rhs => rw [h1]
  rw [List.append_assoc]
  exact List.Perm.append_left _ List.perm_append_comm

theorem entriesOf_map_order (vals : List Int) :
    (entriesOf vals).map (fun e => e.order) = List.range vals.length := by
  unfold entriesOf
  rw [List.map_map]
  conv_rhs => rw [← List.map_id (List.range vals.length)]
  rfl

theorem entriesOf_mem (vals : List Int) (e : NumberEntry) (he : e ∈ entriesOf vals) :
    e.number = rd vals e.order := by
  unfold entriesOf at he
  rw [List.mem_map] at he
  obtain ⟨i, _, rfl⟩ := he
  rfl

theorem hashParams_bounds (N hb hn : Nat) (h16 : 16 < N) :
    1 ≤ (hashParams N hb hn).2 ∧ (hashParams N hb hn).2 + 8 ≤ N - 1 := by
  unfold hashParams
  simp only
  split_ifs <;> simp only [] at * <;> omega

/-- What the constructor of `HashController` establishes for a valid problem with more than
16 elements: the two translation tables together are a permutation of the input indices and
the two reordered problems hold the input values at those indices. -/
theorem hashControllerInit_spec (problem : List Int) (hb hn : Nat) (hv : ValidProblem problem)
    (h16 : 16 < problem.length) :
    ∃ c, hashControllerInit problem hb hn = some c ∧
      c.numbersNum = problem.length ∧
      c.nodeHashBits = (hashParams problem.length hb hn).1 ∧
      c.nodeHashedNumbers = (hashParams problem.length hb hn).2 ∧
      c.nodeBits = 8 + (hashParams problem.length hb hn).2 ∧
      c.mainProblem.length = problem.length - (8 + (hashParams problem.length hb hn).2) ∧
      c.mainTransTable.length = problem.length - (8 + (hashParams problem.length hb hn).2) ∧
      c.nodeProblem.length = 8 + (hashParams problem.length hb hn).2 ∧
      (c.mainTransTable ++ c.nodeTransTable).Perm (List.range problem.length) ∧
      c.mainProblem ++ c.nodeProblem
        = (c.mainTransTable ++ c.nodeTransTable).map (rd problem) ∧
      c.sumChanges = (List.range 256).map (fun i => prefixSum64 c.nodeProblem 0 i 8) := by
  obtain ⟨hm1, hm2⟩ := hashParams_bounds problem.length hb hn h16
  obtain ⟨hs, hz, hno, hlen⟩ := sorted_valid problem hv
  generalize hm : (hashParams problem.length hb hn).2 = m at *
  have hP := smallestRangeRegion_le problem.length (8 + m) (sortEntries (entriesOf problem))
  have hH := smallestRangeRegion_le (8 + m) m
    ((sortEntries (entriesOf problem)).drop
      (smallestRangeRegion problem.length (8 + m) (sortEntries (entriesOf problem))))
  obtain ⟨es, h1, h2, h3⟩ := orderNumberRanges_run (sortEntries (entriesOf problem)) hs hz hno
    (smallestRangeRegion problem.length (8 + m) (sortEntries (entriesOf problem))) (8 + m)
    (by omega) (by rw [hlen]; omega)
  rw [hlen] at h1 h2
  have hpos : 0 < es.length := by omega
  obtain ⟨_, r2, r3⟩ := orderResult_of_ne
    (gateOf (sortEntries (entriesOf problem))
      (smallestRangeRegion problem.length (8 + m) (sortEntries (entriesOf problem)))
      (smallestRangeRegion problem.length (8 + m) (sortEntries (entriesOf problem)) + (8 + m)))
    es hpos
  generalize hPdef : smallestRangeRegion problem.length (8 + m)
    (sortEntries (entriesOf problem)) = P at *
  generalize hHdef : smallestRangeRegion (8 + m) m
    ((sortEntries (entriesOf problem)).drop P) = H0 at *
  have hne := nodeEntries_perm (sortEntries (entriesOf problem)) P (H0 + P) (8 + m) m
    (by omega) (by omega)
  have hmain := chain_perm (sortEntries (entriesOf problem)) es P (P + (8 + m)) (by omega)
    (by rw [hlen]; omega) (by rw [hlen, h2]; omega) h3
  have hall : (es.map OrderEntry.toEntry ++
      nodeEntries (sortEntries (entriesOf problem)) P (H0 + P) (8 + m) m).Perm
      (entriesOf problem) :=
    ((List.Perm.append hmain hne).trans (take_drop_perm _ P (8 + m))).trans
      (sortEntries_perm _)
  have hnelen : (nodeEntries (sortEntries (entriesOf problem)) P (H0 + P) (8 + m) m).length
      = 8 + m := by
    rw [hne.length_eq, List.length_take, List.length_drop, hlen]; omega
  unfold hashControllerInit
  simp only [hm, hPdef, hHdef]
  rw [h1]
  refine ⟨_, rfl, rfl, rfl, rfl, rfl, ?_, ?_, ?_, ?_, ?_, rfl⟩
  · simp only [r2, List.length_map, h2]
  · simp only [r3, List.length_map, h2]
  · simp only [List.length_map, hnelen]
  · simp only [r3]
    have := hall.map (fun e => e.order)
    rw [entriesOf_map_order, List.map_append, List.map_map] at this
    exact this
  · simp only [r2, r3, List.map_append, List.map_map]
    congr 1
    · apply List.map_congr_left
      intro e he
      have hmem : e.toEntry ∈ entriesOf problem :=
        hall.subset (List.mem_append_left _ (List.mem_map_of_mem _ he))
      exact entriesOf_mem problem _ hmem
    · apply List.map_congr_left
      intro e he
      have hmem : e ∈ entriesOf problem := hall.subset (List.mem_append_right _ he)
      exact entriesOf_mem problem _ hmem

theorem rdN_append (a b : List Nat) (i : Nat) :
    (if i < a.length then rdN a i else rdN b (i - a.length)) = rdN (a ++ b) i := by
  unfold rdN
  by_cases h : i < a.length
  · rw [if_pos h, List.getD_append _ _ _ _ h]
  · rw [if_neg h, List.getD_append_right _ _ _ _ (by omega)]

theorem getD_map_nat (T : List Nat) (f : Nat → Int) (i : Nat) (h : i < T.length) :
    (T.map f).getD i 0 = f (T.getD i 0) := by
  simp [List.getD_eq_getElem?_getD, List.getElem?_eq_getElem h]

/-- Bit `j` of the translated subset is set exactly when some set bit `i` of the subset is
mapped to `j`. -/
theorem translateLoop_testBit (mainT nodeT : List Nat) (S : Nat)
    (hT : ∀ i, i < 128 → rdN (mainT ++ nodeT) i < 128) (j : Nat) : ∀ k, k ≤ 128 →
    ((translateLoop mainT nodeT mainT.length S k).testBit j = true ↔
      ∃ i, i < k ∧ S.testBit i = true ∧ rdN (mainT ++ nodeT) i = j) := by
  intro k
  induction k with
  | zero => intro _; simp [translateLoop]
  | succ k ih =>
    intro hk
    rw [translateLoop]
    rw [rdN_append, bitSet_eq_testBit _ _ (by omega)]
    by_cases hb : S.testBit k = true
    · rw [if_pos hb, Nat.testBit_or, Bool.or_eq_true, ih (by omega),
        shl128_one _ (hT k (by omega)), Nat.testBit_two_pow]
      constructor
      · rintro (⟨i, hi, h1, h2⟩ | h)
        · exact ⟨i, by omega, h1, h2⟩
        · exact ⟨k, by omega, hb, by simpa using h⟩
      · rintro ⟨i, hi, h1, h2⟩
        by_cases hik : i = k
        · subst hik; exact Or.inr (by simpa using h2)
        · exact Or.inl ⟨i, by omega, h1, h2⟩
    · rw [if_neg hb, ih (by omega)]
      constructor
      · rintro ⟨i, hi, h1, h2⟩
        exact ⟨i, by omega, h1, h2⟩
      · rintro ⟨i, hi, h1, h2⟩
        by_cases hik : i = k
        · subst hik; exact absurd h1 hb
        · exact ⟨i, by omega, h1, h2⟩

theorem perm_range_facts (T : List Nat) (N : Nat) (hp : T.Perm (List.range N)) :
    T.length = N ∧ (∀ i, i < N → rdN T i < N) ∧
    (∀ i i2, i < N → i2 < N → rdN T i = rdN T i2 → i = i2) ∧
    (∀ j, j < N → ∃ i, i < N ∧ rdN T i = j) := by
  have hlen : T.length = N := by rw [hp.length_eq, List.length_range]
  have hnd : T.Nodup := hp.nodup_iff.2 (List.nodup_range N)
  have hget : ∀ i (h : i < T.length), rdN T i = T.get ⟨i, h⟩ := by
    intro i h
    unfold rdN
    rw [List.getD_eq_getElem _ _ h]
    rfl
  refine ⟨hlen, ?_, ?_, ?_⟩
  · intro i hi
    rw [hget i (by omega)]
    exact List.mem_range.1 (hp.subset (List.get_mem _ _ _))
  · intro i i2 hi hi2 heq
    rw [hget i (by omega), hget i2 (by omega)] at heq
    have := (List.Nodup.get_inj_iff hnd).1 heq
    exact Fin.mk.inj_iff.1 this
  · intro j hj
    have hmem : j ∈ T := hp.symm.subset (List.mem_range.2 hj)
    obtain ⟨n, hn⟩ := List.get_of_mem hmem
    exact ⟨n.1, by rw [← hlen]; exact n.2, by rw [hget n.1 n.2]; exact hn⟩

/-- The translated subset selects, in the original order, the values that the subset selects
in the reordered problem. -/
theorem translate_selSum (mainT nodeT : List Nat) (problem : List Int) (S : Nat)
    (hN : problem.length ≤ 128) (hp : (mainT ++ nodeT).Perm (List.range problem.length)) :
    selSum problem (translateLoop mainT nodeT mainT.length S problem.length)
      = selSum ((mainT ++ nodeT).map (rd problem)) (S % 2 ^ problem.length) := by
  obtain ⟨hlen, hlt, hinj, hsurj⟩ := perm_range_facts _ _ hp
  have hT : ∀ i, i < 128 → rdN (mainT ++ nodeT) i < 128 := by
    intro i hi
    by_cases h : i < problem.length
    · have := hlt i h; omega
    · unfold rdN
      rw [List.getD_eq_default _ _ (by omega)]
      decide
  rw [selSum_eq_sum problem _ problem.length (le_refl _),
    selSum_eq_sum _ _ problem.length (by rw [List.length_map, hlen])]
  symm
  apply Finset.sum_bij (fun i _ => rdN (mainT ++ nodeT) i)
  · intro i hi
    exact Finset.mem_range.2 (hlt i (Finset.mem_range.1 hi))
  · intro i hi i2 hi2 heq
    exact hinj i i2 (Finset.mem_range.1 hi) (Finset.mem_range.1 hi2) heq
  · intro j hj
    obtain ⟨i, hi, hij⟩ := hsurj j (Finset.mem_range.1 hj)
    exact ⟨i, Finset.mem_range.2 hi, hij⟩
  · intro i hi
    have hi1 := Finset.mem_range.1 hi
    have hrd : rd ((mainT ++ nodeT).map (rd problem)) i = rd problem (rdN (mainT ++ nodeT) i) := by
      exact getD_map_nat _ _ i (by omega)
    have hbit : (translateLoop mainT nodeT mainT.length S problem.length).testBit
        (rdN (mainT ++ nodeT) i) = (S % 2 ^ problem.length).testBit i := by
      rw [Bool.eq_iff_iff, translateLoop_testBit mainT nodeT S hT _ _ hN, Nat.testBit_mod_two_pow]
      simp only [Bool.and_eq_true, decide_eq_true_eq]
      constructor
      · rintro ⟨i2, h1, h2, h3⟩
        have := hinj i2 i h1 hi1 h3
        subst this
        exact ⟨hi1, h2⟩
      · rintro ⟨_, h2⟩
        exact ⟨i, hi1, h2, rfl⟩
    rw [hrd, hbit]

theorem translate_lt (mainT nodeT : List Nat) (N S : Nat) (hN : N ≤ 128)
    (hp : (mainT ++ nodeT).Perm (List.range N)) :
    translateLoop mainT nodeT mainT.length S N < 2 ^ N := by
  obtain ⟨hlen, hlt, hinj, hsurj⟩ := perm_range_facts _ _ hp
  have hT : ∀ i, i < 128 → rdN (mainT ++ nodeT) i < 128 := by
    intro i hi
    by_cases h : i < N
    · have := hlt i h; omega
    · unfold rdN
      rw [List.getD_eq_default _ _ (by omega)]
      decide
  apply Nat.lt_pow_two_of_testBit
  intro j hj
  by_contra hc
  rw [Bool.not_eq_false, translateLoop_testBit mainT nodeT S hT _ _ hN] at hc
  obtain ⟨i, hi, _, h2⟩ := hc
  have := hlt i hi
  omega

/-- The translation is injective on subsets below `2^N`: bit `i` of the subset can be read
off the translated subset. -/
theorem translate_testBit_inv (mainT nodeT : List Nat) (N S : Nat) (hN : N ≤ 128)
    (hp : (mainT ++ nodeT).Perm (List.range N)) (i : Nat) (hi : i < N) :
    (translateLoop mainT nodeT mainT.length S N).testBit (rdN (mainT ++ nodeT) i)
      = S.testBit i := by
  obtain ⟨hlen, hlt, hinj, hsurj⟩ := perm_range_facts _ _ hp
  have hT : ∀ i, i < 128 → rdN (mainT ++ nodeT) i < 128 := by
    intro i hi
    by_cases h : i < N
    · have := hlt i h; omega
    · unfold rdN
      rw [List.getD_eq_default _ _ (by omega)]
      decide
  rw [Bool.eq_iff_iff, translateLoop_testBit mainT nodeT S hT _ _ hN]
  constructor
  · rintro ⟨i2, h1, h2, h3⟩
    have := hinj i2 i h1 hi h3
    subst this
    exact h2
  · intro h2
    exact ⟨i, hi, h2, rfl⟩

theorem translate_injective (mainT nodeT : List Nat) (N S S2 : Nat) (hN : N ≤ 128)
    (hp : (mainT ++ nodeT).Perm (List.range N)) (hS : S < 2 ^ N) (hS2 : S2 < 2 ^ N)
    (heq : translateLoop mainT nodeT mainT.length S N
      = translateLoop mainT nodeT mainT.length S2 N) : S = S2 := by
  apply Nat.eq_of_testBit_eq
  intro i
  by_cases hi : i < N
  · rw [← translate_testBit_inv mainT nodeT N S hN hp i hi,
      ← translate_testBit_inv mainT nodeT N S2 hN hp i hi, heq]
  · have h1 : S < 2 ^ i := lt_of_lt_of_le hS (Nat.pow_le_pow_right (by decide) (by omega))
    have h2 : S2 < 2 ^ i := lt_of_lt_of_le hS2 (Nat.pow_le_pow_right (by decide) (by omega))
    rw [Nat.testBit_lt_two_pow h1, Nat.testBit_lt_two_pow h2]

theorem translate_ne_zero (mainT nodeT : List Nat) (N S : Nat) (hN : N ≤ 128)
    (hp : (mainT ++ nodeT).Perm (List.range N)) (hS : S < 2 ^ N) (h0 : S ≠ 0) :
    translateLoop mainT nodeT mainT.length S N ≠ 0 := by
  intro hz
  have h00 : translateLoop mainT nodeT mainT.length 0 N = 0 := by
    apply Nat.eq_of_testBit_eq
    intro j
    rw [Nat.zero_testBit]
    by_contra hc
    rw [Bool.not_eq_false] at hc
    obtain ⟨hlen, hlt, hinj, hsurj⟩ := perm_range_facts _ _ hp
    have hT : ∀ i, i < 128 → rdN (mainT ++ nodeT) i < 128 := by
      intro i hi
      by_cases h : i < N
      · have := hlt i h; omega
      · unfold rdN
        rw [List.getD_eq_default _ _ (by omega)]
        decide
    rw [translateLoop_testBit mainT nodeT 0 hT _ _ hN] at hc
    obtain ⟨i, _, h1, _⟩ := hc
    simp at h1
  exact h0 (translate_injective mainT nodeT N S 0 hN hp hS (Nat.pow_pos (by decide))
    (by rw [hz, h00]))

theorem range_map_getD (l : List Nat) :
    (List.range l.length).map (fun j => l.getD j 0) = l := by
  apply List.ext_getElem
  · simp
  · intro i h1 h2
    simp [List.getD_eq_getElem?_getD, List.getElem?_eq_getElem h2]

theorem flatMap_range_split (f : Nat → List Nat) (K k : Nat) (hk : k < K) :
    ∃ post, (List.range K).flatMap f = (List.range k).flatMap f ++ f k ++ post := by
  obtain ⟨r, rfl⟩ : ∃ r, K = k + (r + 1) := ⟨K - k - 1, by omega⟩
  rw [List.range_add, List.flatMap_append, List.range_succ_eq_map, List.map_cons,
    List.flatMap_cons]
  exact ⟨_, by rw [Nat.add_zero, List.append_assoc]⟩

/-- What a successful run of the serial builder leaves in its tables. -/
theorem singleThreadDoHashGen_some (m h : Nat) (np : List Int) (hm : m ≤ 31)
    (t : NodeHashTables) (ht : singleThreadDoHashGen m h np = some t) :
    t.nodeHashSubsets
      = (List.range (2 ^ h)).flatMap (fun k => bucketOf (subsetKey m h np) k (2 ^ m)) ∧
    (∀ k, (t.nodeHash k).size = (bucketOf (subsetKey m h np) k (2 ^ m)).length) ∧
    (∀ k, k < 2 ^ h → bucketOf (subsetKey m h np) k (2 ^ m) ≠ [] →
      (t.nodeHash k).getPos
        = ((List.range k).flatMap (fun k => bucketOf (subsetKey m h np) k (2 ^ m))).length) := by
  obtain ⟨p1, p2⟩ := singleThreadDoHashGen_spec m h np hm
  have hall : ∀ k, (bucketOf (subsetKey m h np) k (2 ^ m)).length ≤ 65535 := by
    intro k
    by_contra hc
    rw [p1 ⟨k, by omega⟩] at ht
    exact Option.noConfusion ht
  obtain ⟨t1, ht1, h1, _, h3, h4⟩ := p2 hall
  rw [ht] at ht1
  cases ht1
  exact ⟨h1, h3, h4⟩

/-- The cells of bucket `k` in `nodeHashSubsets` are the subsets with key `k`. -/
theorem builder_slice (m h : Nat) (np : List Int) (hm : m ≤ 31)
    (t : NodeHashTables) (ht : singleThreadDoHashGen m h np = some t) (k : Nat)
    (hk : k < 2 ^ h) :
    (List.range (t.nodeHash k).size).map
        (fun j => rdN t.nodeHashSubsets ((t.nodeHash k).getPos + j))
      = bucketOf (subsetKey m h np) k (2 ^ m) := by
  obtain ⟨h1, h3, h4⟩ := singleThreadDoHashGen_some m h np hm t ht
  by_cases hnil : bucketOf (subsetKey m h np) k (2 ^ m) = []
  · rw [h3 k, hnil]; rfl
  · obtain ⟨post, hsplit⟩ := flatMap_range_split
      (fun k => bucketOf (subsetKey m h np) k (2 ^ m)) (2 ^ h) k hk
    rw [h4 k hk hnil, h3 k, h1, hsplit]
    conv_rhs => rw [← range_map_getD (bucketOf (subsetKey m h np) k (2 ^ m))]
    apply List.map_congr_left
    intro j hj
    rw [List.mem_range] at hj
    unfold rdN
    rw [List.append_assoc, List.getD_append_right _ _ _ _ (by omega), Nat.add_sub_cancel_left,
      List.getD_append _ _ _ _ hj]

theorem bucketOf_nodup (keyOf : Nat → Nat) (k n : Nat) : (bucketOf keyOf k n).Nodup :=
  List.Nodup.filter _ (List.nodup_range n)

/-- The three fields of the final bitmask of the hash worker do not overlap. -/
theorem mask3_eq (M a b S x y : Nat) (hN : M + a + b ≤ 128) (hS : S < 2 ^ M)
    (hx : x < 2 ^ a) (hy : y < 2 ^ b) :
    S ||| shl128 x M ||| shl128 y (M + a) = S + 2 ^ M * (x + 2 ^ a * y) ∧
    S + 2 ^ M * (x + 2 ^ a * y) < 2 ^ (M + a + b) := by
  have hlt : x + 2 ^ a * y < 2 ^ (a + b) := by
    rw [Nat.pow_add]
    calc x + 2 ^ a * y < 2 ^ a + 2 ^ a * y := by omega
      _ = 2 ^ a * (y + 1) := by ring
      _ ≤ 2 ^ a * 2 ^ b := Nat.mul_le_mul_left _ (by omega)
  have hlt2 : S + 2 ^ M * (x + 2 ^ a * y) < 2 ^ (M + a + b) := by
    rw [Nat.add_assoc, Nat.pow_add]
    calc S + 2 ^ M * (x + 2 ^ a * y) < 2 ^ M + 2 ^ M * (x + 2 ^ a * y) := by omega
      _ = 2 ^ M * (x + 2 ^ a * y + 1) := by ring
      _ ≤ 2 ^ M * 2 ^ (a + b) := Nat.mul_le_mul_left _ (by omega)
  have h128 : 2 ^ (M + a + b) ≤ 2 ^ 128 := Nat.pow_le_pow_right (by decide) hN
  have hxM : 2 ^ M * x < 2 ^ (M + a) := by
    rw [Nat.pow_add]
    exact (Nat.mul_lt_mul_left (Nat.pow_pos (by decide))).2 hx
  have hx1 : shl128 x M = 2 ^ M * x := by
    unfold shl128
    rw [Nat.shiftLeft_eq, ← two_pow_128, Nat.mul_comm]
    apply Nat.mod_eq_of_lt
    have : 2 ^ M * x ≤ S + 2 ^ M * (x + 2 ^ a * y) := by
      rw [Nat.mul_add]; omega
    omega
  have hy1 : shl128 y (M + a) = 2 ^ (M + a) * y := by
    unfold shl128
    rw [Nat.shiftLeft_eq, ← two_pow_128, Nat.mul_comm]
    apply Nat.mod_eq_of_lt
    have : 2 ^ (M + a) * y ≤ S + 2 ^ M * (x + 2 ^ a * y) := by
      rw [Nat.mul_add, Nat.pow_add, Nat.mul_assoc]; omega
    omega
  refine ⟨?_, hlt2⟩
  have e1 : 2 ^ (M + a) * y + 2 ^ M * x = 2 ^ (M + a) * y ||| 2 ^ M * x :=
    Nat.mul_add_lt_is_or hxM y
  have e2 : 2 ^ M * (x + 2 ^ a * y) + S = 2 ^ M * (x + 2 ^ a * y) ||| S :=
    Nat.mul_add_lt_is_or hS _
  have e3 : 2 ^ M * (x + 2 ^ a * y) = 2 ^ (M + a) * y + 2 ^ M * x := by
    rw [Nat.pow_add]; ring
  rw [hx1, hy1, Nat.add_comm S, e2, e3, e1]
  apply Nat.eq_of_testBit_eq
  intro j
  simp only [Nat.testBit_or]
  cases S.testBit j <;> cases (2 ^ (M + a) * y).testBit j <;>
    cases (2 ^ M * x).testBit j <;> rfl

theorem fields_inj (M S x S2 x2 : Nat) (hS : S < 2 ^ M) (hS2 : S2 < 2 ^ M)
    (h : S + 2 ^ M * x = S2 + 2 ^ M * x2) : S = S2 ∧ x = x2 := by
  have hpos : 0 < 2 ^ M := Nat.pow_pos (by decide)
  have h1 : (S + 2 ^ M * x) % 2 ^ M = S := by
    rw [Nat.add_mul_mod_self_left, Nat.mod_eq_of_lt hS]
  have h2 : (S2 + 2 ^ M * x2) % 2 ^ M = S2 := by
    rw [Nat.add_mul_mod_self_left, Nat.mod_eq_of_lt hS2]
  have h3 : (S + 2 ^ M * x) / 2 ^ M = x := by
    rw [Nat.add_mul_div_left _ _ hpos, Nat.div_eq_of_lt hS, Nat.zero_add]
  have h4 : (S2 + 2 ^ M * x2) / 2 ^ M = x2 := by
    rw [Nat.add_mul_div_left _ _ hpos, Nat.div_eq_of_lt hS2, Nat.zero_add]
  rw [h] at h1 h3
  exact ⟨by rw [← h1, h2], by rw [← h3, h4]⟩

theorem nodup_flatMap_of {α β : Type} (l : List α) (f : α → List β) (hl : l.Nodup)
    (hf : ∀ x ∈ l, (f x).Nodup)
    (hd : ∀ x ∈ l, ∀ x2 ∈ l, ∀ y, y ∈ f x → y ∈ f x2 → x = x2) :
    (l.flatMap f).Nodup := by
  induction l with
  | nil => simp
  | cons a l ih =>
    rw [List.flatMap_cons, List.nodup_append]
    rw [List.nodup_cons] at hl
    refine ⟨hf a (List.mem_cons_self _ _), ?_, ?_⟩
    · exact ih hl.2 (fun x hx => hf x (List.mem_cons_of_mem _ hx))
        (fun x hx x2 hx2 => hd x (List.mem_cons_of_mem _ hx) x2 (List.mem_cons_of_mem _ hx2))
    · intro y hy1 hy2
      rw [List.mem_flatMap] at hy2
      obtain ⟨x, hx, hyx⟩ := hy2
      have := hd a (List.mem_cons_self _ _) x (List.mem_cons_of_mem _ hx) y hy1 hyx
      subst this
      exact hl.1 hx

theorem flatMap_congr_mem {α β : Type} (l : List α) (f g : α → List β)
    (h : ∀ x ∈ l, f x = g x) : l.flatMap f = l.flatMap g := by
  induction l with
  | nil => rfl
  | cons a l ih =>
    rw [List.flatMap_cons, List.flatMap_cons, h a (List.mem_cons_self _ _),
      ih (fun x hx => h x (List.mem_cons_of_mem _ hx))]

theorem flatMap_map_comp {α β γ : Type} (l : List α) (f : α → β) (g : β → List γ) :
    (l.map f).flatMap g = l.flatMap (fun x => g (f x)) := by
  induction l with
  | nil => rfl
  | cons a l ih => rw [List.map_cons, List.flatMap_cons, List.flatMap_cons, ih]

/-- `checkAndSendSolution` visits the subsets of the bucket of the index sum and emits the
translation of every non-zero final bitmask whose 128-bit sum is zero. -/
theorem hashCheckAndSend_eq (c : HashController) (t : NodeHashTables) (S fi : Nat) (A : Int)
    (hN : c.numbersNum ≤ 128) (hnb : c.nodeBits = 8 + c.nodeHashedNumbers)
    (hmN : 8 + c.nodeHashedNumbers ≤ c.numbersNum) (hm31 : c.nodeHashedNumbers ≤ 31)
    (ht : singleThreadDoHashGen c.nodeHashedNumbers c.nodeHashBits (c.nodeProblem.drop 8)
      = some t)
    (hS : S < 2 ^ (c.numbersNum - c.nodeBits)) (hfi : fi < 256) :
    hashCheckAndSend c t S (wrap128 A) fi
      = (bucketOf (subsetKey c.nodeHashedNumbers c.nodeHashBits (c.nodeProblem.drop 8))
          (getNodeHashKey c.nodeHashBits
            (toInt64 (indexSum128 c.nodeProblem 0 (wrap128 A) fi 8)))
          (2 ^ c.nodeHashedNumbers)).flatMap
        (fun hs =>
          if wrap128 (A + selSum c.nodeProblem (fi + 2 ^ 8 * hs)) = 0 ∧
              S + 2 ^ (c.numbersNum - c.nodeBits) * (fi + 2 ^ 8 * hs) ≠ 0
          then [translateSubset c (S + 2 ^ (c.numbersNum - c.nodeBits) * (fi + 2 ^ 8 * hs))]
          else []) := by
  have hslice := builder_slice c.nodeHashedNumbers c.nodeHashBits (c.nodeProblem.drop 8) hm31 t ht
    (getNodeHashKey c.nodeHashBits (toInt64 (indexSum128 c.nodeProblem 0 (wrap128 A) fi 8)))
    (getNodeHashKey_lt _ _)
  unfold hashCheckAndSend
  simp only
  have hG : ∀ (l : List Nat) (G : Nat → List Nat),
      (if (t.nodeHash (getNodeHashKey c.nodeHashBits
            (toInt64 (indexSum128 c.nodeProblem 0 (wrap128 A) fi 8)))).size ≠ 0
        then l.flatMap G else []) = l.flatMap G ∨
      (t.nodeHash (getNodeHashKey c.nodeHashBits
            (toInt64 (indexSum128 c.nodeProblem 0 (wrap128 A) fi 8)))).size = 0 := by
    intro l G
    by_cases h0 : (t.nodeHash (getNodeHashKey c.nodeHashBits
            (toInt64 (indexSum128 c.nodeProblem 0 (wrap128 A) fi 8)))).size = 0
    · exact Or.inr h0
    · exact Or.inl (if_pos h0)
  rw [← hslice, flatMap_map_comp]
  rcases hG (List.range (t.nodeHash (getNodeHashKey c.nodeHashBits
            (toInt64 (indexSum128 c.nodeProblem 0 (wrap128 A) fi 8)))).size) _ with h | h
  · rw [h]
    apply flatMap_congr_mem
    intro j hj
    have hmem : rdN t.nodeHashSubsets ((t.nodeHash (getNodeHashKey c.nodeHashBits
        (toInt64 (indexSum128 c.nodeProblem 0 (wrap128 A) fi 8)))).getPos + j)
        ∈ bucketOf (subsetKey c.nodeHashedNumbers c.nodeHashBits (c.nodeProblem.drop 8))
          (getNodeHashKey c.nodeHashBits
            (toInt64 (indexSum128 c.nodeProblem 0 (wrap128 A) fi 8)))
          (2 ^ c.nodeHashedNumbers) := by
      rw [← hslice]
      exact List.mem_map_of_mem _ hj
    have hlt := bucketOf_lt _ _ _ _ hmem
    generalize rdN t.nodeHashSubsets ((t.nodeHash (getNodeHashKey c.nodeHashBits
        (toInt64 (indexSum128 c.nodeProblem 0 (wrap128 A) fi 8)))).getPos + j) = hs at *
    have hsum : indexSum128 c.nodeProblem 8 (indexSum128 c.nodeProblem 0 (wrap128 A) fi 8) hs
        c.nodeHashedNumbers = wrap128 (A + selSum c.nodeProblem (fi + 2 ^ 8 * hs)) := by
      rw [indexSum128_spec, indexSum128_spec, ← selSum_lt_pow _ fi 8 (by norm_num; omega),
        ← selSum_lt_pow _ hs _ hlt, selSum_split_gen _ 8 fi hs (by norm_num; omega),
        List.drop_zero, add_assoc]
    have hmask := (mask3_eq (c.numbersNum - c.nodeBits) 8 c.nodeHashedNumbers S fi hs
      (by omega) hS (by norm_num; omega) hlt).1
    have e : c.numbersNum - c.nodeHashedNumbers = c.numbersNum - c.nodeBits + 8 := by omega
    rw [hsum, e, hmask]
  · rw [h]
    simp

/-- The facts about a constructed controller and built tables used below. -/
theorem hashRun_unfold (problem : List Int) (hb hn : Nat) (hv : ValidProblem problem)
    (h16 : 16 < problem.length) (h128 : problem.length ≤ 128) :
    ∃ c, hashControllerInit problem hb hn = some c ∧
      c.numbersNum = problem.length ∧
      c.nodeHashBits = (hashParams problem.length hb hn).1 ∧
      c.nodeHashedNumbers = (hashParams problem.length hb hn).2 ∧
      c.nodeBits = 8 + c.nodeHashedNumbers ∧
      8 + c.nodeHashedNumbers ≤ c.numbersNum - 1 ∧
      c.mainProblem.length = c.numbersNum - c.nodeBits ∧
      c.mainTransTable.length = c.numbersNum - c.nodeBits ∧
      (c.mainTransTable ++ c.nodeTransTable).Perm (List.range problem.length) ∧
      c.mainProblem ++ c.nodeProblem
        = (c.mainTransTable ++ c.nodeTransTable).map (rd problem) ∧
      hashRun problem hb hn
        = (singleThreadDoHashGen c.nodeHashedNumbers c.nodeHashBits (c.nodeProblem.drop 8)).map
          (fun t => (((List.range (2 ^ (c.numbersNum - c.nodeBits))).filter
              (fun B => decide (PassesAllLevels c.hashMinMaxTable c.mainProblem
                (c.numbersNum - c.nodeBits) B))).map (packetOf c.mainProblem)).flatMap
            (hashProcessPacket c t)) := by
  obtain ⟨c, hc, h1, h2, h3, h4, h5, h6, _, h8, h9, _⟩ :=
    hashControllerInit_spec problem hb hn hv h16
  obtain ⟨_, hb2⟩ := hashParams_bounds problem.length hb hn h16
  refine ⟨c, hc, h1, h2, h3, by rw [h4, h3], by rw [h3, h1]; omega,
    by rw [h5, h1, h4], by rw [h6, h1, h4], h8, h9, ?_⟩
  unfold hashRun
  rw [hc]
  simp only [Option.some_bind]
  rw [hashGenerateWork_spec _ _ _ (by omega)]
  cases singleThreadDoHashGen c.nodeHashedNumbers c.nodeHashBits (c.nodeProblem.drop 8) <;> rfl

/-- Every bitmask emitted for a packet is the translation of a non-zero final bitmask whose
three fields select a zero 128-bit sum in the reordered problem. -/
theorem hashProcessPacket_mem (c : HashController) (t : NodeHashTables) (S B : Nat)
    (hN : c.numbersNum ≤ 128) (hnb : c.nodeBits = 8 + c.nodeHashedNumbers)
    (hmN : 8 + c.nodeHashedNumbers ≤ c.numbersNum) (hm31 : c.nodeHashedNumbers ≤ 31)
    (ht : singleThreadDoHashGen c.nodeHashedNumbers c.nodeHashBits (c.nodeProblem.drop 8)
      = some t)
    (hS : S < 2 ^ (c.numbersNum - c.nodeBits))
    (hB : B ∈ hashProcessPacket c t (packetOf c.mainProblem S)) :
    ∃ fi hs, fi < 256 ∧ hs < 2 ^ c.nodeHashedNumbers ∧
      wrap128 (selSum c.mainProblem S + selSum c.nodeProblem (fi + 2 ^ 8 * hs)) = 0 ∧
      S + 2 ^ (c.numbersNum - c.nodeBits) * (fi + 2 ^ 8 * hs) ≠ 0 ∧
      B = translateSubset c (S + 2 ^ (c.numbersNum - c.nodeBits) * (fi + 2 ^ 8 * hs)) := by
  unfold hashProcessPacket at hB
  rw [List.mem_flatMap] at hB
  obtain ⟨fi, hfi, hB⟩ := hB
  have hfi256 : fi < 256 := by
    unfold subsetSumHashMethod at hfi
    exact List.mem_range.1 (List.mem_filter.1 hfi).1
  simp only [packetOf, selSum128] at hB
  rw [hashCheckAndSend_eq c t S fi _ hN hnb hmN hm31 ht hS hfi256, List.mem_flatMap] at hB
  obtain ⟨hs, hhs, hB⟩ := hB
  split_ifs at hB with hcond
  · rw [List.mem_singleton] at hB
    exact ⟨fi, hs, hfi256, bucketOf_lt _ _ _ _ hhs, hcond.1, hcond.2, hB⟩
  · simp at hB

/-- Soundness of one emitted bitmask. -/
theorem translate_sound (problem : List Int) (c : HashController) (S fi hs : Nat)
    (h128 : problem.length ≤ 128) (h1 : c.numbersNum = problem.length)
    (hnb : c.nodeBits = 8 + c.nodeHashedNumbers)
    (hmN : 8 + c.nodeHashedNumbers ≤ c.numbersNum)
    (h6 : c.mainProblem.length = c.numbersNum - c.nodeBits)
    (h7 : c.mainTransTable.length = c.numbersNum - c.nodeBits)
    (h8 : (c.mainTransTable ++ c.nodeTransTable).Perm (List.range problem.length))
    (h9 : c.mainProblem ++ c.nodeProblem
        = (c.mainTransTable ++ c.nodeTransTable).map (rd problem))
    (hS : S < 2 ^ (c.numbersNum - c.nodeBits)) (hfi : fi < 256)
    (hhs : hs < 2 ^ c.nodeHashedNumbers)
    (hsum : wrap128 (selSum c.mainProblem S + selSum c.nodeProblem (fi + 2 ^ 8 * hs)) = 0)
    (hne : S + 2 ^ (c.numbersNum - c.nodeBits) * (fi + 2 ^ 8 * hs) ≠ 0) :
    translateSubset c (S + 2 ^ (c.numbersNum - c.nodeBits) * (fi + 2 ^ 8 * hs)) ≠ 0 ∧
    translateSubset c (S + 2 ^ (c.numbersNum - c.nodeBits) * (fi + 2 ^ 8 * hs))
      < 2 ^ problem.length ∧
    selSum128 problem
      (translateSubset c (S + 2 ^ (c.numbersNum - c.nodeBits) * (fi + 2 ^ 8 * hs))) = 0 := by
  have hlt := (mask3_eq (c.numbersNum - c.nodeBits) 8 c.nodeHashedNumbers S fi hs
      (by omega) hS (by norm_num; omega) hhs).2
  have eN : c.numbersNum - c.nodeBits + 8 + c.nodeHashedNumbers = problem.length := by omega
  rw [eN] at hlt
  generalize hF : S + 2 ^ (c.numbersNum - c.nodeBits) * (fi + 2 ^ 8 * hs) = F at *
  unfold translateSubset
  rw [← h7, h1]
  refine ⟨translate_ne_zero _ _ _ _ h128 h8 hlt hne, translate_lt _ _ _ _ h128 h8, ?_⟩
  unfold selSum128
  rw [translate_selSum _ _ problem _ h128 h8, ← h9, Nat.mod_eq_of_lt hlt, selSum_append, h6,
    ← hF]
  have hpos : 0 < 2 ^ (c.numbersNum - c.nodeBits) := Nat.pow_pos (by decide)
  rw [Nat.add_mul_mod_self_left, Nat.mod_eq_of_lt hS, Nat.add_mul_div_left _ _ hpos,
    Nat.div_eq_of_lt hS, Nat.zero_add]
  exact hsum

theorem hashRun_isSome (problem : List Int) (hb hn : Nat) (hv : ValidProblem problem)
    (h16 : 16 < problem.length) (h128 : problem.length ≤ 128)
    (hm : (hashParams problem.length hb hn).2 ≤ 15) :
    ∃ emitted, hashRun problem hb hn = some emitted := by
  obtain ⟨c, _, _, _, h3, _, _, _, _, _, _, hrun⟩ := hashRun_unfold problem hb hn hv h16 h128
  obtain ⟨t, ht⟩ := singleThreadDoHashGen_isSome c.nodeHashedNumbers c.nodeHashBits
    (c.nodeProblem.drop 8) (by rw [h3]; exact hm)
  rw [hrun, ht]
  exact ⟨_, rfl⟩

/-- The final bitmask, and hence its three fields, can be recovered from its translation. -/
theorem final_inj (c : HashController) (N S fi hs S2 fi2 hs2 : Nat)
    (h128 : N ≤ 128) (h1 : c.numbersNum = N)
    (hnb : c.nodeBits = 8 + c.nodeHashedNumbers)
    (hmN : 8 + c.nodeHashedNumbers ≤ c.numbersNum)
    (h7 : c.mainTransTable.length = c.numbersNum - c.nodeBits)
    (h8 : (c.mainTransTable ++ c.nodeTransTable).Perm (List.range N))
    (hS : S < 2 ^ (c.numbersNum - c.nodeBits)) (hfi : fi < 256)
    (hhs : hs < 2 ^ c.nodeHashedNumbers)
    (hS2 : S2 < 2 ^ (c.numbersNum - c.nodeBits)) (hfi2 : fi2 < 256)
    (hhs2 : hs2 < 2 ^ c.nodeHashedNumbers)
    (heq : translateSubset c (S + 2 ^ (c.numbersNum - c.nodeBits) * (fi + 2 ^ 8 * hs))
      = translateSubset c (S2 + 2 ^ (c.numbersNum - c.nodeBits) * (fi2 + 2 ^ 8 * hs2))) :
    S = S2 ∧ fi = fi2 ∧ hs = hs2 := by
  have hlt := (mask3_eq (c.numbersNum - c.nodeBits) 8 c.nodeHashedNumbers S fi hs
      (by omega) hS (by norm_num; omega) hhs).2
  have hlt2 := (mask3_eq (c.numbersNum - c.nodeBits) 8 c.nodeHashedNumbers S2 fi2 hs2
      (by omega) hS2 (by norm_num; omega) hhs2).2
  have eN : c.numbersNum - c.nodeBits + 8 + c.nodeHashedNumbers = N := by omega
  rw [eN] at hlt hlt2
  unfold translateSubset at heq
  rw [← h7, h1] at heq
  have hF := translate_injective _ _ _ _ _ h128 h8 (by rw [h7]; exact hlt)
    (by rw [h7]; exact hlt2) heq
  rw [h7] at hF
  obtain ⟨e1, e2⟩ := fields_inj _ _ _ _ _ hS hS2 hF
  obtain ⟨e3, e4⟩ := fields_inj 8 fi hs fi2 hs2 (by norm_num; omega) (by norm_num; omega) e2
  exact ⟨e1, e3, e4⟩

theorem hashCheckAndSend_mem (c : HashController) (t : NodeHashTables) (S fi B : Nat) (A : Int)
    (hN : c.numbersNum ≤ 128) (hnb : c.nodeBits = 8 + c.nodeHashedNumbers)
    (hmN : 8 + c.nodeHashedNumbers ≤ c.numbersNum) (hm31 : c.nodeHashedNumbers ≤ 31)
    (ht : singleThreadDoHashGen c.nodeHashedNumbers c.nodeHashBits (c.nodeProblem.drop 8)
      = some t)
    (hS : S < 2 ^ (c.numbersNum - c.nodeBits)) (hfi : fi < 256)
    (hB : B ∈ hashCheckAndSend c t S (wrap128 A) fi) :
    ∃ hs, hs < 2 ^ c.nodeHashedNumbers ∧
      B = translateSubset c (S + 2 ^ (c.numbersNum - c.nodeBits) * (fi + 2 ^ 8 * hs)) := by
  rw [hashCheckAndSend_eq c t S fi _ hN hnb hmN hm31 ht hS hfi, List.mem_flatMap] at hB
  obtain ⟨hs, hhs, hB⟩ := hB
  split_ifs at hB with hcond
  · rw [List.mem_singleton] at hB
    exact ⟨hs, bucketOf_lt _ _ _ _ hhs, hB⟩
  · simp at hB

/-- No bitmask is emitted twice while one packet is processed. -/
theorem hashProcessPacket_nodup (c : HashController) (t : NodeHashTables) (N S : Nat)
    (h128 : N ≤ 128) (h1 : c.numbersNum = N) (hnb : c.nodeBits = 8 + c.nodeHashedNumbers)
    (hmN : 8 + c.nodeHashedNumbers ≤ c.numbersNum) (hm31 : c.nodeHashedNumbers ≤ 31)
    (h7 : c.mainTransTable.length = c.numbersNum - c.nodeBits)
    (h8 : (c.mainTransTable ++ c.nodeTransTable).Perm (List.range N))
    (ht : singleThreadDoHashGen c.nodeHashedNumbers c.nodeHashBits (c.nodeProblem.drop 8)
      = some t)
    (hS : S < 2 ^ (c.numbersNum - c.nodeBits)) :
    (hashProcessPacket c t (packetOf c.mainProblem S)).Nodup := by
  have hfound : ∀ fi ∈ subsetSumHashMethod c.sumChanges c.nodeHashBits t.nodeHash
      t.nodeHashLists (toInt64 (packetOf c.mainProblem S).sum), fi < 256 := by
    intro fi hfi
    unfold subsetSumHashMethod at hfi
    exact List.mem_range.1 (List.mem_filter.1 hfi).1
  unfold hashProcessPacket
  apply nodup_flatMap_of
  · unfold subsetSumHashMethod
    exact List.Nodup.filter _ (List.nodup_range 256)
  · intro fi hfi
    simp only [packetOf, selSum128]
    rw [hashCheckAndSend_eq c t S fi _ (by omega) hnb hmN hm31 ht hS (hfound fi hfi)]
    apply nodup_flatMap_of
    · exact bucketOf_nodup _ _ _
    · intro hs _
      split_ifs
      · exact List.nodup_singleton _
      · exact List.nodup_nil
    · intro hs hhs hs2 hhs2 y hy hy2
      split_ifs at hy with hc1
      · split_ifs at hy2 with hc2
        · rw [List.mem_singleton] at hy hy2
          exact (final_inj c N S fi hs S fi hs2 h128 h1 hnb hmN h7 h8 hS (hfound fi hfi)
            (bucketOf_lt _ _ _ _ hhs) hS (hfound fi hfi) (bucketOf_lt _ _ _ _ hhs2)
            (by rw [← hy, ← hy2])).2.2
        · simp at hy2
      · simp at hy
  · intro fi hfi fi2 hfi2 y hy hy2
    simp only [packetOf, selSum128] at hy hy2
    obtain ⟨hs, hhs, e1⟩ := hashCheckAndSend_mem c t S fi y _ (by omega) hnb hmN hm31 ht hS
      (hfound fi hfi) hy
    obtain ⟨hs2, hhs2, e2⟩ := hashCheckAndSend_mem c t S fi2 y _ (by omega) hnb hmN hm31 ht hS
      (hfound fi2 hfi2) hy2
    exact (final_inj c N S fi hs S fi2 hs2 h128 h1 hnb hmN h7 h8 hS (hfound fi hfi) hhs hS
      (hfound fi2 hfi2) hhs2 (by rw [← e1, ← e2])).2.1

/-- C4: in hash mode, for a valid problem with more than 16 (and at most 128) elements,
node-hash parameters in the defined range and tables that fit the member arrays
(`N - nodeBits <= 112`, `nodeBits <= 64`), every bitmask handed to `putSolution` is non-zero,
lies below `2^N` and, read against the original input order, selects elements whose 128-bit
sum is zero; and the run does complete whenever at most 15 numbers are hashed. -/
theorem C4_hash_emits_only_zero_sum (problem : List Int) (hb hn : Nat)
    (hv : ValidProblem problem) (h16 : 16 < problem.length) (h128 : problem.length ≤ 128)
    (hm : (hashParams problem.length hb hn).2 ≤ 31)
    (_hh : (hashParams problem.length hb hn).1 ≤ 31)
    (_hcap : FitsCapacity problem.length hb hn) :
    (∀ emitted, hashRun problem hb hn = some emitted →
      ∀ B ∈ emitted, B ≠ 0 ∧ B < 2 ^ problem.length ∧ selSum128 problem B = 0) ∧
    ((hashParams problem.length hb hn).2 ≤ 15 →
      ∃ emitted, hashRun problem hb hn = some emitted) := by
  refine ⟨?_, hashRun_isSome problem hb hn hv h16 h128⟩
  intro emitted hrun B hB
  obtain ⟨c, _, h1, _, h3, h4, h5, h6, h7, h8, h9, hrun2⟩ :=
    hashRun_unfold problem hb hn hv h16 h128
  rw [hrun2] at hrun
  cases ht : singleThreadDoHashGen c.nodeHashedNumbers c.nodeHashBits (c.nodeProblem.drop 8) with
  | none => rw [ht] at hrun; exact Option.noConfusion hrun
  | some t =>
    rw [ht] at hrun
    simp only [Option.map_some', Option.some.injEq] at hrun
    rw [← hrun, List.mem_flatMap] at hB
    obtain ⟨pk, hpk, hB⟩ := hB
    rw [List.mem_map] at hpk
    obtain ⟨S, hS, rfl⟩ := hpk
    have hSlt : S < 2 ^ (c.numbersNum - c.nodeBits) := List.mem_range.1 (List.mem_filter.1 hS).1
    obtain ⟨fi, hs, hfi, hhs, hsum, hne, rfl⟩ := hashProcessPacket_mem c t S B (by omega) h4
      (by omega) (by rw [h3]; exact hm) ht hSlt hB
    exact translate_sound problem c S fi hs h128 h1 h4 (by omega) h6 h7 h8 h9 hSlt hfi hhs
      hsum hne

theorem C4_hash_emits_only_zero_sum_witness :
    (∀ emitted, hashRun [1000, -1000, 1, 2, 3, 4, 5, 6, 7, 8, 9, 10, 11, 12, 13, 14, -15] 9 7
        = some emitted →
      ∀ B ∈ emitted, B ≠ 0 ∧
        B < 2 ^ [1000, -1000, 1, 2, 3, 4, 5, 6, 7, 8, 9, 10, 11, 12, 13, 14, (-15 : Int)].length ∧
        selSum128 [1000, -1000, 1, 2, 3, 4, 5, 6, 7, 8, 9, 10, 11, 12, 13, 14, -15] B = 0) ∧
    ((hashParams
        [1000, -1000, 1, 2, 3, 4, 5, 6, 7, 8, 9, 10, 11, 12, 13, 14, (-15 : Int)].length 9 7).2
        ≤ 15 →
      ∃ emitted, hashRun [1000, -1000, 1, 2, 3, 4, 5, 6, 7, 8, 9, 10, 11, 12, 13, 14, -15] 9 7
        = some emitted) :=
  C4_hash_emits_only_zero_sum [1000, -1000, 1, 2, 3, 4, 5, 6, 7, 8, 9, 10, 11, 12, 13, 14, -15]
    9 7 (by decide) (by decide) (by decide) (by decide) (by decide) (by decide)

/-- C5: in hash mode, for a valid problem with more than 16 (and at most 128) elements,
node-hash parameters in the defined range and tables that fit the member arrays
(`N - nodeBits <= 112`, `nodeBits <= 64`), the list of translated solutions passed to
`putSolution` over a whole run (every produced packet processed once, every found prefix
index verified once) contains no bitmask twice; and the run does complete whenever at most
15 numbers are hashed. -/
theorem C5_hash_emits_no_duplicates (problem : List Int) (hb hn : Nat)
    (hv : ValidProblem problem) (h16 : 16 < problem.length) (h128 : problem.length ≤ 128)
    (hm : (hashParams problem.length hb hn).2 ≤ 31)
    (_hh : (hashParams problem.length hb hn).1 ≤ 31)
    (_hcap : FitsCapacity problem.length hb hn) :
    (∀ emitted, hashRun problem hb hn = some emitted → emitted.Nodup) ∧
    ((hashParams problem.length hb hn).2 ≤ 15 →
      ∃ emitted, hashRun problem hb hn = some emitted) := by
  refine ⟨?_, hashRun_isSome problem hb hn hv h16 h128⟩
  intro emitted hrun
  obtain ⟨c, _, h1, _, h3, h4, h5, h6, h7, h8, h9, hrun2⟩ :=
    hashRun_unfold problem hb hn hv h16 h128
  rw [hrun2] at hrun
  cases ht : singleThreadDoHashGen c.nodeHashedNumbers c.nodeHashBits (c.nodeProblem.drop 8) with
  | none => rw [ht] at hrun; exact Option.noConfusion hrun
  | some t =>
    rw [ht] at hrun
    simp only [Option.map_some', Option.some.injEq] at hrun
    rw [← hrun]
    have hm31 : c.nodeHashedNumbers ≤ 31 := by rw [h3]; exact hm
    have hpk : ∀ pk ∈ ((List.range (2 ^ (c.numbersNum - c.nodeBits))).filter
        (fun B => decide (PassesAllLevels c.hashMinMaxTable c.mainProblem
          (c.numbersNum - c.nodeBits) B))).map (packetOf c.mainProblem),
        ∃ S, S < 2 ^ (c.numbersNum - c.nodeBits) ∧ pk = packetOf c.mainProblem S := by
      intro pk hpk
      rw [List.mem_map] at hpk
      obtain ⟨S, hS, rfl⟩ := hpk
      exact ⟨S, List.mem_range.1 (List.mem_filter.1 hS).1, rfl⟩
    apply nodup_flatMap_of
    · apply List.Nodup.map
      · intro a b hab
        have : (packetOf c.mainProblem a).subset = (packetOf c.mainProblem b).subset := by
          rw [hab]
        exact this
      · exact List.Nodup.filter _ (List.nodup_range _)
    · intro pk hmem
      obtain ⟨S, hS, rfl⟩ := hpk pk hmem
      exact hashProcessPacket_nodup c t problem.length S h128 h1 h4 (by omega) hm31 h7 h8 ht hS
    · intro pk hmem pk2 hmem2 y hy hy2
      obtain ⟨S, hS, rfl⟩ := hpk pk hmem
      obtain ⟨S2, hS2, rfl⟩ := hpk pk2 hmem2
      obtain ⟨fi, hs, hfi, hhs, _, _, e1⟩ := hashProcessPacket_mem c t S y (by omega) h4
        (by omega) hm31 ht hS hy
      obtain ⟨fi2, hs2, hfi2, hhs2, _, _, e2⟩ := hashProcessPacket_mem c t S2 y (by omega) h4
        (by omega) hm31 ht hS2 hy2
      have := (final_inj c problem.length S fi hs S2 fi2 hs2 h128 h1 h4 (by omega) h7 h8 hS hfi
        hhs hS2 hfi2 hhs2 (by rw [← e1, ← e2])).1
      rw [this]

theorem C5_hash_emits_no_duplicates_witness :
    (∀ emitted, hashRun [1000, -1000, 1, 2, 3, 4, 5, 6, 7, 8, 9, 10, 11, 12, 13, 14, -15] 9 7
        = some emitted → emitted.Nodup) ∧
    ((hashParams
        [1000, -1000, 1, 2, 3, 4, 5, 6, 7, 8, 9, 10, 11, 12, 13, 14, (-15 : Int)].length 9 7).2
        ≤ 15 →
      ∃ emitted, hashRun [1000, -1000, 1, 2, 3, 4, 5, 6, 7, 8, 9, 10, 11, 12, 13, 14, -15] 9 7
        = some emitted) :=
  C5_hash_emits_no_duplicates [1000, -1000, 1, 2, 3, 4, 5, 6, 7, 8, 9, 10, 11, 12, 13, 14, -15]
    9 7 (by decide) (by decide) (by decide) (by decide) (by decide) (by decide)

theorem ringPos_lt (a x : Nat) (hx : x < 2 * a) (_ha : 1 ≤ a) : ringPos a x < a := by
  unfold ringPos; split_ifs <;> omega

theorem ringPos_of_lt (a x : Nat) (hx : x < a) : ringPos a x = x := by
  unfold ringPos; rw [if_pos hx]

theorem ringPos_step (a s j : Nat) (hs : s < a) (hj : j + 1 ≤ a) :
    ringPos a (ringPos a (s + 1) + j) = ringPos a (s + (j + 1)) := by
  unfold ringPos; split_ifs <;> omega

theorem windowOf_zero (a : Nat) (entries : Nat → ConcurEntry) (s : Nat) :
    windowOf a entries s 0 = [] := rfl

theorem windowOf_length (a : Nat) (entries : Nat → ConcurEntry) (s u : Nat) :
    (windowOf a entries s u).length = u := by
  simp [windowOf]

theorem windowOf_succ (a : Nat) (entries : Nat → ConcurEntry) (s u : Nat) (hs : s < a)
    (hu : u + 1 ≤ a) :
    windowOf a entries s (u + 1) = entries s :: windowOf a entries (ringPos a (s + 1)) u := by
  unfold windowOf
  rw [List.range_succ_eq_map, List.map_cons, List.map_map, Nat.add_zero, ringPos_of_lt a s hs]
  congr 1
  apply List.map_congr_left
  intro j hj
  rw [List.mem_range] at hj
  simp only [Function.comp]
  rw [ringPos_step a s j hs (by omega)]

theorem windowOf_snoc (a : Nat) (entries : Nat → ConcurEntry) (s u : Nat) :
    windowOf a entries s (u + 1)
      = windowOf a entries s u ++ [entries (ringPos a (s + u))] := by
  unfold windowOf
  rw [List.range_succ, List.map_append]
  rfl

theorem ringPos_inj (a s j1 j2 : Nat) (_hs : s < a) (h1 : j1 < a) (h2 : j2 < a)
    (h : ringPos a (s + j1) = ringPos a (s + j2)) : j1 = j2 := by
  unfold ringPos at h; split_ifs at h <;> omega

theorem inWindow_iff (a s u id : Nat) (_hs : s < a) (hu : u ≤ a) :
    inWindow a s u id ↔ ∃ j, j < u ∧ id = ringPos a (s + j) := by
  unfold inWindow
  constructor
  · rintro ⟨h1, h2⟩
    refine ⟨(id + a - s) % a, h2, ?_⟩
    unfold ringPos
    by_cases hc : s ≤ id
    · have e : (id + a - s) % a = id - s := by
        have : id + a - s = (id - s) + a := by omega
        rw [this, Nat.add_mod_right, Nat.mod_eq_of_lt (by omega)]
      rw [e]; split_ifs <;> omega
    · have e : (id + a - s) % a = id + a - s := Nat.mod_eq_of_lt (by omega)
      rw [e]; split_ifs <;> omega
  · rintro ⟨j, hj, rfl⟩
    have hlt : ringPos a (s + j) < a := ringPos_lt a (s + j) (by omega) (by omega)
    refine ⟨hlt, ?_⟩
    have e : (ringPos a (s + j) + a - s) % a = j := by
      unfold ringPos
      split_ifs with hc
      · have : s + j + a - s = j + a := by omega
        rw [this, Nat.add_mod_right, Nat.mod_eq_of_lt (by omega)]
      · have : s + j - a + a - s = j := by omega
        rw [this, Nat.mod_eq_of_lt (by omega)]
    rw [e]; exact hj

theorem windowOf_update_outside (a : Nat) (entries : Nat → ConcurEntry) (s u id : Nat)
    (e : ConcurEntry) (hout : ∀ j, j < u → id ≠ ringPos a (s + j)) :
    windowOf a (Function.update entries id e) s u = windowOf a entries s u := by
  unfold windowOf
  apply List.map_congr_left
  intro j hj
  rw [List.mem_range] at hj
  rw [Function.update_noteq (Ne.symm (hout j hj))]

theorem windowOf_getElem? (a : Nat) (entries : Nat → ConcurEntry) (s : Nat) : ∀ (u j : Nat),
    (windowOf a entries s u)[j]?
      = if j < u then some (entries (ringPos a (s + j))) else none := by
  intro u
  induction u with
  | zero => intro j; simp [windowOf]
  | succ u ih =>
    intro j
    rw [windowOf_snoc]
    by_cases hj : j < u
    · rw [List.getElem?_append_left (by rw [windowOf_length]; exact hj), ih j, if_pos hj,
        if_pos (by omega)]
    · rw [List.getElem?_append_right (by rw [windowOf_length]; omega), windowOf_length]
      by_cases hju : j = u
      · subst hju
        simp
      · have h1 : j - u ≠ 0 := by omega
        obtain ⟨d, hd⟩ : ∃ d, j - u = d + 1 := ⟨j - u - 1, by omega⟩
        rw [hd, if_neg (by omega)]
        rfl

theorem windowOf_update_inside (a : Nat) (entries : Nat → ConcurEntry) (s u j0 : Nat)
    (e : ConcurEntry) (hs : s < a) (hu : u ≤ a) (hj0 : j0 < u) :
    windowOf a (Function.update entries (ringPos a (s + j0)) e) s u
      = (windowOf a entries s u).set j0 e := by
  apply List.ext_getElem?
  intro j
  rw [List.getElem?_set, windowOf_getElem?, windowOf_getElem?, windowOf_length]
  by_cases hj : j < u
  · by_cases hjj : j0 = j
    · subst hjj
      simp [hj]
    · have hne : ringPos a (s + j) ≠ ringPos a (s + j0) := by
        intro hc
        exact hjj (ringPos_inj a s j j0 hs (by omega) (by omega) hc).symm
      simp [hj, hjj, Function.update_noteq hne]
  · by_cases hjj : j0 = j
    · omega
    · simp [hj, hjj]

theorem windowOf_getD (a : Nat) (entries : Nat → ConcurEntry) (s u j : Nat) (hj : j < u) :
    (windowOf a entries s u).getD j { startPos := 0, endPos := 0, processed := false }
      = entries (ringPos a (s + j)) := by
  rw [List.getD_eq_getElem?_getD, windowOf_getElem?, if_pos hj]
  rfl

theorem pushChain_lo_mono (Q : Nat) (es : List ConcurEntry) (lo lo2 hi : Nat) (h : lo2 ≤ lo)
    (hc : PushChain Q es lo hi) : PushChain Q es lo2 hi := by
  cases es with
  | nil => exact le_trans h hc
  | cons e rest =>
    obtain ⟨k, h1, h2, h3, h4, h5, h6⟩ := hc
    exact ⟨k, h1, h2, le_trans h h3, h4, h5, h6⟩

theorem pushChain_hi_mono (Q : Nat) : ∀ (es : List ConcurEntry) (lo hi hi2 : Nat), hi ≤ hi2 →
    PushChain Q es lo hi → PushChain Q es lo hi2 := by
  intro es
  induction es with
  | nil => intro lo hi hi2 h hc; exact le_trans hc h
  | cons e rest ih =>
    intro lo hi hi2 h hc
    obtain ⟨k, h1, h2, h3, h4, h5, h6⟩ := hc
    exact ⟨k, h1, h2, h3, h4, h5, ih _ _ _ h h6⟩

theorem pushChain_le (Q : Nat) : ∀ (es : List ConcurEntry) (lo hi : Nat),
    PushChain Q es lo hi → lo ≤ hi := by
  intro es
  induction es with
  | nil => intro lo hi hc; exact hc
  | cons e rest ih =>
    intro lo hi hc
    obtain ⟨k, h1, h2, h3, h4, h5, h6⟩ := hc
    have := ih _ _ h6
    omega

theorem pushChain_snoc (Q : Nat) (e : ConcurEntry) : ∀ (es : List ConcurEntry) (lo hi : Nat),
    PushChain Q es lo hi → e.startPos = hi → e.startPos ≤ e.endPos → e.endPos < 2 * Q →
    PushChain Q (es ++ [e]) lo e.endPos := by
  intro es
  induction es with
  | nil =>
    intro lo hi hc h1 h2 h3
    exact ⟨0, Or.inl rfl, Nat.zero_le _, by rw [Nat.sub_zero, h1]; exact hc, h2, h3,
      by show e.endPos - 0 ≤ e.endPos; omega⟩
  | cons x rest ih =>
    intro lo hi hc h1 h2 h3
    obtain ⟨k, g1, g2, g3, g4, g5, g6⟩ := hc
    exact ⟨k, g1, g2, g3, g4, g5, ih _ _ g6 h1 h2 h3⟩

theorem pushChain_set (Q : Nat) (e1 : ConcurEntry) : ∀ (es : List ConcurEntry) (j lo hi : Nat),
    PushChain Q es lo hi →
    (∀ e, es[j]? = some e → e1.startPos = e.startPos ∧ e.startPos ≤ e1.endPos ∧
      e1.endPos ≤ e.endPos) →
    PushChain Q (es.set j e1) lo hi := by
  intro es
  induction es with
  | nil => intro j lo hi hc _; exact hc
  | cons x rest ih =>
    intro j lo hi hc he
    obtain ⟨k, g1, g2, g3, g4, g5, g6⟩ := hc
    cases j with
    | zero =>
      obtain ⟨a1, a2, a3⟩ := he x (by simp)
      rw [List.set_cons_zero]
      exact ⟨k, g1, by omega, by omega, by omega, by omega,
        pushChain_lo_mono Q rest _ _ _ (by omega) g6⟩
    | succ j =>
      rw [List.set_cons_succ]
      exact ⟨k, g1, g2, g3, g4, g5, ih j _ _ g6 (fun e hh => he e (by simpa using hh))⟩

/-- Reducing all counters by `queueSize` keeps the chain (the stored positions then exceed
the current ones by `queueSize`). -/
theorem pushChain_shift (Q : Nat) : ∀ (es : List ConcurEntry) (lo hi : Nat), Q ≤ lo →
    PushChain Q es lo hi → PushChain Q es (lo - Q) (hi - Q) := by
  intro es
  induction es with
  | nil => intro lo hi _ hc; exact Nat.sub_le_sub_right hc Q
  | cons e rest ih =>
    intro lo hi hlo hc
    obtain ⟨k, g1, g2, g3, g4, g5, g6⟩ := hc
    have hk : k = 0 := by
      rcases g1 with h | h
      · exact h
      · omega
    subst hk
    rw [Nat.sub_zero] at g3 g6
    exact ⟨Q, Or.inr rfl, by omega, by omega, g4, g5, ih _ _ (by omega) g6⟩

/-- The folding loop of `finishPushConcur` drops finished entries from the head of the
window and advances the write position by their lengths. -/
theorem pushFoldLoop_spec (Q a : Nat) (entries : Nat → ConcurEntry) (hi : Nat) (ha : 1 ≤ a) :
    ∀ (u s w : Nat) (data : Nat → Nat), s < a → u ≤ a →
    PushChain Q (windowOf a entries s u) w hi →
    PushChain Q (windowOf a entries
        (pushFoldLoop Q a entries u s w data).tmpPushConcurStart
        (pushFoldLoop Q a entries u s w data).tmpPushConcurUsed)
      (pushFoldLoop Q a entries u s w data).tmpWritePos hi ∧
    (pushFoldLoop Q a entries u s w data).tmpPushConcurStart < a ∧
    (pushFoldLoop Q a entries u s w data).tmpPushConcurUsed ≤ u ∧
    w ≤ (pushFoldLoop Q a entries u s w data).tmpWritePos ∧
    ((windowOf a entries (pushFoldLoop Q a entries u s w data).tmpPushConcurStart
        (pushFoldLoop Q a entries u s w data).tmpPushConcurUsed).filter
          (fun e => e.processed)).length
      = ((windowOf a entries s u).filter (fun e => e.processed)).length := by
  intro u
  induction u with
  | zero =>
    intro s w data hs _ hc
    exact ⟨hc, hs, le_refl _, le_refl _, rfl⟩
  | succ u ih =>
    intro s w data hs hu hc
    rw [pushFoldLoop]
    by_cases hp : (entries s).processed = true
    · rw [if_pos hp]
      exact ⟨hc, hs, le_refl _, le_refl _, rfl⟩
    · rw [if_neg hp]
      simp only
      rw [windowOf_succ a entries s u hs hu] at hc
      obtain ⟨k, g1, g2, g3, g4, g5, g6⟩ := hc
      have hs1 : ringPos a (s + 1) < a := ringPos_lt a (s + 1) (by omega) ha
      obtain ⟨r1, r2, r3, r4, r5⟩ := ih (ringPos a (s + 1))
        (w + ((entries s).endPos - (entries s).startPos))
        (if ringPos Q w ≠ ringPos Q (entries s).startPos ∧
            (entries s).endPos - (entries s).startPos ≠ 0
          then pushFoldMove Q data (ringPos Q w) (ringPos Q (entries s).startPos)
            ((entries s).endPos - (entries s).startPos) else data)
        hs1 (by omega)
        (pushChain_lo_mono Q _ _ _ _ (by omega) g6)
      refine ⟨r1, r2, by omega, by omega, ?_⟩
      rw [r5, windowOf_succ a entries s u hs hu, List.filter_cons]
      simp [hp]

theorem pushChain_set2 (Q : Nat) (e1 : ConcurEntry) : ∀ (es : List ConcurEntry) (j lo hi : Nat),
    PushChain Q es lo hi →
    (∀ e, es[j]? = some e → e.startPos ≤ e.endPos →
      e1.startPos = e.startPos ∧ e.startPos ≤ e1.endPos ∧ e1.endPos ≤ e.endPos) →
    PushChain Q (es.set j e1) lo hi := by
  intro es
  induction es with
  | nil => intro j lo hi hc _; exact hc
  | cons x rest ih =>
    intro j lo hi hc he
    obtain ⟨k, g1, g2, g3, g4, g5, g6⟩ := hc
    cases j with
    | zero =>
      obtain ⟨a1, a2, a3⟩ := he x (by simp) g4
      rw [List.set_cons_zero]
      exact ⟨k, g1, by omega, by omega, by omega, by omega,
        pushChain_lo_mono Q rest _ _ _ (by omega) g6⟩
    | succ j =>
      rw [List.set_cons_succ]
      exact ⟨k, g1, g2, g3, g4, g5, ih j _ _ g6 (fun e hh => he e (by simpa using hh))⟩

theorem filter_set_length (p : ConcurEntry → Bool) (e1 : ConcurEntry) (hp1 : p e1 = false) :
    ∀ (es : List ConcurEntry) (j : Nat) (e : ConcurEntry), es[j]? = some e → p e = true →
    ((es.set j e1).filter p).length + 1 = (es.filter p).length := by
  intro es
  induction es with
  | nil => intro j e h _; simp at h
  | cons x rest ih =>
    intro j e h hp
    cases j with
    | zero =>
      have hx : x = e := by simpa using h
      subst hx
      rw [List.set_cons_zero, List.filter_cons, List.filter_cons, hp1, hp]
      simp
    | succ j =>
      rw [List.set_cons_succ, List.filter_cons, List.filter_cons]
      have := ih j e (by simpa using h) hp
      by_cases hx : p x = true
      · simp only [hx, if_true, List.length_cons]; omega
      · simp only [hx, Bool.false_eq_true, if_false]; exact this

/-- The fields of the state after `finishPushConcur` on a non-empty table. -/
theorem finishPushConcur_fields (q : MemQueue) (id n : Nat) (hQ : 1 ≤ q.queueSize)
    (hu : q.pushConcurUsed ≠ 0) (hid : id < q.pushConcurAllocated) :
    ∃ (e1 : ConcurEntry) (f : PushFold),
      e1 = { startPos := (q.pushConcurEntries id).startPos,
             endPos := if (q.pushConcurEntries id).endPos - (q.pushConcurEntries id).startPos < n
               then (q.pushConcurEntries id).startPos
               else (q.pushConcurEntries id).startPos + n,
             processed := false } ∧
      f = pushFoldLoop q.queueSize q.pushConcurAllocated
        (Function.update q.pushConcurEntries id e1) q.pushConcurUsed q.pushConcurStart
        q.writePos q.queueData ∧
      (finishPushConcur q id n).2
        = !decide ((q.pushConcurEntries id).endPos - (q.pushConcurEntries id).startPos < n) ∧
      (finishPushConcur q id n).1 =
        { q with pushConcurEntries := Function.update q.pushConcurEntries id e1,
                 queueData := f.queueData, writePos := f.tmpWritePos,
                 pushConcurStart := if f.tmpPushConcurUsed = 0 then 0 else f.tmpPushConcurStart,
                 pushConcurUsed := f.tmpPushConcurUsed,
                 newWritePos := if f.tmpPushConcurUsed = 0 then f.tmpWritePos
                   else q.newWritePos } := by
  refine ⟨_, _, rfl, rfl, ?_, ?_⟩
  · unfold finishPushConcur
    rw [if_neg hu]
    simp only [ringPos_of_lt _ _ hid]
    by_cases hlt : (q.pushConcurEntries id).endPos - (q.pushConcurEntries id).startPos < n
      <;> simp [hlt]
  · unfold finishPushConcur
    rw [if_neg hu]
    simp only [ringPos_of_lt _ _ hid]
    have hne : ¬ (q.writePos = q.writePos + q.queueSize) := by omega
    simp only [hne, if_false]
    by_cases hlt : (q.pushConcurEntries id).endPos - (q.pushConcurEntries id).startPos < n
    · simp only [hlt, not_true_eq_false, decide_False, Bool.false_eq_true, if_false, if_true]
      split_ifs <;> rfl
    · simp only [hlt, not_false_eq_true, decide_True, if_true, if_false]
      split_ifs <;> rfl

/-- The state after `finishPushingInt` for an outstanding reservation. -/
theorem finishPushingInt_state (q : MemQueue) (hinv : QueueInv q) (id n : Nat)
    (hout : PushOutstanding q id) :
    ∃ (e1 : ConcurEntry) (f : PushFold),
      e1 = { startPos := (q.pushConcurEntries id).startPos,
             endPos := if (q.pushConcurEntries id).endPos - (q.pushConcurEntries id).startPos < n
               then (q.pushConcurEntries id).startPos
               else (q.pushConcurEntries id).startPos + n,
             processed := false } ∧
      f = pushFoldLoop q.queueSize q.pushConcurAllocated
        (Function.update q.pushConcurEntries id e1) q.pushConcurUsed q.pushConcurStart
        q.writePos q.queueData ∧
      (finishPushingInt q n id).2
        = !decide ((q.pushConcurEntries id).endPos - (q.pushConcurEntries id).startPos < n) ∧
      (finishPushingInt q n id).1 =
        { q with pushConcurEntries := Function.update q.pushConcurEntries id e1,
                 queueData := f.queueData, writePos := f.tmpWritePos,
                 pushConcurStart := if f.tmpPushConcurUsed = 0 then 0 else f.tmpPushConcurStart,
                 pushConcurUsed := f.tmpPushConcurUsed,
                 newWritePos := if f.tmpPushConcurUsed = 0 then f.tmpWritePos
                   else q.newWritePos,
                 concurPushes := (q.concurPushes + 4294967295) % 4294967296 } := by
  obtain ⟨⟨hid, hwin⟩, _⟩ := hout
  have hu : q.pushConcurUsed ≠ 0 := by
    intro h; rw [h] at hwin; omega
  have hne : id ≠ CONCURID_NONE := by
    have := hinv.pushAlloc_lt
    unfold CONCURID_NONE; omega
  obtain ⟨e1, f, he1, hf, hs, hst⟩ := finishPushConcur_fields q id n hinv.size_pos hu hid
  refine ⟨e1, f, he1, hf, ?_, ?_⟩
  · unfold finishPushingInt
    rw [if_pos hne]
    exact hs
  · unfold finishPushingInt
    rw [if_pos hne]
    simp only
    rw [hst]
    have hp := hinv.notPaused
    simp only [hp, ne_eq, not_true_eq_false, false_and, if_false]

/-- Finishing an outstanding push keeps the invariant of the ring. -/
theorem finishPushingInt_inv (q : MemQueue) (hinv : QueueInv q) (id n : Nat)
    (hout : PushOutstanding q id) : QueueInv (finishPushingInt q n id).1 := by
  obtain ⟨e1, f, he1, hf, _, hst⟩ := finishPushingInt_state q hinv id n hout
  obtain ⟨hwin, hproc⟩ := hout
  obtain ⟨j0, hj0, hidj⟩ := (inWindow_iff _ _ _ _ hinv.pushStart_lt hinv.pushUsed_le).1 hwin
  have hget : (windowOf q.pushConcurAllocated q.pushConcurEntries q.pushConcurStart
      q.pushConcurUsed)[j0]? = some (q.pushConcurEntries id) := by
    rw [windowOf_getElem?, if_pos hj0, hidj]
  have hwin1 : windowOf q.pushConcurAllocated (Function.update q.pushConcurEntries id e1)
      q.pushConcurStart q.pushConcurUsed
      = (windowOf q.pushConcurAllocated q.pushConcurEntries q.pushConcurStart
          q.pushConcurUsed).set j0 e1 := by
    rw [hidj]
    exact windowOf_update_inside _ _ _ _ _ _ hinv.pushStart_lt hinv.pushUsed_le hj0
  have hchain1 : PushChain q.queueSize
      (windowOf q.pushConcurAllocated (Function.update q.pushConcurEntries id e1)
        q.pushConcurStart q.pushConcurUsed) q.writePos q.newWritePos := by
    rw [hwin1]
    apply pushChain_set2 _ _ _ _ _ _ hinv.pushChain
    intro e he hle
    rw [hget] at he
    have hee := Option.some.inj he
    subst hee
    rw [he1]
    refine ⟨rfl, ?_, ?_⟩
    · show (q.pushConcurEntries id).startPos ≤
        (if (q.pushConcurEntries id).endPos - (q.pushConcurEntries id).startPos < n
          then (q.pushConcurEntries id).startPos else (q.pushConcurEntries id).startPos + n)
      split_ifs <;> omega
    · show (if (q.pushConcurEntries id).endPos - (q.pushConcurEntries id).startPos < n
          then (q.pushConcurEntries id).startPos else (q.pushConcurEntries id).startPos + n)
        ≤ (q.pushConcurEntries id).endPos
      split_ifs <;> omega
  have hcount : ((windowOf q.pushConcurAllocated (Function.update q.pushConcurEntries id e1)
      q.pushConcurStart q.pushConcurUsed).filter (fun e => e.processed)).length + 1
      = q.concurPushes := by
    rw [hwin1, hinv.pushes]
    exact filter_set_length _ e1 (by rw [he1]) _ _ _ hget hproc
  obtain ⟨r1, r2, r3, r4, r5⟩ := pushFoldLoop_spec q.queueSize q.pushConcurAllocated
    (Function.update q.pushConcurEntries id e1) q.newWritePos hinv.pushAlloc_pos
    q.pushConcurUsed q.pushConcurStart q.writePos q.queueData hinv.pushStart_lt
    hinv.pushUsed_le hchain1
  rw [← hf] at r1 r2 r3 r4 r5
  have hle := pushChain_le _ _ _ _ r1
  have hcp : q.concurPushes ≤ q.pushConcurAllocated := by
    rw [hinv.pushes]
    exact le_trans (List.length_filter_le _ _) (by rw [windowOf_length]; exact hinv.pushUsed_le)
  have h1 := hinv.read_le
  have h2 := hinv.newRead_le
  have h3 := hinv.write_le
  have h4 := hinv.newWrite_le
  have h5 := hinv.pushAlloc_lt
  have h6 := hinv.pushUsed_le
  rw [hst]
  by_cases h0 : f.tmpPushConcurUsed = 0
  · simp only [h0, if_true]
    exact
      { size_pos := hinv.size_pos, read_lt := hinv.read_lt, read_le := hinv.read_le,
        newRead_le := by show q.newReadPos ≤ f.tmpWritePos; omega
        write_le := le_refl _
        newWrite_le := by show f.tmpWritePos ≤ q.readPos + q.queueSize; omega
        pushAlloc_pos := hinv.pushAlloc_pos, pushAlloc_lt := hinv.pushAlloc_lt,
        pushStart_lt := hinv.pushAlloc_pos, pushUsed_le := Nat.zero_le _,
        popAlloc_pos := hinv.popAlloc_pos, popAlloc_lt := hinv.popAlloc_lt,
        popStart_lt := hinv.popStart_lt, popUsed_le := hinv.popUsed_le,
        pushChain := le_refl _
        pushEmpty := fun _ => rfl
        popChain := hinv.popChain, popEmpty := hinv.popEmpty,
        pushes := by
          show (q.concurPushes + 4294967295) % 4294967296
            = ((windowOf q.pushConcurAllocated (Function.update q.pushConcurEntries id e1) 0
                0).filter (fun e => e.processed)).length
          rw [h0] at r5
          simp only [windowOf_zero, List.filter_nil, List.length_nil] at r5 ⊢
          omega
        notCancelled := hinv.notCancelled, notPaused := hinv.notPaused }
  · simp only [h0, if_false]
    exact
      { size_pos := hinv.size_pos, read_lt := hinv.read_lt, read_le := hinv.read_le,
        newRead_le := by show q.newReadPos ≤ f.tmpWritePos; omega
        write_le := hle
        newWrite_le := hinv.newWrite_le
        pushAlloc_pos := hinv.pushAlloc_pos, pushAlloc_lt := hinv.pushAlloc_lt,
        pushStart_lt := r2, pushUsed_le := by show f.tmpPushConcurUsed ≤ q.pushConcurAllocated; omega
        popAlloc_pos := hinv.popAlloc_pos, popAlloc_lt := hinv.popAlloc_lt,
        popStart_lt := hinv.popStart_lt, popUsed_le := hinv.popUsed_le,
        pushChain := r1
        pushEmpty := fun h => absurd h h0
        popChain := hinv.popChain, popEmpty := hinv.popEmpty,
        pushes := by
          show (q.concurPushes + 4294967295) % 4294967296
            = ((windowOf q.pushConcurAllocated (Function.update q.pushConcurEntries id e1)
                f.tmpPushConcurStart f.tmpPushConcurUsed).filter (fun e => e.processed)).length
          rw [r5]
          omega
        notCancelled := hinv.notCancelled, notPaused := hinv.notPaused }

theorem window_slot_outside (a s u : Nat) (hs : s < a) (hu : u < a) :
    ∀ j, j < u → ringPos a (s + u) ≠ ringPos a (s + j) := by
  intro j hj hc
  have := ringPos_inj a s u j hs hu (by omega) hc
  omega

/-- Reserving cells for a push keeps the invariant of the ring. -/
theorem allocPushConcur_inv (q : MemQueue) (hinv : QueueInv q) (taken : Nat)
    (hu : q.pushConcurUsed < q.pushConcurAllocated) (h1 : 1 ≤ taken)
    (h2 : taken ≤ q.queueSize - (q.newWritePos - q.readPos)) :
    QueueInv (allocPushConcur
      { q with concurPushes := (q.concurPushes + 1) % 4294967296 } taken).1 := by
  have hwin : windowOf q.pushConcurAllocated
      (Function.update q.pushConcurEntries
        (ringPos q.pushConcurAllocated (q.pushConcurStart + q.pushConcurUsed))
        { startPos := q.newWritePos, endPos := q.newWritePos + taken, processed := true })
      q.pushConcurStart (q.pushConcurUsed + 1)
      = windowOf q.pushConcurAllocated q.pushConcurEntries q.pushConcurStart q.pushConcurUsed
        ++ [{ startPos := q.newWritePos, endPos := q.newWritePos + taken, processed := true }] := by
    rw [windowOf_snoc, Function.update_same,
      windowOf_update_outside _ _ _ _ _ _
        (window_slot_outside _ _ _ hinv.pushStart_lt hu)]
  have g1 := hinv.read_le
  have g2 := hinv.newRead_le
  have g3 := hinv.write_le
  have g4 := hinv.newWrite_le
  have g5 := hinv.read_lt
  have g6 := hinv.pushAlloc_lt
  have hcp : q.concurPushes ≤ q.pushConcurUsed := by
    rw [hinv.pushes]
    exact le_trans (List.length_filter_le _ _) (by rw [windowOf_length])
  unfold allocPushConcur
  exact
    { size_pos := hinv.size_pos, read_lt := hinv.read_lt, read_le := hinv.read_le,
      newRead_le := hinv.newRead_le
      write_le := by show q.writePos ≤ q.newWritePos + taken; omega
      newWrite_le := by show q.newWritePos + taken ≤ q.readPos + q.queueSize; omega
      pushAlloc_pos := hinv.pushAlloc_pos, pushAlloc_lt := hinv.pushAlloc_lt,
      pushStart_lt := hinv.pushStart_lt
      pushUsed_le := by show q.pushConcurUsed + 1 ≤ q.pushConcurAllocated; omega
      popAlloc_pos := hinv.popAlloc_pos, popAlloc_lt := hinv.popAlloc_lt,
      popStart_lt := hinv.popStart_lt, popUsed_le := hinv.popUsed_le,
      pushChain := by
        show PushChain q.queueSize (windowOf q.pushConcurAllocated
          (Function.update q.pushConcurEntries
            (ringPos q.pushConcurAllocated (q.pushConcurStart + q.pushConcurUsed))
            { startPos := q.newWritePos, endPos := q.newWritePos + taken, processed := true })
          q.pushConcurStart (q.pushConcurUsed + 1)) q.writePos (q.newWritePos + taken)
        rw [hwin]
        exact pushChain_snoc q.queueSize
          { startPos := q.newWritePos, endPos := q.newWritePos + taken, processed := true }
          _ _ _ hinv.pushChain rfl (by show q.newWritePos ≤ q.newWritePos + taken; omega)
          (by show q.newWritePos + taken < 2 * q.queueSize; omega)
      pushEmpty := by
        intro h
        have : q.pushConcurUsed + 1 = 0 := h
        omega
      popChain := hinv.popChain, popEmpty := hinv.popEmpty,
      pushes := by
        show (q.concurPushes + 1) % 4294967296
          = ((windowOf q.pushConcurAllocated
              (Function.update q.pushConcurEntries
                (ringPos q.pushConcurAllocated (q.pushConcurStart + q.pushConcurUsed))
                { startPos := q.newWritePos, endPos := q.newWritePos + taken,
                  processed := true })
              q.pushConcurStart (q.pushConcurUsed + 1)).filter (fun e => e.processed)).length
        rw [hwin, List.filter_append, List.length_append, ← hinv.pushes]
        simp only [List.filter_cons, List.filter_nil, if_true, List.length_singleton]
        omega
      notCancelled := hinv.notCancelled, notPaused := hinv.notPaused }

/-- `doPushing` keeps the invariant of the ring. -/
theorem doPushing_inv (q : MemQueue) (hinv : QueueInv q) (n old id pos : Nat)
    (hid : id = CONCURID_NONE ∨ PushOutstanding q id) (hn : 1 ≤ n) :
    QueueInv (doPushing q n old id pos).1 := by
  have hq1 : QueueInv (finishPushingInt q old id).1 := by
    rcases hid with h | h
    · subst h
      unfold finishPushingInt
      rw [if_neg (by simp)]
      exact hinv
    · exact finishPushingInt_inv q hinv id old h
  unfold doPushing
  simp only
  by_cases c1 : (finishPushingInt q old id).2 = true
  · rw [if_neg (by simpa using c1)]
    by_cases c2 : (finishPushingInt q old id).1.closingQueue ∨
        (finishPushingInt q old id).1.closedQueue ≠ 0 ∨
        (finishPushingInt q old id).1.cancelledQueue ≠ 0
    · rw [if_pos c2]
      exact hq1
    · rw [if_neg c2]
      by_cases c3 : (finishPushingInt q old id).1.pausedQueue ≠ 0 ∨
          (finishPushingInt q old id).1.queueSize -
            ((finishPushingInt q old id).1.newWritePos - (finishPushingInt q old id).1.readPos) = 0 ∨
          (finishPushingInt q old id).1.pushConcurUsed =
            (finishPushingInt q old id).1.pushConcurAllocated
      · rw [if_pos c3]
        exact hq1
      · rw [if_neg c3]
        have c3' := not_or.1 c3
        have c4 := not_or.1 c3'.2
        exact allocPushConcur_inv _ hq1 _
          (lt_of_le_of_ne hq1.pushUsed_le c4.2)
          (by
            have := c4.1
            omega)
          (Nat.min_le_right _ _)
  · rw [if_pos (by simpa using c1)]
    exact hq1

theorem popChain_lo_mono (Q : Nat) (es : List ConcurEntry) (lo lo2 hi : Nat) (h : lo2 ≤ lo)
    (hc : PopChain Q es lo hi) : PopChain Q es lo2 hi := by
  cases es with
  | nil => exact le_trans h hc
  | cons e rest =>
    obtain ⟨k, h1, h2, h3, h4, h5, h6, h7⟩ := hc
    exact ⟨k, h1, h2, le_trans h h3, h4, lt_of_le_of_lt h h5, h6, h7⟩

theorem popChain_le (Q : Nat) : ∀ (es : List ConcurEntry) (lo hi : Nat),
    PopChain Q es lo hi → lo ≤ hi := by
  intro es
  induction es with
  | nil => intro lo hi hc; exact hc
  | cons e rest ih =>
    intro lo hi hc
    obtain ⟨k, h1, h2, h3, h4, h5, h6, h7⟩ := hc
    have := ih _ _ h7
    omega

theorem popChain_snoc (Q : Nat) (e : ConcurEntry) : ∀ (es : List ConcurEntry) (lo hi : Nat),
    PopChain Q es lo hi → e.startPos = hi → e.startPos < e.endPos → e.endPos < 2 * Q →
    PopChain Q (es ++ [e]) lo e.endPos := by
  intro es
  induction es with
  | nil =>
    intro lo hi hc h1 h2 h3
    have hc1 : lo ≤ hi := hc
    exact ⟨0, Or.inl rfl, Nat.zero_le _, by omega, by omega, by omega, h3,
      by show e.endPos - 0 ≤ e.endPos; omega⟩
  | cons x rest ih =>
    intro lo hi hc h1 h2 h3
    obtain ⟨k, g1, g2, g3, g4, g5, g6, g7⟩ := hc
    exact ⟨k, g1, g2, g3, g4, g5, g6, ih _ _ g7 h1 h2 h3⟩

/-- Consuming cells of a pop reservation (its start moves forward) keeps the chain. -/
theorem popChain_set (Q : Nat) (e1 : ConcurEntry) : ∀ (es : List ConcurEntry) (j lo hi : Nat),
    PopChain Q es lo hi →
    (∀ e, es[j]? = some e → e.startPos ≤ e.endPos →
      e.startPos ≤ e1.startPos ∧ e1.startPos ≤ e1.endPos ∧ e1.endPos = e.endPos) →
    PopChain Q (es.set j e1) lo hi := by
  intro es
  induction es with
  | nil => intro j lo hi hc _; exact hc
  | cons x rest ih =>
    intro j lo hi hc he
    obtain ⟨k, g1, g2, g3, g4, g5, g6, g7⟩ := hc
    cases j with
    | zero =>
      obtain ⟨a1, a2, a3⟩ := he x (by simp) g4
      rw [List.set_cons_zero]
      refine ⟨k, g1, by omega, by omega, by omega, by omega, by omega, ?_⟩
      rw [a3]
      exact g7
    | succ j =>
      rw [List.set_cons_succ]
      exact ⟨k, g1, g2, g3, g4, g5, g6, ih j _ _ g7 (fun e hh => he e (by simpa using hh))⟩

/-- Reducing all counters by `queueSize` keeps the chain of pop reservations. -/
theorem popChain_shift (Q : Nat) : ∀ (es : List ConcurEntry) (lo hi : Nat), Q ≤ lo →
    PopChain Q es lo hi → PopChain Q es (lo - Q) (hi - Q) := by
  intro es
  induction es with
  | nil => intro lo hi _ hc; exact Nat.sub_le_sub_right hc Q
  | cons e rest ih =>
    intro lo hi hlo hc
    obtain ⟨k, g1, g2, g3, g4, g5, g6, g7⟩ := hc
    have hk : k = 0 := by
      rcases g1 with h | h
      · exact h
      · omega
    subst hk
    rw [Nat.sub_zero] at g3 g5 g7
    exact ⟨Q, Or.inr rfl, by omega, by omega, g4, by omega, g6, ih _ _ (by omega) g7⟩

/-- Dropping the last reservation of a chain and giving its unread cells back. -/
theorem popChain_unsnoc (Q : Nat) (e : ConcurEntry) : ∀ (es : List ConcurEntry) (lo hi : Nat),
    PopChain Q (es ++ [e]) lo hi → PopChain Q es lo (hi - (e.endPos - e.startPos)) := by
  intro es
  induction es with
  | nil =>
    intro lo hi hc
    obtain ⟨k, g1, g2, g3, g4, g5, g6, g7⟩ := hc
    have g8 : e.endPos - k ≤ hi := g7
    show lo ≤ hi - (e.endPos - e.startPos)
    omega
  | cons x rest ih =>
    intro lo hi hc
    obtain ⟨k, g1, g2, g3, g4, g5, g6, g7⟩ := hc
    exact ⟨k, g1, g2, g3, g4, g5, g6, ih _ _ g7⟩

/-- The first loop of `finishPopConcur` drops fully read reservations from the head of the
window and advances the read position to the end of the last one dropped. -/
theorem popHeadLoop_spec (Q a : Nat) (entries : Nat → ConcurEntry) (hi : Nat) (ha : 1 ≤ a) :
    ∀ (u s r : Nat), s < a → u ≤ a → hi ≤ r + Q →
    PopChain Q (windowOf a entries s u) r hi →
    PopChain Q (windowOf a entries
        (popHeadLoop Q a entries u s r).tmpPopConcurStart
        (popHeadLoop Q a entries u s r).tmpPopConcurUsed)
      (popHeadLoop Q a entries u s r).tmpReadPos hi ∧
    (popHeadLoop Q a entries u s r).tmpPopConcurStart < a ∧
    (popHeadLoop Q a entries u s r).tmpPopConcurUsed ≤ u ∧
    r ≤ (popHeadLoop Q a entries u s r).tmpReadPos := by
  intro u
  induction u with
  | zero =>
    intro s r hs _ _ hc
    exact ⟨hc, hs, le_refl _, le_refl _⟩
  | succ u ih =>
    intro s r hs hu hhi hc
    rw [popHeadLoop]
    by_cases hp : ¬ (entries s).processed = true ∧ (entries s).startPos = (entries s).endPos
    · rw [if_pos hp]
      rw [windowOf_succ a entries s u hs hu] at hc
      obtain ⟨k, g1, g2, g3, g4, g5, g6, g7⟩ := hc
      have hs1 : ringPos a (s + 1) < a := ringPos_lt a (s + 1) (by omega) ha
      have hend := popChain_le _ _ _ _ g7
      have hnew : (if (entries s).endPos - r > Q then (entries s).endPos - Q
          else (entries s).endPos) = (entries s).endPos - k := by
        rcases g1 with h | h
        · subst h
          rw [if_neg (by omega)]
          rfl
        · subst h
          rw [if_pos (by omega)]
      rw [hnew]
      obtain ⟨r1, r2, r3, r4⟩ := ih (ringPos a (s + 1)) ((entries s).endPos - k) hs1
        (by omega) (by omega) g7
      exact ⟨r1, r2, by omega, by omega⟩
    · rw [if_neg hp]
      exact ⟨hc, hs, le_refl _, le_refl _⟩

/-- The second loop of `finishPopConcur` drops finished reservations from the tail of the
window and gives their unread cells back to the committed region. -/
theorem popTailLoop_spec (Q a : Nat) (entries : Nat → ConcurEntry) (s lo : Nat) (hs : s < a) :
    ∀ (u it hi : Nat) (data : Nat → Nat) (added : Bool), u ≤ a →
    (1 ≤ u → it = ringPos a (s + u - 1)) →
    PopChain Q (windowOf a entries s u) lo hi →
    PopChain Q (windowOf a entries s
        (popTailLoop Q a entries u it hi data added).tmpPopConcurUsed) lo
      (popTailLoop Q a entries u it hi data added).tmpNewReadPos ∧
    (popTailLoop Q a entries u it hi data added).tmpPopConcurUsed ≤ u ∧
    (popTailLoop Q a entries u it hi data added).tmpNewReadPos ≤ hi := by
  intro u
  induction u with
  | zero =>
    intro it hi data added _ _ hc
    exact ⟨hc, le_refl _, le_refl _⟩
  | succ u ih =>
    intro it hi data added hu hit hc
    have hit1 : it = ringPos a (s + u) := hit (by omega)
    rw [popTailLoop]
    by_cases hp : (entries it).processed = true
    · rw [if_pos hp]
      exact ⟨hc, le_refl _, le_refl _⟩
    · rw [if_neg hp]
      simp only
      rw [windowOf_snoc, ← hit1] at hc
      have hc1 := popChain_unsnoc Q _ _ _ _ hc
      obtain ⟨r1, r2, r3⟩ := ih (if it = 0 then a - 1 else it - 1)
        (hi - ((entries it).endPos - (entries it).startPos))
        (if ringPos Q (entries it).endPos ≠ ringPos Q hi ∧
            (entries it).endPos - (entries it).startPos ≠ 0
          then popFoldMove Q data (ringPos Q hi) (ringPos Q (entries it).startPos)
            ((entries it).endPos - (entries it).startPos) else data)
        (added || decide ((entries it).endPos - (entries it).startPos ≠ 0))
        (by omega)
        (by
          intro h1
          rw [hit1]
          unfold ringPos
          split_ifs <;> omega)
        hc1
      exact ⟨r1, by omega, by omega⟩

/-- The state after finishing a pop, when the read position stays below `queueSize`. -/
theorem popFinish_inv_low (q : MemQueue) (hinv : QueueInv q) (E : Nat → ConcurEntry)
    (D : Nat → Nat) (R N S U nd : Nat) (h1 : q.readPos ≤ R) (h2 : R ≤ N)
    (h3 : N ≤ q.newReadPos) (h4 : S < q.popConcurAllocated) (h5 : U ≤ q.popConcurAllocated)
    (h6 : PopChain q.queueSize (windowOf q.popConcurAllocated E S U) R N)
    (h7 : U = 0 → N = R) (h8 : R < q.queueSize) :
    QueueInv { q with popConcurEntries := E, queueData := D, readPos := R, newReadPos := N,
                      popConcurStart := S, popConcurUsed := U, noDataQueue := nd } := by
  have g1 := hinv.newRead_le
  have g2 := hinv.newWrite_le
  exact
    { size_pos := hinv.size_pos, read_lt := h8, read_le := h2,
      newRead_le := by show N ≤ q.writePos; omega
      write_le := hinv.write_le
      newWrite_le := by show q.newWritePos ≤ R + q.queueSize; omega
      pushAlloc_pos := hinv.pushAlloc_pos, pushAlloc_lt := hinv.pushAlloc_lt,
      pushStart_lt := hinv.pushStart_lt, pushUsed_le := hinv.pushUsed_le,
      popAlloc_pos := hinv.popAlloc_pos, popAlloc_lt := hinv.popAlloc_lt,
      popStart_lt := h4, popUsed_le := h5,
      pushChain := hinv.pushChain, pushEmpty := hinv.pushEmpty,
      popChain := h6, popEmpty := h7, pushes := hinv.pushes,
      notCancelled := hinv.notCancelled, notPaused := hinv.notPaused }

/-- The state after finishing a pop, when the read position has reached `queueSize` and all
counters are reduced by it. -/
theorem popFinish_inv_high (q : MemQueue) (hinv : QueueInv q) (E : Nat → ConcurEntry)
    (D : Nat → Nat) (R N S U nd : Nat) (_h1 : q.readPos ≤ R) (h2 : R ≤ N)
    (h3 : N ≤ q.newReadPos) (h4 : S < q.popConcurAllocated) (h5 : U ≤ q.popConcurAllocated)
    (h6 : PopChain q.queueSize (windowOf q.popConcurAllocated E S U) R N)
    (h7 : U = 0 → N = R) (h8 : q.queueSize ≤ R) :
    QueueInv { q with popConcurEntries := E, queueData := D, popConcurStart := S,
                      popConcurUsed := U, noDataQueue := nd,
                      readPos := R - q.queueSize, writePos := q.writePos - q.queueSize,
                      newReadPos := N - q.queueSize,
                      newWritePos := q.newWritePos - q.queueSize } := by
  have g1 := hinv.newRead_le
  have g2 := hinv.newWrite_le
  have g3 := hinv.write_le
  have g4 := hinv.read_lt
  exact
    { size_pos := hinv.size_pos
      read_lt := by show R - q.queueSize < q.queueSize; omega
      read_le := by show R - q.queueSize ≤ N - q.queueSize; omega
      newRead_le := by show N - q.queueSize ≤ q.writePos - q.queueSize; omega
      write_le := by show q.writePos - q.queueSize ≤ q.newWritePos - q.queueSize; omega
      newWrite_le := by
        show q.newWritePos - q.queueSize ≤ R - q.queueSize + q.queueSize; omega
      pushAlloc_pos := hinv.pushAlloc_pos, pushAlloc_lt := hinv.pushAlloc_lt,
      pushStart_lt := hinv.pushStart_lt, pushUsed_le := hinv.pushUsed_le,
      popAlloc_pos := hinv.popAlloc_pos, popAlloc_lt := hinv.popAlloc_lt,
      popStart_lt := h4, popUsed_le := h5,
      pushChain := pushChain_shift _ _ _ _ (show q.queueSize ≤ q.writePos by omega)
        hinv.pushChain
      pushEmpty := by
        intro h
        show q.newWritePos - q.queueSize = q.writePos - q.queueSize
        rw [hinv.pushEmpty h]
      popChain := popChain_shift _ _ _ _ h8 h6
      popEmpty := by
        intro h
        show N - q.queueSize = R - q.queueSize
        rw [h7 h]
      pushes := hinv.pushes,
      notCancelled := hinv.notCancelled, notPaused := hinv.notPaused }

/-- Finishing an outstanding pop keeps the invariant of the ring. -/
theorem finishPoppingInt_inv (q : MemQueue) (hinv : QueueInv q) (id n : Nat)
    (hout : PopOutstanding q id) : QueueInv (finishPoppingInt q n id).1 := by
  obtain ⟨hwin, hproc⟩ := hout
  have hid : id < q.popConcurAllocated := hwin.1
  have hu : q.popConcurUsed ≠ 0 := by
    intro h
    have := hwin.2
    rw [h] at this
    omega
  have hne : id ≠ CONCURID_NONE := by
    have := hinv.popAlloc_lt
    unfold CONCURID_NONE; omega
  obtain ⟨j0, hj0, hidj⟩ := (inWindow_iff _ _ _ _ hinv.popStart_lt hinv.popUsed_le).1 hwin
  have hget : (windowOf q.popConcurAllocated q.popConcurEntries q.popConcurStart
      q.popConcurUsed)[j0]? = some (q.popConcurEntries id) := by
    rw [windowOf_getElem?, if_pos hj0, hidj]
  obtain ⟨e1, he1⟩ : ∃ e1 : ConcurEntry, e1 =
      { startPos := (if (q.popConcurEntries id).endPos -
          (q.popConcurEntries id).startPos < n then (q.popConcurEntries id).startPos
          else (q.popConcurEntries id).startPos + n),
        endPos := (q.popConcurEntries id).endPos, processed := false } := ⟨_, rfl⟩
  have hwin1 : windowOf q.popConcurAllocated (Function.update q.popConcurEntries id e1)
      q.popConcurStart q.popConcurUsed
      = (windowOf q.popConcurAllocated q.popConcurEntries q.popConcurStart
          q.popConcurUsed).set j0 e1 := by
    rw [hidj]
    exact windowOf_update_inside _ _ _ _ _ _ hinv.popStart_lt hinv.popUsed_le hj0
  have hchain1 : PopChain q.queueSize
      (windowOf q.popConcurAllocated (Function.update q.popConcurEntries id e1)
        q.popConcurStart q.popConcurUsed) q.readPos q.newReadPos := by
    rw [hwin1]
    apply popChain_set _ _ _ _ _ _ hinv.popChain
    intro e he hle
    rw [hget] at he
    have hee := Option.some.inj he
    subst hee
    rw [he1]
    refine ⟨?_, ?_, rfl⟩
    · show (q.popConcurEntries id).startPos ≤
        (if (q.popConcurEntries id).endPos - (q.popConcurEntries id).startPos < n
          then (q.popConcurEntries id).startPos else (q.popConcurEntries id).startPos + n)
      split_ifs <;> omega
    · show (if (q.popConcurEntries id).endPos - (q.popConcurEntries id).startPos < n
          then (q.popConcurEntries id).startPos else (q.popConcurEntries id).startPos + n)
        ≤ (q.popConcurEntries id).endPos
      split_ifs <;> omega
  have g1 := hinv.newRead_le
  have g2 := hinv.newWrite_le
  have g3 := hinv.write_le
  have g4 := hinv.read_le
  have g5 := hinv.popUsed_le
  obtain ⟨a1, a2, a3, a4⟩ := popHeadLoop_spec q.queueSize q.popConcurAllocated
    (Function.update q.popConcurEntries id e1) q.newReadPos hinv.popAlloc_pos
    q.popConcurUsed q.popConcurStart q.readPos hinv.popStart_lt hinv.popUsed_le
    (by omega) hchain1
  generalize hhd : popHeadLoop q.queueSize q.popConcurAllocated
    (Function.update q.popConcurEntries id e1) q.popConcurUsed q.popConcurStart q.readPos
    = hd at a1 a2 a3 a4
  obtain ⟨b1, b2, b3⟩ := popTailLoop_spec q.queueSize q.popConcurAllocated
    (Function.update q.popConcurEntries id e1) hd.tmpPopConcurStart hd.tmpReadPos a2
    hd.tmpPopConcurUsed
    (ringPos q.popConcurAllocated (hd.tmpPopConcurStart + hd.tmpPopConcurUsed - 1))
    q.newReadPos q.queueData false (by omega) (fun _ => rfl) a1
  generalize htl : popTailLoop q.queueSize q.popConcurAllocated
    (Function.update q.popConcurEntries id e1) hd.tmpPopConcurUsed
    (ringPos q.popConcurAllocated (hd.tmpPopConcurStart + hd.tmpPopConcurUsed - 1))
    q.newReadPos q.queueData false = tl at b1 b2 b3
  have hle := popChain_le _ _ _ _ b1
  have hstate : (finishPopConcur q id n).1 =
      (if tl.tmpPopConcurUsed = 0 then
        { q with popConcurEntries := Function.update q.popConcurEntries id e1,
                 queueData := tl.queueData, readPos := tl.tmpNewReadPos,
                 newReadPos := tl.tmpNewReadPos, popConcurStart := 0,
                 popConcurUsed := tl.tmpPopConcurUsed }
       else
        { q with popConcurEntries := Function.update q.popConcurEntries id e1,
                 queueData := tl.queueData, readPos := hd.tmpReadPos,
                 newReadPos := tl.tmpNewReadPos, popConcurStart := hd.tmpPopConcurStart,
                 popConcurUsed := tl.tmpPopConcurUsed }) := by
    unfold finishPopConcur
    rw [if_neg hu]
    simp only [ringPos_of_lt _ _ hid]
    by_cases hlt : (q.popConcurEntries id).endPos - (q.popConcurEntries id).startPos < n
    · simp only [hlt, not_true_eq_false, decide_False, Bool.false_eq_true, if_false, if_true]
        at he1 ⊢
      rw [← he1, hhd, htl]
    · simp only [hlt, not_false_eq_true, decide_True, if_true, if_false] at he1 ⊢
      rw [← he1, hhd, htl]
  unfold finishPoppingInt
  rw [if_pos hne]
  simp only
  rw [hstate]
  have hp := hinv.notPaused
  by_cases h0 : tl.tmpPopConcurUsed = 0
  · rw [if_pos h0]
    have hw : PopChain q.queueSize (windowOf q.popConcurAllocated
        (Function.update q.popConcurEntries id e1) 0 tl.tmpPopConcurUsed)
        tl.tmpNewReadPos tl.tmpNewReadPos := by
      rw [h0]
      exact le_refl _
    split_ifs
    all_goals first
      | exact absurd hp (by assumption)
      | exact absurd hp (And.left (by assumption))
      | exact popFinish_inv_high q hinv _ tl.queueData tl.tmpNewReadPos tl.tmpNewReadPos 0
          tl.tmpPopConcurUsed _
          (by omega) (le_refl _) b3 hinv.popAlloc_pos (by omega) hw (fun _ => rfl)
          (by assumption)
      | exact popFinish_inv_low q hinv _ tl.queueData tl.tmpNewReadPos tl.tmpNewReadPos 0
          tl.tmpPopConcurUsed _
          (by omega) (le_refl _) b3 hinv.popAlloc_pos (by omega) hw (fun _ => rfl)
          (Nat.lt_of_not_le (by assumption))
  · rw [if_neg h0]
    split_ifs
    all_goals first
      | exact absurd hp (by assumption)
      | exact absurd hp (And.left (by assumption))
      | exact popFinish_inv_high q hinv _ tl.queueData hd.tmpReadPos tl.tmpNewReadPos
          hd.tmpPopConcurStart tl.tmpPopConcurUsed _
          a4 hle b3 a2 (by omega) b1 (fun h => absurd h h0) (by assumption)
      | exact popFinish_inv_low q hinv _ tl.queueData hd.tmpReadPos tl.tmpNewReadPos
          hd.tmpPopConcurStart tl.tmpPopConcurUsed _
          a4 hle b3 a2 (by omega) b1 (fun h => absurd h h0) (Nat.lt_of_not_le (by assumption))

/-- Reserving cells for a pop keeps the invariant of the ring. -/
theorem allocPopConcur_inv (q : MemQueue) (hinv : QueueInv q) (taken : Nat)
    (hu : q.popConcurUsed < q.popConcurAllocated) (h1 : 1 ≤ taken)
    (h2 : taken ≤ q.writePos - q.newReadPos) :
    QueueInv (allocPopConcur q taken).1 := by
  have hwin : windowOf q.popConcurAllocated
      (Function.update q.popConcurEntries
        (ringPos q.popConcurAllocated (q.popConcurStart + q.popConcurUsed))
        { startPos := q.newReadPos, endPos := q.newReadPos + taken, processed := true })
      q.popConcurStart (q.popConcurUsed + 1)
      = windowOf q.popConcurAllocated q.popConcurEntries q.popConcurStart q.popConcurUsed
        ++ [{ startPos := q.newReadPos, endPos := q.newReadPos + taken, processed := true }] := by
    rw [windowOf_snoc, Function.update_same,
      windowOf_update_outside _ _ _ _ _ _
        (window_slot_outside _ _ _ hinv.popStart_lt hu)]
  have g1 := hinv.read_le
  have g2 := hinv.newRead_le
  have g3 := hinv.write_le
  have g4 := hinv.newWrite_le
  have g5 := hinv.read_lt
  unfold allocPopConcur
  exact
    { size_pos := hinv.size_pos, read_lt := hinv.read_lt
      read_le := by show q.readPos ≤ q.newReadPos + taken; omega
      newRead_le := by show q.newReadPos + taken ≤ q.writePos; omega
      write_le := hinv.write_le, newWrite_le := hinv.newWrite_le
      pushAlloc_pos := hinv.pushAlloc_pos, pushAlloc_lt := hinv.pushAlloc_lt,
      pushStart_lt := hinv.pushStart_lt, pushUsed_le := hinv.pushUsed_le
      popAlloc_pos := hinv.popAlloc_pos, popAlloc_lt := hinv.popAlloc_lt,
      popStart_lt := hinv.popStart_lt
      popUsed_le := by show q.popConcurUsed + 1 ≤ q.popConcurAllocated; omega
      pushChain := hinv.pushChain, pushEmpty := hinv.pushEmpty
      popChain := by
        show PopChain q.queueSize (windowOf q.popConcurAllocated
          (Function.update q.popConcurEntries
            (ringPos q.popConcurAllocated (q.popConcurStart + q.popConcurUsed))
            { startPos := q.newReadPos, endPos := q.newReadPos + taken, processed := true })
          q.popConcurStart (q.popConcurUsed + 1)) q.readPos (q.newReadPos + taken)
        rw [hwin]
        exact popChain_snoc q.queueSize
          { startPos := q.newReadPos, endPos := q.newReadPos + taken, processed := true }
          _ _ _ hinv.popChain rfl (by show q.newReadPos < q.newReadPos + taken; omega)
          (by show q.newReadPos + taken < 2 * q.queueSize; omega)
      popEmpty := by
        intro h
        have : q.popConcurUsed + 1 = 0 := h
        omega
      pushes := hinv.pushes
      notCancelled := hinv.notCancelled, notPaused := hinv.notPaused }

/-- `doPopping` keeps the invariant of the ring. -/
theorem doPopping_inv (q : MemQueue) (hinv : QueueInv q) (n old id pos : Nat)
    (hid : id = CONCURID_NONE ∨ PopOutstanding q id) (hn : 1 ≤ n) :
    QueueInv (doPopping q n old id pos).1 := by
  have hq1 : QueueInv (finishPoppingInt q old id).1 := by
    rcases hid with h | h
    · subst h
      unfold finishPoppingInt
      rw [if_neg (by simp)]
      exact hinv
    · exact finishPoppingInt_inv q hinv id old h
  unfold doPopping
  simp only
  by_cases c1 : (finishPoppingInt q old id).2 = true
  · rw [if_neg (by simpa using c1)]
    by_cases c2 : (finishPoppingInt q old id).1.cancelledQueue ≠ 0 ∨
        ((finishPoppingInt q old id).1.closedQueue ≠ 0 ∧
          (finishPoppingInt q old id).1.popConcurUsed = 0 ∧
          (finishPoppingInt q old id).1.readPos = (finishPoppingInt q old id).1.writePos)
    · rw [if_pos c2]
      exact hq1
    · rw [if_neg c2]
      by_cases c3 : (finishPoppingInt q old id).1.writePos -
            (finishPoppingInt q old id).1.newReadPos = 0 ∨
          (finishPoppingInt q old id).1.popConcurUsed =
            (finishPoppingInt q old id).1.popConcurAllocated
      · rw [if_pos c3]
        exact hq1
      · rw [if_neg c3]
        have c4 := not_or.1 c3
        exact allocPopConcur_inv _ hq1 _
          (lt_of_le_of_ne hq1.popUsed_le c4.2)
          (by
            have := c4.1
            omega)
          (Nat.min_le_right _ _)
  · rw [if_pos (by simpa using c1)]
    exact hq1

/-- Closing keeps the invariant of the ring. -/
theorem close_inv (q : MemQueue) (hinv : QueueInv q) : QueueInv q.close := by
  unfold MemQueue.close
  by_cases h1 : q.closedQueue ≠ 0
  · rw [if_pos h1]
    exact hinv
  rw [if_neg h1]
  simp only
  split_ifs
  all_goals exact
      { size_pos := hinv.size_pos, read_lt := hinv.read_lt, read_le := hinv.read_le,
        newRead_le := hinv.newRead_le, write_le := hinv.write_le,
        newWrite_le := hinv.newWrite_le, pushAlloc_pos := hinv.pushAlloc_pos,
        pushAlloc_lt := hinv.pushAlloc_lt, pushStart_lt := hinv.pushStart_lt,
        pushUsed_le := hinv.pushUsed_le, popAlloc_pos := hinv.popAlloc_pos,
        popAlloc_lt := hinv.popAlloc_lt, popStart_lt := hinv.popStart_lt,
        popUsed_le := hinv.popUsed_le, pushChain := hinv.pushChain,
        pushEmpty := hinv.pushEmpty, popChain := hinv.popChain, popEmpty := hinv.popEmpty,
        pushes := hinv.pushes, notCancelled := hinv.notCancelled,
        notPaused := hinv.notPaused }

/-- A new ring satisfies the invariant. -/
theorem create_inv (Q pa oa : Nat) (hQ : 1 ≤ Q) (hpa : 1 ≤ pa) (hpa2 : pa < 4294967295)
    (hoa : 1 ≤ oa) (hoa2 : oa < 4294967295) : QueueInv (MemQueue.create Q pa oa) := by
  unfold MemQueue.create
  exact
    { size_pos := hQ, read_lt := hQ, read_le := le_refl _, newRead_le := le_refl _,
      write_le := le_refl _, newWrite_le := Nat.zero_le _, pushAlloc_pos := hpa,
      pushAlloc_lt := hpa2, pushStart_lt := hpa, pushUsed_le := Nat.zero_le _,
      popAlloc_pos := hoa, popAlloc_lt := hoa2, popStart_lt := hoa,
      popUsed_le := Nat.zero_le _, pushChain := le_refl _, pushEmpty := fun _ => rfl,
      popChain := le_refl _, popEmpty := fun _ => rfl, pushes := rfl,
      notCancelled := rfl, notPaused := rfl }

/-- Every call keeps the invariant of the ring. -/
theorem queueStep_inv (q : MemQueue) (hinv : QueueInv q) (op : QueueOp) :
    QueueInv (queueStep q op) := by
  unfold queueStep
  by_cases hv : op.Valid q
  · rw [if_pos hv]
    cases op with
    | pushBegin n => exact doPushing_inv q hinv n 0 CONCURID_NONE 0 (Or.inl rfl) hv
    | pushFinish id count => exact finishPushingInt_inv q hinv id count hv
    | pushNext id count n => exact doPushing_inv q hinv n count id 0 (Or.inr hv.1) hv.2
    | popBegin n => exact doPopping_inv q hinv n 0 CONCURID_NONE 0 (Or.inl rfl) hv
    | popFinish id count => exact finishPoppingInt_inv q hinv id count hv
    | popNext id count n => exact doPopping_inv q hinv n count id 0 (Or.inr hv.1) hv.2
    | close => exact close_inv q hinv
  · rw [if_neg hv]
    exact hinv

/-- Every state reached by a sequence of calls satisfies the invariant of the ring. -/
theorem queueRun_inv (ops : List QueueOp) : ∀ (q : MemQueue), QueueInv q →
    QueueInv (queueRun q ops) := by
  induction ops with
  | nil => intro q h; exact h
  | cons op rest ih =>
    intro q h
    exact ih _ (queueStep_inv q h op)

/-- Every push reservation of a chain lies between the ends of the chain. -/
theorem pushChain_mem (Q : Nat) : ∀ (es : List ConcurEntry) (lo hi : Nat),
    PushChain Q es lo hi → ∀ e, e ∈ es →
    ∃ k, (k = 0 ∨ k = Q) ∧ k ≤ e.startPos ∧ lo ≤ e.startPos - k ∧ e.startPos ≤ e.endPos ∧
      e.endPos - k ≤ hi := by
  intro es
  induction es with
  | nil => intro lo hi _ e he; simp at he
  | cons x rest ih =>
    intro lo hi hc e he
    obtain ⟨k, g1, g2, g3, g4, g5, g6⟩ := hc
    rcases List.mem_cons.1 he with h | h
    · subst h
      exact ⟨k, g1, g2, g3, g4, pushChain_le _ _ _ _ g6⟩
    · obtain ⟨k2, a1, a2, a3, a4, a5⟩ := ih _ _ g6 e h
      exact ⟨k2, a1, a2, by omega, a4, a5⟩

/-- Two positions less than `queueSize` apart are different cells of the ring. -/
theorem ring_cells_ne (Q x y k : Nat) (hk : k = 0 ∨ k = Q) (hky : k ≤ y) (h1 : x < y - k)
    (h2 : y - k < x + Q) : x % Q ≠ y % Q := by
  intro h
  have hy : y % Q = (y - k) % Q := by
    rcases hk with h0 | h0
    · subst h0; rfl
    · subst h0
      conv_lhs => rw [← Nat.sub_add_cancel hky]
      exact Nat.add_mod_right _ _
  rw [hy] at h
  have e1 := Nat.div_add_mod x Q
  have e2 := Nat.div_add_mod (y - k) Q
  have hlt : x / Q < (y - k) / Q ∨ (y - k) / Q ≤ x / Q := by omega
  rcases hlt with c | c
  · have : Q * (x / Q + 1) ≤ Q * ((y - k) / Q) := Nat.mul_le_mul_left Q c
    rw [Nat.mul_add, Nat.mul_one] at this
    omega
  · have : Q * ((y - k) / Q) ≤ Q * (x / Q) := Nat.mul_le_mul_left Q c
    omega

theorem ringPos_eq_mod (Q x : Nat) (_hQ : 1 ≤ Q) (hx : x < 2 * Q) : ringPos Q x = x % Q := by
  unfold ringPos
  split_ifs with h
  · exact (Nat.mod_eq_of_lt h).symm
  · have hx2 : x = (x - Q) + Q := by omega
    conv_rhs => rw [hx2]
    rw [Nat.add_mod_right]
    exact (Nat.mod_eq_of_lt (by omega)).symm

/-- C15: in every state of the ring reached from a new queue by calls of `doPushing`,
`finishPushing`, `doPopping`, `finishPopping` and `close` taken as atomic steps,
`readPos ≤ writePos ≤ newWritePos` and `newWritePos - readPos ≤ queueSize`. -/
theorem C15_ring_capacity_invariant (Q pa oa : Nat) (ops : List QueueOp) (hQ : 1 ≤ Q)
    (hpa : 1 ≤ pa) (hpa2 : pa < 4294967295) (hoa : 1 ≤ oa) (hoa2 : oa < 4294967295) :
    (queueRun (MemQueue.create Q pa oa) ops).readPos
        ≤ (queueRun (MemQueue.create Q pa oa) ops).writePos ∧
    (queueRun (MemQueue.create Q pa oa) ops).writePos
        ≤ (queueRun (MemQueue.create Q pa oa) ops).newWritePos ∧
    (queueRun (MemQueue.create Q pa oa) ops).newWritePos
        - (queueRun (MemQueue.create Q pa oa) ops).readPos
      ≤ (queueRun (MemQueue.create Q pa oa) ops).queueSize := by
  have hinv := queueRun_inv ops _ (create_inv Q pa oa hQ hpa hpa2 hoa hoa2)
  have h1 := hinv.read_le
  have h2 := hinv.newRead_le
  have h3 := hinv.write_le
  have h4 := hinv.newWrite_le
  omega

theorem C15_ring_capacity_invariant_witness :
    (queueRun (MemQueue.create 4 2 2)
        [.pushBegin 3, .pushBegin 3, .pushFinish 1 1, .pushFinish 0 2, .popBegin 2]).readPos
        ≤ (queueRun (MemQueue.create 4 2 2)
        [.pushBegin 3, .pushBegin 3, .pushFinish 1 1, .pushFinish 0 2, .popBegin 2]).writePos ∧
    (queueRun (MemQueue.create 4 2 2)
        [.pushBegin 3, .pushBegin 3, .pushFinish 1 1, .pushFinish 0 2, .popBegin 2]).writePos
        ≤ (queueRun (MemQueue.create 4 2 2)
        [.pushBegin 3, .pushBegin 3, .pushFinish 1 1, .pushFinish 0 2, .popBegin 2]).newWritePos ∧
    (queueRun (MemQueue.create 4 2 2)
        [.pushBegin 3, .pushBegin 3, .pushFinish 1 1, .pushFinish 0 2, .popBegin 2]).newWritePos
        - (queueRun (MemQueue.create 4 2 2)
        [.pushBegin 3, .pushBegin 3, .pushFinish 1 1, .pushFinish 0 2, .popBegin 2]).readPos
      ≤ (queueRun (MemQueue.create 4 2 2)
        [.pushBegin 3, .pushBegin 3, .pushFinish 1 1, .pushFinish 0 2, .popBegin 2]).queueSize :=
  C15_ring_capacity_invariant 4 2 2 _ (by decide) (by decide) (by decide) (by decide)
    (by decide)

/-- C19: when a `finishPopping` for an outstanding pop reservation, called in a state reached
from a new queue, leaves no pop reservation outstanding and nothing committed unread
(`newReadPos = writePos`), the counters satisfy `readPos = writePos < queueSize`. -/
theorem C19_counters_normalised_when_empty (Q pa oa : Nat) (ops : List QueueOp)
    (id count : Nat) (hQ : 1 ≤ Q)
    (hpa : 1 ≤ pa) (hpa2 : pa < 4294967295) (hoa : 1 ≤ oa) (hoa2 : oa < 4294967295)
    (hout : PopOutstanding (queueRun (MemQueue.create Q pa oa) ops) id)
    (hused : (finishPopping (queueRun (MemQueue.create Q pa oa) ops) count id).1.popConcurUsed
      = 0)
    (hread : (finishPopping (queueRun (MemQueue.create Q pa oa) ops) count id).1.newReadPos
      = (finishPopping (queueRun (MemQueue.create Q pa oa) ops) count id).1.writePos) :
    (finishPopping (queueRun (MemQueue.create Q pa oa) ops) count id).1.readPos
      = (finishPopping (queueRun (MemQueue.create Q pa oa) ops) count id).1.writePos ∧
    (finishPopping (queueRun (MemQueue.create Q pa oa) ops) count id).1.writePos
      < (finishPopping (queueRun (MemQueue.create Q pa oa) ops) count id).1.queueSize := by
  have hinv := queueRun_inv ops _ (create_inv Q pa oa hQ hpa hpa2 hoa hoa2)
  have h2 : QueueInv (finishPopping (queueRun (MemQueue.create Q pa oa) ops) count id).1 :=
    finishPoppingInt_inv _ hinv id count hout
  have h3 := h2.popEmpty hused
  have h4 := h2.read_lt
  constructor
  · rw [← hread, h3]
  · rw [← hread, h3]
    exact h4

theorem C19_counters_normalised_when_empty_witness :
    (finishPopping (queueRun (MemQueue.create 4 1 1)
      [.pushBegin 3, .pushFinish 0 3, .popBegin 3, .popFinish 0 3, .pushBegin 3,
        .pushFinish 0 3, .popBegin 3]) 3 0).1.readPos
      = (finishPopping (queueRun (MemQueue.create 4 1 1)
      [.pushBegin 3, .pushFinish 0 3, .popBegin 3, .popFinish 0 3, .pushBegin 3,
        .pushFinish 0 3, .popBegin 3]) 3 0).1.writePos ∧
    (finishPopping (queueRun (MemQueue.create 4 1 1)
      [.pushBegin 3, .pushFinish 0 3, .popBegin 3, .popFinish 0 3, .pushBegin 3,
        .pushFinish 0 3, .popBegin 3]) 3 0).1.writePos
      < (finishPopping (queueRun (MemQueue.create 4 1 1)
      [.pushBegin 3, .pushFinish 0 3, .popBegin 3, .popFinish 0 3, .pushBegin 3,
        .pushFinish 0 3, .popBegin 3]) 3 0).1.queueSize :=
  C19_counters_normalised_when_empty 4 1 1
    [.pushBegin 3, .pushFinish 0 3, .popBegin 3, .popFinish 0 3, .pushBegin 3,
      .pushFinish 0 3, .popBegin 3] 0 3
    (by decide) (by decide) (by decide) (by decide) (by decide) (by decide) (by decide)
    (by decide)

/-- The result of a `doPopping` that grants cells. -/
theorem doPopping_grant (q : MemQueue) (n old id pos : Nat)
    (hgrant : (doPopping q n old id pos).2.taken ≠ 0) :
    (doPopping q n old id pos).1
      = (allocPopConcur (finishPoppingInt q old id).1
          (min n ((finishPoppingInt q old id).1.writePos
            - (finishPoppingInt q old id).1.newReadPos))).1 ∧
    (doPopping q n old id pos).2.taken
      = min n ((finishPoppingInt q old id).1.writePos
          - (finishPoppingInt q old id).1.newReadPos) ∧
    (doPopping q n old id pos).2.id
      = ringPos (finishPoppingInt q old id).1.popConcurAllocated
          ((finishPoppingInt q old id).1.popConcurStart
            + (finishPoppingInt q old id).1.popConcurUsed) ∧
    (doPopping q n old id pos).2.queuePos
      = ringPos (finishPoppingInt q old id).1.queueSize
          (finishPoppingInt q old id).1.newReadPos ∧
    (doPopping q n old id pos).2.threw = false := by
  unfold doPopping at hgrant ⊢
  simp only at hgrant ⊢
  by_cases c1 : (finishPoppingInt q old id).2 = true
  · rw [if_neg (by simpa using c1)] at hgrant ⊢
    by_cases c2 : (finishPoppingInt q old id).1.cancelledQueue ≠ 0 ∨
        ((finishPoppingInt q old id).1.closedQueue ≠ 0 ∧
          (finishPoppingInt q old id).1.popConcurUsed = 0 ∧
          (finishPoppingInt q old id).1.readPos = (finishPoppingInt q old id).1.writePos)
    · rw [if_pos c2] at hgrant
      exact absurd rfl hgrant
    · rw [if_neg c2] at hgrant ⊢
      by_cases c3 : (finishPoppingInt q old id).1.writePos -
            (finishPoppingInt q old id).1.newReadPos = 0 ∨
          (finishPoppingInt q old id).1.popConcurUsed =
            (finishPoppingInt q old id).1.popConcurAllocated
      · rw [if_pos c3] at hgrant
        exact absurd rfl hgrant
      · rw [if_neg c3]
        exact ⟨rfl, rfl, rfl, rfl, rfl⟩
  · rw [if_pos (by simpa using c1)] at hgrant
    exact absurd rfl hgrant

/-- C16: a span granted by `doPopping` in a state reached from a new queue lies inside the
committed region `[newReadPos, writePos)` of the time of the grant (after the finish of the
previous pop), starts at the cell `newReadPos mod queueSize`, and shares no cell of the ring
with a push reservation that has not been folded into the committed region. -/
theorem C16_pop_grant_inside_committed (Q pa oa : Nat) (ops : List QueueOp)
    (n old id pos : Nat) (q q1 : MemQueue) (hQ : 1 ≤ Q)
    (hpa : 1 ≤ pa) (hpa2 : pa < 4294967295) (hoa : 1 ≤ oa) (hoa2 : oa < 4294967295)
    (hq : q = queueRun (MemQueue.create Q pa oa) ops)
    (hq1 : q1 = (finishPoppingInt q old id).1)
    (hid : id = CONCURID_NONE ∨ PopOutstanding q id) (_hn : 1 ≤ n)
    (hgrant : (doPopping q n old id pos).2.taken ≠ 0) :
    q1.newReadPos + (doPopping q n old id pos).2.taken ≤ q1.writePos ∧
    (doPopping q n old id pos).2.queuePos = q1.newReadPos % q1.queueSize ∧
    (doPopping q n old id pos).1.popConcurEntries (doPopping q n old id pos).2.id
      = { startPos := q1.newReadPos,
          endPos := q1.newReadPos + (doPopping q n old id pos).2.taken, processed := true } ∧
    ∀ e, e ∈ windowOf (doPopping q n old id pos).1.pushConcurAllocated
        (doPopping q n old id pos).1.pushConcurEntries
        (doPopping q n old id pos).1.pushConcurStart
        (doPopping q n old id pos).1.pushConcurUsed →
      ∀ x y, q1.newReadPos ≤ x → x < q1.newReadPos + (doPopping q n old id pos).2.taken →
        e.startPos ≤ y → y < e.endPos → x % q1.queueSize ≠ y % q1.queueSize := by
  have hinv : QueueInv q := by
    rw [hq]
    exact queueRun_inv ops _ (create_inv Q pa oa hQ hpa hpa2 hoa hoa2)
  have hinv1 : QueueInv q1 := by
    rw [hq1]
    rcases hid with h | h
    · subst h
      unfold finishPoppingInt
      rw [if_neg (by simp)]
      exact hinv
    · exact finishPoppingInt_inv q hinv id old h
  obtain ⟨e1, e2, e3, e4, _⟩ := doPopping_grant q n old id pos hgrant
  rw [← hq1] at e1 e2 e3 e4
  have g1 := hinv1.read_le
  have g2 := hinv1.newRead_le
  have g3 := hinv1.write_le
  have g4 := hinv1.newWrite_le
  have g5 := hinv1.read_lt
  have ht : (doPopping q n old id pos).2.taken ≤ q1.writePos - q1.newReadPos := by
    rw [e2]
    exact Nat.min_le_right _ _
  refine ⟨by omega, ?_, ?_, ?_⟩
  · rw [e4]
    exact ringPos_eq_mod _ _ hinv1.size_pos (by omega)
  · rw [e1, e3, e2]
    unfold allocPopConcur
    simp only [Function.update_same]
  · rw [e1]
    intro e he x y hx1 hx2 hy1 hy2
    obtain ⟨k, a1, a2, a3, a4, a5⟩ := pushChain_mem _ _ _ _ hinv1.pushChain e he
    exact ring_cells_ne _ x y k a1 (by omega) (by omega) (by omega)

theorem C16_pop_grant_inside_committed_witness :
    ∃ q q1 : MemQueue,
      q = queueRun (MemQueue.create 4 2 2) [.pushBegin 2, .pushFinish 0 2, .pushBegin 2] ∧
      q1 = (finishPoppingInt q 0 CONCURID_NONE).1 ∧
      (doPopping q 3 0 CONCURID_NONE 0).2.taken ≠ 0 ∧
      q1.newReadPos + (doPopping q 3 0 CONCURID_NONE 0).2.taken ≤ q1.writePos ∧
      (doPopping q 3 0 CONCURID_NONE 0).2.queuePos = q1.newReadPos % q1.queueSize ∧
      (doPopping q 3 0 CONCURID_NONE 0).1.popConcurEntries
          (doPopping q 3 0 CONCURID_NONE 0).2.id
        = { startPos := q1.newReadPos,
            endPos := q1.newReadPos + (doPopping q 3 0 CONCURID_NONE 0).2.taken,
            processed := true } ∧
      ∀ e, e ∈ windowOf (doPopping q 3 0 CONCURID_NONE 0).1.pushConcurAllocated
          (doPopping q 3 0 CONCURID_NONE 0).1.pushConcurEntries
          (doPopping q 3 0 CONCURID_NONE 0).1.pushConcurStart
          (doPopping q 3 0 CONCURID_NONE 0).1.pushConcurUsed →
        ∀ x y, q1.newReadPos ≤ x →
          x < q1.newReadPos + (doPopping q 3 0 CONCURID_NONE 0).2.taken →
          e.startPos ≤ y → y < e.endPos → x % q1.queueSize ≠ y % q1.queueSize :=
  ⟨_, _, rfl, rfl, by decide,
    C16_pop_grant_inside_committed 4 2 2 [.pushBegin 2, .pushFinish 0 2, .pushBegin 2]
      3 0 CONCURID_NONE 0 _ _ (by decide) (by decide) (by decide) (by decide) (by decide)
      rfl rfl (by decide) (by decide) (by decide)⟩

/-- The folding loop of `finishPushConcur` moves the write position over exactly the cells
of the finished reservations it drops. -/
theorem pushFoldLoop_pending (Q a : Nat) (entries : Nat → ConcurEntry) :
    ∀ (u s w : Nat) (data : Nat → Nat), s < a → u ≤ a →
    (pushFoldLoop Q a entries u s w data).tmpWritePos
      + (((windowOf a entries (pushFoldLoop Q a entries u s w data).tmpPushConcurStart
          (pushFoldLoop Q a entries u s w data).tmpPushConcurUsed).filter
            (fun e => !e.processed)).map (fun e => e.endPos - e.startPos)).sum
      = w + (((windowOf a entries s u).filter (fun e => !e.processed)).map
          (fun e => e.endPos - e.startPos)).sum := by
  intro u
  induction u with
  | zero =>
    intro s w data _ _
    rfl
  | succ u ih =>
    intro s w data hs hu
    rw [pushFoldLoop]
    by_cases hp : (entries s).processed = true
    · rw [if_pos hp]
    · rw [if_neg hp]
      simp only
      have ha : 1 ≤ a := by omega
      have hs1 : ringPos a (s + 1) < a := ringPos_lt a (s + 1) (by omega) ha
      rw [ih _ _ _ hs1 (by omega), windowOf_succ a entries s u hs hu, List.filter_cons]
      simp only [hp, Bool.not_false, if_true, List.map_cons, List.sum_cons]
      omega

theorem pending_set (e1 : ConcurEntry) (hp1 : e1.processed = false) :
    ∀ (es : List ConcurEntry) (j : Nat) (e : ConcurEntry), es[j]? = some e →
    e.processed = true →
    (((es.set j e1).filter (fun e => !e.processed)).map (fun e => e.endPos - e.startPos)).sum
      = ((es.filter (fun e => !e.processed)).map (fun e => e.endPos - e.startPos)).sum
        + (e1.endPos - e1.startPos) := by
  intro es
  induction es with
  | nil => intro j e h _; simp at h
  | cons x rest ih =>
    intro j e h hp
    cases j with
    | zero =>
      have hx : x = e := by simpa using h
      subst hx
      rw [List.set_cons_zero, List.filter_cons, List.filter_cons]
      simp only [hp1, hp, Bool.not_false, Bool.not_true, if_true, Bool.false_eq_true, if_false,
        List.map_cons, List.sum_cons]
      omega
    | succ j =>
      rw [List.set_cons_succ, List.filter_cons, List.filter_cons]
      have := ih j e (by simpa using h) hp
      by_cases hx : x.processed = true
      · simp only [hx, Bool.not_true, Bool.false_eq_true, if_false]
        exact this
      · simp only [hx, Bool.not_false, if_true, List.map_cons, List.sum_cons]
        omega

/-- The cells committed or pending after the finish of an outstanding push. -/
theorem finishPushingInt_pending (q : MemQueue) (hinv : QueueInv q) (id n : Nat)
    (hout : PushOutstanding q id) :
    (finishPushingInt q n id).1.writePos + pushPending (finishPushingInt q n id).1
      = q.writePos + pushPending q
        + (if (q.pushConcurEntries id).endPos - (q.pushConcurEntries id).startPos < n then 0
           else n) := by
  obtain ⟨e1, f, he1, hf, _, hst⟩ := finishPushingInt_state q hinv id n hout
  obtain ⟨hwin, hproc⟩ := hout
  obtain ⟨j0, hj0, hidj⟩ := (inWindow_iff _ _ _ _ hinv.pushStart_lt hinv.pushUsed_le).1 hwin
  have hget : (windowOf q.pushConcurAllocated q.pushConcurEntries q.pushConcurStart
      q.pushConcurUsed)[j0]? = some (q.pushConcurEntries id) := by
    rw [windowOf_getElem?, if_pos hj0, hidj]
  have hwin1 : windowOf q.pushConcurAllocated (Function.update q.pushConcurEntries id e1)
      q.pushConcurStart q.pushConcurUsed
      = (windowOf q.pushConcurAllocated q.pushConcurEntries q.pushConcurStart
          q.pushConcurUsed).set j0 e1 := by
    rw [hidj]
    exact windowOf_update_inside _ _ _ _ _ _ hinv.pushStart_lt hinv.pushUsed_le hj0
  have hfold := pushFoldLoop_pending q.queueSize q.pushConcurAllocated
    (Function.update q.pushConcurEntries id e1) q.pushConcurUsed q.pushConcurStart q.writePos
    q.queueData hinv.pushStart_lt hinv.pushUsed_le
  rw [← hf, hwin1, pending_set e1 (by rw [he1]) _ _ _ hget hproc] at hfold
  have hlen : e1.endPos - e1.startPos
      = (if (q.pushConcurEntries id).endPos - (q.pushConcurEntries id).startPos < n then 0
         else n) := by
    rw [he1]
    show (if (q.pushConcurEntries id).endPos - (q.pushConcurEntries id).startPos < n
        then (q.pushConcurEntries id).startPos else (q.pushConcurEntries id).startPos + n)
      - (q.pushConcurEntries id).startPos = _
    split_ifs <;> omega
  rw [hlen] at hfold
  have hpend : pushPending (finishPushingInt q n id).1
      = (((windowOf q.pushConcurAllocated (Function.update q.pushConcurEntries id e1)
          f.tmpPushConcurStart f.tmpPushConcurUsed).filter
            (fun e => !e.processed)).map (fun e => e.endPos - e.startPos)).sum := by
    rw [hst]
    unfold pushPending
    by_cases h0 : f.tmpPushConcurUsed = 0
    · simp only [h0, if_true, windowOf_zero]
    · simp only [h0, if_false]
  have hw : (finishPushingInt q n id).1.writePos = f.tmpWritePos := by
    rw [hst]
  rw [hpend, hw]
  unfold pushPending
  omega

/-- Reserving cells for a push leaves the committed and the pending cells as they are. -/
theorem allocPushConcur_pending (q : MemQueue) (hinv : QueueInv q) (taken cp : Nat)
    (hu : q.pushConcurUsed < q.pushConcurAllocated) :
    (allocPushConcur { q with concurPushes := cp } taken).1.writePos = q.writePos ∧
    pushPending (allocPushConcur { q with concurPushes := cp } taken).1 = pushPending q := by
  have hwin : windowOf q.pushConcurAllocated
      (Function.update q.pushConcurEntries
        (ringPos q.pushConcurAllocated (q.pushConcurStart + q.pushConcurUsed))
        { startPos := q.newWritePos, endPos := q.newWritePos + taken, processed := true })
      q.pushConcurStart (q.pushConcurUsed + 1)
      = windowOf q.pushConcurAllocated q.pushConcurEntries q.pushConcurStart q.pushConcurUsed
        ++ [{ startPos := q.newWritePos, endPos := q.newWritePos + taken, processed := true }] := by
    rw [windowOf_snoc, Function.update_same,
      windowOf_update_outside _ _ _ _ _ _
        (window_slot_outside _ _ _ hinv.pushStart_lt hu)]
  refine ⟨rfl, ?_⟩
  unfold pushPending allocPushConcur
  simp only
  rw [hwin, List.filter_append]
  simp

/-- The outcome of `doPushing` called with the id of an outstanding reservation. -/
theorem doPushing_pending (q : MemQueue) (hinv : QueueInv q) (n old id pos : Nat)
    (hout : PushOutstanding q id) :
    ((doPushing q n old id pos).2.threw = true ↔ (finishPushingInt q old id).2 = false) ∧
    (doPushing q n old id pos).1.writePos + pushPending (doPushing q n old id pos).1
      = (finishPushingInt q old id).1.writePos + pushPending (finishPushingInt q old id).1 := by
  have hq1 : QueueInv (finishPushingInt q old id).1 := finishPushingInt_inv q hinv id old hout
  unfold doPushing
  simp only
  by_cases c1 : (finishPushingInt q old id).2 = true
  · rw [if_neg (by simpa using c1)]
    by_cases c2 : (finishPushingInt q old id).1.closingQueue ∨
        (finishPushingInt q old id).1.closedQueue ≠ 0 ∨
        (finishPushingInt q old id).1.cancelledQueue ≠ 0
    · rw [if_pos c2]
      simp [c1]
    · rw [if_neg c2]
      by_cases c3 : (finishPushingInt q old id).1.pausedQueue ≠ 0 ∨
          (finishPushingInt q old id).1.queueSize -
            ((finishPushingInt q old id).1.newWritePos - (finishPushingInt q old id).1.readPos) = 0 ∨
          (finishPushingInt q old id).1.pushConcurUsed =
            (finishPushingInt q old id).1.pushConcurAllocated
      · rw [if_pos c3]
        simp [c1]
      · rw [if_neg c3]
        have c3' := not_or.1 c3
        have c4 := not_or.1 c3'.2
        obtain ⟨a1, a2⟩ := allocPushConcur_pending _ hq1
          (min n ((finishPushingInt q old id).1.queueSize -
            ((finishPushingInt q old id).1.newWritePos - (finishPushingInt q old id).1.readPos)))
          (((finishPushingInt q old id).1.concurPushes + 1) % 4294967296)
          (lt_of_le_of_ne hq1.pushUsed_le c4.2)
        refine ⟨by simp [c1], ?_⟩
        show (allocPushConcur _ _).1.writePos + pushPending (allocPushConcur _ _).1 = _
        rw [a1, a2]
  · rw [if_pos (by simpa using c1)]
    simp [c1]

/-- C17: in a state reached from a new queue, `finishPushing` and the implicit finish of
`doPushing` called for an outstanding push reservation throw exactly when the count exceeds
the number of cells reserved; then the entry is retired with length zero and no cell is
committed, otherwise exactly `count` cells are committed (now or when the fold reaches the
entry). -/
theorem C17_finish_push_throws_iff_excess (Q pa oa : Nat) (ops : List QueueOp)
    (id count n pos : Nat) (q : MemQueue) (hQ : 1 ≤ Q)
    (hpa : 1 ≤ pa) (hpa2 : pa < 4294967295) (hoa : 1 ≤ oa) (hoa2 : oa < 4294967295)
    (hq : q = queueRun (MemQueue.create Q pa oa) ops) (hout : PushOutstanding q id) :
    ((finishPushing q count id).2 = true
      ↔ (q.pushConcurEntries id).endPos - (q.pushConcurEntries id).startPos < count) ∧
    ((doPushing q n count id pos).2.threw = true
      ↔ (q.pushConcurEntries id).endPos - (q.pushConcurEntries id).startPos < count) ∧
    (finishPushing q count id).1.pushConcurEntries id
      = { startPos := (q.pushConcurEntries id).startPos,
          endPos := (q.pushConcurEntries id).startPos
            + (if (q.pushConcurEntries id).endPos - (q.pushConcurEntries id).startPos < count
               then 0 else count),
          processed := false } ∧
    (finishPushing q count id).1.writePos + pushPending (finishPushing q count id).1
      = q.writePos + pushPending q
        + (if (q.pushConcurEntries id).endPos - (q.pushConcurEntries id).startPos < count
           then 0 else count) ∧
    (doPushing q n count id pos).1.writePos + pushPending (doPushing q n count id pos).1
      = q.writePos + pushPending q
        + (if (q.pushConcurEntries id).endPos - (q.pushConcurEntries id).startPos < count
           then 0 else count) := by
  have hinv : QueueInv q := by
    rw [hq]
    exact queueRun_inv ops _ (create_inv Q pa oa hQ hpa hpa2 hoa hoa2)
  obtain ⟨e1, f, he1, _, hs, hst⟩ := finishPushingInt_state q hinv id count hout
  obtain ⟨b1, b2⟩ := doPushing_pending q hinv n count id pos hout
  have hpend := finishPushingInt_pending q hinv id count hout
  refine ⟨?_, ?_, ?_, hpend, ?_⟩
  · show (!(finishPushingInt q count id).2) = true ↔ _
    rw [hs]
    simp
  · rw [b1, hs]
    simp
  · show (finishPushingInt q count id).1.pushConcurEntries id = _
    rw [hst]
    show Function.update q.pushConcurEntries id e1 id = _
    rw [Function.update_same, he1]
    split_ifs <;> rfl
  · rw [b2, hpend]

theorem C17_finish_push_throws_iff_excess_witness :
    ∃ q : MemQueue, q = queueRun (MemQueue.create 4 2 2) [.pushBegin 3] ∧
      PushOutstanding q 0 ∧
      ((finishPushing q 5 0).2 = true
        ↔ (q.pushConcurEntries 0).endPos - (q.pushConcurEntries 0).startPos < 5) ∧
      ((doPushing q 1 5 0 0).2.threw = true
        ↔ (q.pushConcurEntries 0).endPos - (q.pushConcurEntries 0).startPos < 5) ∧
      (finishPushing q 5 0).1.pushConcurEntries 0
        = { startPos := (q.pushConcurEntries 0).startPos,
            endPos := (q.pushConcurEntries 0).startPos
              + (if (q.pushConcurEntries 0).endPos - (q.pushConcurEntries 0).startPos < 5
                 then 0 else 5),
            processed := false } ∧
      (finishPushing q 5 0).1.writePos + pushPending (finishPushing q 5 0).1
        = q.writePos + pushPending q
          + (if (q.pushConcurEntries 0).endPos - (q.pushConcurEntries 0).startPos < 5
             then 0 else 5) ∧
      (doPushing q 1 5 0 0).1.writePos + pushPending (doPushing q 1 5 0 0).1
        = q.writePos + pushPending q
          + (if (q.pushConcurEntries 0).endPos - (q.pushConcurEntries 0).startPos < 5
             then 0 else 5) :=
  ⟨_, rfl, by decide,
    C17_finish_push_throws_iff_excess 4 2 2 [.pushBegin 3] 0 5 1 0 _ (by decide) (by decide)
      (by decide) (by decide) (by decide) rfl (by decide)⟩

theorem finishPopConcur_flags (q : MemQueue) (id n : Nat) :
    (finishPopConcur q id n).1.closedQueue = q.closedQueue ∧
    (finishPopConcur q id n).1.concurPushes = q.concurPushes := by
  unfold finishPopConcur
  by_cases h : q.popConcurUsed = 0
  · rw [if_pos h]
    exact ⟨rfl, rfl⟩
  · rw [if_neg h]
    dsimp only
    split_ifs <;> exact ⟨rfl, rfl⟩

/-- Finishing a pop touches neither the close flags nor the count of pushes in flight. -/
theorem finishPoppingInt_flags (q : MemQueue) (n id : Nat) :
    (finishPoppingInt q n id).1.closedQueue = q.closedQueue ∧
    (finishPoppingInt q n id).1.concurPushes = q.concurPushes := by
  obtain ⟨f1, f2⟩ := finishPopConcur_flags q id n
  unfold finishPoppingInt
  generalize finishPopConcur q id n = r at f1 f2
  by_cases h : id ≠ CONCURID_NONE
  · rw [if_pos h]
    dsimp only
    split_ifs <;> exact ⟨f1, f2⟩
  · rw [if_neg h]
    exact ⟨rfl, rfl⟩

/-- An outstanding push is counted in `concurPushes`. -/
theorem pushOutstanding_pos (q : MemQueue) (hinv : QueueInv q) (id : Nat)
    (hout : PushOutstanding q id) : 1 ≤ q.concurPushes := by
  obtain ⟨hwin, hproc⟩ := hout
  obtain ⟨j0, hj0, hidj⟩ := (inWindow_iff _ _ _ _ hinv.pushStart_lt hinv.pushUsed_le).1 hwin
  have hget : (windowOf q.pushConcurAllocated q.pushConcurEntries q.pushConcurStart
      q.pushConcurUsed)[j0]? = some (q.pushConcurEntries id) := by
    rw [windowOf_getElem?, if_pos hj0, hidj]
  have hmem : q.pushConcurEntries id ∈ (windowOf q.pushConcurAllocated q.pushConcurEntries
      q.pushConcurStart q.pushConcurUsed).filter (fun e => e.processed) := by
    rw [List.mem_filter]
    exact ⟨List.mem_iff_getElem?.2 ⟨j0, hget⟩, hproc⟩
  rw [hinv.pushes]
  exact List.length_pos_of_mem hmem

/-- An outstanding pop keeps the read position below the write position. -/
theorem popOutstanding_lt (q : MemQueue) (hinv : QueueInv q) (id : Nat)
    (hout : PopOutstanding q id) : q.readPos < q.writePos := by
  obtain ⟨hwin, _⟩ := hout
  have hu : q.popConcurUsed ≠ 0 := by
    intro h
    have := hwin.2
    rw [h] at this
    omega
  obtain ⟨u, hu1⟩ := Nat.exists_eq_succ_of_ne_zero hu
  have hc := hinv.popChain
  rw [hu1, windowOf_succ _ _ _ _ hinv.popStart_lt (by have := hinv.popUsed_le; omega)] at hc
  obtain ⟨k, g1, g2, g3, g4, g5, g6, g7⟩ := hc
  have := popChain_le _ _ _ _ g7
  have := hinv.newRead_le
  omega

/-- In a closed ring with no push in flight a call of `doPushing` returns 0 and changes
nothing. -/
theorem doPushing_closed (q : MemQueue) (hc : q.closedQueue ≠ 0) (n pos : Nat) :
    doPushing q n 0 CONCURID_NONE pos
      = (q, { threw := false, taken := 0, id := CONCURID_NONE, queuePos := pos }) := by
  unfold doPushing finishPushingInt
  simp only [ne_eq, not_true_eq_false, if_false, Bool.not_eq_true, Bool.true_eq_false]
  rw [if_pos (Or.inr (Or.inl hc))]

/-- A step of a closed ring with no push in flight keeps it closed, with no push in flight. -/
theorem queueStep_closed (q : MemQueue) (hinv : QueueInv q) (hc : q.closedQueue ≠ 0)
    (hp : q.concurPushes = 0) (op : QueueOp) :
    (queueStep q op).closedQueue ≠ 0 ∧ (queueStep q op).concurPushes = 0 := by
  unfold queueStep
  by_cases hv : op.Valid q
  · rw [if_pos hv]
    cases op with
    | pushBegin n =>
      show (doPushing q n 0 CONCURID_NONE 0).1.closedQueue ≠ 0 ∧
        (doPushing q n 0 CONCURID_NONE 0).1.concurPushes = 0
      rw [doPushing_closed q hc]
      exact ⟨hc, hp⟩
    | pushFinish id count =>
      have := pushOutstanding_pos q hinv id hv
      omega
    | pushNext id count n =>
      have := pushOutstanding_pos q hinv id hv.1
      omega
    | popBegin n =>
      show (doPopping q n 0 CONCURID_NONE 0).1.closedQueue ≠ 0 ∧
        (doPopping q n 0 CONCURID_NONE 0).1.concurPushes = 0
      obtain ⟨f1, f2⟩ := finishPoppingInt_flags q 0 CONCURID_NONE
      unfold doPopping
      simp only
      split_ifs
      all_goals first
        | exact ⟨by rw [f1]; exact hc, by rw [f2]; exact hp⟩
        | exact ⟨by show (finishPoppingInt q 0 CONCURID_NONE).1.closedQueue ≠ 0
                    rw [f1]; exact hc,
                 by show (finishPoppingInt q 0 CONCURID_NONE).1.concurPushes = 0
                    rw [f2]; exact hp⟩
    | popFinish id count =>
      obtain ⟨f1, f2⟩ := finishPoppingInt_flags q count id
      exact ⟨by show (finishPoppingInt q count id).1.closedQueue ≠ 0
                rw [f1]; exact hc,
             by show (finishPoppingInt q count id).1.concurPushes = 0
                rw [f2]; exact hp⟩
    | popNext id count n =>
      show (doPopping q n count id 0).1.closedQueue ≠ 0 ∧
        (doPopping q n count id 0).1.concurPushes = 0
      obtain ⟨f1, f2⟩ := finishPoppingInt_flags q count id
      unfold doPopping
      simp only
      split_ifs
      all_goals first
        | exact ⟨by rw [f1]; exact hc, by rw [f2]; exact hp⟩
        | exact ⟨by show (finishPoppingInt q count id).1.closedQueue ≠ 0
                    rw [f1]; exact hc,
                 by show (finishPoppingInt q count id).1.concurPushes = 0
                    rw [f2]; exact hp⟩
    | close =>
      show q.close.closedQueue ≠ 0 ∧ q.close.concurPushes = 0
      unfold MemQueue.close
      rw [if_pos hc]
      exact ⟨hc, hp⟩
  · rw [if_neg hv]
    exact ⟨hc, hp⟩

theorem queueRun_closed (ops : List QueueOp) : ∀ (q : MemQueue), QueueInv q →
    q.closedQueue ≠ 0 → q.concurPushes = 0 →
    (queueRun q ops).closedQueue ≠ 0 ∧ (queueRun q ops).concurPushes = 0 := by
  induction ops with
  | nil => intro q _ hc hp; exact ⟨hc, hp⟩
  | cons op rest ih =>
    intro q h hc hp
    obtain ⟨a1, a2⟩ := queueStep_closed q h hc hp op
    exact ih _ (queueStep_inv q h op) a1 a2

/-- Closing a ring with no push in flight completes: the ring is closed. -/
theorem close_completes (q : MemQueue) (hinv : QueueInv q) (hp : q.concurPushes = 0) :
    q.close.closedQueue ≠ 0 ∧ q.close.concurPushes = 0 := by
  have hcn := hinv.notCancelled
  unfold MemQueue.close
  by_cases h1 : q.closedQueue ≠ 0
  · rw [if_pos h1]
    exact ⟨h1, hp⟩
  · rw [if_neg h1]
    simp only
    rw [if_neg (by rintro ⟨a, _⟩; exact a hp), if_neg (by
      rintro (a | a)
      · exact h1 a
      · exact a hcn)]
    exact ⟨by show (1 : Nat) ≠ 0; omega, hp⟩

/-- A `doPopping` in a closed and drained ring returns 0 and changes nothing. -/
theorem doPopping_drained (q : MemQueue) (hinv : QueueInv q) (hc : q.closedQueue ≠ 0)
    (hrw : q.readPos = q.writePos) (n pos : Nat) :
    doPopping q n 0 CONCURID_NONE pos
      = (q, { threw := false, taken := 0, id := CONCURID_NONE, queuePos := pos }) := by
  have hu : q.popConcurUsed = 0 := by
    by_contra hne
    obtain ⟨u, hu1⟩ := Nat.exists_eq_succ_of_ne_zero hne
    have hcn := hinv.popChain
    rw [hu1, windowOf_succ _ _ _ _ hinv.popStart_lt (by have := hinv.popUsed_le; omega)] at hcn
    obtain ⟨k, g1, g2, g3, g4, g5, g6, g7⟩ := hcn
    have := popChain_le _ _ _ _ g7
    have := hinv.newRead_le
    omega
  unfold doPopping finishPoppingInt
  simp only [ne_eq, not_true_eq_false, if_false, Bool.not_eq_true, Bool.true_eq_false]
  rw [if_pos (Or.inr ⟨hc, hu, hrw⟩)]

/-- A `doPopping` without a previous reservation that finds committed cells and a free slot
grants as many cells as asked for, up to the committed ones. -/
theorem doPopping_grants (q : MemQueue) (hinv : QueueInv q) (n pos : Nat)
    (hav : q.newReadPos < q.writePos) (hslot : q.popConcurUsed < q.popConcurAllocated) :
    (doPopping q n 0 CONCURID_NONE pos).2
      = { threw := false, taken := min n (q.writePos - q.newReadPos),
          id := ringPos q.popConcurAllocated (q.popConcurStart + q.popConcurUsed),
          queuePos := ringPos q.queueSize q.newReadPos } := by
  have hcn := hinv.notCancelled
  have h1 := hinv.read_le
  unfold doPopping finishPoppingInt
  simp only [ne_eq, not_true_eq_false, if_false, Bool.not_eq_true, Bool.true_eq_false]
  rw [if_neg (by
    rintro (a | ⟨_, _, a⟩)
    · exact a hcn
    · omega), if_neg (by
    rintro (a | a)
    · omega
    · omega)]
  rfl

/-- C18: after `close()` has completed in a state with no push in flight, in every state
reached later the ring is closed, `doPushing` returns 0 and changes nothing, no push
reservation is outstanding, `doPopping` grants `min n (writePos - newReadPos)` committed
cells while some are left and a slot is free, and once `readPos = writePos` it returns 0 and
no call changes the state any more. -/
theorem C18_closed_ring_drains (Q pa oa : Nat) (ops ops2 : List QueueOp) (q : MemQueue)
    (hQ : 1 ≤ Q)
    (hpa : 1 ≤ pa) (hpa2 : pa < 4294967295) (hoa : 1 ≤ oa) (hoa2 : oa < 4294967295)
    (hflight : (queueRun (MemQueue.create Q pa oa) ops).concurPushes = 0)
    (hq : q = queueRun (queueRun (MemQueue.create Q pa oa) ops).close ops2) :
    q.closedQueue ≠ 0 ∧
    (∀ n pos, doPushing q n 0 CONCURID_NONE pos
      = (q, { threw := false, taken := 0, id := CONCURID_NONE, queuePos := pos })) ∧
    (∀ id, ¬ PushOutstanding q id) ∧
    (∀ n pos, 1 ≤ n → q.newReadPos < q.writePos → q.popConcurUsed < q.popConcurAllocated →
      (doPopping q n 0 CONCURID_NONE pos).2
        = { threw := false, taken := min n (q.writePos - q.newReadPos),
            id := ringPos q.popConcurAllocated (q.popConcurStart + q.popConcurUsed),
            queuePos := ringPos q.queueSize q.newReadPos }) ∧
    (q.readPos = q.writePos →
      (∀ n pos, doPopping q n 0 CONCURID_NONE pos
        = (q, { threw := false, taken := 0, id := CONCURID_NONE, queuePos := pos })) ∧
      ∀ op, queueStep q op = q) := by
  have hinv0 := queueRun_inv ops _ (create_inv Q pa oa hQ hpa hpa2 hoa hoa2)
  obtain ⟨c1, c2⟩ := close_completes _ hinv0 hflight
  have hinvc := close_inv _ hinv0
  have hinv : QueueInv q := by
    rw [hq]
    exact queueRun_inv ops2 _ hinvc
  obtain ⟨hc, hp⟩ : q.closedQueue ≠ 0 ∧ q.concurPushes = 0 := by
    rw [hq]
    exact queueRun_closed ops2 _ hinvc c1 c2
  have hno : ∀ id, ¬ PushOutstanding q id := by
    intro id hout
    have := pushOutstanding_pos q hinv id hout
    omega
  refine ⟨hc, doPushing_closed q hc, hno,
    fun n pos _ hav hslot => doPopping_grants q hinv n pos hav hslot, ?_⟩
  intro hrw
  refine ⟨doPopping_drained q hinv hc hrw, ?_⟩
  intro op
  unfold queueStep
  by_cases hv : op.Valid q
  · rw [if_pos hv]
    cases op with
    | pushBegin n =>
      show (doPushing q n 0 CONCURID_NONE 0).1 = q
      rw [doPushing_closed q hc]
    | pushFinish id count => exact absurd hv (hno id)
    | pushNext id count n => exact absurd hv.1 (hno id)
    | popBegin n =>
      show (doPopping q n 0 CONCURID_NONE 0).1 = q
      rw [doPopping_drained q hinv hc hrw]
    | popFinish id count =>
      have := popOutstanding_lt q hinv id hv
      omega
    | popNext id count n =>
      have := popOutstanding_lt q hinv id hv.1
      omega
    | close =>
      show q.close = q
      unfold MemQueue.close
      rw [if_pos hc]
  · rw [if_neg hv]

theorem C18_closed_ring_drains_witness :
    ∃ q : MemQueue,
      q = queueRun (queueRun (MemQueue.create 4 1 1) [.pushBegin 2, .pushFinish 0 2]).close
        [.popBegin 1] ∧
      q.closedQueue ≠ 0 ∧
      (∀ n pos, doPushing q n 0 CONCURID_NONE pos
        = (q, { threw := false, taken := 0, id := CONCURID_NONE, queuePos := pos })) ∧
      (∀ id, ¬ PushOutstanding q id) ∧
      (∀ n pos, 1 ≤ n → q.newReadPos < q.writePos → q.popConcurUsed < q.popConcurAllocated →
        (doPopping q n 0 CONCURID_NONE pos).2
          = { threw := false, taken := min n (q.writePos - q.newReadPos),
              id := ringPos q.popConcurAllocated (q.popConcurStart + q.popConcurUsed),
              queuePos := ringPos q.queueSize q.newReadPos }) ∧
      (q.readPos = q.writePos →
        (∀ n pos, doPopping q n 0 CONCURID_NONE pos
          = (q, { threw := false, taken := 0, id := CONCURID_NONE, queuePos := pos })) ∧
        ∀ op, queueStep q op = q) :=
  ⟨_, rfl,
    C18_closed_ring_drains 4 1 1 [.pushBegin 2, .pushFinish 0 2] [.popBegin 1] _ (by decide)
      (by decide) (by decide) (by decide) (by decide) (by decide) rfl⟩

theorem toU64_cast (x : Int) : ((toU64 x : Nat) : Int) = x % 18446744073709551616 := by
  unfold toU64
  exact Int.toNat_of_nonneg (Int.emod_nonneg _ (by decide))

theorem toU64_lt (x : Int) : toU64 x < 18446744073709551616 := by
  have h := toU64_cast x
  have := Int.emod_lt_of_pos x (show (0 : Int) < 18446744073709551616 by decide)
  omega

theorem wrap64_range (a : Int) :
    -9223372036854775808 ≤ wrap64 a ∧ wrap64 a < 9223372036854775808 := by
  unfold wrap64; omega

/-- C21: `Int128::operator+=` and `operator-=` (with `Int128`, `guint64` and `gint64`
operands) and the unary minus compute, on the `(lo, hi)` pairs, the sum, the difference and
the negation modulo `2^128` of the represented values, and leave a well-formed pair. -/
theorem C21_int128_add_sub_neg (a x : Int128) (u : Nat) (s : Int) (ha : a.WF) (hx : x.WF)
    (hu : u < 18446744073709551616)
    (hs : -9223372036854775808 ≤ s ∧ s < 9223372036854775808) :
    ((a.addAssign x).WF ∧ (a.addAssign x).val = wrap128 (a.val + x.val)) ∧
    ((a.addAssignU64 u).WF ∧ (a.addAssignU64 u).val = wrap128 (a.val + u)) ∧
    ((a.addAssignI64 s).WF ∧ (a.addAssignI64 s).val = wrap128 (a.val + s)) ∧
    ((a.subAssign x).WF ∧ (a.subAssign x).val = wrap128 (a.val - x.val)) ∧
    ((a.subAssignU64 u).WF ∧ (a.subAssignU64 u).val = wrap128 (a.val - u)) ∧
    ((a.subAssignI64 s).WF ∧ (a.subAssignI64 s).val = wrap128 (a.val - s)) ∧
    (a.neg.WF ∧ a.neg.val = wrap128 (-a.val)) := by
  obtain ⟨a1, a2, a3⟩ := ha
  obtain ⟨x1, x2, x3⟩ := hx
  obtain ⟨s1, s2⟩ := hs
  have hsc := toU64_cast s
  refine ⟨?_, ?_, ?_, ?_, ?_, ?_, ?_⟩
  · unfold Int128.addAssign Int128.WF Int128.val wrap128 wrap64 boolInt
    simp only
    split_ifs <;> simp only [decide_eq_true_eq] at * <;> omega
  · unfold Int128.addAssignU64 Int128.WF Int128.val wrap128 wrap64 boolInt
    simp only
    split_ifs <;> simp only [decide_eq_true_eq] at * <;> omega
  · unfold Int128.addAssignI64 Int128.WF Int128.val wrap128 wrap64 boolInt
    simp only
    split_ifs <;> simp only [decide_eq_true_eq] at * <;> omega
  · unfold Int128.subAssign Int128.WF Int128.val wrap128 wrap64 boolInt
    simp only
    split_ifs <;> simp only [decide_eq_true_eq] at * <;> omega
  · unfold Int128.subAssignU64 Int128.WF Int128.val wrap128 wrap64 boolInt
    simp only
    split_ifs <;> simp only [decide_eq_true_eq] at * <;> omega
  · unfold Int128.subAssignI64 Int128.WF Int128.val wrap128 wrap64 boolInt
    simp only
    split_ifs <;> simp only [decide_eq_true_eq] at * <;> omega
  · unfold Int128.neg Int128.WF Int128.val wrap128 wrap64 boolInt
    simp only
    split_ifs <;> simp only [decide_eq_true_eq] at * <;> omega

theorem pow_split64 (x : Nat) (hx : x ≤ 64) : 2 ^ (64 - x) * 2 ^ x = 18446744073709551616 := by
  rw [← pow_add, Nat.sub_add_cancel hx]
  norm_num

theorem shl_mod64 (n x : Nat) (hx : x ≤ 64) :
    (n <<< x) % 18446744073709551616 = (n % 2 ^ (64 - x)) * 2 ^ x := by
  rw [Nat.shiftLeft_eq, ← pow_split64 x hx]
  exact Nat.mul_mod_mul_right _ _ _

theorem or_eq_add_of_lt (k r j : Nat) (hr : r < 2 ^ j) : (k * 2 ^ j) ||| r = k * 2 ^ j + r := by
  rw [Nat.mul_comm]
  exact (Nat.mul_add_lt_is_or hr k).symm

theorem ediv_eq_of (a b q r : Int) (hb : 0 < b) (h : r + b * q = a) (h0 : 0 ≤ r) (h1 : r < b) :
    a / b = q :=
  ((Int.ediv_emod_unique hb).2 ⟨h, h0, h1⟩).1

theorem wrap128_eq_of (z w : Int) (k : Int) (h : w = z + 340282366920938463463374607431768211456 * k)
    (hr : IsInt128 w) : w = wrap128 z := by
  unfold IsInt128 at hr
  unfold wrap128
  omega

theorem isInt128_pair (w p : Int) (h1 : -9223372036854775808 ≤ w) (h2 : w < 9223372036854775808)
    (h3 : 0 ≤ p) (h4 : p < 18446744073709551616) :
    IsInt128 (w * 18446744073709551616 + p) := by
  unfold IsInt128
  omega

/-- `v << x` for `0 < x < 64`. -/
theorem shlAssign_lt64 (v : Int128) (x : Nat) (hv : v.WF) (h0 : x ≠ 0) (hx : x < 64) :
    (v.shlAssign x).WF ∧ (v.shlAssign x).val = wrap128 (v.val * 2 ^ x) := by
  obtain ⟨v1, v2, v3⟩ := hv
  have hU := toU64_cast v.hi
  have hAB := pow_split64 x (by omega)
  have hApos : 0 < 2 ^ x := Nat.two_pow_pos _
  have hBpos : 0 < 2 ^ (64 - x) := Nat.two_pow_pos _
  have hq1 : v.lo / 2 ^ (64 - x) < 2 ^ x := by
    apply Nat.div_lt_of_lt_mul
    rw [hAB]
    exact v1
  have e1 := Nat.div_add_mod v.lo (2 ^ (64 - x))
  have e2 := Nat.div_add_mod (toU64 v.hi) (2 ^ (64 - x))
  have hr1 := Nat.mod_lt v.lo hBpos
  have hr2 := Nat.mod_lt (toU64 v.hi) hBpos
  have hlo := shl_mod64 v.lo x (by omega)
  have hhi : ((toU64 v.hi <<< x) % 18446744073709551616) ||| (v.lo >>> (64 - x))
      = (toU64 v.hi % 2 ^ (64 - x)) * 2 ^ x + v.lo / 2 ^ (64 - x) := by
    rw [shl_mod64 _ x (by omega), Nat.shiftRight_eq_div_pow]
    exact or_eq_add_of_lt _ _ _ hq1
  -- bounds on the products
  have p1 : (v.lo % 2 ^ (64 - x)) * 2 ^ x + 2 ^ x ≤ 18446744073709551616 := by
    rw [← hAB]
    calc (v.lo % 2 ^ (64 - x)) * 2 ^ x + 2 ^ x = (v.lo % 2 ^ (64 - x) + 1) * 2 ^ x := by ring
      _ ≤ 2 ^ (64 - x) * 2 ^ x := Nat.mul_le_mul_right _ hr1
  have p2 : (toU64 v.hi % 2 ^ (64 - x)) * 2 ^ x + 2 ^ x ≤ 18446744073709551616 := by
    rw [← hAB]
    calc (toU64 v.hi % 2 ^ (64 - x)) * 2 ^ x + 2 ^ x
        = (toU64 v.hi % 2 ^ (64 - x) + 1) * 2 ^ x := by ring
      _ ≤ 2 ^ (64 - x) * 2 ^ x := Nat.mul_le_mul_right _ hr2
  unfold Int128.shlAssign
  rw [if_neg h0, if_pos hx]
  simp only
  rw [hlo, hhi]
  unfold Int128.WF Int128.val toI64
  simp only
  have hA : ((2 : Int) ^ x) = ((2 ^ x : Nat) : Int) := by push_cast; rfl
  rw [hA]
  clear hlo hhi hA
  generalize v.lo / 2 ^ (64 - x) = q1 at *
  generalize v.lo % 2 ^ (64 - x) = r1 at *
  generalize toU64 v.hi / 2 ^ (64 - x) = q2 at *
  generalize toU64 v.hi % 2 ^ (64 - x) = r2 at *
  generalize 2 ^ (64 - x) = B at *
  generalize 2 ^ x = A at *
  generalize toU64 v.hi = U at *
  generalize v.lo = L at *
  generalize v.hi = H at *
  have hw := wrap64_range (((r2 * A + q1 : Nat) : Int))
  have hlt1 : r1 * A < 18446744073709551616 := by omega
  refine ⟨⟨hlt1, hw.1, hw.2⟩, ?_⟩
  obtain ⟨c, hc⟩ : ∃ c : Int, H = (U : Int) + 18446744073709551616 * c :=
    ⟨H / 18446744073709551616, by rw [hU]; omega⟩
  obtain ⟨d, hd⟩ : ∃ d : Int, wrap64 (((r2 * A + q1 : Nat) : Int))
      = ((r2 * A + q1 : Nat) : Int) + 18446744073709551616 * d := by
    refine ⟨-((((r2 * A + q1 : Nat) : Int) + 9223372036854775808) / 18446744073709551616), ?_⟩
    unfold wrap64
    omega
  have hABz : (B : Int) * A = 18446744073709551616 := by exact_mod_cast hAB
  have e1z : (B : Int) * q1 + r1 = L := by exact_mod_cast e1
  have e2z : (B : Int) * q2 + r2 = U := by exact_mod_cast e2
  apply wrap128_eq_of _ _ (d - q2 - c * A)
  · rw [hd]
    push_cast
    linear_combination (-(18446744073709551616 : Int) * A) * hc
      + (A : Int) * e1z + ((18446744073709551616 : Int) * A) * e2z
      - ((18446744073709551616 : Int) * q2 + q1) * hABz
  · exact isInt128_pair _ _ hw.1 hw.2 (Int.natCast_nonneg _) (by exact_mod_cast hlt1)

theorem pow_two_cast (x : Nat) : ((2 : Int) ^ x) = ((2 ^ x : Nat) : Int) := by
  push_cast; rfl

/-- `v << x` for `64 ≤ x < 128`. -/
theorem shlAssign_lt128 (v : Int128) (x : Nat) (hv : v.WF) (h64 : 64 ≤ x) (hx : x < 128) :
    (v.shlAssign x).WF ∧ (v.shlAssign x).val = wrap128 (v.val * 2 ^ x) := by
  obtain ⟨v1, v2, v3⟩ := hv
  have hAB := pow_split64 (x - 64) (by omega)
  have e1 := Nat.div_add_mod v.lo (2 ^ (64 - (x - 64)))
  have hr1 := Nat.mod_lt v.lo (Nat.two_pow_pos (64 - (x - 64)))
  have hlo := shl_mod64 v.lo (x - 64) (by omega)
  have p1 : (v.lo % 2 ^ (64 - (x - 64))) * 2 ^ (x - 64) + 2 ^ (x - 64)
      ≤ 18446744073709551616 := by
    rw [← hAB]
    calc (v.lo % 2 ^ (64 - (x - 64))) * 2 ^ (x - 64) + 2 ^ (x - 64)
        = (v.lo % 2 ^ (64 - (x - 64)) + 1) * 2 ^ (x - 64) := by ring
      _ ≤ 2 ^ (64 - (x - 64)) * 2 ^ (x - 64) := Nat.mul_le_mul_right _ hr1
  have hpx : ((2 : Int) ^ x) = 18446744073709551616 * ((2 ^ (x - 64) : Nat) : Int) := by
    have : x = 64 + (x - 64) := by omega
    conv_lhs => rw [this, pow_add]
    rw [pow_two_cast (x - 64)]
    norm_num
  unfold Int128.shlAssign
  rw [if_neg (by omega), if_neg (by omega), if_pos hx]
  rw [hlo, hpx]
  unfold Int128.WF Int128.val toI64
  simp only
  clear hlo hpx
  generalize v.lo / 2 ^ (64 - (x - 64)) = q1 at *
  generalize v.lo % 2 ^ (64 - (x - 64)) = r1 at *
  generalize 2 ^ (64 - (x - 64)) = B at *
  generalize 2 ^ (x - 64) = A at *
  generalize v.lo = L at *
  generalize v.hi = H at *
  have hw := wrap64_range (((r1 * A : Nat) : Int))
  refine ⟨⟨by norm_num, hw.1, hw.2⟩, ?_⟩
  obtain ⟨d, hd⟩ : ∃ d : Int, wrap64 (((r1 * A : Nat) : Int))
      = ((r1 * A : Nat) : Int) + 18446744073709551616 * d := by
    refine ⟨-((((r1 * A : Nat) : Int) + 9223372036854775808) / 18446744073709551616), ?_⟩
    unfold wrap64
    omega
  have hABz : (B : Int) * A = 18446744073709551616 := by exact_mod_cast hAB
  have e1z : (B : Int) * q1 + r1 = L := by exact_mod_cast e1
  apply wrap128_eq_of _ _ (d - q1 - H * A)
  · rw [hd]
    push_cast
    linear_combination ((18446744073709551616 : Int) * A) * e1z
      - ((18446744073709551616 : Int) * q1) * hABz
  · have := isInt128_pair _ 0 hw.1 hw.2 (le_refl _) (by norm_num)
    simpa using this

/-- `v << x` for `x ≥ 128`. -/
theorem shlAssign_ge128 (v : Int128) (x : Nat) (h128 : 128 ≤ x) :
    (v.shlAssign x).WF ∧ (v.shlAssign x).val = wrap128 (v.val * 2 ^ x) := by
  have hpx : ((2 : Int) ^ x)
      = 340282366920938463463374607431768211456 * ((2 ^ (x - 128) : Nat) : Int) := by
    have : x = 128 + (x - 128) := by omega
    conv_lhs => rw [this, pow_add]
    rw [pow_two_cast (x - 128)]
    norm_num
  unfold Int128.shlAssign
  rw [if_neg (by omega), if_neg (by omega), if_neg (by omega), hpx]
  unfold Int128.WF Int128.val
  simp only
  refine ⟨by norm_num, ?_⟩
  apply wrap128_eq_of _ _ (-(v.hi * 18446744073709551616 + v.lo) * ((2 ^ (x - 128) : Nat) : Int))
  · ring
  · unfold IsInt128; norm_num

theorem ediv_pow_range (H : Int) (A : Nat) (hA : 0 < A) (h1 : -9223372036854775808 ≤ H)
    (h2 : H < 9223372036854775808) :
    -9223372036854775808 ≤ H / (A : Int) ∧ H / (A : Int) < 9223372036854775808 ∧
      (H / (A : Int) < 0 ↔ H < 0) := by
  have hApos : (0 : Int) < A := by exact_mod_cast hA
  have a1 := Int.ediv_mul_le H (ne_of_gt hApos)
  have a2 := Int.lt_ediv_add_one_mul_self H hApos
  generalize H / (A : Int) = q at *
  have hA1 : (1 : Int) ≤ A := hApos
  refine ⟨?_, ?_, ?_, ?_⟩
  · by_contra hc
    push_neg at hc
    have : (q + 1) * A ≤ (-9223372036854775808) * 1 := by nlinarith
    omega
  · by_contra hc
    push_neg at hc
    have : 9223372036854775808 * 1 ≤ q * (A : Int) := by nlinarith
    omega
  · intro hq
    by_contra hc
    push_neg at hc
    have : (q + 1) * (A : Int) ≤ 0 := by nlinarith
    omega
  · intro hH
    by_contra hc
    push_neg at hc
    have : 0 ≤ q * (A : Int) := by nlinarith
    omega

/-- `v >> x` for `0 < x < 64`. -/
theorem shrAssign_lt64 (v : Int128) (x : Nat) (hv : v.WF) (h0 : x ≠ 0) (hx : x < 64) :
    (v.shrAssign x).WF ∧ (v.shrAssign x).val = v.val / 2 ^ x := by
  obtain ⟨v1, v2, v3⟩ := hv
  have hU := toU64_cast v.hi
  have hAB := pow_split64 x (by omega)
  have hApos : 0 < 2 ^ x := Nat.two_pow_pos _
  have hxx : 64 - (64 - x) = x := by omega
  have hlo : (toU64 v.hi <<< (64 - x)) % 18446744073709551616
      = (toU64 v.hi % 2 ^ x) * 2 ^ (64 - x) := by
    have := shl_mod64 (toU64 v.hi) (64 - x) (by omega)
    rw [hxx] at this
    exact this
  have hq1 : v.lo / 2 ^ x < 2 ^ (64 - x) := by
    apply Nat.div_lt_of_lt_mul
    rw [Nat.mul_comm, hAB]
    exact v1
  have hor : (v.lo >>> x) ||| ((toU64 v.hi % 2 ^ x) * 2 ^ (64 - x))
      = (toU64 v.hi % 2 ^ x) * 2 ^ (64 - x) + v.lo / 2 ^ x := by
    rw [Nat.shiftRight_eq_div_pow, Nat.lor_comm]
    exact or_eq_add_of_lt _ _ _ hq1
  have e1 := Nat.div_add_mod v.lo (2 ^ x)
  have hr1 := Nat.mod_lt v.lo hApos
  have hr2 := Nat.mod_lt (toU64 v.hi) hApos
  have p2 : (toU64 v.hi % 2 ^ x) * 2 ^ (64 - x) + 2 ^ (64 - x) ≤ 18446744073709551616 := by
    rw [← hAB]
    calc (toU64 v.hi % 2 ^ x) * 2 ^ (64 - x) + 2 ^ (64 - x)
        = 2 ^ (64 - x) * (toU64 v.hi % 2 ^ x + 1) := by ring
      _ ≤ 2 ^ (64 - x) * 2 ^ x := Nat.mul_le_mul_left _ hr2
  have hABz : ((2 ^ (64 - x) : Nat) : Int) * ((2 ^ x : Nat) : Int) = 18446744073709551616 := by
    exact_mod_cast hAB
  have hmod : ((toU64 v.hi % 2 ^ x : Nat) : Int) = v.hi % ((2 ^ x : Nat) : Int) := by
    push_cast
    rw [hU]
    apply Int.emod_emod_of_dvd
    exact ⟨((2 ^ (64 - x) : Nat) : Int), by rw [← hABz]; push_cast; ring⟩
  have hrange := ediv_pow_range v.hi (2 ^ x) hApos v2 v3
  have hdm := Int.ediv_add_emod v.hi ((2 ^ x : Nat) : Int)
  rw [← hmod] at hdm
  unfold Int128.shrAssign
  rw [if_neg h0, if_pos hx]
  simp only
  rw [hlo, hor, pow_two_cast x]
  unfold Int128.WF Int128.val
  simp only
  clear hlo hor hmod hU
  generalize v.hi / ((2 ^ x : Nat) : Int) = qh at *
  generalize toU64 v.hi % 2 ^ x = rh at *
  generalize v.lo / 2 ^ x = q1 at *
  generalize v.lo % 2 ^ x = r1 at *
  generalize 2 ^ (64 - x) = B at *
  generalize 2 ^ x = A at *
  generalize v.lo = L at *
  generalize v.hi = H at *
  refine ⟨⟨by omega, hrange.1, hrange.2.1⟩, ?_⟩
  have e1z : (A : Int) * q1 + r1 = L := by exact_mod_cast e1
  symm
  apply ediv_eq_of _ _ _ (r1 : Int) (by exact_mod_cast hApos)
  · push_cast
    linear_combination e1z + (18446744073709551616 : Int) * hdm + (rh : Int) * hABz
  · exact Int.natCast_nonneg _
  · exact_mod_cast hr1

/-- `v >> x` for `64 ≤ x < 128`. -/
theorem shrAssign_lt128 (v : Int128) (x : Nat) (hv : v.WF) (h64 : 64 ≤ x) (hx : x < 128) :
    (v.shrAssign x).WF ∧ (v.shrAssign x).val = v.val / 2 ^ x := by
  obtain ⟨v1, v2, v3⟩ := hv
  have hApos : 0 < 2 ^ (x - 64) := Nat.two_pow_pos _
  have hrange := ediv_pow_range v.hi (2 ^ (x - 64)) hApos v2 v3
  have hdm := Int.ediv_add_emod v.hi ((2 ^ (x - 64) : Nat) : Int)
  have hm0 := Int.emod_nonneg v.hi (show ((2 ^ (x - 64) : Nat) : Int) ≠ 0 by
    exact_mod_cast (ne_of_gt hApos))
  have hm1 := Int.emod_lt_of_pos v.hi (show (0 : Int) < ((2 ^ (x - 64) : Nat) : Int) by
    exact_mod_cast hApos)
  have hpx : ((2 : Int) ^ x) = 18446744073709551616 * ((2 ^ (x - 64) : Nat) : Int) := by
    have : x = 64 + (x - 64) := by omega
    conv_lhs => rw [this, pow_add]
    rw [pow_two_cast (x - 64)]
    norm_num
  have hApz : (0 : Int) < ((2 ^ (x - 64) : Nat) : Int) := by exact_mod_cast hApos
  unfold Int128.shrAssign
  rw [if_neg (by omega), if_neg (by omega), if_pos hx, hpx, pow_two_cast (x - 64)]
  unfold Int128.WF Int128.val
  simp only
  have hc := toU64_cast (v.hi / ((2 ^ (x - 64) : Nat) : Int))
  have hl := toU64_lt (v.hi / ((2 ^ (x - 64) : Nat) : Int))
  generalize toU64 (v.hi / ((2 ^ (x - 64) : Nat) : Int)) = lo2 at *
  generalize v.hi / ((2 ^ (x - 64) : Nat) : Int) = d at *
  generalize v.hi % ((2 ^ (x - 64) : Nat) : Int) = rh at *
  generalize ((2 ^ (x - 64) : Nat) : Int) = A at *
  generalize v.lo = L at *
  generalize v.hi = H at *
  obtain ⟨g1, g2, g3⟩ := hrange
  have h63 : (2 : Int) ^ 63 = 9223372036854775808 := by norm_num
  rw [h63]
  refine ⟨⟨hl, by omega, by omega⟩, ?_⟩
  have hval : H / 9223372036854775808 * 18446744073709551616 + (lo2 : Int) = d := by omega
  rw [hval]
  symm
  apply ediv_eq_of _ _ _ (rh * 18446744073709551616 + L)
  · have := Int.mul_pos (show (0 : Int) < 18446744073709551616 by norm_num) hApz
    exact this
  · linear_combination (18446744073709551616 : Int) * hdm
  · have : (0 : Int) ≤ rh * 18446744073709551616 := by positivity
    omega
  · have h3 : rh + 1 ≤ A := hm1
    have : (rh + 1) * 18446744073709551616 ≤ A * 18446744073709551616 :=
      Int.mul_le_mul_of_nonneg_right h3 (by norm_num)
    have h4 : (L : Int) < 18446744073709551616 := by exact_mod_cast v1
    linarith

/-- `v >> x` for `x ≥ 128`. -/
theorem shrAssign_ge128 (v : Int128) (x : Nat) (hv : v.WF) (h128 : 128 ≤ x) :
    (v.shrAssign x).WF ∧ (v.shrAssign x).val = v.val / 2 ^ x ∧
      (v.shrAssign x).val = if v.val < 0 then -1 else 0 := by
  obtain ⟨v1, v2, v3⟩ := hv
  have hpx : (340282366920938463463374607431768211456 : Int) ≤ (2 : Int) ^ x := by
    have : (340282366920938463463374607431768211456 : Int) = 2 ^ 128 := by norm_num
    rw [this]
    exact pow_le_pow_right₀ (by norm_num) h128
  unfold Int128.shrAssign
  rw [if_neg (by omega), if_neg (by omega), if_neg (by omega)]
  unfold Int128.WF Int128.val
  simp only
  have hc := toU64_cast (v.hi / 2 ^ 63)
  have hl := toU64_lt (v.hi / 2 ^ 63)
  generalize toU64 (v.hi / 2 ^ 63) = lo2 at *
  have h63 : v.hi / 2 ^ 63 = v.hi / 9223372036854775808 := by norm_num
  rw [h63] at hc ⊢
  generalize (2 : Int) ^ x = P at *
  generalize v.lo = L at *
  generalize v.hi = H at *
  refine ⟨⟨hl, by omega, by omega⟩, ?_⟩
  by_cases hneg : H < 0
  · have hvneg : H * 18446744073709551616 + (L : Int) < 0 := by omega
    rw [if_pos hvneg]
    have hval : H / 9223372036854775808 * 18446744073709551616 + (lo2 : Int) = -1 := by omega
    rw [hval]
    refine ⟨?_, rfl⟩
    symm
    apply ediv_eq_of _ _ _ (H * 18446744073709551616 + L + P) (by omega) (by ring) (by omega)
      (by omega)
  · have hvpos : ¬ (H * 18446744073709551616 + (L : Int) < 0) := by omega
    rw [if_neg hvpos]
    have hval : H / 9223372036854775808 * 18446744073709551616 + (lo2 : Int) = 0 := by omega
    rw [hval]
    refine ⟨?_, rfl⟩
    symm
    apply ediv_eq_of _ _ _ (H * 18446744073709551616 + L) (by omega) (by ring) (by omega)
      (by omega)

/-- C22: for every well-formed `Int128` and every shift count `x ≥ 0`, `v << x` represents
`v * 2^x` modulo `2^128` and `v >> x` represents `floor(v / 2^x)`; a shift by 0 returns the
operand, a shift by 128 or more gives zero and the sign fill `-1` or `0`. -/
theorem C22_int128_shifts (v : Int128) (x : Nat) (hv : v.WF) :
    ((v.shlAssign x).WF ∧ (v.shlAssign x).val = wrap128 (v.val * 2 ^ x)) ∧
    ((v.shrAssign x).WF ∧ (v.shrAssign x).val = v.val / 2 ^ x) ∧
    v.shlAssign 0 = v ∧ v.shrAssign 0 = v ∧
    (128 ≤ x → v.shlAssign x = { lo := 0, hi := 0 } ∧
      (v.shrAssign x).val = if v.val < 0 then -1 else 0) := by
  have hrange : IsInt128 v.val := by
    obtain ⟨v1, v2, v3⟩ := hv
    exact isInt128_pair _ _ v2 v3 (Int.natCast_nonneg _) (by exact_mod_cast v1)
  refine ⟨?_, ?_, rfl, rfl, ?_⟩
  · by_cases h0 : x = 0
    · subst h0
      refine ⟨hv, ?_⟩
      show v.val = wrap128 (v.val * 2 ^ 0)
      rw [pow_zero, mul_one, wrap128_of_range _ hrange]
    · by_cases h1 : x < 64
      · exact shlAssign_lt64 v x hv h0 h1
      · by_cases h2 : x < 128
        · exact shlAssign_lt128 v x hv (by omega) h2
        · exact shlAssign_ge128 v x (by omega)
  · by_cases h0 : x = 0
    · subst h0
      refine ⟨hv, ?_⟩
      show v.val = v.val / 2 ^ 0
      rw [pow_zero, Int.ediv_one]
    · by_cases h1 : x < 64
      · exact shrAssign_lt64 v x hv h0 h1
      · by_cases h2 : x < 128
        · exact shrAssign_lt128 v x hv (by omega) h2
        · obtain ⟨a, b, _⟩ := shrAssign_ge128 v x hv (by omega)
          exact ⟨a, b⟩
  · intro h128
    refine ⟨?_, (shrAssign_ge128 v x hv h128).2.2⟩
    unfold Int128.shlAssign
    rw [if_neg (by omega), if_neg (by omega), if_neg (by omega)]

theorem C21_int128_add_sub_neg_witness :
    (((({ lo := 18446744073709551615, hi := 0 } : Int128).addAssign
        { lo := 1, hi := -1 }).WF ∧
      (({ lo := 18446744073709551615, hi := 0 } : Int128).addAssign { lo := 1, hi := -1 }).val
        = wrap128 (({ lo := 18446744073709551615, hi := 0 } : Int128).val
            + ({ lo := 1, hi := -1 } : Int128).val)) ∧
    ((({ lo := 18446744073709551615, hi := 0 } : Int128).addAssignU64
        18446744073709551615).WF ∧
      (({ lo := 18446744073709551615, hi := 0 } : Int128).addAssignU64
        18446744073709551615).val
        = wrap128 (({ lo := 18446744073709551615, hi := 0 } : Int128).val
            + (18446744073709551615 : Nat))) ∧
    ((({ lo := 18446744073709551615, hi := 0 } : Int128).addAssignI64 (-1)).WF ∧
      (({ lo := 18446744073709551615, hi := 0 } : Int128).addAssignI64 (-1)).val
        = wrap128 (({ lo := 18446744073709551615, hi := 0 } : Int128).val + (-1))) ∧
    ((({ lo := 18446744073709551615, hi := 0 } : Int128).subAssign { lo := 1, hi := -1 }).WF ∧
      (({ lo := 18446744073709551615, hi := 0 } : Int128).subAssign { lo := 1, hi := -1 }).val
        = wrap128 (({ lo := 18446744073709551615, hi := 0 } : Int128).val
            - ({ lo := 1, hi := -1 } : Int128).val)) ∧
    ((({ lo := 18446744073709551615, hi := 0 } : Int128).subAssignU64
        18446744073709551615).WF ∧
      (({ lo := 18446744073709551615, hi := 0 } : Int128).subAssignU64
        18446744073709551615).val
        = wrap128 (({ lo := 18446744073709551615, hi := 0 } : Int128).val
            - (18446744073709551615 : Nat))) ∧
    ((({ lo := 18446744073709551615, hi := 0 } : Int128).subAssignI64 (-1)).WF ∧
      (({ lo := 18446744073709551615, hi := 0 } : Int128).subAssignI64 (-1)).val
        = wrap128 (({ lo := 18446744073709551615, hi := 0 } : Int128).val - (-1))) ∧
    (({ lo := 18446744073709551615, hi := 0 } : Int128).neg.WF ∧
      ({ lo := 18446744073709551615, hi := 0 } : Int128).neg.val
        = wrap128 (-({ lo := 18446744073709551615, hi := 0 } : Int128).val))) :=
  C21_int128_add_sub_neg { lo := 18446744073709551615, hi := 0 } { lo := 1, hi := -1 }
    18446744073709551615 (-1) (by decide) (by decide) (by decide) (by decide)

theorem C22_int128_shifts_witness :
    ((({ lo := 9223372036854775813, hi := -3 } : Int128).shlAssign 70).WF ∧
      (({ lo := 9223372036854775813, hi := -3 } : Int128).shlAssign 70).val
        = wrap128 (({ lo := 9223372036854775813, hi := -3 } : Int128).val * 2 ^ 70)) ∧
    ((({ lo := 9223372036854775813, hi := -3 } : Int128).shrAssign 70).WF ∧
      (({ lo := 9223372036854775813, hi := -3 } : Int128).shrAssign 70).val
        = ({ lo := 9223372036854775813, hi := -3 } : Int128).val / 2 ^ 70) ∧
    ({ lo := 9223372036854775813, hi := -3 } : Int128).shlAssign 0
      = { lo := 9223372036854775813, hi := -3 } ∧
    ({ lo := 9223372036854775813, hi := -3 } : Int128).shrAssign 0
      = { lo := 9223372036854775813, hi := -3 } ∧
    (128 ≤ 70 → ({ lo := 9223372036854775813, hi := -3 } : Int128).shlAssign 70
        = { lo := 0, hi := 0 } ∧
      (({ lo := 9223372036854775813, hi := -3 } : Int128).shrAssign 70).val
        = if ({ lo := 9223372036854775813, hi := -3 } : Int128).val < 0 then -1 else 0) :=
  C22_int128_shifts { lo := 9223372036854775813, hi := -3 } 70 (by decide)

/-- C23: on well-formed pairs the operators `<`, `<=`, `>`, `>=`, `==` and `!=` of `Int128`
agree with the order and the equality of the represented signed 128-bit integers. -/
theorem C23_int128_comparisons (a x : Int128) (ha : a.WF) (hx : x.WF) :
    (a.lt x = true ↔ a.val < x.val) ∧ (a.le x = true ↔ a.val ≤ x.val) ∧
    (a.gt x = true ↔ a.val > x.val) ∧ (a.ge x = true ↔ a.val ≥ x.val) ∧
    (a.eq x = true ↔ a.val = x.val) ∧ (a.ne x = true ↔ a.val ≠ x.val) ∧
    (a.eq x = true ↔ a = x) := by
  obtain ⟨a1, a2, a3⟩ := ha
  obtain ⟨x1, x2, x3⟩ := hx
  unfold Int128.lt Int128.le Int128.gt Int128.ge Int128.eq Int128.ne Int128.val
  simp only [decide_eq_true_eq]
  refine ⟨by omega, by omega, by omega, by omega, by omega, by omega, ?_⟩
  constructor
  · rintro ⟨h1, h2⟩
    cases a; cases x
    simp only at h1 h2
    rw [h1, h2]
  · intro h
    rw [h]
    exact ⟨rfl, rfl⟩

theorem C23_int128_comparisons_witness :
    (({ lo := 5, hi := -1 } : Int128).lt { lo := 3, hi := 0 } = true
      ↔ ({ lo := 5, hi := -1 } : Int128).val < ({ lo := 3, hi := 0 } : Int128).val) ∧
    (({ lo := 5, hi := -1 } : Int128).le { lo := 3, hi := 0 } = true
      ↔ ({ lo := 5, hi := -1 } : Int128).val ≤ ({ lo := 3, hi := 0 } : Int128).val) ∧
    (({ lo := 5, hi := -1 } : Int128).gt { lo := 3, hi := 0 } = true
      ↔ ({ lo := 5, hi := -1 } : Int128).val > ({ lo := 3, hi := 0 } : Int128).val) ∧
    (({ lo := 5, hi := -1 } : Int128).ge { lo := 3, hi := 0 } = true
      ↔ ({ lo := 5, hi := -1 } : Int128).val ≥ ({ lo := 3, hi := 0 } : Int128).val) ∧
    (({ lo := 5, hi := -1 } : Int128).eq { lo := 3, hi := 0 } = true
      ↔ ({ lo := 5, hi := -1 } : Int128).val = ({ lo := 3, hi := 0 } : Int128).val) ∧
    (({ lo := 5, hi := -1 } : Int128).ne { lo := 3, hi := 0 } = true
      ↔ ({ lo := 5, hi := -1 } : Int128).val ≠ ({ lo := 3, hi := 0 } : Int128).val) ∧
    (({ lo := 5, hi := -1 } : Int128).eq { lo := 3, hi := 0 } = true
      ↔ ({ lo := 5, hi := -1 } : Int128) = { lo := 3, hi := 0 }) :=
  C23_int128_comparisons { lo := 5, hi := -1 } { lo := 3, hi := 0 } (by decide) (by decide)

/-- C24: `strtoint128` accepts the 40-digit string `1100...0` (the number `11 * 10^38`, above
`2^127 - 1`, no leading zero) and returns `79152899237184609609876177704695365632`, the
value reduced modulo `2^128`, instead of throwing; it also accepts the digits of `-2^127`
followed by one more `0`, and the digits of `2^128` after a leading zero, returning 0 for
both. -/
theorem C24_out_of_range_string_accepted :
    longDigits.length = 40 ∧ (∀ c ∈ longDigits, 48 ≤ c.toNat ∧ c.toNat ≤ 57) ∧
    decimalValue longDigits = 11 * 10 ^ 38 ∧ ¬ IsInt128 (decimalValue longDigits) ∧
    strtoint128 longDigits = some 79152899237184609609876177704695365632 ∧
    strtoint128 ("-1701411834604692317316873037158841057280".toList) = some 0 ∧
    strtoint128 ("0340282366920938463463374607431768211456".toList) = some 0 := by
  decide

theorem posTotal_nonneg (p : List Int) : 0 ≤ posTotal p := by
  unfold posTotal
  induction p with
  | nil => simp
  | cons x xs ih => simp only [List.map_cons, List.sum_cons]; omega

theorem negTotal_nonpos (p : List Int) : negTotal p ≤ 0 := by
  unfold negTotal
  induction p with
  | nil => simp
  | cons x xs ih => simp only [List.map_cons, List.sum_cons]; omega

theorem loadProblemSums_spec : ∀ (problem : List Int) (psum msum : Int),
    (∀ x ∈ problem, IsInt128 x) → 0 ≤ psum → psum ≤ maxInt128 → 0 ≤ msum → msum ≤ maxInt128 →
    (loadProblemSums problem psum msum = true ↔
      psum + posTotal problem ≤ maxInt128 ∧ msum - negTotal problem ≤ maxInt128) := by
  intro problem
  induction problem with
  | nil =>
    intro psum msum _ h1 h2 h3 h4
    simp only [loadProblemSums, posTotal, negTotal, List.map_nil, List.sum_nil, true_iff]
    omega
  | cons x rest ih =>
    intro psum msum hall h1 h2 h3 h4
    have hx : IsInt128 x := hall x (List.mem_cons_self _ _)
    have hrest : ∀ y ∈ rest, IsInt128 y := fun y hy => hall y (List.mem_cons_of_mem _ hy)
    have hp := posTotal_nonneg rest
    have hn := negTotal_nonpos rest
    have e1 : posTotal (x :: rest) = max x 0 + posTotal rest := by
      simp [posTotal]
    have e2 : negTotal (x :: rest) = min x 0 + negTotal rest := by
      simp [negTotal]
    unfold IsInt128 at hx
    unfold maxInt128 at *
    rw [loadProblemSums, e1, e2]
    by_cases hpos : x > 0
    · rw [if_pos hpos]
      simp only
      by_cases hov : add128 psum x ≤ 0
      · rw [if_pos hov]
        unfold add128 wrap128 at hov
        simp only [Bool.false_eq_true, false_iff, not_and]
        omega
      · rw [if_neg hov]
        have hval : add128 psum x = psum + x := by
          unfold add128 wrap128 at hov ⊢
          omega
        rw [hval] at hov ⊢
        rw [ih (psum + x) msum hrest (by omega) (by unfold add128 wrap128 at *; omega) h3 h4]
        omega
    · rw [if_neg hpos]
      by_cases hneg : x < 0
      · rw [if_pos hneg]
        simp only
        by_cases hov : sub128 msum x ≤ 0
        · rw [if_pos hov]
          unfold sub128 wrap128 at hov
          simp only [Bool.false_eq_true, false_iff, not_and]
          omega
        · rw [if_neg hov]
          have hval : sub128 msum x = msum - x := by
            unfold sub128 wrap128 at hov ⊢
            omega
          rw [hval] at hov ⊢
          rw [ih psum (msum - x) hrest h1 h2 (by omega) (by unfold sub128 wrap128 at *; omega)]
          omega
      · rw [if_neg hneg]
        rw [ih psum msum hrest h1 h2 h3 h4]
        omega

/-- C25: a parsed list of `Int128` values passes the checks of `loadProblem` and of the
constructor of `SubsetSumController` if and only if it is non-empty, has at most 128
elements, contains no zero, and the sum of its positive elements and the sum of the absolute
values of its negative elements are both at most `2^127 - 1`. -/
theorem C25_loader_accepts_iff (problem : List Int) (hall : ∀ x ∈ problem, IsInt128 x) :
    (loadProblemChecks problem = true ∧ controllerAccepts problem = true) ↔
      (problem ≠ [] ∧ problem.length ≤ 128 ∧ (∀ x ∈ problem, x ≠ 0) ∧
        posTotal problem ≤ maxInt128 ∧ -negTotal problem ≤ maxInt128) := by
  have hs := loadProblemSums_spec problem 0 0 hall (le_refl _) (by unfold maxInt128; omega)
    (le_refl _) (by unfold maxInt128; omega)
  unfold loadProblemChecks controllerAccepts
  cases problem with
  | nil => simp
  | cons x rest =>
    have hne : (x :: rest).isEmpty = false := rfl
    have hlen : (x :: rest).length ≠ 0 := by simp
    simp only [hne, Bool.false_eq_true, if_false, hlen]
    by_cases hz : (x :: rest).contains 0 = true
    · have hz2 : ¬ (∀ y ∈ x :: rest, y ≠ 0) := by
        intro h
        have hm : (0 : Int) ∈ x :: rest := by simpa using hz
        exact h 0 hm rfl
      simp only [hz, if_true, Bool.false_eq_true, false_and, false_iff]
      intro h
      exact hz2 h.2.2.1
    · have hz2 : ∀ y ∈ x :: rest, y ≠ 0 := by
        intro y hy h0
        apply hz
        rw [h0] at hy
        simpa using hy
      simp only [hz, Bool.false_eq_true, if_false, hs]
      constructor
      · rintro ⟨⟨a, b⟩, c⟩
        refine ⟨by simp, ?_, hz2, by omega, by omega⟩
        by_contra hc
        rw [if_pos (by omega)] at c
        exact Bool.noConfusion c
      · rintro ⟨_, a, _, b, c⟩
        refine ⟨⟨by omega, by omega⟩, ?_⟩
        rw [if_neg (by omega)]

theorem C25_loader_accepts_iff_witness :
    (loadProblemChecks [5, -5, 5, -5] = true ∧ controllerAccepts [5, -5, 5, -5] = true) ↔
      (([5, -5, 5, -5] : List Int) ≠ [] ∧ ([5, -5, 5, -5] : List Int).length ≤ 128 ∧
        (∀ x ∈ ([5, -5, 5, -5] : List Int), x ≠ 0) ∧
        posTotal [5, -5, 5, -5] ≤ maxInt128 ∧ -negTotal [5, -5, 5, -5] ≤ maxInt128) :=
  C25_loader_accepts_iff [5, -5, 5, -5] (by decide)

/-- C26 as stated fails: the problem `{2^127 - 1, -(2^127 - 1)}` passes the loader's checks,
but the difference between the sums of the subsets `{0}` and `{1}` is `2^128 - 2`, outside
the `Int128` range, and the range `maxVal - minVal` of the window of both elements computed
by the preprocessor wraps around to `-2`. -/
theorem C26_counterexample :
    loadProblemChecks extremeProblem = true ∧ controllerAccepts extremeProblem = true ∧
    ValidProblem extremeProblem ∧
    ¬ IsInt128 (selSum extremeProblem 1 - selSum extremeProblem 2) ∧
    (regionInit 2 (sortEntries (entriesOf extremeProblem))).bestRange = -2 ∧
    windowRange (sortEntries (entriesOf extremeProblem)) 0 2
      = 340282366920938463463374607431768211454 := by
  decide

/-- C26 (as amended): for every problem that passes the loader's checks the sum of any subset
lies in `[-(2^127 - 1), 2^127 - 1]`, so it is computed without wrap-around; the difference
between the sums of two subsets lies between `negTotal - posTotal` and `posTotal - negTotal`
and is computed without wrap-around whenever `posTotal - negTotal ≤ 2^127 - 1`. -/
theorem C26_subset_sums_in_range (problem : List Int) (A B : Nat)
    (hv : ValidProblem problem) :
    (-maxInt128 ≤ selSum problem A ∧ selSum problem A ≤ maxInt128) ∧
    selSum128 problem A = selSum problem A ∧
    (negTotal problem - posTotal problem ≤ selSum problem A - selSum problem B ∧
      selSum problem A - selSum problem B ≤ posTotal problem - negTotal problem) ∧
    (posTotal problem - negTotal problem ≤ maxInt128 →
      IsInt128 (selSum problem A - selSum problem B) ∧
      sub128 (selSum128 problem A) (selSum128 problem B)
        = selSum problem A - selSum problem B) := by
  obtain ⟨_, h1, h2⟩ := hv
  obtain ⟨a1, a2⟩ := selSum_bounds problem A
  obtain ⟨b1, b2⟩ := selSum_bounds problem B
  unfold maxInt128 at *
  have hA : selSum128 problem A = selSum problem A := by
    unfold selSum128 wrap128; omega
  have hB : selSum128 problem B = selSum problem B := by
    unfold selSum128 wrap128; omega
  refine ⟨⟨by omega, by omega⟩, hA, ⟨by omega, by omega⟩, ?_⟩
  intro h
  rw [hA, hB]
  unfold IsInt128 sub128 wrap128
  omega

theorem C26_subset_sums_in_range_witness :
    (-maxInt128 ≤ selSum extremeProblem 1 ∧ selSum extremeProblem 1 ≤ maxInt128) ∧
    selSum128 extremeProblem 1 = selSum extremeProblem 1 ∧
    (negTotal extremeProblem - posTotal extremeProblem
        ≤ selSum extremeProblem 1 - selSum extremeProblem 2 ∧
      selSum extremeProblem 1 - selSum extremeProblem 2
        ≤ posTotal extremeProblem - negTotal extremeProblem) ∧
    (posTotal extremeProblem - negTotal extremeProblem ≤ maxInt128 →
      IsInt128 (selSum extremeProblem 1 - selSum extremeProblem 2) ∧
      sub128 (selSum128 extremeProblem 1) (selSum128 extremeProblem 2)
        = selSum extremeProblem 1 - selSum extremeProblem 2) :=
  C26_subset_sums_in_range extremeProblem 1 2 (by decide)

/-- C27 as stated fails: for the input `{5, -5, 5, -5}` the solver does not emit `0101` (5)
or `1010` (10), whose elements sum to `10` and `-10`, and it does emit `1111` (15). -/
theorem C27_counterexample :
    solveSmallProblem [5, -5, 5, -5] ≠ some [3, 5, 6, 9, 10, 12] ∧
    (∀ out, solveSmallProblem [5, -5, 5, -5] = some out → 5 ∉ out ∧ 10 ∉ out ∧ 15 ∈ out) ∧
    selSum [5, -5, 5, -5] 5 = 10 ∧ selSum [5, -5, 5, -5] 10 = -10 ∧
    selSum [5, -5, 5, -5] 15 = 0 := by
  refine ⟨by decide, ?_, by decide, by decide, by decide⟩
  intro out h
  have h2 : solveSmallProblem [5, -5, 5, -5] = some [3, 6, 9, 12, 15] := by decide
  rw [h2] at h
  cases h
  decide

/-- C27 (as amended): for the input `{5, -5, 5, -5}` the solver emits exactly the five
bitmasks `0011`, `0110`, `1001`, `1100` and `1111` (3, 6, 9, 12, 15), in this order: the four
pairs of one `+5` and one `-5`, and the whole set. -/
theorem C27_five_masks :
    solveSmallProblem [5, -5, 5, -5] = some [3, 6, 9, 12, 15] ∧
    [3, 6, 9, 12, 15] = (List.range' 1 15).filter
      (fun B => decide (selSum [5, -5, 5, -5] B = 0)) := by
  decide

theorem pow_split_gen (a b : Nat) (h : a ≤ b) : (2 : Int) ^ b = 2 ^ a * 2 ^ (b - a) := by
  rw [← pow_add, Nat.add_sub_cancel' h]

/-- The arithmetic shift of a 64-bit value, seen through its bit pattern: below bit `n` it is
the logical shift of the pattern, provided `j + n ≤ 64`. -/
theorem ediv_pow_emod (x : Int) (j n : Nat) (hjn : j + n ≤ 64) :
    (x / 2 ^ j) % 2 ^ n = (((toU64 x >>> j) % 2 ^ n : Nat) : Int) := by
  have hU := toU64_cast x
  have h64 : (18446744073709551616 : Int) = 2 ^ j * (2 ^ n * 2 ^ (64 - j - n)) := by
    rw [← pow_add, ← pow_add]
    have : j + (n + (64 - j - n)) = 64 := by omega
    rw [this]
    norm_num
  have hx : x = (toU64 x : Int) + 2 ^ j * ((2 ^ n * 2 ^ (64 - j - n)) * (x / 18446744073709551616)) := by
    rw [← mul_assoc, ← h64, hU]
    have := Int.ediv_add_emod x 18446744073709551616
    omega
  have hpos : (2 : Int) ^ j ≠ 0 := by positivity
  conv_lhs => rw [hx]
  rw [Int.add_mul_ediv_left _ _ hpos, mul_assoc, Int.add_mul_emod_self_left,
    Nat.shiftRight_eq_div_pow]
  push_cast
  rfl

theorem toUInt32_shift (x : Int) (h : Nat) (hh : h ≤ 32) :
    toUInt32 (x / 2 ^ h) = (toU64 x >>> h) % 2 ^ 32 := by
  unfold toUInt32
  have := ediv_pow_emod x h 32 (by omega)
  have h32 : (4294967296 : Int) = 2 ^ 32 := by norm_num
  rw [h32, this]
  exact Int.toNat_natCast _

theorem toU64_shift_mod (x : Int) (j n : Nat) (hjn : j + n ≤ 64) :
    toU64 (x / 2 ^ j) % 2 ^ n = (toU64 x >>> j) % 2 ^ n := by
  have h1 := ediv_pow_emod x j n hjn
  have hU := toU64_cast (x / 2 ^ j)
  have hdvd : ((2 : Int) ^ n) ∣ 18446744073709551616 := by
    refine ⟨2 ^ (64 - n), ?_⟩
    rw [← pow_add]
    have : n + (64 - n) = 64 := by omega
    rw [this]
    norm_num
  have h2 : (((toU64 (x / 2 ^ j) % 2 ^ n : Nat)) : Int) = (x / 2 ^ j) % 2 ^ n := by
    push_cast
    rw [hU]
    exact Int.emod_emod_of_dvd _ hdvd
  rw [h1] at h2
  exact_mod_cast h2

theorem toU64_shift_testBit (x : Int) (j i : Nat) (hij : j + i < 64) :
    (toU64 (x / 2 ^ j)).testBit i = (toU64 x).testBit (j + i) := by
  have h := toU64_shift_mod x j (i + 1) (by omega)
  have h1 := Nat.testBit_mod_two_pow (toU64 (x / 2 ^ j)) (i + 1) i
  have h2 := Nat.testBit_mod_two_pow (toU64 x >>> j) (i + 1) i
  rw [h] at h1
  rw [h1] at h2
  simp only [Nat.lt_succ_self, decide_True, Bool.true_and] at h2
  rw [h2, Nat.testBit_shiftRight]

theorem toU64_eq (x : Int) : (x % 18446744073709551616).toNat = toU64 x := rfl

/-- The key of the code, bit by bit. -/
theorem getNodeHashKey_testBit (h : Nat) (x : Int) (hh : h ≤ 32) (i : Nat) :
    (getNodeHashKey h x).testBit i =
      ((Bool.xor (Bool.xor (Bool.xor (Bool.xor ((toU64 x).testBit i)
          (decide (i < 32) && (toU64 x).testBit (h + i)))
          (decide (h + i < 32) && (toU64 x).testBit (h + (h + i))))
          (decide (h + (h + i) < 32) && (toU64 x).testBit (h + (h + (h + i)))))
          (decide (h + (h + (h + i)) < 32) && (toU64 x).testBit (h + (h + (h + (h + i))))))
        && decide (i < h)) := by
  unfold getNodeHashKey
  simp only [toU64_eq, toUInt32_shift x h hh, Nat.testBit_and, Nat.testBit_xor,
    Nat.testBit_shiftRight, Nat.testBit_mod_two_pow, Nat.testBit_two_pow_sub_one]

theorem foldKey_testBit (h : Nat) (x : Int) (hh : 5 * h ≤ 64) (i : Nat) :
    (foldKey h x).testBit i =
      ((Bool.xor (Bool.xor (Bool.xor (Bool.xor ((toU64 x).testBit i)
          ((toU64 x).testBit (h + i))) ((toU64 x).testBit (2 * h + i)))
          ((toU64 x).testBit (3 * h + i))) ((toU64 x).testBit (4 * h + i)))
        && decide (i < h)) := by
  unfold foldKey
  simp only [Nat.testBit_and, Nat.testBit_xor, Nat.testBit_two_pow_sub_one]
  by_cases hi : i < h
  · rw [toU64_shift_testBit x h i (by omega), toU64_shift_testBit x (2 * h) i (by omega),
      toU64_shift_testBit x (3 * h) i (by omega), toU64_shift_testBit x (4 * h) i (by omega)]
  · simp [hi]

theorem foldKeyLogical_testBit (h : Nat) (x : Int) (i : Nat) :
    (foldKeyLogical h x).testBit i =
      ((Bool.xor (Bool.xor (Bool.xor (Bool.xor ((toU64 x).testBit i)
          ((toU64 x).testBit (h + i))) ((toU64 x).testBit (2 * h + i)))
          ((toU64 x).testBit (3 * h + i))) ((toU64 x).testBit (4 * h + i)))
        && decide (i < h)) := by
  unfold foldKeyLogical
  simp only [Nat.testBit_and, Nat.testBit_xor, Nat.testBit_shiftRight,
    Nat.testBit_two_pow_sub_one]

/-- C28 as stated fails: for `h = 9` and the sum `x = 2^41` the three copies of the key give 0
while the formula of the claim gives 32 (bit 41 of `x` is lost when `x >> h` is stored in the
32-bit `temph1`); the same happens for every `h` from 9 to 31 with `x = 2^(32+h)`. -/
theorem C28_counterexample :
    getNodeHashKey 9 (2 ^ 41) = 0 ∧ NodeHashGenController.getNodeHashKey 9 (2 ^ 41) = 0 ∧
    subsetSumHashMethod_hkey 9 (2 ^ 41) = 0 ∧ foldKey 9 (2 ^ 41) = 32 ∧
    foldKeyLogical 9 (2 ^ 41) = 32 ∧
    ∀ h, 9 ≤ h → h ≤ 31 →
      getNodeHashKey h (2 ^ (32 + h)) = 0 ∧ foldKey h (2 ^ (32 + h)) ≠ 0 ∧
      foldKeyLogical h (2 ^ (32 + h)) ≠ 0 := by
  refine ⟨by decide, by decide, by decide, by decide, by decide, ?_⟩
  intro h h9 h31
  interval_cases h <;> decide

/-- C28 (as amended): for every hash width `h ≤ 31` and every sum `x` the three copies of the
key (`NodeHashGenController::getNodeHashKey`, `HashController::getNodeHashKey` and the inline
`hkey` of `subsetSumHashMethod`) are the same value; for `h ≤ 8` this value is
`(x ^ (x>>h) ^ (x>>2h) ^ (x>>3h) ^ (x>>4h)) & (2^h - 1)` with the shifts taken on the 64-bit
value `x`, arithmetic or logical alike. -/
theorem C28_hash_key_copies_agree (h : Nat) (x : Int) :
    NodeHashGenController.getNodeHashKey h x = getNodeHashKey h x ∧
    subsetSumHashMethod_hkey h x = getNodeHashKey h x ∧
    (h ≤ 8 → getNodeHashKey h x = foldKey h x ∧ getNodeHashKey h x = foldKeyLogical h x) := by
  refine ⟨rfl, rfl, ?_⟩
  intro h8
  constructor
  · apply Nat.eq_of_testBit_eq
    intro i
    rw [getNodeHashKey_testBit h x (by omega), foldKey_testBit h x (by omega)]
    by_cases hi : i < h
    · have e1 : decide (i < 32) = true := decide_eq_true (by omega)
      have e2 : decide (h + i < 32) = true := decide_eq_true (by omega)
      have e3 : decide (h + (h + i) < 32) = true := decide_eq_true (by omega)
      have e4 : decide (h + (h + (h + i)) < 32) = true := decide_eq_true (by omega)
      have a2 : h + (h + i) = 2 * h + i := by omega
      have a3 : h + (h + (h + i)) = 3 * h + i := by omega
      have a4 : h + (h + (h + (h + i))) = 4 * h + i := by omega
      rw [e1, e2, e3, e4, a4, a3, a2]
      simp only [Bool.true_and]
    · simp [hi]
  · apply Nat.eq_of_testBit_eq
    intro i
    rw [getNodeHashKey_testBit h x (by omega), foldKeyLogical_testBit h x]
    by_cases hi : i < h
    · have e1 : decide (i < 32) = true := decide_eq_true (by omega)
      have e2 : decide (h + i < 32) = true := decide_eq_true (by omega)
      have e3 : decide (h + (h + i) < 32) = true := decide_eq_true (by omega)
      have e4 : decide (h + (h + (h + i)) < 32) = true := decide_eq_true (by omega)
      have a2 : h + (h + i) = 2 * h + i := by omega
      have a3 : h + (h + (h + i)) = 3 * h + i := by omega
      have a4 : h + (h + (h + (h + i))) = 4 * h + i := by omega
      rw [e1, e2, e3, e4, a4, a3, a2]
      simp only [Bool.true_and]
    · simp [hi]

theorem rd_map_of_zero (l : List Nat) (f : Nat → Int) (hf : f 0 = 0) (i : Nat) :
    rd (l.map f) i = f (rdN l i) := by
  unfold rd rdN
  by_cases h : i < l.length
  · exact getD_map_nat l f i h
  · rw [List.getD_eq_default _ _ (by simp; omega), List.getD_eq_default _ _ (by omega), hf]

theorem any_congr_mem (l : List Nat) (f g : Nat → Bool) (h : ∀ x ∈ l, f x = g x) :
    l.any f = l.any g := by
  induction l with
  | nil => rfl
  | cons a rest ih =>
    rw [List.any_cons, List.any_cons, h a (List.mem_cons_self _ _),
      ih (fun x hx => h x (List.mem_cons_of_mem _ hx))]

theorem hashedSum_zero (np : List Int) (m : Nat) (hm : m ≤ 36) : hashedSum np m 0 = 0 := by
  rw [hashedSum_spec np m 0 hm (Nat.pow_pos (by decide)), selSum_zero]
  rfl

/-- The scan of one bucket by `subsetSumHashMethod`, on the tables of the serial builder. -/
theorem bucket_scan (m h : Nat) (np : List Int) (hm : m ≤ 31) (t : NodeHashTables)
    (ht : singleThreadDoHashGen m h np = some t) (sum : Int) :
    ((t.nodeHash (getNodeHashKey h sum)).size != 0 &&
      (List.range (t.nodeHash (getNodeHashKey h sum)).size).any
        (fun j => rd t.nodeHashLists ((t.nodeHash (getNodeHashKey h sum)).getPos + j) == sum))
    = (List.range (2 ^ m)).any (fun hs => decide (wrap64 (-(selSum np hs)) = sum)) := by
  obtain ⟨p1, p2⟩ := singleThreadDoHashGen_spec m h np hm
  have hall : ∀ k, (bucketOf (subsetKey m h np) k (2 ^ m)).length ≤ 65535 := by
    intro k
    by_contra hc
    rw [p1 ⟨k, by omega⟩] at ht
    exact Option.noConfusion ht
  obtain ⟨t1, ht1, _, hlists, _, _⟩ := p2 hall
  rw [ht] at ht1
  cases ht1
  have hslice := builder_slice m h np hm t ht (getNodeHashKey h sum) (getNodeHashKey_lt h sum)
  generalize t.nodeHash (getNodeHashKey h sum) = e at *
  have hany : (List.range e.size).any (fun j => rd t.nodeHashLists (e.getPos + j) == sum)
      = (bucketOf (subsetKey m h np) (getNodeHashKey h sum) (2 ^ m)).any
          (fun s => hashedSum (np.map toInt64) m s == sum) := by
    rw [← hslice, List.any_map]
    apply congrArg
    funext j
    simp only [Function.comp]
    rw [hlists, rd_map_of_zero _ _ (hashedSum_zero _ m (by omega))]
  rw [hany]
  have hsz : (e.size != 0 &&
      (bucketOf (subsetKey m h np) (getNodeHashKey h sum) (2 ^ m)).any
          (fun s => hashedSum (np.map toInt64) m s == sum))
      = (bucketOf (subsetKey m h np) (getNodeHashKey h sum) (2 ^ m)).any
          (fun s => hashedSum (np.map toInt64) m s == sum) := by
    by_cases h0 : e.size = 0
    · have : bucketOf (subsetKey m h np) (getNodeHashKey h sum) (2 ^ m) = [] := by
        rw [← hslice, h0]; rfl
      rw [this]
      simp
    · simp [h0]
  rw [hsz]
  unfold bucketOf
  rw [List.any_filter]
  apply any_congr_mem
  intro s hs
  have hs2 : s < 2 ^ m := List.mem_range.1 hs
  have hsum := hashedSum_spec (np.map toInt64) m s (by omega) hs2
  rw [selSum_map_wrap64] at hsum
  have hkey : subsetKey m h np s = getNodeHashKey h (wrap64 (-(selSum np s))) :=
    subsetKey_eq m h np s (by omega) hs2
  rw [hsum, hkey]
  by_cases heq : wrap64 (-(selSum np s)) = sum
  · simp [heq]
  · simp [heq]

/-- C29: for `m ≤ 31` hashed numbers and every packet sum `S`, `subsetSumHashMethod` run on
the `nodeHash` and `nodeHashLists` produced by the serial node-hash builder returns, in
increasing order and without repetition, exactly the indices `c < 256` for which some subset
`hs < 2^m` of the hashed numbers has `S + sumChanges[c] + sum(hs) = 0` modulo `2^64`. -/
theorem C29_hash_lookup_exact (m h : Nat) (np sumChanges : List Int) (S : Int) (hm : m ≤ 31)
    (hsome : (singleThreadDoHashGen m h np).isSome = true) :
    ∃ t, singleThreadDoHashGen m h np = some t ∧
      subsetSumHashMethod sumChanges h t.nodeHash t.nodeHashLists S
        = (List.range 256).filter (fun c => (List.range (2 ^ m)).any
            (fun hs => decide ((S + rd sumChanges c + selSum np hs) % 18446744073709551616 = 0)))
      ∧ (subsetSumHashMethod sumChanges h t.nodeHash t.nodeHashLists S).Pairwise
          (fun a b => a < b) := by
  obtain ⟨t, ht⟩ := Option.isSome_iff_exists.1 hsome
  refine ⟨t, ht, ?_, ?_⟩
  · unfold subsetSumHashMethod
    apply List.filter_congr
    intro c _
    simp only
    rw [bucket_scan m h np hm t ht]
    apply any_congr_mem
    intro hs _
    unfold add64 wrap64
    apply decide_eq_decide.2
    omega
  · unfold subsetSumHashMethod
    exact List.Pairwise.filter _ (List.pairwise_lt_range 256)

theorem C29_hash_lookup_exact_witness :
    ∃ t, singleThreadDoHashGen 2 1 [3, 5] = some t ∧
      subsetSumHashMethod [0, -3, 7] 1 t.nodeHash t.nodeHashLists 0
        = (List.range 256).filter (fun c => (List.range (2 ^ 2)).any
            (fun hs => decide (((0 : Int) + rd [0, -3, 7] c + selSum [3, 5] hs)
              % 18446744073709551616 = 0)))
      ∧ (subsetSumHashMethod [0, -3, 7] 1 t.nodeHash t.nodeHashLists 0).Pairwise
          (fun a b => a < b) :=
  C29_hash_lookup_exact 2 1 [3, 5] [0, -3, 7] 0 (by decide) (by decide)

theorem subsumsTbl_chunk (np : List Int) (m c j : Nat) (hj : j < 256)
    (hjm : j < 2 ^ (min 8 (m - c * 8))) :
    subsumsTbl np m (256 * c + j)
      = wrap64 (-(selSum (((np.drop 8).map toInt64).drop (c * 8)) j)) := by
  unfold subsumsTbl
  have h1 : (256 * c + j) / 256 = c := by omega
  have h2 : (256 * c + j) % 256 = j := by omega
  rw [h1, h2, subsumEntry_spec (np.map toInt64) (8 + c * 8) _ (by omega) j hjm,
    List.map_drop, List.drop_drop]

theorem mod256_lt (x : Nat) : x % 256 < 2 ^ (min 8 8) := by
  have : (2 : Nat) ^ (min 8 8) = 256 := by norm_num
  rw [this]; exact Nat.mod_lt _ (by decide)

theorem selSum_split256 (np : List Int) (s : Nat) :
    selSum np s = selSum np (s % 256) + selSum (np.drop 8) (s / 256) := by
  have h := selSum_split_gen np 8 (s % 256) (s / 256) (by norm_num; omega)
  have e : s % 256 + 2 ^ 8 * (s / 256) = s := by norm_num; omega
  rw [e] at h
  exact h

/-- The sum of chunk lookups of the selected subset-storage method is the negated sum of the
selected hashed numbers, as a `gint64`. -/
theorem storedSum_spec (np : List Int) (m s : Nat) (hm : m ≤ 32) (hs : s < 2 ^ m) :
    storedSum m (subsumsTbl np m) s = wrap64 (-(selSum ((np.drop 8).map toInt64) s)) := by
  unfold storedSum
  have hand : ∀ x : Nat, x &&& 255 = x % 256 := by
    intro x
    exact Nat.and_pow_two_sub_one_eq_mod x 8
  have h256 : (256 : Nat) = 2 ^ 8 := by norm_num
  generalize hq : (np.drop 8).map toInt64 = q
  have chunk : ∀ c j, j < 256 → j < 2 ^ (min 8 (m - c * 8)) →
      subsumsTbl np m (256 * c + j) = wrap64 (-(selSum (q.drop (c * 8)) j)) := by
    intro c j h1 h2
    rw [← hq]
    exact subsumsTbl_chunk np m c j h1 h2
  by_cases h8 : m ≤ 8
  · rw [if_pos h8]
    have := chunk 0 s
      (lt_of_lt_of_le hs (by rw [h256]; exact Nat.pow_le_pow_right (by decide) h8))
      (by rw [Nat.zero_mul, Nat.sub_zero, Nat.min_eq_right h8]; exact hs)
    simpa using this
  · rw [if_neg h8]
    have c0 := chunk 0 (s % 256) (Nat.mod_lt _ (by decide))
      (by
        have : min 8 (m - 0 * 8) = min 8 8 := by omega
        rw [this]; exact mod256_lt s)
    simp only [Nat.mul_zero, Nat.zero_add, Nat.zero_mul, List.drop_zero] at c0
    by_cases h16 : m ≤ 16
    · rw [if_pos h16, hand, Nat.shiftRight_eq_div_pow]
      have hlt := div_lt_pow_sub s m 8 (by omega) hs
      have c1 := chunk 1 (s / 2 ^ 8)
        (lt_of_lt_of_le hlt (by rw [h256]; exact Nat.pow_le_pow_right (by decide) (by omega)))
        (by
          have : min 8 (m - 1 * 8) = m - 8 := by omega
          rw [this]; exact hlt)
      simp only [Nat.mul_one, Nat.one_mul] at c1
      rw [c0, c1]
      unfold add64
      rw [wrap64_add_both, selSum_split256 q s]
      congr 1
      norm_num
      ring
    · rw [if_neg h16]
      have c1 := chunk 1 (s / 256 % 256) (Nat.mod_lt _ (by decide))
        (by
          have : min 8 (m - 1 * 8) = min 8 8 := by omega
          rw [this]; exact mod256_lt _)
      simp only [Nat.mul_one, Nat.one_mul] at c1
      by_cases h24 : m ≤ 24
      · rw [if_pos h24, hand, hand, Nat.shiftRight_eq_div_pow, Nat.shiftRight_eq_div_pow]
        have hlt := div_lt_pow_sub s m 16 (by omega) hs
        have c2 := chunk 2 (s / 2 ^ 16)
          (lt_of_lt_of_le hlt (by rw [h256]; exact Nat.pow_le_pow_right (by decide) (by omega)))
          (by
            have : min 8 (m - 2 * 8) = m - 16 := by omega
            rw [this]; exact hlt)
        have e8 : s / 2 ^ 8 = s / 256 := by norm_num
        have e16 : s / 2 ^ 16 = s / 256 / 256 := by norm_num; omega
        have e512 : 256 * 2 = 512 := by norm_num
        rw [e512] at c2
        rw [e8, c0, c1, c2]
        unfold add64
        rw [selSum_split256 q s, selSum_split256 (q.drop 8) (s / 256), e16]
        simp only [List.drop_drop]
        norm_num
        generalize selSum q (s % 256) = a
        generalize selSum (List.drop 8 q) (s / 256 % 256) = b
        generalize selSum (List.drop 16 q) (s / 256 / 256) = c
        unfold wrap64; omega
      · rw [if_neg h24, hand, hand, hand, Nat.shiftRight_eq_div_pow, Nat.shiftRight_eq_div_pow,
          Nat.shiftRight_eq_div_pow]
        have c2 := chunk 2 (s / 256 / 256 % 256) (Nat.mod_lt _ (by decide))
          (by
            have : min 8 (m - 2 * 8) = min 8 8 := by omega
            rw [this]; exact mod256_lt _)
        have hlt := div_lt_pow_sub s m 24 (by omega) hs
        have c3 := chunk 3 (s / 2 ^ 24)
          (lt_of_lt_of_le hlt (by rw [h256]; exact Nat.pow_le_pow_right (by decide) (by omega)))
          (by
            have : min 8 (m - 3 * 8) = m - 24 := by omega
            rw [this]; exact hlt)
        have e8 : s / 2 ^ 8 = s / 256 := by norm_num
        have e16 : s / 2 ^ 16 = s / 256 / 256 := by norm_num; omega
        have e24 : s / 2 ^ 24 = s / 256 / 256 / 256 := by norm_num; omega
        have e512 : 256 * 2 = 512 := by norm_num
        have e768 : 256 * 3 = 768 := by norm_num
        rw [e512] at c2
        rw [e768] at c3
        rw [e8, e16, c0, c1, c2, c3]
        unfold add64
        rw [selSum_split256 q s, selSum_split256 (q.drop 8) (s / 256),
          selSum_split256 ((q.drop 8).drop 8) (s / 256 / 256), e24]
        simp only [List.drop_drop]
        norm_num
        generalize selSum q (s % 256) = a
        generalize selSum (List.drop 8 q) (s / 256 % 256) = b
        generalize selSum (List.drop 16 q) (s / 256 / 256 % 256) = c
        generalize selSum (List.drop 24 q) (s / 256 / 256 / 256) = d
        unfold wrap64; omega

theorem rdN_lt (l : List Nat) (B i : Nat) (hB : 0 < B) (hl : ∀ s ∈ l, s < B) : rdN l i < B := by
  unfold rdN
  by_cases h : i < l.length
  · rw [List.getD_eq_getElem _ _ h]
    exact hl _ (List.getElem_mem h)
  · rw [List.getD_eq_default _ _ (by omega)]
    exact hB

/-- The selected subset-storage method unfolds to one scan with `storedSum`. -/
theorem subsetSumHashSubsetsMethod_eq (m : Nat) (sumChanges : List Int) (tbl : Nat → Int)
    (hashBits : Nat) (hashTable : Nat → NodeHashEntry) (hashSubsets : List Nat) (S : Int) :
    subsetSumHashSubsetsMethod m sumChanges tbl hashBits hashTable hashSubsets S
      = (List.range 256).filter (fun current =>
          (hashTable (getNodeHashKey hashBits (add64 S (rd sumChanges current)))).size != 0 &&
          (List.range (hashTable (getNodeHashKey hashBits
              (add64 S (rd sumChanges current)))).size).any (fun j =>
            storedSum m tbl (rdN hashSubsets ((hashTable (getNodeHashKey hashBits
              (add64 S (rd sumChanges current)))).getPos + j))
              == add64 S (rd sumChanges current))) := by
  unfold subsetSumHashSubsetsMethod storedSum subsetSumHashSubsets8Method
    subsetSumHashSubsets16Method subsetSumHashSubsets24Method subsetSumHashSubsets32Method
  split_ifs <;> rfl

/-- C30: for `m ≤ 32` hashed numbers, every packet sum and every hash table whose stored
subsets are below `2^m`, the subset-storage lookup selected for `m`
(`subsetSumHashSubsets8/16/24/32Method` on the 256-entry chunk tables of the controller)
returns the same found indices as `subsetSumHashMethod` reading the list of stored sums that
the builder computes for the same subsets; for every subset `hs < 2^m` the sum of the 1 to 4
chunk lookups equals the stored sum of the builder; in particular the two lookups agree on the
tables of the serial builder (`m ≤ 31`). -/
theorem C30_subset_storage_lookup (m hashBits : Nat) (nodeProblem sumChanges : List Int)
    (S : Int) (hm : m ≤ 32) :
    (∀ hs, hs < 2 ^ m →
      storedSum m (subsumsTbl nodeProblem m) hs
        = hashedSum ((nodeProblem.drop 8).map toInt64) m hs) ∧
    (∀ (hashTable : Nat → NodeHashEntry) (hashSubsets : List Nat),
      (∀ s ∈ hashSubsets, s < 2 ^ m) →
      subsetSumHashSubsetsMethod m sumChanges (subsumsTbl nodeProblem m) hashBits hashTable
          hashSubsets S
        = subsetSumHashMethod sumChanges hashBits hashTable
            (hashSubsets.map (hashedSum ((nodeProblem.drop 8).map toInt64) m)) S) ∧
    (m ≤ 31 → ∀ t, singleThreadDoHashGen m hashBits (nodeProblem.drop 8) = some t →
      subsetSumHashSubsetsMethod m sumChanges (subsumsTbl nodeProblem m) hashBits t.nodeHash
          t.nodeHashSubsets S
        = subsetSumHashMethod sumChanges hashBits t.nodeHash t.nodeHashLists S) := by
  have hstored : ∀ hs, hs < 2 ^ m →
      storedSum m (subsumsTbl nodeProblem m) hs
        = hashedSum ((nodeProblem.drop 8).map toInt64) m hs := by
    intro hs hlt
    rw [storedSum_spec nodeProblem m hs hm hlt,
      hashedSum_spec ((nodeProblem.drop 8).map toInt64) m hs (by omega) hlt]
  have hgen : ∀ (hashTable : Nat → NodeHashEntry) (hashSubsets : List Nat),
      (∀ s ∈ hashSubsets, s < 2 ^ m) →
      subsetSumHashSubsetsMethod m sumChanges (subsumsTbl nodeProblem m) hashBits hashTable
          hashSubsets S
        = subsetSumHashMethod sumChanges hashBits hashTable
            (hashSubsets.map (hashedSum ((nodeProblem.drop 8).map toInt64) m)) S := by
    intro hashTable hashSubsets hlt
    rw [subsetSumHashSubsetsMethod_eq]
    unfold subsetSumHashMethod
    apply List.filter_congr
    intro c _
    simp only
    congr 1
    apply any_congr_mem
    intro j _
    rw [rd_map_of_zero _ _ (hashedSum_zero _ m (by omega)),
      hstored _ (rdN_lt hashSubsets (2 ^ m) _ (Nat.pow_pos (by decide)) hlt)]
  refine ⟨hstored, hgen, ?_⟩
  intro hm31 t ht
  obtain ⟨p1, p2⟩ := singleThreadDoHashGen_spec m hashBits (nodeProblem.drop 8) hm31
  have hall : ∀ k, (bucketOf (subsetKey m hashBits (nodeProblem.drop 8)) k (2 ^ m)).length
      ≤ 65535 := by
    intro k
    by_contra hc
    rw [p1 ⟨k, by omega⟩] at ht
    exact Option.noConfusion ht
  obtain ⟨t1, ht1, hsub, hlists, _, _⟩ := p2 hall
  rw [ht] at ht1
  cases ht1
  rw [hlists]
  apply hgen
  intro s hs
  rw [hsub, List.mem_flatMap] at hs
  obtain ⟨k, _, hk⟩ := hs
  exact bucketOf_lt _ _ _ _ hk

theorem C28_hash_key_copies_agree_witness :
    (8 : Nat) ≤ 8 ∧
    getNodeHashKey 8 (-123456789123456789) = foldKey 8 (-123456789123456789) ∧
    getNodeHashKey 8 (-123456789123456789) = foldKeyLogical 8 (-123456789123456789) :=
  ⟨by decide, (C28_hash_key_copies_agree 8 (-123456789123456789)).2.2 (by decide)⟩

theorem C30_subset_storage_lookup_witness :
    (∀ hs, hs < 2 ^ 10 →
      storedSum 10 (subsumsTbl [1, 2, 3, 4, 5, 6, 7, 8, 3, -5, 7, 11, -13, 17, 19, 23, 29, 31]
          10) hs
        = hashedSum ((([1, 2, 3, 4, 5, 6, 7, 8, 3, -5, 7, 11, -13, 17, 19, 23, 29, 31]
            : List Int).drop 8).map toInt64) 10 hs) ∧
    (∀ (hashTable : Nat → NodeHashEntry) (hashSubsets : List Nat),
      (∀ s ∈ hashSubsets, s < 2 ^ 10) →
      subsetSumHashSubsetsMethod 10 [0, 5, -3]
          (subsumsTbl [1, 2, 3, 4, 5, 6, 7, 8, 3, -5, 7, 11, -13, 17, 19, 23, 29, 31] 10) 4
          hashTable hashSubsets 2
        = subsetSumHashMethod [0, 5, -3] 4 hashTable
            (hashSubsets.map (hashedSum
              ((([1, 2, 3, 4, 5, 6, 7, 8, 3, -5, 7, 11, -13, 17, 19, 23, 29, 31]
                : List Int).drop 8).map toInt64) 10)) 2) ∧
    ((10 : Nat) ≤ 31 → ∀ t, singleThreadDoHashGen 10 4
        (([1, 2, 3, 4, 5, 6, 7, 8, 3, -5, 7, 11, -13, 17, 19, 23, 29, 31] : List Int).drop 8)
        = some t →
      subsetSumHashSubsetsMethod 10 [0, 5, -3]
          (subsumsTbl [1, 2, 3, 4, 5, 6, 7, 8, 3, -5, 7, 11, -13, 17, 19, 23, 29, 31] 10) 4
          t.nodeHash t.nodeHashSubsets 2
        = subsetSumHashMethod [0, 5, -3] 4 t.nodeHash t.nodeHashLists 2) :=
  C30_subset_storage_lookup 10 4 [1, 2, 3, 4, 5, 6, 7, 8, 3, -5, 7, 11, -13, 17, 19, 23, 29, 31]
    [0, 5, -3] 2 (by decide)

theorem chainU_frame (tmp : Nat → TempNodeHashListEntry) (U U1 : Nat → Prop) (p : Nat)
    (e : TempNodeHashListEntry) (hU : ∀ q, U q → U1 q) (hp : ¬ U p) :
    ∀ (l : List Nat) (cur : Nat), ChainU tmp U cur l → ChainU (Function.update tmp p e) U1 cur l := by
  intro l
  induction l with
  | nil => intro _ _; trivial
  | cons s rest ih =>
    intro cur hc
    obtain ⟨h1, h2, h3⟩ := hc
    have hne : cur ≠ p := fun h => hp (h ▸ h1)
    refine ⟨hU _ h1, ?_, ?_⟩
    · rw [Function.update_noteq hne]; exact h2
    · rw [Function.update_noteq hne]; exact ih _ h3

theorem chainU_mono (tmp : Nat → TempNodeHashListEntry) (U U1 : Nat → Prop)
    (hU : ∀ q, U q → U1 q) :
    ∀ (l : List Nat) (cur : Nat), ChainU tmp U cur l → ChainU tmp U1 cur l := by
  intro l
  induction l with
  | nil => intro _ _; trivial
  | cons s rest ih =>
    intro cur hc
    obtain ⟨h1, h2, h3⟩ := hc
    exact ⟨hU _ h1, h2, ih _ h3⟩

theorem drainChain_of_chainU (tmp : Nat → TempNodeHashListEntry) (U : Nat → Prop) :
    ∀ (l : List Nat) (cur : Nat), ChainU tmp U cur l → drainChain tmp l.length cur = l := by
  intro l
  induction l with
  | nil => intro _ _; rfl
  | cons s rest ih =>
    intro cur hc
    obtain ⟨_, h2, h3⟩ := hc
    simp only [List.length_cons, drainChain, h2, ih _ h3]

/-- Linking a subset in front of the chain of its key, in a cell no chain uses. -/
theorem putSubsetAt_spec (nh : Nat → NodeHashEntry) (tmp : Nat → TempNodeHashListEntry)
    (U U1 : Nat → Prop) (hkey subset pos : Nat) (L : List Nat)
    (hU : ∀ q, U q → U1 q) (hpos : ¬ U pos) (hpos1 : U1 pos) (hlt : pos < 4294967296)
    (hsize : (nh hkey).size = L.length) (hL : L.length < 65535)
    (hchain : ChainU tmp U (nh hkey).getPos L.reverse) :
    ∃ nh1 tmp1, putSubsetAt nh tmp hkey subset pos = some (nh1, tmp1) ∧
      (∀ k, k ≠ hkey → nh1 k = nh k) ∧
      (nh1 hkey).size = L.length + 1 ∧
      ChainU tmp1 U1 (nh1 hkey).getPos (L ++ [subset]).reverse ∧
      (∀ cur l, ChainU tmp U cur l → ChainU tmp1 U1 cur l) := by
  unfold putSubsetAt
  simp only
  by_cases h0 : (nh hkey).size = 0
  · rw [if_pos h0]
    refine ⟨_, _, rfl, fun k hk => Function.update_noteq hk _ _, ?_, ?_,
      fun cur l hc => chainU_frame tmp U U1 pos _ hU hpos l cur hc⟩
    · rw [Function.update_same]; simp only; omega
    · have hnil : L = [] := by rw [← List.length_eq_zero]; omega
      subst hnil
      simp only [List.nil_append, List.reverse_cons, List.reverse_nil, Function.update_same]
      refine ⟨?_, ?_, trivial⟩
      · have := getPos_setPos (nh hkey) pos hlt
        unfold NodeHashEntry.getPos NodeHashEntry.setPos at this ⊢
        simp only at this ⊢
        rw [this]; exact hpos1
      · have := getPos_setPos (nh hkey) pos hlt
        unfold NodeHashEntry.getPos NodeHashEntry.setPos at this ⊢
        simp only at this ⊢
        rw [this, Function.update_same]
  · rw [if_neg h0]
    have h1 : (nh hkey).size ≠ 65535 := by omega
    rw [if_neg h1]
    refine ⟨_, _, rfl, fun k hk => Function.update_noteq hk _ _, ?_, ?_,
      fun cur l hc => chainU_frame tmp U U1 pos _ hU hpos l cur hc⟩
    · rw [Function.update_same, size_setPos]
      simp only
      rw [Nat.mod_eq_of_lt (by omega)]; omega
    · simp only [List.reverse_append, List.reverse_cons, List.reverse_nil, List.nil_append,
        List.singleton_append, Function.update_same]
      rw [getPos_setPos _ _ hlt]
      refine ⟨hpos1, ?_, ?_⟩
      · rw [Function.update_same]
      · rw [Function.update_same]
        exact chainU_frame tmp U U1 pos _ hU hpos _ _ hchain

theorem shardCount_succ (keyOf : Nat → Nat) (h p n : Nat) :
    shardCount keyOf h p (n + 1)
      = shardCount keyOf h p n + (if keyOf n >>> (h - 1) = p then 1 else 0) := by
  unfold shardCount
  rw [List.range_succ, List.countP_append]
  by_cases hk : keyOf n >>> (h - 1) = p <;> simp [hk]

theorem countP_range_succ (f : Nat → Bool) (n : Nat) :
    (List.range (n + 1)).countP f = (List.range n).countP f + (if f n = true then 1 else 0) := by
  rw [List.range_succ, List.countP_append, List.countP_cons, List.countP_nil, Nat.zero_add]

theorem blockCount_succ (keyOf : Nat → Nat) (h hpb p i n : Nat) :
    blockCount keyOf h hpb p i (n + 1)
      = blockCount keyOf h hpb p i n + (if keyOf n >>> (h - 1) = p ∧
          (keyOf n >>> (h - hpb)) &&& (2 ^ (hpb - 1) - 1) = i then 1 else 0) := by
  unfold blockCount
  rw [countP_range_succ]
  congr 1
  by_cases hk : keyOf n >>> (h - 1) = p ∧ (keyOf n >>> (h - hpb)) &&& (2 ^ (hpb - 1) - 1) = i
  · rw [if_pos hk, if_pos]
    rw [Bool.and_eq_true, beq_iff_eq, beq_iff_eq]; exact hk
  · rw [if_neg hk, if_neg]
    rw [Bool.and_eq_true, beq_iff_eq, beq_iff_eq]; exact hk

theorem shardCount_mono (keyOf : Nat → Nat) (h p : Nat) : ∀ n N, n ≤ N →
    shardCount keyOf h p n ≤ shardCount keyOf h p N := by
  intro n N hn
  induction N with
  | zero => have : n = 0 := by omega
            subst this; exact le_refl _
  | succ N ih =>
    rcases Nat.lt_or_ge n (N + 1) with hlt | hge
    · have := ih (by omega)
      rw [shardCount_succ]; omega
    · have : n = N + 1 := by omega
      subst this; exact le_refl _

theorem shardCount_total (keyOf : Nat → Nat) (h : Nat) : ∀ N,
    shardCount keyOf h 0 N + shardCount keyOf h 1 N ≤ N := by
  intro N
  induction N with
  | zero => simp [shardCount]
  | succ N ih =>
    rw [shardCount_succ, shardCount_succ]
    split_ifs <;> omega

theorem blockCount_le (keyOf : Nat → Nat) (h hpb p i n : Nat) :
    blockCount keyOf h hpb p i n ≤ n := by
  unfold blockCount
  have := List.countP_le_length (fun s => keyOf s >>> (h - 1) == p &&
    (keyOf s >>> (h - hpb)) &&& (2 ^ (hpb - 1) - 1) == i) (l := List.range n)
  simpa using this

theorem bucketOf_succ_ne (keyOf : Nat → Nat) (k n : Nat) (hk : keyOf n ≠ k) :
    bucketOf keyOf k (n + 1) = bucketOf keyOf k n := by
  rw [bucketOf_succ, if_neg hk, List.append_nil]

theorem bucketOf_succ_eq (keyOf : Nat → Nat) (n : Nat) :
    bucketOf keyOf (keyOf n) (n + 1) = bucketOf keyOf (keyOf n) n ++ [n] := by
  rw [bucketOf_succ, if_pos rfl]

theorem bucketOf_length_mono_le (keyOf : Nat → Nat) (k : Nat) : ∀ n N, n ≤ N →
    (bucketOf keyOf k n).length ≤ (bucketOf keyOf k N).length := by
  intro n N hn
  induction N with
  | zero => have : n = 0 := by omega
            subst this; exact le_refl _
  | succ N ih =>
    rcases Nat.lt_or_ge n (N + 1) with hlt | hge
    · exact le_trans (ih (by omega)) (bucketOf_length_mono keyOf k N)
    · have : n = N + 1 := by omega
      subst this; exact le_refl _

/-- The two shard counts with different cursors stay below the number of subsets. -/
theorem shardCount_pair (keyOf : Nat → Nat) (h n0 n1 N : Nat) (h0 : n0 ≤ N) (h1 : n1 ≤ N) :
    shardCount keyOf h 0 n0 + shardCount keyOf h 1 n1 ≤ N := by
  have a := shardCount_mono keyOf h 0 n0 N h0
  have b := shardCount_mono keyOf h 1 n1 N h1
  have c := shardCount_total keyOf h N
  omega

theorem cursor_of_some (st : PutPhaseState) (p : Nat) (w : PutWorker)
    (h : st.workers p = some w) : st.cursor p = w.subset := by
  unfold PutPhaseState.cursor; rw [h]

theorem cursor_of_none (st : PutPhaseState) (p : Nat)
    (h : st.workers p = none) : st.cursor p = 0 := by
  unfold PutPhaseState.cursor; rw [h]

theorem cursor_congr (st st1 : PutPhaseState) (p : Nat)
    (h : st1.workers p = st.workers p) : st1.cursor p = st.cursor p := by
  unfold PutPhaseState.cursor; rw [h]

theorem allocRel_le (keyOf : Nat → Nat) (h p : Nat) (o : Option PutWorker) (a N : Nat)
    (hs : ∀ w, o = some w → w.subset ≤ N)
    (ha : AllocRel keyOf h p o a) :
    a ≤ putSubsetBlockSize + shardCount keyOf h p N := by
  cases o with
  | none => unfold AllocRel at ha; omega
  | some w =>
    unfold AllocRel at ha
    have := shardCount_mono keyOf h p w.subset N (hs w rfl)
    omega

/-- The cells drawn so far stay below `2^m + 2 * putSubsetBlockSize`. -/
theorem putPhase_count_le (m h hpb : Nat) (keyOf : Nat → Nat) (st : PutPhaseState)
    (hinv : PutPhaseInv m h hpb keyOf st) :
    st.putSubsetBlockCount ≤ 2 ^ m + 2 * putSubsetBlockSize := by
  obtain ⟨a0, a1, h0, h1, hc⟩ := hinv.alloc
  have b0 := allocRel_le keyOf h 0 _ a0 (2 ^ m) (fun w hw => (hinv.wk 0 w hw).1) h0
  have b1 := allocRel_le keyOf h 1 _ a1 (2 ^ m) (fun w hw => (hinv.wk 1 w hw).1) h1
  have c := shardCount_total keyOf h (2 ^ m)
  omega

theorem pow_m_bound (m : Nat) (hm31 : m ≤ 31) : 2 ^ m ≤ 2147483648 := by
  have : (2147483648 : Nat) = 2 ^ 31 := by norm_num
  rw [this]
  exact Nat.pow_le_pow_right (by decide) hm31

theorem putSubsetStep_start (m h hpb : Nat) (sumOf : Nat → Int) (keyOf : Nat → Nat)
    (st : PutPhaseState) (p : Nat) (hm18 : 18 < m) (hm31 : m ≤ 31) (hp : p < 2)
    (hinv : PutPhaseInv m h hpb keyOf st) (hw : st.workers p = none) :
    ∃ st1, putSubsetStep m h hpb sumOf st p = some st1 ∧ PutPhaseInv m h hpb keyOf st1 ∧
      (∀ q, q ≠ p → st1.workers q = st.workers q) ∧
      st1.progress m p = min (st.progress m p + 1) (2 ^ m + 2) := by
  have hB : putSubsetBlockSize = 4096 := rfl
  have hpm := pow_m_bound m hm31
  obtain ⟨a0, a1, h0, h1, hc⟩ := hinv.alloc
  have b0 := allocRel_le keyOf h 0 _ a0 (2 ^ m) (fun w hw => (hinv.wk 0 w hw).1) h0
  have b1 := allocRel_le keyOf h 1 _ a1 (2 ^ m) (fun w hw => (hinv.wk 1 w hw).1) h1
  have c := shardCount_total keyOf h (2 ^ m)
  have hcnt : st.putSubsetBlockCount + putSubsetBlockSize < 4294967296 := by
    have hap : (p = 0 → a0 = 0) ∧ (p = 1 → a1 = 0) := by
      constructor
      · intro hp0; subst hp0; rw [hw] at h0; exact h0
      · intro hp1; subst hp1; rw [hw] at h1; exact h1
    rcases Nat.lt_or_ge p 1 with hp0 | hp1
    · have := hap.1 (by omega); omega
    · have := hap.2 (by omega); omega
  have hstep : putSubsetStep m h hpb sumOf st p = some { st with
        putSubsetBlockCount := st.putSubsetBlockCount + putSubsetBlockSize,
        workers := Function.update st.workers p
          (some { subset := 0, lp := st.putSubsetBlockCount, lpx := 0,
                  blockSizes := fun _ => 0, finished := false }) } := by
    unfold putSubsetStep
    rw [hw]
    simp only
    rw [if_neg (by omega), Nat.mod_eq_of_lt hcnt]
  refine ⟨_, hstep, ?_, ?_, ?_⟩
  · have hcur : ∀ q, PutPhaseState.cursor { st with
        putSubsetBlockCount := st.putSubsetBlockCount + putSubsetBlockSize,
        workers := Function.update st.workers p
          (some { subset := 0, lp := st.putSubsetBlockCount, lpx := 0,
                  blockSizes := fun _ => 0, finished := false }) } q = st.cursor q := by
      intro q
      by_cases hq : q = p
      · subst hq
        rw [cursor_of_none st q hw]
        unfold PutPhaseState.cursor
        simp only [Function.update_same]
      · exact cursor_congr _ _ _ (Function.update_noteq hq _ _)
    have hused : ∀ q, st.Used q → PutPhaseState.Used { st with
        putSubsetBlockCount := st.putSubsetBlockCount + putSubsetBlockSize,
        workers := Function.update st.workers p
          (some { subset := 0, lp := st.putSubsetBlockCount, lpx := 0,
                  blockSizes := fun _ => 0, finished := false }) } q := by
      intro q hq
      obtain ⟨hq1, hq2⟩ := hq
      refine ⟨by show q < st.putSubsetBlockCount + putSubsetBlockSize; omega, ?_⟩
      intro p1 w1 hw1
      by_cases hp1 : p1 = p
      · subst hp1
        simp only [Function.update_same, Option.some.injEq] at hw1
        subst hw1
        simp only
        omega
      · simp only [Function.update_noteq hp1] at hw1
        exact hq2 p1 w1 hw1
    refine { none_ge := ?_, size := ?_, zero := hinv.zero, chain := ?_, wk := ?_, fin := ?_,
             disj := ?_, alloc := ?_ }
    · intro q hq
      show Function.update st.workers p _ q = none
      rw [Function.update_noteq (by omega)]
      exact hinv.none_ge q hq
    · intro k
      rw [hcur]; exact hinv.size k
    · intro k
      rw [hcur]
      exact chainU_mono _ _ _ hused _ _ (hinv.chain k)
    · intro p1 w1 hw1
      by_cases hp1 : p1 = p
      · subst hp1
        simp only [Function.update_same, Option.some.injEq] at hw1
        subst hw1
        refine ⟨Nat.zero_le _, Nat.zero_le _, le_refl _, fun hf => absurd hf (by simp), ?_⟩
        intro i
        simp [blockCount]
      · simp only [Function.update_noteq hp1] at hw1
        obtain ⟨w1a, w1b, w1c, w1d, w1e⟩ := hinv.wk p1 w1 hw1
        exact ⟨w1a, w1b, by show w1.lp + putSubsetBlockSize ≤ st.putSubsetBlockCount + putSubsetBlockSize; omega, w1d, w1e⟩
    · intro p1 w1 hw1 hf i hi
      by_cases hp1 : p1 = p
      · subst hp1
        simp only [Function.update_same, Option.some.injEq] at hw1
        subst hw1
        simp at hf
      · simp only [Function.update_noteq hp1] at hw1
        exact hinv.fin p1 w1 hw1 hf i hi
    · intro w0 w1 hw0 hw1
      by_cases hp0 : p = 0
      · subst hp0
        simp only [Function.update_same, Option.some.injEq] at hw0
        simp only [Function.update_noteq (show (1 : Nat) ≠ 0 by decide)] at hw1
        subst hw0
        have := (hinv.wk 1 w1 hw1).2.2.1
        simp only
        omega
      · have hp1 : p = 1 := by omega
        subst hp1
        simp only [Function.update_same, Option.some.injEq] at hw1
        simp only [Function.update_noteq (show (0 : Nat) ≠ 1 by decide)] at hw0
        subst hw1
        have := (hinv.wk 0 w0 hw0).2.2.1
        simp only
        omega
    · by_cases hp0 : p = 0
      · subst hp0
        refine ⟨putSubsetBlockSize, a1, ?_, ?_, ?_⟩
        · simp only [Function.update_same]
          unfold AllocRel
          simp [shardCount]
        · simp only [Function.update_noteq (show (1 : Nat) ≠ 0 by decide)]
          exact h1
        · rw [hw] at h0
          have : a0 = 0 := h0
          show st.putSubsetBlockCount + putSubsetBlockSize = putSubsetBlockSize + a1
          omega
      · have hp1 : p = 1 := by omega
        subst hp1
        refine ⟨a0, putSubsetBlockSize, ?_, ?_, ?_⟩
        · simp only [Function.update_noteq (show (0 : Nat) ≠ 1 by decide)]
          exact h0
        · simp only [Function.update_same]
          unfold AllocRel
          simp [shardCount]
        · rw [hw] at h1
          have : a1 = 0 := h1
          show st.putSubsetBlockCount + putSubsetBlockSize = a0 + putSubsetBlockSize
          omega
  · intro q hq
    exact Function.update_noteq hq _ _
  · unfold PutPhaseState.progress
    rw [hw]
    simp only [Function.update_same]
    simp

theorem putSubsetStep_finished (m h hpb : Nat) (sumOf : Nat → Int) (keyOf : Nat → Nat)
    (st : PutPhaseState) (p : Nat) (w : PutWorker)
    (hinv : PutPhaseInv m h hpb keyOf st) (hw : st.workers p = some w)
    (hf : w.finished = true) :
    ∃ st1, putSubsetStep m h hpb sumOf st p = some st1 ∧ PutPhaseInv m h hpb keyOf st1 ∧
      (∀ q, q ≠ p → st1.workers q = st.workers q) ∧
      st1.progress m p = min (st.progress m p + 1) (2 ^ m + 2) := by
  have hstep : putSubsetStep m h hpb sumOf st p = some st := by
    unfold putSubsetStep
    rw [hw]
    simp only
    rw [if_pos hf]
  refine ⟨st, hstep, hinv, fun _ _ => rfl, ?_⟩
  unfold PutPhaseState.progress
  rw [hw]
  simp only [hf, if_true]
  omega

theorem putSubsetStep_skip (m h hpb : Nat) (sumOf : Nat → Int) (keyOf : Nat → Nat)
    (hkO : ∀ s, keyOf s = getNodeHashKey h (sumOf s))
    (st : PutPhaseState) (p : Nat) (w : PutWorker)
    (hinv : PutPhaseInv m h hpb keyOf st) (hw : st.workers p = some w)
    (hf : w.finished = false) (hlt : w.subset < 2 ^ m)
    (hsh : keyOf w.subset >>> (h - 1) ≠ p) :
    ∃ st1, putSubsetStep m h hpb sumOf st p = some st1 ∧ PutPhaseInv m h hpb keyOf st1 ∧
      (∀ q, q ≠ p → st1.workers q = st.workers q) ∧
      st1.progress m p = min (st.progress m p + 1) (2 ^ m + 2) := by
  have hstep : putSubsetStep m h hpb sumOf st p = some { st with
        workers := Function.update st.workers p (some { w with subset := w.subset + 1 }) } := by
    unfold putSubsetStep
    rw [hw]
    simp only
    rw [if_neg (by rw [hf]; simp), if_pos hlt, ← hkO, if_pos hsh]
  refine ⟨_, hstep, ?_, ?_, ?_⟩
  · have hcur : ∀ q, q ≠ p → PutPhaseState.cursor { st with
        workers := Function.update st.workers p (some { w with subset := w.subset + 1 }) } q
          = st.cursor q := by
      intro q hq
      exact cursor_congr _ _ _ (Function.update_noteq hq _ _)
    have hcurp : PutPhaseState.cursor { st with
        workers := Function.update st.workers p (some { w with subset := w.subset + 1 }) } p
          = w.subset + 1 := by
      unfold PutPhaseState.cursor
      simp only [Function.update_same]
    have hbucket : ∀ k, bucketOf keyOf k (PutPhaseState.cursor { st with
        workers := Function.update st.workers p (some { w with subset := w.subset + 1 }) }
          (k >>> (h - 1))) = bucketOf keyOf k (st.cursor (k >>> (h - 1))) := by
      intro k
      by_cases hk : k >>> (h - 1) = p
      · rw [hk, hcurp, cursor_of_some st p w hw]
        apply bucketOf_succ_ne
        intro hkk
        rw [hkk] at hsh
        exact hsh hk
      · rw [hcur _ hk]
    have hused : ∀ q, st.Used q → PutPhaseState.Used { st with
        workers := Function.update st.workers p (some { w with subset := w.subset + 1 }) } q := by
      intro q hq
      obtain ⟨hq1, hq2⟩ := hq
      refine ⟨hq1, ?_⟩
      intro p1 w1 hw1
      by_cases hp1 : p1 = p
      · subst hp1
        simp only [Function.update_same, Option.some.injEq] at hw1
        subst hw1
        exact hq2 p1 w hw
      · simp only [Function.update_noteq hp1] at hw1
        exact hq2 p1 w1 hw1
    obtain ⟨wa, wb, wc, wd, we⟩ := hinv.wk p w hw
    refine { none_ge := ?_, size := ?_, zero := hinv.zero, chain := ?_, wk := ?_, fin := ?_,
             disj := ?_, alloc := ?_ }
    · intro q hq
      show Function.update st.workers p _ q = none
      by_cases hqp : q = p
      · subst hqp; rw [hinv.none_ge q hq] at hw; exact absurd hw (by simp)
      · rw [Function.update_noteq hqp]
        exact hinv.none_ge q hq
    · intro k
      rw [hbucket]; exact hinv.size k
    · intro k
      rw [hbucket]
      exact chainU_mono _ _ _ hused _ _ (hinv.chain k)
    · intro p1 w1 hw1
      by_cases hp1 : p1 = p
      · subst hp1
        simp only [Function.update_same, Option.some.injEq] at hw1
        subst hw1
        refine ⟨hlt, wb, wc, fun hf1 => absurd hf1 (by rw [hf]; simp), ?_⟩
        intro i
        show w.blockSizes i = blockCount keyOf h hpb p1 i (w.subset + 1)
        rw [blockCount_succ, if_neg (fun hc => hsh hc.1), we i]; rfl
      · simp only [Function.update_noteq hp1] at hw1
        exact hinv.wk p1 w1 hw1
    · intro p1 w1 hw1 hf1 i hi
      by_cases hp1 : p1 = p
      · subst hp1
        simp only [Function.update_same, Option.some.injEq] at hw1
        subst hw1
        exact absurd hf1 (by rw [hf]; simp)
      · simp only [Function.update_noteq hp1] at hw1
        exact hinv.fin p1 w1 hw1 hf1 i hi
    · intro w0 w1 hw0 hw1
      by_cases hp0 : p = 0
      · subst hp0
        simp only [Function.update_same, Option.some.injEq] at hw0
        simp only [Function.update_noteq (show (1 : Nat) ≠ 0 by decide)] at hw1
        subst hw0
        exact hinv.disj w w1 hw hw1
      · simp only [Function.update_noteq (Ne.symm hp0)] at hw0
        by_cases hp1 : p = 1
        · subst hp1
          simp only [Function.update_same, Option.some.injEq] at hw1
          subst hw1
          exact hinv.disj w0 w hw0 hw
        · simp only [Function.update_noteq (Ne.symm hp1)] at hw1
          exact hinv.disj w0 w1 hw0 hw1
    · obtain ⟨a0, a1, h0, h1, hc⟩ := hinv.alloc
      refine ⟨a0, a1, ?_, ?_, hc⟩
      · by_cases hp0 : p = 0
        · subst hp0
          simp only [Function.update_same]
          rw [hw] at h0
          unfold AllocRel at h0 ⊢
          simp only
          rw [shardCount_succ, if_neg hsh]; exact h0
        · simp only [Function.update_noteq (Ne.symm hp0)]
          exact h0
      · by_cases hp1 : p = 1
        · subst hp1
          simp only [Function.update_same]
          rw [hw] at h1
          unfold AllocRel at h1 ⊢
          simp only
          rw [shardCount_succ, if_neg hsh]; exact h1
        · simp only [Function.update_noteq (Ne.symm hp1)]
          exact h1
  · intro q hq
    exact Function.update_noteq hq _ _
  · unfold PutPhaseState.progress
    rw [hw]
    simp only [Function.update_same, hf]
    simp only [Bool.false_eq_true, if_false]
    omega

theorem putSubsetStep_leave (m h hpb : Nat) (sumOf : Nat → Int) (keyOf : Nat → Nat)
    (st : PutPhaseState) (p : Nat) (w : PutWorker) (hp : p < 2)
    (hinv : PutPhaseInv m h hpb keyOf st) (hw : st.workers p = some w)
    (hf : w.finished = false) (hge : ¬ w.subset < 2 ^ m) :
    ∃ st1, putSubsetStep m h hpb sumOf st p = some st1 ∧ PutPhaseInv m h hpb keyOf st1 ∧
      (∀ q, q ≠ p → st1.workers q = st.workers q) ∧
      st1.progress m p = min (st.progress m p + 1) (2 ^ m + 2) := by
  have hstep : putSubsetStep m h hpb sumOf st p = some { st with
        nodeHashListsBlocksSize := fun i =>
          if p * 2 ^ (hpb - 1) ≤ i ∧ i < p * 2 ^ (hpb - 1) + 2 ^ (hpb - 1) then
            w.blockSizes (i - p * 2 ^ (hpb - 1))
          else st.nodeHashListsBlocksSize i,
        workers := Function.update st.workers p (some { w with finished := true }) } := by
    unfold putSubsetStep
    rw [hw]
    simp only
    rw [if_neg (by rw [hf]; simp), if_neg hge]
  obtain ⟨wa, wb, wc, wd, we⟩ := hinv.wk p w hw
  have hsub : w.subset = 2 ^ m := by omega
  refine ⟨_, hstep, ?_, ?_, ?_⟩
  · have hcur : ∀ q, PutPhaseState.cursor { st with
        nodeHashListsBlocksSize := fun i =>
          if p * 2 ^ (hpb - 1) ≤ i ∧ i < p * 2 ^ (hpb - 1) + 2 ^ (hpb - 1) then
            w.blockSizes (i - p * 2 ^ (hpb - 1))
          else st.nodeHashListsBlocksSize i,
        workers := Function.update st.workers p (some { w with finished := true }) } q
          = st.cursor q := by
      intro q
      by_cases hq : q = p
      · subst hq
        rw [cursor_of_some st q w hw]
        unfold PutPhaseState.cursor
        simp only [Function.update_same]
      · exact cursor_congr _ _ _ (Function.update_noteq hq _ _)
    have hused : ∀ q, st.Used q → PutPhaseState.Used { st with
        nodeHashListsBlocksSize := fun i =>
          if p * 2 ^ (hpb - 1) ≤ i ∧ i < p * 2 ^ (hpb - 1) + 2 ^ (hpb - 1) then
            w.blockSizes (i - p * 2 ^ (hpb - 1))
          else st.nodeHashListsBlocksSize i,
        workers := Function.update st.workers p (some { w with finished := true }) } q := by
      intro q hq
      obtain ⟨hq1, hq2⟩ := hq
      refine ⟨hq1, ?_⟩
      intro p1 w1 hw1
      by_cases hp1 : p1 = p
      · subst hp1
        simp only [Function.update_same, Option.some.injEq] at hw1
        subst hw1
        exact hq2 p1 w hw
      · simp only [Function.update_noteq hp1] at hw1
        exact hq2 p1 w1 hw1
    refine { none_ge := ?_, size := ?_, zero := hinv.zero, chain := ?_, wk := ?_, fin := ?_,
             disj := ?_, alloc := ?_ }
    · intro q hq
      show Function.update st.workers p _ q = none
      rw [Function.update_noteq (by omega)]
      exact hinv.none_ge q hq
    · intro k
      rw [hcur]; exact hinv.size k
    · intro k
      rw [hcur]
      exact chainU_mono _ _ _ hused _ _ (hinv.chain k)
    · intro p1 w1 hw1
      by_cases hp1 : p1 = p
      · subst hp1
        simp only [Function.update_same, Option.some.injEq] at hw1
        subst hw1
        exact ⟨wa, wb, wc, fun _ => hsub, we⟩
      · simp only [Function.update_noteq hp1] at hw1
        exact hinv.wk p1 w1 hw1
    · intro p1 w1 hw1 hf1 i hi
      have hp1lt : p1 < 2 := by
        by_contra hc
        have := hinv.none_ge p1 (by omega)
        by_cases hp1 : p1 = p
        · omega
        · simp only [Function.update_noteq hp1] at hw1
          rw [this] at hw1; exact absurd hw1 (by simp)
      by_cases hp1 : p1 = p
      · subst hp1
        simp only [Function.update_same, Option.some.injEq] at hw1
        subst hw1
        show (if p1 * 2 ^ (hpb - 1) ≤ p1 * 2 ^ (hpb - 1) + i ∧
            p1 * 2 ^ (hpb - 1) + i < p1 * 2 ^ (hpb - 1) + 2 ^ (hpb - 1) then
            w.blockSizes (p1 * 2 ^ (hpb - 1) + i - p1 * 2 ^ (hpb - 1))
          else st.nodeHashListsBlocksSize (p1 * 2 ^ (hpb - 1) + i)) = _
        rw [if_pos ⟨by omega, by omega⟩, Nat.add_sub_cancel_left, we i, hsub]
      · simp only [Function.update_noteq hp1] at hw1
        show (if p * 2 ^ (hpb - 1) ≤ p1 * 2 ^ (hpb - 1) + i ∧
            p1 * 2 ^ (hpb - 1) + i < p * 2 ^ (hpb - 1) + 2 ^ (hpb - 1) then
            w.blockSizes (p1 * 2 ^ (hpb - 1) + i - p * 2 ^ (hpb - 1))
          else st.nodeHashListsBlocksSize (p1 * 2 ^ (hpb - 1) + i)) = _
        rw [if_neg]
        · exact hinv.fin p1 w1 hw1 hf1 i hi
        · generalize 2 ^ (hpb - 1) = S at hi ⊢
          have h01 : (p = 0 ∧ p1 = 1) ∨ (p = 1 ∧ p1 = 0) := by omega
          rcases h01 with ⟨e1, e2⟩ | ⟨e1, e2⟩
          · subst e1; subst e2; omega
          · subst e1; subst e2; omega
    · intro w0 w1 hw0 hw1
      by_cases hp0 : p = 0
      · subst hp0
        simp only [Function.update_same, Option.some.injEq] at hw0
        simp only [Function.update_noteq (show (1 : Nat) ≠ 0 by decide)] at hw1
        subst hw0
        exact hinv.disj w w1 hw hw1
      · simp only [Function.update_noteq (Ne.symm hp0)] at hw0
        by_cases hp1 : p = 1
        · subst hp1
          simp only [Function.update_same, Option.some.injEq] at hw1
          subst hw1
          exact hinv.disj w0 w hw0 hw
        · simp only [Function.update_noteq (Ne.symm hp1)] at hw1
          exact hinv.disj w0 w1 hw0 hw1
    · obtain ⟨a0, a1, h0, h1, hc⟩ := hinv.alloc
      refine ⟨a0, a1, ?_, ?_, hc⟩
      · by_cases hp0 : p = 0
        · subst hp0
          simp only [Function.update_same]
          rw [hw] at h0
          exact h0
        · simp only [Function.update_noteq (Ne.symm hp0)]
          exact h0
      · by_cases hp1 : p = 1
        · subst hp1
          simp only [Function.update_same]
          rw [hw] at h1
          exact h1
        · simp only [Function.update_noteq (Ne.symm hp1)]
          exact h1
  · intro q hq
    exact Function.update_noteq hq _ _
  · unfold PutPhaseState.progress
    rw [hw]
    simp only [Function.update_same, hf]
    simp only [Bool.false_eq_true, if_false, if_true]
    omega

/-- Placing the subset of the cursor in the cell `lp1 + lpx1` keeps the invariant. -/
theorem putPhase_place_inv (m h hpb : Nat) (keyOf : Nat → Nat)
    (st : PutPhaseState) (p : Nat) (w : PutWorker) (lp1 lpx1 cnt1 : Nat)
    (hm31 : m ≤ 31) (hp : p < 2)
    (hno : ∀ k, (bucketOf keyOf k (2 ^ m)).length ≤ 65535)
    (hinv : PutPhaseInv m h hpb keyOf st) (hw : st.workers p = some w)
    (hf : w.finished = false) (hlt : w.subset < 2 ^ m)
    (hsh : keyOf w.subset >>> (h - 1) = p)
    (P1 : st.putSubsetBlockCount ≤ cnt1)
    (P2 : lp1 + putSubsetBlockSize ≤ cnt1)
    (P3 : lpx1 < putSubsetBlockSize)
    (P4 : ¬ st.Used (lp1 + lpx1))
    (P5 : ∀ q, q < st.putSubsetBlockCount → lp1 + (lpx1 + 1) ≤ q → q < lp1 + putSubsetBlockSize →
      (w.lp + w.lpx ≤ q ∧ q < w.lp + putSubsetBlockSize))
    (P6 : ∀ p1 w1, p1 ≠ p → st.workers p1 = some w1 →
      lp1 + putSubsetBlockSize ≤ w1.lp ∨ w1.lp + putSubsetBlockSize ≤ lp1)
    (P7 : cnt1 + lpx1 = st.putSubsetBlockCount + w.lpx) :
    cnt1 < 4294967296 ∧ lp1 + lpx1 < 4294967296 ∧
    ∃ nh1 tmp1, putSubsetAt st.nodeHash st.tmpHashLists (keyOf w.subset) w.subset (lp1 + lpx1)
        = some (nh1, tmp1) ∧
      PutPhaseInv m h hpb keyOf
        { st with
          nodeHash := nh1,
          tmpHashLists := tmp1,
          putSubsetBlockCount := cnt1,
          workers := Function.update st.workers p
            (some { w with
              subset := w.subset + 1, lp := lp1, lpx := lpx1 + 1,
              blockSizes := Function.update w.blockSizes
                ((keyOf w.subset >>> (h - hpb)) &&& (2 ^ (hpb - 1) - 1))
                ((w.blockSizes ((keyOf w.subset >>> (h - hpb)) &&& (2 ^ (hpb - 1) - 1)) + 1)
                  % 4294967296) }) } := by
  have hB : putSubsetBlockSize = 4096 := rfl
  have hpm := pow_m_bound m hm31
  obtain ⟨wa, wb, wc, wd, we⟩ := hinv.wk p w hw
  obtain ⟨a0, a1, h0, h1, hc⟩ := hinv.alloc
  -- the bound on the new count
  have hcnt : cnt1 ≤ 2 ^ m + 2 * putSubsetBlockSize := by
    have b0 := allocRel_le keyOf h 0 _ a0 (2 ^ m) (fun w hw => (hinv.wk 0 w hw).1) h0
    have b1 := allocRel_le keyOf h 1 _ a1 (2 ^ m) (fun w hw => (hinv.wk 1 w hw).1) h1
    have c := shardCount_total keyOf h (2 ^ m)
    have hs1 := shardCount_succ keyOf h p w.subset
    rw [if_pos hsh] at hs1
    have hs2 := shardCount_mono keyOf h p (w.subset + 1) (2 ^ m) hlt
    rcases Nat.lt_or_ge p 1 with hp0 | hp1
    · have e : p = 0 := by omega
      subst e
      rw [hw] at h0
      unfold AllocRel at h0
      omega
    · have e : p = 1 := by omega
      subst e
      rw [hw] at h1
      unfold AllocRel at h1
      omega
  have hpos : lp1 + lpx1 < 4294967296 := by omega
  refine ⟨by omega, hpos, ?_⟩
  have hcurp : st.cursor p = w.subset := cursor_of_some st p w hw
  have hL : (bucketOf keyOf (keyOf w.subset) w.subset).length < 65535 := by
    have e := bucketOf_succ_eq keyOf w.subset
    have l1 := bucketOf_length_mono_le keyOf (keyOf w.subset) (w.subset + 1) (2 ^ m) hlt
    rw [e, List.length_append, List.length_singleton] at l1
    have := hno (keyOf w.subset)
    omega
  have hsize0 := hinv.size (keyOf w.subset)
  rw [hsh, hcurp] at hsize0
  have hchain0 := hinv.chain (keyOf w.subset)
  rw [hsh, hcurp] at hchain0
  obtain ⟨W1, hW1⟩ : ∃ W1 : Nat → Option PutWorker, W1 = Function.update st.workers p
            (some { w with
              subset := w.subset + 1, lp := lp1, lpx := lpx1 + 1,
              blockSizes := Function.update w.blockSizes
                ((keyOf w.subset >>> (h - hpb)) &&& (2 ^ (hpb - 1) - 1))
                ((w.blockSizes ((keyOf w.subset >>> (h - hpb)) &&& (2 ^ (hpb - 1) - 1)) + 1)
                  % 4294967296) }) := ⟨_, rfl⟩
  rw [← hW1]
  have hW1p : W1 p = some { w with
              subset := w.subset + 1, lp := lp1, lpx := lpx1 + 1,
              blockSizes := Function.update w.blockSizes
                ((keyOf w.subset >>> (h - hpb)) &&& (2 ^ (hpb - 1) - 1))
                ((w.blockSizes ((keyOf w.subset >>> (h - hpb)) &&& (2 ^ (hpb - 1) - 1)) + 1)
                  % 4294967296) } := by
    rw [hW1, Function.update_same]
  have hW1o : ∀ q, q ≠ p → W1 q = st.workers q := by
    intro q hq; rw [hW1, Function.update_noteq hq]
  clear hW1
  -- the used cells
  have hU : ∀ q, st.Used q → PutPhaseState.Used
      { st with putSubsetBlockCount := cnt1, workers := W1 } q := by
    intro q hq
    obtain ⟨hq1, hq2⟩ := hq
    refine ⟨by show q < cnt1; omega, ?_⟩
    intro p1 w1 hw1
    have hw1 : W1 p1 = some w1 := hw1
    by_cases hp1 : p1 = p
    · subst hp1
      rw [hW1p, Option.some.injEq] at hw1
      subst hw1
      simp only
      intro hcon
      exact hq2 p1 w hw (P5 q hq1 hcon.1 hcon.2)
    · rw [hW1o p1 hp1] at hw1
      exact hq2 p1 w1 hw1
  have hU1 : PutPhaseState.Used
      { st with putSubsetBlockCount := cnt1, workers := W1 } (lp1 + lpx1) := by
    refine ⟨by show lp1 + lpx1 < cnt1; omega, ?_⟩
    intro p1 w1 hw1
    have hw1 : W1 p1 = some w1 := hw1
    by_cases hp1 : p1 = p
    · subst hp1
      rw [hW1p, Option.some.injEq] at hw1
      subst hw1
      simp only
      omega
    · rw [hW1o p1 hp1] at hw1
      have := P6 p1 w1 hp1 hw1
      omega
  obtain ⟨nh1, tmp1, hput, hnh, hsz, hch, hfr⟩ := putSubsetAt_spec st.nodeHash st.tmpHashLists
    st.Used (PutPhaseState.Used { st with putSubsetBlockCount := cnt1, workers := W1 })
    (keyOf w.subset) w.subset (lp1 + lpx1) (bucketOf keyOf (keyOf w.subset) w.subset)
    hU P4 hU1 hpos hsize0 hL hchain0
  refine ⟨nh1, tmp1, hput, ?_⟩
  have hcur1p : PutPhaseState.cursor { st with
          nodeHash := nh1, tmpHashLists := tmp1, putSubsetBlockCount := cnt1,
          workers := W1 } p = w.subset + 1 := by
    unfold PutPhaseState.cursor
    simp only [hW1p]
  have hcur1o : ∀ q, q ≠ p → PutPhaseState.cursor { st with
          nodeHash := nh1, tmpHashLists := tmp1, putSubsetBlockCount := cnt1,
          workers := W1 } q = st.cursor q := by
    intro q hq
    exact cursor_congr _ _ _ (hW1o q hq)
  have hbucket : ∀ k, k ≠ keyOf w.subset → bucketOf keyOf k (PutPhaseState.cursor { st with
          nodeHash := nh1, tmpHashLists := tmp1, putSubsetBlockCount := cnt1,
          workers := W1 } (k >>> (h - 1))) = bucketOf keyOf k (st.cursor (k >>> (h - 1))) := by
    intro k hk
    by_cases hkp : k >>> (h - 1) = p
    · rw [hkp, hcur1p, hcurp]
      exact bucketOf_succ_ne keyOf k w.subset (Ne.symm hk)
    · rw [hcur1o _ hkp]
  refine { none_ge := ?_, size := ?_, zero := ?_, chain := ?_, wk := ?_, fin := ?_,
           disj := ?_, alloc := ?_ }
  · intro q hq
    show W1 q = none
    rw [hW1o q (by omega)]
    exact hinv.none_ge q hq
  · intro k
    by_cases hk : k = keyOf w.subset
    · subst hk
      rw [hsh, hcur1p, bucketOf_succ_eq, List.length_append, List.length_singleton]
      exact hsz
    · rw [hbucket k hk]
      show (nh1 k).size = _
      rw [hnh k hk]; exact hinv.size k
  · intro k hk0
    have hk0 : (nh1 k).size = 0 := hk0
    by_cases hk : k = keyOf w.subset
    · subst hk; omega
    · show nh1 k = _
      rw [hnh k hk] at hk0 ⊢
      exact hinv.zero k hk0
  · intro k
    by_cases hk : k = keyOf w.subset
    · subst hk
      rw [hsh, hcur1p, bucketOf_succ_eq]
      exact hch
    · rw [hbucket k hk]
      show ChainU tmp1 _ (nh1 k).getPos _
      rw [hnh k hk]
      exact hfr _ _ (hinv.chain k)
  · intro p1 w1 hw1
    have hw1 : W1 p1 = some w1 := hw1
    by_cases hp1 : p1 = p
    · subst hp1
      rw [hW1p, Option.some.injEq] at hw1
      subst hw1
      refine ⟨hlt, by show lpx1 + 1 ≤ putSubsetBlockSize; omega, P2,
        fun hf1 => absurd hf1 (by rw [hf]; simp), ?_⟩
      intro i
      show Function.update w.blockSizes _ _ i = blockCount keyOf h hpb p1 i (w.subset + 1)
      rw [blockCount_succ]
      by_cases hi : i = (keyOf w.subset >>> (h - hpb)) &&& (2 ^ (hpb - 1) - 1)
      · subst hi
        rw [Function.update_same, if_pos ⟨hsh, rfl⟩, we]
        have := blockCount_le keyOf h hpb p1
          ((keyOf w.subset >>> (h - hpb)) &&& (2 ^ (hpb - 1) - 1)) w.subset
        exact Nat.mod_eq_of_lt (by omega)
      · rw [Function.update_noteq hi, if_neg (fun hc => hi hc.2.symm), we]; rfl
    · rw [hW1o p1 hp1] at hw1
      obtain ⟨w1a, w1b, w1c, w1d, w1e⟩ := hinv.wk p1 w1 hw1
      exact ⟨w1a, w1b, by show w1.lp + putSubsetBlockSize ≤ cnt1; omega, w1d, w1e⟩
  · intro p1 w1 hw1 hf1 i hi
    have hw1 : W1 p1 = some w1 := hw1
    by_cases hp1 : p1 = p
    · subst hp1
      rw [hW1p, Option.some.injEq] at hw1
      subst hw1
      exact absurd hf1 (by rw [hf]; simp)
    · rw [hW1o p1 hp1] at hw1
      exact hinv.fin p1 w1 hw1 hf1 i hi
  · intro w0 w1 hw0 hw1
    have hw0 : W1 0 = some w0 := hw0
    have hw1 : W1 1 = some w1 := hw1
    by_cases hp0 : p = 0
    · subst hp0
      rw [hW1p, Option.some.injEq] at hw0
      rw [hW1o 1 (by decide)] at hw1
      subst hw0
      exact P6 1 w1 (by decide) hw1
    · have hp1 : p = 1 := by omega
      subst hp1
      rw [hW1p, Option.some.injEq] at hw1
      rw [hW1o 0 (by decide)] at hw0
      subst hw1
      have := P6 0 w0 (by decide) hw0
      show w0.lp + putSubsetBlockSize ≤ lp1 ∨ lp1 + putSubsetBlockSize ≤ w0.lp
      omega
  · have hs1 := shardCount_succ keyOf h p w.subset
    rw [if_pos hsh] at hs1
    by_cases hp0 : p = 0
    · subst hp0
      rw [hw] at h0
      unfold AllocRel at h0
      refine ⟨a0 + w.lpx - lpx1, a1, ?_, ?_, ?_⟩
      · show AllocRel keyOf h 0 (W1 0) _
        rw [hW1p]
        unfold AllocRel
        simp only
        omega
      · show AllocRel keyOf h 1 (W1 1) _
        rw [hW1o 1 (by decide)]; exact h1
      · show cnt1 = _
        omega
    · have hp1 : p = 1 := by omega
      subst hp1
      rw [hw] at h1
      unfold AllocRel at h1
      refine ⟨a0, a1 + w.lpx - lpx1, ?_, ?_, ?_⟩
      · show AllocRel keyOf h 0 (W1 0) _
        rw [hW1o 0 (by decide)]; exact h0
      · show AllocRel keyOf h 1 (W1 1) _
        rw [hW1p]
        unfold AllocRel
        simp only
        omega
      · show cnt1 = _
        omega

theorem worker_part_lt (m h hpb : Nat) (keyOf : Nat → Nat) (st : PutPhaseState)
    (hinv : PutPhaseInv m h hpb keyOf st) (p : Nat) (w : PutWorker)
    (hw : st.workers p = some w) : p < 2 := by
  by_contra hc
  rw [hinv.none_ge p (by omega)] at hw
  exact absurd hw (by simp)

theorem putSubsetStep_place (m h hpb : Nat) (sumOf : Nat → Int) (keyOf : Nat → Nat)
    (hkO : ∀ s, keyOf s = getNodeHashKey h (sumOf s))
    (st : PutPhaseState) (p : Nat) (w : PutWorker) (hm31 : m ≤ 31) (hp : p < 2)
    (hno : ∀ k, (bucketOf keyOf k (2 ^ m)).length ≤ 65535)
    (hinv : PutPhaseInv m h hpb keyOf st) (hw : st.workers p = some w)
    (hf : w.finished = false) (hlt : w.subset < 2 ^ m)
    (hsh : keyOf w.subset >>> (h - 1) = p) :
    ∃ st1, putSubsetStep m h hpb sumOf st p = some st1 ∧ PutPhaseInv m h hpb keyOf st1 ∧
      (∀ q, q ≠ p → st1.workers q = st.workers q) ∧
      st1.progress m p = min (st.progress m p + 1) (2 ^ m + 2) := by
  have hB : putSubsetBlockSize = 4096 := rfl
  obtain ⟨wa, wb, wc, wd, we⟩ := hinv.wk p w hw
  have hprog : ∀ (st1 : PutPhaseState) (w1 : PutWorker), st1.workers p = some w1 →
      w1.finished = false → w1.subset = w.subset + 1 →
      st1.progress m p = min (st.progress m p + 1) (2 ^ m + 2) := by
    intro st1 w1 h1 h2 h3
    unfold PutPhaseState.progress
    rw [hw, h1]
    simp only [hf, h2, Bool.false_eq_true, if_false, h3]
    omega
  by_cases hfull : w.lpx = putSubsetBlockSize
  · obtain ⟨c1, c2, nh1, tmp1, hput, hinv1⟩ := putPhase_place_inv m h hpb keyOf st p w
      st.putSubsetBlockCount 0 (st.putSubsetBlockCount + putSubsetBlockSize)
      hm31 hp hno hinv hw hf hlt hsh (by omega) (le_refl _) (by omega)
      (fun hu => by have := hu.1; omega)
      (fun q h1 h2 _ => by omega)
      (fun p1 w1 _ hw1 => Or.inr (hinv.wk p1 w1 hw1).2.2.1)
      (by omega)
    have hstep : putSubsetStep m h hpb sumOf st p = some { st with
          nodeHash := nh1,
          tmpHashLists := tmp1,
          putSubsetBlockCount := st.putSubsetBlockCount + putSubsetBlockSize,
          workers := Function.update st.workers p
            (some { w with
              subset := w.subset + 1, lp := st.putSubsetBlockCount, lpx := 0 + 1,
              blockSizes := Function.update w.blockSizes
                ((keyOf w.subset >>> (h - hpb)) &&& (2 ^ (hpb - 1) - 1))
                ((w.blockSizes ((keyOf w.subset >>> (h - hpb)) &&& (2 ^ (hpb - 1) - 1)) + 1)
                  % 4294967296) }) } := by
      unfold putSubsetStep
      rw [hw]
      simp only
      rw [if_neg (by rw [hf]; simp), if_pos hlt, ← hkO, if_neg (not_not.2 hsh)]
      simp only [hfull, if_true]
      rw [Nat.mod_eq_of_lt c2, Nat.mod_eq_of_lt c1, hput]
      rfl
    refine ⟨_, hstep, hinv1, fun q hq => Function.update_noteq hq _ _, ?_⟩
    exact hprog _ _ (Function.update_same _ _ _) hf rfl
  · have hdisj : ∀ p1 w1, p1 ≠ p → st.workers p1 = some w1 →
        w.lp + putSubsetBlockSize ≤ w1.lp ∨ w1.lp + putSubsetBlockSize ≤ w.lp := by
      intro p1 w1 hne hw1
      have hp1 := worker_part_lt m h hpb keyOf st hinv p1 w1 hw1
      have h01 : (p = 0 ∧ p1 = 1) ∨ (p = 1 ∧ p1 = 0) := by omega
      rcases h01 with ⟨e1, e2⟩ | ⟨e1, e2⟩
      · subst e1; subst e2; exact hinv.disj w w1 hw hw1
      · subst e1; subst e2
        have := hinv.disj w1 w hw1 hw
        omega
    obtain ⟨c1, c2, nh1, tmp1, hput, hinv1⟩ := putPhase_place_inv m h hpb keyOf st p w
      w.lp w.lpx st.putSubsetBlockCount
      hm31 hp hno hinv hw hf hlt hsh (le_refl _) wc (by omega)
      (fun hu => hu.2 p w hw ⟨le_refl _, by omega⟩)
      (fun q h1 h2 h3 => ⟨by omega, h3⟩)
      hdisj rfl
    have hstep : putSubsetStep m h hpb sumOf st p = some { st with
          nodeHash := nh1,
          tmpHashLists := tmp1,
          putSubsetBlockCount := st.putSubsetBlockCount,
          workers := Function.update st.workers p
            (some { w with
              subset := w.subset + 1, lp := w.lp, lpx := w.lpx + 1,
              blockSizes := Function.update w.blockSizes
                ((keyOf w.subset >>> (h - hpb)) &&& (2 ^ (hpb - 1) - 1))
                ((w.blockSizes ((keyOf w.subset >>> (h - hpb)) &&& (2 ^ (hpb - 1) - 1)) + 1)
                  % 4294967296) }) } := by
      unfold putSubsetStep
      rw [hw]
      simp only
      rw [if_neg (by rw [hf]; simp), if_pos hlt, ← hkO, if_neg (not_not.2 hsh)]
      simp only [hfull, if_false]
      rw [Nat.mod_eq_of_lt c2, hput]
      rfl
    refine ⟨_, hstep, hinv1, fun q hq => Function.update_noteq hq _ _, ?_⟩
    exact hprog _ _ (Function.update_same _ _ _) hf rfl

/-- Every step of a put-subset worker succeeds, keeps the invariant, leaves the other worker
alone and advances the worker by one. -/
theorem putSubsetStep_spec (m h hpb : Nat) (sumOf : Nat → Int) (keyOf : Nat → Nat)
    (hkO : ∀ s, keyOf s = getNodeHashKey h (sumOf s))
    (st : PutPhaseState) (p : Nat) (hm18 : 18 < m) (hm31 : m ≤ 31) (hp : p < 2)
    (hno : ∀ k, (bucketOf keyOf k (2 ^ m)).length ≤ 65535)
    (hinv : PutPhaseInv m h hpb keyOf st) :
    ∃ st1, putSubsetStep m h hpb sumOf st p = some st1 ∧ PutPhaseInv m h hpb keyOf st1 ∧
      (∀ q, q ≠ p → st1.workers q = st.workers q) ∧
      st1.progress m p = min (st.progress m p + 1) (2 ^ m + 2) := by
  cases hw : st.workers p with
  | none => exact putSubsetStep_start m h hpb sumOf keyOf st p hm18 hm31 hp hinv hw
  | some w =>
    cases hf : w.finished with
    | true => exact putSubsetStep_finished m h hpb sumOf keyOf st p w hinv hw hf
    | false =>
      by_cases hlt : w.subset < 2 ^ m
      · by_cases hsh : keyOf w.subset >>> (h - 1) = p
        · exact putSubsetStep_place m h hpb sumOf keyOf hkO st p w hm31 hp hno hinv hw hf hlt hsh
        · exact putSubsetStep_skip m h hpb sumOf keyOf hkO st p w hinv hw hf hlt hsh
      · exact putSubsetStep_leave m h hpb sumOf keyOf st p w hp hinv hw hf hlt

theorem progress_le (m h hpb : Nat) (keyOf : Nat → Nat) (st : PutPhaseState)
    (hinv : PutPhaseInv m h hpb keyOf st) (p : Nat) : st.progress m p ≤ 2 ^ m + 2 := by
  unfold PutPhaseState.progress
  cases hw : st.workers p with
  | none => simp
  | some w =>
    simp only
    have := (hinv.wk p w hw).1
    split_ifs <;> omega

theorem progress_congr (m : Nat) (st st1 : PutPhaseState) (p : Nat)
    (h : st1.workers p = st.workers p) : st1.progress m p = st.progress m p := by
  unfold PutPhaseState.progress; rw [h]

theorem putSubsetRun_append (T m h hpb : Nat) (sumOf : Nat → Int) : ∀ (a b : List Nat)
    (st : PutPhaseState),
    putSubsetRun T m h hpb sumOf st (a ++ b)
      = (putSubsetRun T m h hpb sumOf st a).bind (fun s => putSubsetRun T m h hpb sumOf s b) := by
  intro a
  induction a with
  | nil => intro b st; rfl
  | cons p rest ih =>
    intro b st
    rw [List.cons_append, putSubsetRun, putSubsetRun]
    by_cases hc : p < T ∧ p < putSubsetPartsNum
    · rw [if_pos hc, if_pos hc]
      cases putSubsetStep m h hpb sumOf st p with
      | none => rfl
      | some s => exact ih b s
    · rw [if_neg hc, if_neg hc]
      exact ih b st

/-- Any schedule of the put-subset phase runs through and keeps the invariant. -/
theorem putSubsetRun_spec (T m h hpb : Nat) (sumOf : Nat → Int) (keyOf : Nat → Nat)
    (hkO : ∀ s, keyOf s = getNodeHashKey h (sumOf s)) (hm18 : 18 < m) (hm31 : m ≤ 31)
    (hno : ∀ k, (bucketOf keyOf k (2 ^ m)).length ≤ 65535) :
    ∀ (sched : List Nat) (st : PutPhaseState), PutPhaseInv m h hpb keyOf st →
      ∃ st1, putSubsetRun T m h hpb sumOf st sched = some st1 ∧
        PutPhaseInv m h hpb keyOf st1 ∧ ∀ q, st.progress m q ≤ st1.progress m q := by
  intro sched
  induction sched with
  | nil => intro st hinv; exact ⟨st, rfl, hinv, fun _ => le_refl _⟩
  | cons p rest ih =>
    intro st hinv
    rw [putSubsetRun]
    by_cases hc : p < T ∧ p < putSubsetPartsNum
    · rw [if_pos hc]
      obtain ⟨s1, e1, i1, o1, g1⟩ := putSubsetStep_spec m h hpb sumOf keyOf hkO st p hm18 hm31
        hc.2 hno hinv
      obtain ⟨s2, e2, i2, g2⟩ := ih s1 i1
      rw [e1]
      refine ⟨s2, e2, i2, ?_⟩
      intro q
      refine le_trans ?_ (g2 q)
      by_cases hq : q = p
      · subst hq
        rw [g1]
        have := progress_le m h hpb keyOf st hinv q
        omega
      · rw [progress_congr m st s1 q (o1 q hq)]
    · rw [if_neg hc]
      exact ih st hinv

/-- Letting one worker take `n` steps in a row advances it by `n`. -/
theorem putSubsetRun_replicate (T m h hpb : Nat) (sumOf : Nat → Int) (keyOf : Nat → Nat)
    (hkO : ∀ s, keyOf s = getNodeHashKey h (sumOf s)) (hm18 : 18 < m) (hm31 : m ≤ 31)
    (hno : ∀ k, (bucketOf keyOf k (2 ^ m)).length ≤ 65535) (p : Nat) (hpT : p < T) (hp : p < 2) :
    ∀ (n : Nat) (st : PutPhaseState), PutPhaseInv m h hpb keyOf st →
      ∃ st1, putSubsetRun T m h hpb sumOf st (List.replicate n p) = some st1 ∧
        PutPhaseInv m h hpb keyOf st1 ∧
        st1.progress m p = min (st.progress m p + n) (2 ^ m + 2) ∧
        ∀ q, q ≠ p → st1.workers q = st.workers q := by
  intro n
  induction n with
  | zero =>
    intro st hinv
    refine ⟨st, rfl, hinv, ?_, fun _ _ => rfl⟩
    have := progress_le m h hpb keyOf st hinv p
    omega
  | succ n ih =>
    intro st hinv
    rw [List.replicate_succ, putSubsetRun, if_pos ⟨hpT, hp⟩]
    obtain ⟨s1, e1, i1, o1, g1⟩ := putSubsetStep_spec m h hpb sumOf keyOf hkO st p hm18 hm31
      hp hno hinv
    obtain ⟨s2, e2, i2, g2, o2⟩ := ih s1 i1
    rw [e1]
    refine ⟨s2, e2, i2, ?_, fun q hq => by rw [o2 q hq, o1 q hq]⟩
    rw [g2, g1]
    omega

theorem finished_of_progress (m h hpb : Nat) (keyOf : Nat → Nat) (st : PutPhaseState)
    (hinv : PutPhaseInv m h hpb keyOf st) (p : Nat) (hp : st.progress m p = 2 ^ m + 2) :
    ∃ w, st.workers p = some w ∧ w.finished = true := by
  unfold PutPhaseState.progress at hp
  cases hw : st.workers p with
  | none => rw [hw] at hp; simp at hp
  | some w =>
    rw [hw] at hp
    simp only at hp
    have := (hinv.wk p w hw).1
    by_cases hf : w.finished = true
    · exact ⟨w, rfl, hf⟩
    · rw [if_neg hf] at hp; omega

theorem putPhase_init_inv (m h hpb : Nat) (keyOf : Nat → Nat)
    (tmp0 : Nat → TempNodeHashListEntry) :
    PutPhaseInv m h hpb keyOf
      { nodeHash := fun _ => { poslo := 0, poshi := 0, size := 0 },
        tmpHashLists := tmp0,
        putSubsetBlockCount := 0,
        nodeHashListsBlocksSize := fun _ => 0,
        workers := fun _ => none } := by
  refine { none_ge := fun _ _ => rfl, size := fun _ => rfl, zero := fun _ _ => rfl,
           chain := fun _ => trivial, wk := ?_, fin := ?_, disj := ?_, alloc := ?_ }
  · intro p w hw; exact absurd hw (by simp)
  · intro p w hw; exact absurd hw (by simp)
  · intro w0 w1 hw; exact absurd hw (by simp)
  · exact ⟨0, 0, rfl, rfl, rfl⟩

/-- The put-subset phase of `doHashGen`: whatever the interleaving, both workers leave the
phase and the invariant holds. -/
theorem putPhase_done (T m h hpb : Nat) (sumOf : Nat → Int) (keyOf : Nat → Nat)
    (hkO : ∀ s, keyOf s = getNodeHashKey h (sumOf s)) (hm18 : 18 < m) (hm31 : m ≤ 31)
    (hT : 2 ≤ T)
    (hno : ∀ k, (bucketOf keyOf k (2 ^ m)).length ≤ 65535)
    (tmp0 : Nat → TempNodeHashListEntry) (sched : List Nat) :
    ∃ st, putSubsetRun T m h hpb sumOf
        { nodeHash := fun _ => { poslo := 0, poshi := 0, size := 0 },
          tmpHashLists := tmp0,
          putSubsetBlockCount := 0,
          nodeHashListsBlocksSize := fun _ => 0,
          workers := fun _ => none }
        (sched ++ List.replicate (2 ^ m + 2) 0 ++ List.replicate (2 ^ m + 2) 1) = some st ∧
      PutPhaseInv m h hpb keyOf st ∧
      ∀ p, p < 2 → ∃ w, st.workers p = some w ∧ w.finished = true := by
  obtain ⟨s1, e1, i1, _⟩ := putSubsetRun_spec T m h hpb sumOf keyOf hkO hm18 hm31 hno sched _
    (putPhase_init_inv m h hpb keyOf tmp0)
  obtain ⟨s2, e2, i2, g2, _⟩ := putSubsetRun_replicate T m h hpb sumOf keyOf hkO hm18 hm31 hno
    0 (by omega) (by omega) (2 ^ m + 2) s1 i1
  obtain ⟨s3, e3, i3, g3, o3⟩ := putSubsetRun_replicate T m h hpb sumOf keyOf hkO hm18 hm31 hno
    1 (by omega) (by omega) (2 ^ m + 2) s2 i2
  refine ⟨s3, ?_, i3, ?_⟩
  · rw [putSubsetRun_append, putSubsetRun_append, e1]
    simp only [Option.some_bind]
    rw [e2]
    simp only [Option.some_bind]
    exact e3
  · intro p hp
    have hp0 : s2.progress m 0 = 2 ^ m + 2 := by
      rw [g2]; omega
    have hp1 : s3.progress m 1 = 2 ^ m + 2 := by
      rw [g3]; omega
    rcases Nat.lt_or_ge p 1 with hlt | hge
    · have e : p = 0 := by omega
      subst e
      obtain ⟨w, hw, hf⟩ := finished_of_progress m h hpb keyOf s2 i2 0 hp0
      exact ⟨w, by rw [o3 0 (by decide)]; exact hw, hf⟩
    · have e : p = 1 := by omega
      subst e
      exact finished_of_progress m h hpb keyOf s3 i3 1 hp1

theorem countP_split (p q r : Nat → Bool) (hr : ∀ x, r x = (p x || q x))
    (hd : ∀ x, p x = true → q x = true → False) : ∀ l : List Nat,
    l.countP r = l.countP p + l.countP q := by
  intro l
  induction l with
  | nil => rfl
  | cons x xs ih =>
    rw [List.countP_cons, List.countP_cons, List.countP_cons, ih, hr x]
    cases hp : p x <;> cases hq : q x
    · simp
    · simp; omega
    · simp; omega
    · exact absurd (hd x hp hq) id

theorem countP_congr_fun (p q : Nat → Bool) (l : List Nat) (h : ∀ x ∈ l, p x = q x) :
    l.countP p = l.countP q := by
  induction l with
  | nil => rfl
  | cons x xs ih =>
    rw [List.countP_cons, List.countP_cons, ih (fun y hy => h y (List.mem_cons_of_mem _ hy)),
      h x (List.mem_cons_self _ _)]

theorem bucketOf_length_countP (keyOf : Nat → Nat) (k n : Nat) :
    (bucketOf keyOf k n).length = (List.range n).countP (fun s => keyOf s == k) := by
  unfold bucketOf
  rw [List.countP_eq_length_filter]
  congr 1

theorem keyPos_succ (keyOf : Nat → Nat) (n k : Nat) :
    keyPos keyOf n (k + 1) = keyPos keyOf n k + (bucketOf keyOf k n).length := by
  unfold keyPos
  rw [List.range_succ, List.flatMap_append, List.length_append]
  simp

theorem keyPos_mono (keyOf : Nat → Nat) (n : Nat) : ∀ k k1, k ≤ k1 →
    keyPos keyOf n k ≤ keyPos keyOf n k1 := by
  intro k k1 hk
  induction k1 with
  | zero => have : k = 0 := by omega
            subst this; exact le_refl _
  | succ k1 ih =>
    rcases Nat.lt_or_ge k (k1 + 1) with hlt | hge
    · have := ih (by omega)
      rw [keyPos_succ]; omega
    · have : k = k1 + 1 := by omega
      subst this; exact le_refl _

theorem keyPos_eq_countP (keyOf : Nat → Nat) (n : Nat) : ∀ k,
    keyPos keyOf n k = (List.range n).countP (fun s => decide (keyOf s < k)) := by
  intro k
  induction k with
  | zero => simp [keyPos]
  | succ k ih =>
    rw [keyPos_succ, ih, bucketOf_length_countP]
    symm
    apply countP_split
    · intro x
      rw [Bool.eq_iff_iff]
      simp only [decide_eq_true_eq, Bool.or_eq_true, beq_iff_eq]
      omega
    · intro x h1 h2
      simp only [decide_eq_true_eq, beq_iff_eq] at h1 h2
      omega

theorem bucketOf_nil_of_ge (keyOf : Nat → Nat) (K : Nat) (hkey : ∀ s, keyOf s < K) (k n : Nat)
    (hk : K ≤ k) : bucketOf keyOf k n = [] := by
  unfold bucketOf
  rw [List.filter_eq_nil_iff]
  intro s _
  have := hkey s
  simp only [decide_eq_true_eq]
  omega

/-- The top bit and the masked block bits of a key together are its block number. -/
theorem key_block_iff (h hpb k p i : Nat) (hpb1 : 1 ≤ hpb) (hpbh : hpb ≤ h)
    (hi : i < 2 ^ (hpb - 1)) :
    (k >>> (h - 1) = p ∧ (k >>> (h - hpb)) &&& (2 ^ (hpb - 1) - 1) = i)
      ↔ k >>> (h - hpb) = p * 2 ^ (hpb - 1) + i := by
  have e1 : h - 1 = (h - hpb) + (hpb - 1) := by omega
  rw [e1, Nat.shiftRight_add, Nat.and_pow_two_sub_one_eq_mod]
  generalize k >>> (h - hpb) = x
  rw [Nat.shiftRight_eq_div_pow]
  have hS : 0 < 2 ^ (hpb - 1) := Nat.two_pow_pos _
  generalize 2 ^ (hpb - 1) = S at hi hS ⊢
  constructor
  · rintro ⟨a, b⟩
    have := Nat.div_add_mod x S
    rw [a, b] at this
    rw [← this, Nat.mul_comm]
  · intro hx
    subst hx
    constructor
    · rw [Nat.mul_comm, Nat.mul_add_div hS, Nat.div_eq_of_lt hi, Nat.add_zero]
    · rw [Nat.mul_comm, Nat.mul_add_mod, Nat.mod_eq_of_lt hi]

theorem shard_lt_two (h k : Nat) (h1 : 1 ≤ h) (hk : k < 2 ^ h) : k >>> (h - 1) < 2 := by
  rw [Nat.shiftRight_eq_div_pow]
  apply Nat.div_lt_of_lt_mul
  have : 2 ^ h = 2 ^ (h - 1) * 2 := by
    rw [← pow_succ]; congr 1; omega
  omega

/-- What the put-subset phase leaves behind once both workers have left it. -/
theorem putPhase_final (m h hpb : Nat) (keyOf : Nat → Nat) (st : PutPhaseState)
    (h1 : 1 ≤ h) (hpb1 : 1 ≤ hpb) (hpbh : hpb ≤ h) (hkey : ∀ s, keyOf s < 2 ^ h)
    (hinv : PutPhaseInv m h hpb keyOf st)
    (hfin : ∀ p, p < 2 → ∃ w, st.workers p = some w ∧ w.finished = true) :
    (∀ k, (st.nodeHash k).size = (bucketOf keyOf k (2 ^ m)).length) ∧
    (∀ k, (st.nodeHash k).size = 0 → st.nodeHash k = { poslo := 0, poshi := 0, size := 0 }) ∧
    (∀ k, ChainU st.tmpHashLists st.Used (st.nodeHash k).getPos
      (bucketOf keyOf k (2 ^ m)).reverse) ∧
    (∀ b, b < 2 ^ hpb → st.nodeHashListsBlocksSize b
      = (List.range (2 ^ m)).countP (fun s => keyOf s >>> (h - hpb) == b)) := by
  have hbucket : ∀ k, bucketOf keyOf k (st.cursor (k >>> (h - 1))) = bucketOf keyOf k (2 ^ m) := by
    intro k
    rcases Nat.lt_or_ge k (2 ^ h) with hk | hk
    · obtain ⟨w, hw, hf⟩ := hfin _ (shard_lt_two h k h1 hk)
      rw [cursor_of_some st _ w hw, (hinv.wk _ w hw).2.2.2.1 hf]
    · rw [bucketOf_nil_of_ge keyOf (2 ^ h) hkey k _ hk, bucketOf_nil_of_ge keyOf (2 ^ h) hkey k _ hk]
  refine ⟨fun k => by rw [← hbucket k]; exact hinv.size k, hinv.zero,
    fun k => by rw [← hbucket k]; exact hinv.chain k, ?_⟩
  intro b hb
  have hS : 0 < 2 ^ (hpb - 1) := Nat.two_pow_pos _
  have hpow : 2 ^ hpb = 2 ^ (hpb - 1) * 2 := by
    rw [← pow_succ]; congr 1; omega
  have hbp : b / 2 ^ (hpb - 1) < 2 := by
    apply Nat.div_lt_of_lt_mul; omega
  have hbi : b % 2 ^ (hpb - 1) < 2 ^ (hpb - 1) := Nat.mod_lt _ hS
  obtain ⟨w, hw, hf⟩ := hfin _ hbp
  have hb2 : b / 2 ^ (hpb - 1) * 2 ^ (hpb - 1) + b % 2 ^ (hpb - 1) = b := by
    rw [Nat.mul_comm]; exact Nat.div_add_mod b _
  have := hinv.fin _ w hw hf _ hbi
  rw [hb2] at this
  rw [this]
  unfold blockCount
  apply countP_congr_fun
  intro s _
  have hiff := key_block_iff h hpb (keyOf s) (b / 2 ^ (hpb - 1)) (b % 2 ^ (hpb - 1)) hpb1 hpbh hbi
  rw [hb2] at hiff
  by_cases hc : keyOf s >>> (h - hpb) = b
  · have := hiff.2 hc
    simp [hc, this.1, this.2]
  · have hn := fun hx => hc (hiff.1 hx)
    rw [Bool.eq_iff_iff]
    simp only [Bool.and_eq_true, beq_iff_eq]
    exact ⟨fun hx => absurd hx hn, fun hx => absurd hx hc⟩

/-- The positions computed by the main thread are the positions of the first bucket of each
block. -/
theorem blocksPos_eq (h hpb : Nat) (keyOf : Nat → Nat) (n : Nat) (size : Nat → Nat)
    (hsize : ∀ b, b < 2 ^ hpb → size b
      = (List.range n).countP (fun s => keyOf s >>> (h - hpb) == b)) :
    ∀ b, b ≤ 2 ^ hpb → nodeHashListsBlocksPos size b = keyPos keyOf n (b * 2 ^ (h - hpb)) := by
  intro b
  induction b with
  | zero => intro _; simp [nodeHashListsBlocksPos, keyPos]
  | succ b ih =>
    intro hb
    rw [nodeHashListsBlocksPos, ih (by omega), hsize b (by omega), keyPos_eq_countP,
      keyPos_eq_countP]
    symm
    apply countP_split
    · intro x
      rw [Nat.shiftRight_eq_div_pow]
      have hD : 0 < 2 ^ (h - hpb) := Nat.two_pow_pos _
      generalize 2 ^ (h - hpb) = D at hD ⊢
      rw [Bool.eq_iff_iff]
      simp only [decide_eq_true_eq, Bool.or_eq_true, beq_iff_eq]
      rw [← Nat.div_lt_iff_lt_mul hD, ← Nat.div_lt_iff_lt_mul hD]
      omega
    · intro x hx1 hx2
      rw [Nat.shiftRight_eq_div_pow] at hx2
      have hD : 0 < 2 ^ (h - hpb) := Nat.two_pow_pos _
      generalize 2 ^ (h - hpb) = D at hD hx1 hx2
      simp only [decide_eq_true_eq, beq_iff_eq] at hx1 hx2
      rw [← Nat.div_lt_iff_lt_mul hD] at hx1
      omega

theorem orderingWrite_spec (tmp : Nat → TempNodeHashListEntry) (U : Nat → Prop) (lp : Nat) :
    ∀ (l : List Nat) (cur : Nat) (a : Nat → Nat), ChainU tmp U cur l →
      (∀ j, j < l.length → orderingWrite tmp lp l.length cur a (lp + j) = l.reverse.getD j 0) ∧
      (∀ x, (x < lp ∨ lp + l.length ≤ x) → orderingWrite tmp lp l.length cur a x = a x) := by
  intro l
  induction l with
  | nil =>
    intro cur a _
    exact ⟨fun j hj => absurd hj (by simp), fun x _ => rfl⟩
  | cons s rest ih =>
    intro cur a hc
    obtain ⟨_, h2, h3⟩ := hc
    obtain ⟨i1, i2⟩ := ih (tmp cur).next
      (Function.update a (lp + rest.length) (tmp cur).subset) h3
    simp only [List.length_cons, orderingWrite, List.reverse_cons]
    constructor
    · intro j hj
      rcases Nat.lt_or_ge j rest.length with hlt | hge
      · rw [i1 j hlt, List.getD_append _ _ _ _ (by rw [List.length_reverse]; exact hlt)]
      · have hj2 : j = rest.length := by omega
        subst hj2
        rw [i2 _ (Or.inr (le_refl _)), Function.update_same, h2,
          List.getD_append_right _ _ _ _ (by rw [List.length_reverse])]
        simp
    · intro x hx
      rw [i2 x (by omega), Function.update_noteq (by omega)]

theorem setPos_eq_canon (e : NodeHashEntry) (pos n : Nat) (hn : e.size = n) (h0 : n ≠ 0) :
    e.setPos pos = canonEntry pos n := by
  unfold NodeHashEntry.setPos canonEntry
  rw [if_neg h0, hn]

theorem orderingPartLoop_spec (tmp : Nat → TempNodeHashListEntry) (U : Nat → Prop)
    (keyOf : Nat → Nat) (N : Nat) (nh : Nat → NodeHashEntry) (hs : Nat) (st0 : OrderPartState)
    (hsize : ∀ k, (nh k).size = (bucketOf keyOf k N).length)
    (hzero : ∀ k, (nh k).size = 0 → nh k = { poslo := 0, poshi := 0, size := 0 })
    (hchain : ∀ k, ChainU tmp U (nh k).getPos (bucketOf keyOf k N).reverse)
    (J : Nat) (hst0 : ∀ k, hs ≤ k → k < hs + J → st0.nodeHash k = nh k)
    (hlp : st0.listPos = keyPos keyOf N hs) :
    ∀ j, j ≤ J →
      (orderingPartLoop tmp hs st0 j).listPos = keyPos keyOf N (hs + j) ∧
      (∀ k, hs ≤ k → k < hs + j → (orderingPartLoop tmp hs st0 j).nodeHash k
        = canonEntry (keyPos keyOf N k) (bucketOf keyOf k N).length) ∧
      (∀ k, (k < hs ∨ hs + j ≤ k) → (orderingPartLoop tmp hs st0 j).nodeHash k
        = st0.nodeHash k) ∧
      (∀ k, hs ≤ k → k < hs + j → ∀ i, i < (bucketOf keyOf k N).length →
        (orderingPartLoop tmp hs st0 j).nodeHashSubsets (keyPos keyOf N k + i)
          = (bucketOf keyOf k N).getD i 0) ∧
      (∀ x, (x < keyPos keyOf N hs ∨ keyPos keyOf N (hs + j) ≤ x) →
        (orderingPartLoop tmp hs st0 j).nodeHashSubsets x = st0.nodeHashSubsets x) := by
  intro j
  induction j with
  | zero =>
    intro _
    exact ⟨hlp, fun k h1 h2 => absurd h2 (by omega), fun _ _ => rfl,
      fun k h1 h2 => absurd h2 (by omega), fun _ _ => rfl⟩
  | succ j ih =>
    intro hj
    obtain ⟨r1, r2, r3, r4, r5⟩ := ih (by omega)
    have he : (orderingPartLoop tmp hs st0 j).nodeHash (hs + j) = nh (hs + j) := by
      rw [r3 _ (Or.inr (le_refl _))]
      exact hst0 _ (by omega) (by omega)
    have hP : keyPos keyOf N (hs + (j + 1))
        = keyPos keyOf N (hs + j) + (bucketOf keyOf (hs + j) N).length := by
      rw [← Nat.add_assoc, keyPos_succ]
    have hmono : ∀ k, k < hs + j → ∀ i, i < (bucketOf keyOf k N).length →
        keyPos keyOf N k + i < keyPos keyOf N (hs + j) := by
      intro k hk i hi
      have := keyPos_mono keyOf N (k + 1) (hs + j) (by omega)
      rw [keyPos_succ] at this
      omega
    have hmono2 := keyPos_mono keyOf N hs (hs + j) (by omega)
    rw [orderingPartLoop]
    rw [he]
    by_cases h0 : (nh (hs + j)).size = 0
    · rw [if_pos h0]
      have hn0 : (bucketOf keyOf (hs + j) N).length = 0 := by rw [← hsize]; exact h0
      refine ⟨by rw [hP, hn0, r1]; rfl, ?_, ?_, ?_, ?_⟩
      · intro k hk1 hk2
        rcases Nat.lt_or_ge k (hs + j) with hlt | hge
        · exact r2 k hk1 hlt
        · have : k = hs + j := by omega
          subst this
          rw [he, hn0, hzero _ h0]
          rfl
      · intro k hk
        exact r3 k (by omega)
      · intro k hk1 hk2 i hi
        rcases Nat.lt_or_ge k (hs + j) with hlt | hge
        · exact r4 k hk1 hlt i hi
        · have : k = hs + j := by omega
          subst this
          omega
      · intro x hx
        exact r5 x (by rw [hP, hn0] at hx; exact hx)
    · rw [if_neg h0]
      simp only
      obtain ⟨w1, w2⟩ := orderingWrite_spec tmp U (orderingPartLoop tmp hs st0 j).listPos
        (bucketOf keyOf (hs + j) N).reverse (nh (hs + j)).getPos
        (orderingPartLoop tmp hs st0 j).nodeHashSubsets (hchain (hs + j))
      rw [List.length_reverse, List.reverse_reverse] at w1
      rw [List.length_reverse] at w2
      rw [hsize (hs + j)]
      rw [r1] at w1 w2 ⊢
      refine ⟨hP.symm, ?_, ?_, ?_, ?_⟩
      · intro k hk1 hk2
        rcases Nat.lt_or_ge k (hs + j) with hlt | hge
        · rw [Function.update_noteq (by omega)]
          exact r2 k hk1 hlt
        · have : k = hs + j := by omega
          subst this
          rw [Function.update_same]
          exact setPos_eq_canon _ _ _ (hsize _) (by rw [← hsize]; exact h0)
      · intro k hk
        rw [Function.update_noteq (by omega)]
        exact r3 k (by omega)
      · intro k hk1 hk2 i hi
        rcases Nat.lt_or_ge k (hs + j) with hlt | hge
        · rw [w2 _ (Or.inl (hmono k hlt i hi))]
          exact r4 k hk1 hlt i hi
        · have : k = hs + j := by omega
          subst this
          exact w1 i hi
      · intro x hx
        rw [w2 x (by rw [hP] at hx; omega)]
        exact r5 x (by rw [hP] at hx; omega)

theorem key_in_block_iff (d b k : Nat) :
    (b * 2 ^ d ≤ k ∧ k < b * 2 ^ d + 2 ^ d) ↔ k >>> d = b := by
  rw [Nat.shiftRight_eq_div_pow]
  have hD : 0 < 2 ^ d := Nat.two_pow_pos _
  generalize 2 ^ d = D at hD ⊢
  constructor
  · rintro ⟨h1, h2⟩
    apply Nat.div_eq_of_lt_le
    · exact h1
    · rw [Nat.add_mul, Nat.one_mul]; exact h2
  · intro hk
    subst hk
    have h1 := Nat.div_mul_le_self k D
    have h2 := Nat.lt_div_mul_add hD (a := k)
    exact ⟨h1, h2⟩

/-- Processing one block of the ordering phase that has not been processed yet. -/
theorem orderingPart_spec (tmp : Nat → TempNodeHashListEntry) (U : Nat → Prop)
    (keyOf : Nat → Nat) (N h hpb : Nat) (nh : Nat → NodeHashEntry) (blocksPos : Nat → Nat)
    (hsize : ∀ k, (nh k).size = (bucketOf keyOf k N).length)
    (hzero : ∀ k, (nh k).size = 0 → nh k = { poslo := 0, poshi := 0, size := 0 })
    (hchain : ∀ k, ChainU tmp U (nh k).getPos (bucketOf keyOf k N).reverse)
    (D : Nat → Prop) (s : OrderPartState) (b : Nat)
    (hinv : OrderInv keyOf N (h - hpb) nh D s) (hb : ¬ D b)
    (hpos : blocksPos b = keyPos keyOf N (b * 2 ^ (h - hpb))) :
    OrderInv keyOf N (h - hpb) nh (fun x => D x ∨ x = b)
      (orderingPart tmp h hpb blocksPos s b) := by
  obtain ⟨i1, i2, i3⟩ := hinv
  have hJ : ((b + 1) <<< (h - hpb)) - (b <<< (h - hpb)) = 2 ^ (h - hpb) := by
    rw [Nat.shiftLeft_eq, Nat.shiftLeft_eq, Nat.add_mul, Nat.one_mul, Nat.add_sub_cancel_left]
  unfold orderingPart
  rw [hJ, Nat.shiftLeft_eq]
  obtain ⟨_, r2, r3, r4, r5⟩ := orderingPartLoop_spec tmp U keyOf N nh (b * 2 ^ (h - hpb))
    { s with listPos := blocksPos b } hsize hzero hchain (2 ^ (h - hpb))
    (fun k hk1 hk2 => i2 k (by rw [(key_in_block_iff _ b k).1 ⟨hk1, hk2⟩]; exact hb))
    hpos (2 ^ (h - hpb)) (le_refl _)
  refine ⟨?_, ?_, ?_⟩
  · intro k hk
    by_cases hkb : k >>> (h - hpb) = b
    · obtain ⟨a1, a2⟩ := (key_in_block_iff _ b k).2 hkb
      exact r2 k a1 a2
    · have hD : D (k >>> (h - hpb)) := by
        rcases hk with hk | hk
        · exact hk
        · exact absurd hk hkb
      rw [r3 k]
      · exact i1 k hD
      · by_contra hc
        exact hkb ((key_in_block_iff _ b k).1 ⟨by omega, by omega⟩)
  · intro k hk
    have hkb : k >>> (h - hpb) ≠ b := fun hc => hk (Or.inr hc)
    rw [r3 k]
    · exact i2 k (fun hc => hk (Or.inl hc))
    · by_contra hc
      exact hkb ((key_in_block_iff _ b k).1 ⟨by omega, by omega⟩)
  · intro k hk i hi
    by_cases hkb : k >>> (h - hpb) = b
    · obtain ⟨a1, a2⟩ := (key_in_block_iff _ b k).2 hkb
      exact r4 k a1 a2 i hi
    · have hD : D (k >>> (h - hpb)) := by
        rcases hk with hk | hk
        · exact hk
        · exact absurd hk hkb
      rw [r5]
      · exact i3 k hD i hi
      · have hout : k < b * 2 ^ (h - hpb) ∨ b * 2 ^ (h - hpb) + 2 ^ (h - hpb) ≤ k := by
          by_contra hc
          exact hkb ((key_in_block_iff _ b k).1 ⟨by omega, by omega⟩)
        rcases hout with hlt | hge
        · left
          have := keyPos_mono keyOf N (k + 1) (b * 2 ^ (h - hpb)) (by omega)
          rw [keyPos_succ] at this
          omega
        · right
          have := keyPos_mono keyOf N (b * 2 ^ (h - hpb) + 2 ^ (h - hpb)) k hge
          omega

theorem orderInv_congr (keyOf : Nat → Nat) (n d : Nat) (nh : Nat → NodeHashEntry)
    (D D1 : Nat → Prop) (s : OrderPartState) (hD : ∀ x, D x ↔ D1 x)
    (h : OrderInv keyOf n d nh D s) : OrderInv keyOf n d nh D1 s := by
  have : D = D1 := funext (fun x => propext (hD x))
  rw [← this]; exact h

/-- The ordering phase, its blocks taken in any order without repetition. -/
theorem orderingFold_spec (tmp : Nat → TempNodeHashListEntry) (U : Nat → Prop)
    (keyOf : Nat → Nat) (N h hpb : Nat) (nh : Nat → NodeHashEntry) (blocksPos : Nat → Nat)
    (hsize : ∀ k, (nh k).size = (bucketOf keyOf k N).length)
    (hzero : ∀ k, (nh k).size = 0 → nh k = { poslo := 0, poshi := 0, size := 0 })
    (hchain : ∀ k, ChainU tmp U (nh k).getPos (bucketOf keyOf k N).reverse)
    (hpos : ∀ b, b < 2 ^ hpb → blocksPos b = keyPos keyOf N (b * 2 ^ (h - hpb))) :
    ∀ (parts : List Nat) (D : Nat → Prop) (s : OrderPartState),
      parts.Nodup → (∀ b ∈ parts, b < 2 ^ hpb ∧ ¬ D b) →
      OrderInv keyOf N (h - hpb) nh D s →
      OrderInv keyOf N (h - hpb) nh (fun x => D x ∨ x ∈ parts)
        (parts.foldl (orderingPart tmp h hpb blocksPos) s) := by
  intro parts
  induction parts with
  | nil =>
    intro D s _ _ hinv
    exact orderInv_congr _ _ _ _ _ _ _ (fun x => by simp) hinv
  | cons b rest ih =>
    intro D s hnd hall hinv
    rw [List.foldl_cons]
    obtain ⟨hb1, hb2⟩ := hall b (List.mem_cons_self _ _)
    have h1 := orderingPart_spec tmp U keyOf N h hpb nh blocksPos hsize hzero hchain D s b
      hinv hb2 (hpos b hb1)
    rw [List.nodup_cons] at hnd
    have h2 := ih (fun x => D x ∨ x = b) _ hnd.2
      (fun b1 hb1m => ⟨(hall b1 (List.mem_cons_of_mem _ hb1m)).1, fun hc => by
        rcases hc with hc | hc
        · exact (hall b1 (List.mem_cons_of_mem _ hb1m)).2 hc
        · subst hc; exact hnd.1 hb1m⟩) h1
    exact orderInv_congr _ _ _ _ _ _ _ (fun x => by
      rw [List.mem_cons]
      constructor
      · rintro ((a | a) | a)
        · exact Or.inl a
        · exact Or.inr (Or.inl a)
        · exact Or.inr (Or.inr a)
      · rintro (a | a | a)
        · exact Or.inl (Or.inl a)
        · exact Or.inl (Or.inr a)
        · exact Or.inr a) h2

/-- An array that holds every bucket at its position is the concatenation of the buckets. -/
theorem map_range_eq_flatMap (f : Nat → List Nat) (arr : Nat → Nat) : ∀ K,
    (∀ k, k < K → ∀ i, i < (f k).length →
      arr (((List.range k).flatMap f).length + i) = (f k).getD i 0) →
    (List.range ((List.range K).flatMap f).length).map arr = (List.range K).flatMap f := by
  intro K
  induction K with
  | zero => intro _; rfl
  | succ K ih =>
    intro hall
    have e : (List.range (K + 1)).flatMap f = (List.range K).flatMap f ++ f K := by
      rw [List.range_succ, List.flatMap_append]; simp
    rw [e, List.length_append, List.range_add, List.map_append,
      ih (fun k hk i hi => hall k (by omega) i hi)]
    congr 1
    apply List.ext_getElem
    · simp
    · intro i h1 h2
      simp only [List.getElem_map, List.getElem_range]
      rw [hall K (by omega) i h2]
      exact (List.getD_eq_getElem _ _ h2)

theorem fillValueLoop_spec (sumOf : Nat → Int) (arr : Nat → Nat) (start : Nat)
    (lists0 : Nat → Int) : ∀ j,
    (∀ x, start ≤ x → x < start + j →
      fillValueLoop sumOf arr start lists0 j x = sumOf (arr x)) ∧
    (∀ x, (x < start ∨ start + j ≤ x) → fillValueLoop sumOf arr start lists0 j x = lists0 x) := by
  intro j
  induction j with
  | zero => exact ⟨fun x h1 h2 => absurd h2 (by omega), fun _ _ => rfl⟩
  | succ j ih =>
    obtain ⟨i1, i2⟩ := ih
    rw [fillValueLoop]
    constructor
    · intro x h1 h2
      by_cases hx : x = start + j
      · subst hx; rw [Function.update_same]
      · rw [Function.update_noteq hx]; exact i1 x h1 (by omega)
    · intro x hx
      rw [Function.update_noteq (by omega)]
      exact i2 x (by omega)

/-- The fill-value phase, its parts taken in any order. -/
theorem fillFold_spec (m spb : Nat) (sumOf : Nat → Int) (arr : Nat → Nat) :
    ∀ (parts : List Nat) (S : Nat → Prop) (lists : Nat → Int),
      (∀ x, S x → lists x = sumOf (arr x)) →
      ∀ x, (S x ∨ x >>> (m - spb) ∈ parts) →
        parts.foldl (fillValuePart m spb sumOf arr) lists x = sumOf (arr x) := by
  intro parts
  induction parts with
  | nil =>
    intro S lists hS x hx
    rcases hx with hx | hx
    · exact hS x hx
    · exact absurd hx (by simp)
  | cons p rest ih =>
    intro S lists hS x hx
    rw [List.foldl_cons]
    apply ih (fun x => S x ∨ x >>> (m - spb) = p)
    · intro y hy
      have hJ : ((p + 1) <<< (m - spb)) - (p <<< (m - spb)) = 2 ^ (m - spb) := by
        rw [Nat.shiftLeft_eq, Nat.shiftLeft_eq, Nat.add_mul, Nat.one_mul,
          Nat.add_sub_cancel_left]
      unfold fillValuePart
      rw [hJ, Nat.shiftLeft_eq]
      obtain ⟨f1, f2⟩ := fillValueLoop_spec sumOf arr (p * 2 ^ (m - spb)) lists (2 ^ (m - spb))
      by_cases hyp : y >>> (m - spb) = p
      · obtain ⟨a1, a2⟩ := (key_in_block_iff _ p y).2 hyp
        exact f1 y a1 a2
      · rw [f2 y]
        · rcases hy with hy | hy
          · exact hS y hy
          · exact absurd hy hyp
        · by_contra hc
          exact hyp ((key_in_block_iff _ p y).1 ⟨by omega, by omega⟩)
    · rcases hx with hx | hx
      · exact Or.inl (Or.inl hx)
      · rw [List.mem_cons] at hx
        rcases hx with hx | hx
        · exact Or.inl (Or.inr hx)
        · exact Or.inr hx

theorem workerSum_eq_hashedSum (l : List Int) (m s : Nat) (hm : 18 < m) :
    workerSum l m s = hashedSum l m s := by
  unfold workerSum hashedSum
  simp only
  split_ifs <;> first | rfl | omega

theorem threadBitsLoop_some (T : Nat) (hT : T ≤ 2147483648) : ∀ (fuel i tb : Nat),
    fuel + i = 33 → i ≤ 31 → ∃ r, threadBitsLoop T fuel (2 ^ i) tb = some r := by
  intro fuel
  induction fuel with
  | zero => intro i tb h1 h2; omega
  | succ fuel ih =>
    intro i tb h1 h2
    rw [threadBitsLoop]
    by_cases hv : 2 ^ i < T
    · rw [if_pos hv]
      have hi : i < 31 := by
        by_contra hc
        have : i = 31 := by omega
        subst this
        norm_num at hv
        omega
      have hshift : (2 ^ i <<< 1) % 4294967296 = 2 ^ (i + 1) := by
        rw [Nat.shiftLeft_eq, ← pow_succ]
        apply Nat.mod_eq_of_lt
        have : (4294967296 : Nat) = 2 ^ 32 := by norm_num
        rw [this]
        exact Nat.pow_lt_pow_right (by decide) (by omega)
      rw [hshift]
      exact ih (i + 1) (tb + 1) (by omega) (by omega)
    · rw [if_neg hv]
      exact ⟨tb, rfl⟩

/-- The constructor loop ends for every thread count up to `2^31`. -/
theorem threadBits_some (T : Nat) (hT : T ≤ 2147483648) : ∃ tb, threadBits T = some tb := by
  unfold threadBits
  exact threadBitsLoop_some T hT 33 0 0 rfl (by omega)

theorem putSubset_zero (h : Nat) (sumOf : Nat → Int) (st st1 : PutState) (n : Nat)
    (hz : ∀ k, (st.nodeHash k).size = 0 → st.nodeHash k = { poslo := 0, poshi := 0, size := 0 })
    (hb : ∀ k, (st.nodeHash k).size ≤ 65535)
    (hput : putSubset h sumOf st n = some st1) :
    ∀ k, (st1.nodeHash k).size = 0 → st1.nodeHash k = { poslo := 0, poshi := 0, size := 0 } := by
  unfold putSubset at hput
  simp only at hput
  intro k hk
  split_ifs at hput with h0 h1
  · simp only [Option.some.injEq] at hput
    subst hput
    simp only at hk ⊢
    by_cases hkk : k = getNodeHashKey h (sumOf n)
    · subst hkk
      rw [Function.update_same] at hk
      simp at hk
    · rw [Function.update_noteq hkk] at hk ⊢
      exact hz k hk
  · simp only [Option.some.injEq] at hput
    subst hput
    simp only at hk ⊢
    by_cases hkk : k = getNodeHashKey h (sumOf n)
    · subst hkk
      rw [Function.update_same, size_setPos] at hk
      simp only at hk
      have := hb (getNodeHashKey h (sumOf n))
      omega
    · rw [Function.update_noteq hkk] at hk ⊢
      exact hz k hk

theorem putLoop_zero (h : Nat) (sumOf : Nat → Int) : ∀ n, n ≤ 4294967296 →
    (∀ k, (bucketOf (fun s => getNodeHashKey h (sumOf s)) k n).length ≤ 65535) →
    ∀ st, putLoop h sumOf n = some st →
      ∀ k, (st.nodeHash k).size = 0 → st.nodeHash k = { poslo := 0, poshi := 0, size := 0 } := by
  intro n
  induction n with
  | zero =>
    intro _ _ st hst
    rw [putLoop, Option.some.injEq] at hst
    subst hst
    intro k _; rfl
  | succ n ih =>
    intro hn hall st hst
    have hall0 : ∀ k, (bucketOf (fun s => getNodeHashKey h (sumOf s)) k n).length ≤ 65535 :=
      fun k => le_trans (bucketOf_length_mono _ k n) (hall k)
    obtain ⟨st0, hst0, hinv0⟩ := (putLoop_spec h sumOf n (by omega)).1 hall0
    rw [putLoop, hst0, Option.some_bind] at hst
    exact putSubset_zero h sumOf st0 st n (ih (by omega) hall0 st0 hst0)
      (fun k => by rw [hinv0.2.1 k]; exact hall0 k) hst

theorem orderingLoop_canon (tmp : Nat → TempNodeHashListEntry) (nodeHash0 : Nat → NodeHashEntry)
    (keyOf : Nat → Nat) (N : Nat) (hN : N < 4294967296)
    (hsize : ∀ k, (nodeHash0 k).size = (bucketOf keyOf k N).length)
    (hzero : ∀ k, (nodeHash0 k).size = 0 → nodeHash0 k = { poslo := 0, poshi := 0, size := 0 })
    (hchain : ∀ k, Chain tmp (nodeHash0 k).getPos (bucketOf keyOf k N).reverse) : ∀ i k, k < i →
    (orderingLoop tmp nodeHash0 i).nodeHash k
      = canonEntry (keyPos keyOf N k) (bucketOf keyOf k N).length := by
  intro i
  induction i with
  | zero => intro k hk; omega
  | succ i ih =>
    intro k hk
    obtain ⟨_, o2, _, _, o5⟩ := orderingLoop_spec tmp nodeHash0 keyOf N hN hsize hchain i
    rw [orderingLoop]
    rw [o5 i (le_refl _)]
    by_cases h0 : (nodeHash0 i).size = 0
    · rw [if_pos h0]
      rcases Nat.lt_or_ge k i with hlt | hge
      · exact ih k hlt
      · have : k = i := by omega
        subst this
        rw [o5 k (le_refl _), hzero k h0, ← hsize, h0]
        rfl
    · rw [if_neg h0]
      simp only
      rcases Nat.lt_or_ge k i with hlt | hge
      · rw [Function.update_noteq (by omega)]
        exact ih k hlt
      · have : k = i := by omega
        subst this
        rw [Function.update_same, o2]
        exact setPos_eq_canon _ _ _ (hsize k) (by rw [← hsize]; exact h0)

theorem keyPos_total (keyOf : Nat → Nat) (N K : Nat) (hkey : ∀ s, s < N → keyOf s < K) :
    keyPos keyOf N K = N := by
  unfold keyPos
  have := (flatMap_bucket_perm keyOf N K hkey).length_eq
  rw [this, List.length_range]

/-- The tables of the serial builder in closed form. -/
theorem singleThreadDoHashGen_canon (m h : Nat) (np : List Int) (hm : m ≤ 31)
    (hall : ∀ k, (bucketOf (subsetKey m h np) k (2 ^ m)).length ≤ 65535) :
    ∃ t, singleThreadDoHashGen m h np = some t ∧
      (∀ k, t.nodeHash k = canonEntry (keyPos (subsetKey m h np) (2 ^ m) k)
        (bucketOf (subsetKey m h np) k (2 ^ m)).length) ∧
      t.nodeHashSubsets
        = (List.range (2 ^ h)).flatMap (fun k => bucketOf (subsetKey m h np) k (2 ^ m)) ∧
      t.nodeHashLists = t.nodeHashSubsets.map (hashedSum (np.map toInt64) m) := by
  have hN := pow_le_of_le31 m hm
  obtain ⟨st, hst, _, hsize, hchain⟩ :=
    (putLoop_spec h (hashedSum (np.map toInt64) m) (2 ^ m) (by omega)).1 hall
  have hzero := putLoop_zero h (hashedSum (np.map toInt64) m) (2 ^ m) (by omega) hall st hst
  obtain ⟨o1, _, o3, _, o5⟩ := orderingLoop_spec st.tmpHashLists st.nodeHash
    (subsetKey m h np) (2 ^ m) hN hsize hchain (2 ^ h)
  have oc := orderingLoop_canon st.tmpHashLists st.nodeHash
    (subsetKey m h np) (2 ^ m) hN hsize hzero hchain (2 ^ h)
  refine ⟨_, by unfold singleThreadDoHashGen; simp only; rw [hst]; rfl, ?_, o1, rfl⟩
  intro k
  simp only
  rcases Nat.lt_or_ge k (2 ^ h) with hk | hk
  · exact oc k hk
  · rw [o5 k hk]
    have hnil := bucketOf_nil_of_ge (subsetKey m h np) (2 ^ h)
      (fun s => getNodeHashKey_lt h _) k (2 ^ m) hk
    have hs0 : (st.nodeHash k).size = 0 :=
      (hsize k).trans (by
        show (bucketOf (subsetKey m h np) k (2 ^ m)).length = 0
        rw [hnil]; rfl)
    rw [hzero k hs0, hnil]
    rfl

theorem hashBits_pos_of_no_overflow (m h : Nat) (keyOf : Nat → Nat) (hm : 20 ≤ m)
    (hkey : ∀ s, keyOf s < 2 ^ h)
    (hno : ∀ k, (bucketOf keyOf k (2 ^ m)).length ≤ 65535) : 1 ≤ h := by
  by_contra hc
  have h0 : h = 0 := by omega
  subst h0
  have hall : bucketOf keyOf 0 (2 ^ m) = List.range (2 ^ m) := by
    unfold bucketOf
    rw [List.filter_eq_self]
    intro s _
    have := hkey s
    simp only [decide_eq_true_eq]
    omega
  have := hno 0
  rw [hall, List.length_range] at this
  have h20 : 2 ^ 20 ≤ 2 ^ m := Nat.pow_le_pow_right (by decide) hm
  norm_num at h20
  omega

theorem shift_lt_pow (x a b : Nat) (hb : b ≤ a) (hx : x < 2 ^ a) : x >>> (a - b) < 2 ^ b := by
  rw [Nat.shiftRight_eq_div_pow]
  apply Nat.div_lt_of_lt_mul
  rw [← pow_add]
  have : a - b + b = a := by omega
  rw [this]; exact hx

theorem shift_ge_pow (x a b : Nat) (hb : b ≤ a) (hx : 2 ^ a ≤ x) : 2 ^ b ≤ x >>> (a - b) := by
  rw [Nat.shiftRight_eq_div_pow]
  rw [Nat.le_div_iff_mul_le (Nat.two_pow_pos _), ← pow_add]
  have : b + (a - b) = a := by omega
  rw [this]; exact hx

/-- The parallel builder in closed form: whatever the interleaving of the put-subset
workers and the order of the blocks of the two later phases, the tables are the buckets laid
out in key order. -/
theorem doHashGen_canon (T m h : Nat) (np : List Int)
    (tmp0 : Nat → TempNodeHashListEntry) (subsets0 : Nat → Nat) (lists0 : Nat → Int)
    (putSched orderSched fillSched : List Nat)
    (hm : 20 ≤ m) (hm31 : m ≤ 31) (hT : 2 ≤ T) (hT31 : T ≤ 2147483648)
    (hno : ∀ k, (bucketOf (subsetKey m h np) k (2 ^ m)).length ≤ 65535)
    (hord : orderSched.Perm (List.range (2 ^ hashPartBits T h)))
    (hfill : fillSched.Perm (List.range (2 ^ subsetPartBits T m))) :
    ∃ t, doHashGen T m h np tmp0 subsets0 lists0 putSched orderSched fillSched = some t ∧
      (∀ k, t.nodeHash k = canonEntry (keyPos (subsetKey m h np) (2 ^ m) k)
        (bucketOf (subsetKey m h np) k (2 ^ m)).length) ∧
      t.nodeHashSubsets
        = (List.range (2 ^ h)).flatMap (fun k => bucketOf (subsetKey m h np) k (2 ^ m)) ∧
      t.nodeHashLists = t.nodeHashSubsets.map (hashedSum (np.map toInt64) m) := by
  obtain ⟨tb, htb⟩ := threadBits_some T hT31
  have hpbdef : hashPartBits T h = min h (tb + 4) := by
    unfold hashPartBits; rw [htb]; rfl
  have hspbdef : subsetPartBits T m = min m (tb + 4) := by
    unfold subsetPartBits; rw [htb]; rfl
  rw [hpbdef] at hord
  rw [hspbdef] at hfill
  have hkey : ∀ s, subsetKey m h np s < 2 ^ h := fun s => getNodeHashKey_lt h _
  have h1 : 1 ≤ h := hashBits_pos_of_no_overflow m h _ hm hkey hno
  have hkO : ∀ s, subsetKey m h np s
      = getNodeHashKey h (workerSum (np.map toInt64) m s) := by
    intro s
    unfold subsetKey
    rw [workerSum_eq_hashedSum _ _ _ (by omega)]
  obtain ⟨hpb, hhpb⟩ : ∃ hpb, hpb = min h (tb + 4) := ⟨_, rfl⟩
  obtain ⟨spb, hspb⟩ : ∃ spb, spb = min m (tb + 4) := ⟨_, rfl⟩
  have hpb1 : 1 ≤ hpb := by omega
  have hpbh : hpb ≤ h := by omega
  have hspbm : spb ≤ m := by omega
  rw [← hhpb] at hord
  rw [← hspb] at hfill
  obtain ⟨st, hrun, hinv, hfin⟩ := putPhase_done T m h hpb (workerSum (np.map toInt64) m)
    (subsetKey m h np) hkO (by omega) hm31 hT hno tmp0 putSched
  obtain ⟨F1, F2, F3, F4⟩ := putPhase_final m h hpb (subsetKey m h np) st h1 hpb1 hpbh hkey
    hinv hfin
  have hpos := blocksPos_eq h hpb (subsetKey m h np) (2 ^ m) st.nodeHashListsBlocksSize F4
  have hO := orderingFold_spec st.tmpHashLists st.Used (subsetKey m h np) (2 ^ m) h hpb
    st.nodeHash (nodeHashListsBlocksPos st.nodeHashListsBlocksSize) F1 F2 F3
    (fun b hb => hpos b (by omega)) orderSched (fun _ => False)
    { nodeHash := st.nodeHash, nodeHashSubsets := subsets0, listPos := 0 }
    (hord.nodup_iff.2 (List.nodup_range _))
    (fun b hb => ⟨List.mem_range.1 (hord.mem_iff.1 hb), fun hc => hc⟩)
    ⟨fun k hk => absurd hk (fun hc => hc), fun k _ => rfl, fun k hk => absurd hk (fun hc => hc)⟩
  obtain ⟨o, ho⟩ : ∃ o, o = orderSched.foldl
      (orderingPart st.tmpHashLists h hpb (nodeHashListsBlocksPos st.nodeHashListsBlocksSize))
      { nodeHash := st.nodeHash, nodeHashSubsets := subsets0, listPos := 0 } := ⟨_, rfl⟩
  rw [← ho] at hO
  obtain ⟨O1, O2, O3⟩ := hO
  have hmemO : ∀ b, b < 2 ^ hpb → (False ∨ b ∈ orderSched) := fun b hb =>
    Or.inr (hord.mem_iff.2 (List.mem_range.2 hb))
  have hnh : ∀ k, o.nodeHash k = canonEntry (keyPos (subsetKey m h np) (2 ^ m) k)
      (bucketOf (subsetKey m h np) k (2 ^ m)).length := by
    intro k
    rcases Nat.lt_or_ge k (2 ^ h) with hk | hk
    · exact O1 k (hmemO _ (shift_lt_pow k h hpb hpbh hk))
    · have hnot : ¬ (False ∨ k >>> (h - hpb) ∈ orderSched) := by
        rintro (hc | hc)
        · exact hc
        · have := List.mem_range.1 (hord.mem_iff.1 hc)
          have := shift_ge_pow k h hpb hpbh hk
          omega
      rw [O2 k hnot]
      have hnil := bucketOf_nil_of_ge (subsetKey m h np) (2 ^ h) hkey k (2 ^ m) hk
      have hs0 : (st.nodeHash k).size = 0 := by rw [F1, hnil]; rfl
      rw [F2 k hs0, hnil]
      rfl
  have hlen : ((List.range (2 ^ h)).flatMap
      (fun k => bucketOf (subsetKey m h np) k (2 ^ m))).length = 2 ^ m :=
    keyPos_total (subsetKey m h np) (2 ^ m) (2 ^ h) (fun s _ => hkey s)
  have hsub : (List.range (2 ^ m)).map o.nodeHashSubsets
      = (List.range (2 ^ h)).flatMap (fun k => bucketOf (subsetKey m h np) k (2 ^ m)) := by
    have := map_range_eq_flatMap (fun k => bucketOf (subsetKey m h np) k (2 ^ m))
      o.nodeHashSubsets (2 ^ h)
      (fun k hk i hi => O3 k (hmemO _ (shift_lt_pow k h hpb hpbh hk)) i hi)
    rw [hlen] at this
    exact this
  have hF := fillFold_spec m spb (workerSum (np.map toInt64) m) o.nodeHashSubsets fillSched
    (fun _ => False) lists0 (fun x hx => absurd hx (fun hc => hc))
  have hlists : (List.range (2 ^ m)).map
      (fillSched.foldl (fillValuePart m spb (workerSum (np.map toInt64) m) o.nodeHashSubsets)
        lists0)
      = ((List.range (2 ^ m)).map o.nodeHashSubsets).map (hashedSum (np.map toInt64) m) := by
    rw [List.map_map]
    apply List.map_congr_left
    intro x hx
    rw [hF x (Or.inr (hfill.mem_iff.2 (List.mem_range.2
      (shift_lt_pow x m spb hspbm (List.mem_range.1 hx)))))]
    rw [workerSum_eq_hashedSum _ _ _ (by omega)]
    rfl
  refine ⟨{ nodeHash := o.nodeHash,
            nodeHashSubsets := (List.range (2 ^ m)).map o.nodeHashSubsets,
            nodeHashLists := (List.range (2 ^ m)).map
              (fillSched.foldl
                (fillValuePart m spb (workerSum (np.map toInt64) m) o.nodeHashSubsets)
                lists0) }, ?_, hnh, hsub, hlists⟩
  unfold doHashGen
  rw [htb, Option.some_bind, if_neg (by omega)]
  simp only
  rw [← hhpb, ← hspb, hrun, Option.map_some', ← ho]

theorem selSum_negPowers : ∀ (n : Nat) (c : Int) (s : Nat), s < 2 ^ n →
    selSum ((List.range n).map (fun i => -(c * (2 : Int) ^ i))) s = -(c * s) := by
  intro n
  induction n with
  | zero =>
    intro c s hs
    have : s = 0 := by simpa using hs
    subst this
    simp [selSum]
  | succ n ih =>
    intro c s hs
    rw [List.range_succ_eq_map, List.map_cons, List.map_map, selSum_cons]
    have htail : (List.range n).map ((fun i => -(c * (2 : Int) ^ i)) ∘ Nat.succ)
        = (List.range n).map (fun i => -((2 * c) * (2 : Int) ^ i)) := by
      apply List.map_congr_left
      intro i _
      simp only [Function.comp, Nat.succ_eq_add_one, pow_succ]
      ring
    rw [htail, ih (2 * c) (s / 2) (by rw [pow_succ] at hs; omega)]
    have hs2 : (s : Int) = 2 * ((s / 2 : Nat) : Int) + ((s % 2 : Nat) : Int) := by
      have := Nat.div_add_mod s 2
      exact_mod_cast this.symm
    rcases Nat.mod_two_eq_zero_or_one s with h0 | h1
    · rw [if_neg (by omega)]
      rw [h0] at hs2
      rw [hs2]; push_cast; ring
    · rw [if_pos h1]
      rw [h1] at hs2
      rw [hs2]; push_cast; ring

theorem getNodeHashKey_small (s : Nat) (hs : s < 2 ^ 20) : getNodeHashKey 20 (s : Int) = s := by
  unfold getNodeHashKey toUInt32
  simp only
  have hs1 : s < 1048576 := by norm_num at hs; exact hs
  have e1 : (s : Int) / 2 ^ 20 = 0 := Int.ediv_eq_zero_of_lt (by omega) (by norm_num; omega)
  have e2 : ((s : Int) % 18446744073709551616).toNat = s := by
    rw [Int.emod_eq_of_lt (by omega) (by omega)]; rfl
  rw [e1, e2]
  simp only [Int.zero_emod, Int.toNat_zero, Nat.zero_shiftRight, Nat.xor_zero]
  rw [Nat.and_pow_two_sub_one_eq_mod]
  exact Nat.mod_eq_of_lt hs

theorem negPowers_key (s : Nat) (hs : s < 2 ^ 20) : subsetKey 20 20 negPowersProblem s = s := by
  rw [subsetKey_eq 20 20 _ s (by decide) hs]
  unfold negPowersProblem
  rw [selSum_negPowers 20 1 s hs]
  have hs1 : s < 1048576 := by norm_num at hs; exact hs
  have : wrap64 (-(-(1 * (s : Int)))) = (s : Int) := by
    unfold wrap64; omega
  rw [this]
  exact getNodeHashKey_small s hs

/-- With the hashed numbers `negPowersProblem` and 20 hash bits no bucket overflows. -/
theorem negPowers_no_overflow (k : Nat) :
    (bucketOf (subsetKey 20 20 negPowersProblem) k (2 ^ 20)).length ≤ 65535 := by
  rw [bucketOf_length_countP]
  have h1 : (List.range (2 ^ 20)).countP (fun s => subsetKey 20 20 negPowersProblem s == k)
      = (List.range (2 ^ 20)).countP (fun s => s == k) := by
    apply countP_congr_fun
    intro s hs
    rw [negPowers_key s (List.mem_range.1 hs)]
  rw [h1]
  have h2 : (List.range (2 ^ 20)).countP (fun s => s == k) = (List.range (2 ^ 20)).count k := rfl
  rw [h2]
  have := List.nodup_iff_count_le_one.1 (List.nodup_range (2 ^ 20)) k
  omega

/-- C12: for `m >= 20` hashed numbers, a thread count of at least 2 (at most `2^31`, the range
of the command-line `int`, beyond which the loop of the constructor does not end) and no
bucket of more than 65535 subsets, the three-phase builder returns exactly the tables of
the serial builder (`nodeHash`, `nodeHashSubsets` and `nodeHashLists`, entry for entry),
whatever the interleaving `putSched` of its two put-subset workers, the order `orderSched`
of the blocks of the ordering phase, the order `fillSched` of the parts of the fill-value
phase, and the initial contents of the freshly allocated arrays. -/
theorem C12_parallel_builder_equals_serial (threadsNum m h : Nat) (nodeProblem : List Int)
    (tmp0 : Nat → TempNodeHashListEntry) (subsets0 : Nat → Nat) (lists0 : Nat → Int)
    (putSched orderSched fillSched : List Nat)
    (hm : 20 ≤ m) (hm31 : m ≤ 31) (_hh : h ≤ 31)
    (hT : 2 ≤ threadsNum) (hT31 : threadsNum ≤ 2147483648)
    (hno : ∀ k, (bucketOf (subsetKey m h nodeProblem) k (2 ^ m)).length ≤ 65535)
    (hord : orderSched.Perm (List.range (2 ^ hashPartBits threadsNum h)))
    (hfill : fillSched.Perm (List.range (2 ^ subsetPartBits threadsNum m))) :
    ∃ t, singleThreadDoHashGen m h nodeProblem = some t ∧
      doHashGen threadsNum m h nodeProblem tmp0 subsets0 lists0 putSched orderSched fillSched
        = some t := by
  obtain ⟨t1, e1, a1, b1, c1⟩ := singleThreadDoHashGen_canon m h nodeProblem hm31 hno
  obtain ⟨t2, e2, a2, b2, c2⟩ := doHashGen_canon threadsNum m h nodeProblem tmp0 subsets0 lists0
    putSched orderSched fillSched hm hm31 hT hT31 hno hord hfill
  have heq : t2 = t1 := by
    cases t1 with
    | mk n1 s1 l1 =>
      cases t2 with
      | mk n2 s2 l2 =>
        simp only at a1 b1 c1 a2 b2 c2
        have hn : n2 = n1 := funext (fun k => by rw [a1, a2])
        have hs : s2 = s1 := b2.trans b1.symm
        have hl : l2 = l1 := by rw [c1, c2, hs]
        rw [hn, hs, hl]
  exact ⟨t1, e1, by rw [e2, heq]⟩

theorem C12_parallel_builder_equals_serial_witness :
    ∃ t, singleThreadDoHashGen 20 20 negPowersProblem = some t ∧
      doHashGen 2 20 20 negPowersProblem (fun _ => { subset := 0, next := 0 }) (fun _ => 0)
        (fun _ => 0) [0, 1, 1, 0, 1] (List.range (2 ^ hashPartBits 2 20)).reverse
        (List.range (2 ^ subsetPartBits 2 20)) = some t :=
  C12_parallel_builder_equals_serial 2 20 20 negPowersProblem _ _ _ _ _ _
    (by decide) (by decide) (by decide) (by decide) (by decide) negPowers_no_overflow
    (List.reverse_perm _) (List.Perm.refl _)

/-- C33 as stated fails at the clamp: with only `m = 10` given for `N = 17` the code clamps
`m` to 7 before deriving `h`, so `h = 9` and not `m + 2 = 12`; and with `m = 8` for `N = 17`
the test `m + 8 > N - 1` does not fire, so `nodeHashedNumbers` stays `8 = N - 9`, above
`min(m, N - 10) = 7`. -/
theorem C33_counterexample :
    hashParams 17 0 10 = (9, 7) ∧ (hashParams 17 0 10).1 ≠ 10 + 2 ∧
    hashParams 17 0 8 = (10, 8) ∧ (hashParams 17 0 8).2 ≠ min 8 (17 - 10) ∧
    ¬ (hashParams 17 0 8).2 ≤ 17 - 10 := by
  decide

/-- C33, amended: for `N > 16` and inputs `h, m <= 63` the defaulting yields `h = 20` and
`m = 18` clamped when both inputs are zero, `m = max(h - 2, 1)` clamped when only `h` is
given, and, when only `m` is given, `m` clamped and `h` two more than the clamped `m`; when both are given they are kept
and `m` is clamped. The clamp replaces `m` by `N - 10` exactly when `m + 8 > N - 1`, so the
resulting `nodeHashedNumbers` is `m` when `m <= N - 9` and `N - 10` otherwise: it never
exceeds `N - 9`. -/
theorem C33_hash_param_defaulting (N h m : Nat) (hN : 16 < N) (_hh : h ≤ 63)
    (_hm : m ≤ 63) :
    hashParams N 0 0 = (20, if 18 + 8 > N - 1 then N - 10 else 18) ∧
    (h ≠ 0 → hashParams N h 0
      = (h, if max (h - 2) 1 + 8 > N - 1 then N - 10 else max (h - 2) 1)) ∧
    (m ≠ 0 → hashParams N 0 m
      = ((if m + 8 > N - 1 then N - 10 else m) + 2, if m + 8 > N - 1 then N - 10 else m)) ∧
    (h ≠ 0 → m ≠ 0 → hashParams N h m = (h, if m + 8 > N - 1 then N - 10 else m)) ∧
    (hashParams N h m).2 ≤ N - 9 := by
  refine ⟨?_, ?_, ?_, ?_, ?_⟩
  · unfold hashParams
    simp
  · intro hh
    unfold hashParams
    simp only [hh, ne_eq, not_false_eq_true, and_self, if_true, true_and]
    congr 1
    have e : (if h ≥ 3 then h - 2 else 1) = max (h - 2) 1 := by
      split_ifs <;> omega
    rw [e]
  · intro hm
    unfold hashParams
    simp only [hm, ne_eq, not_true_eq_false, and_false, if_false, not_false_eq_true, and_self,
      if_true, false_and]
    congr 1
    split_ifs <;> omega
  · intro hh hm
    unfold hashParams
    simp [hh, hm]
  · have := (hashParams_bounds N h m hN).2
    omega

theorem C33_hash_param_defaulting_witness :
    hashParams 40 0 0 = (20, if 18 + 8 > 40 - 1 then 40 - 10 else 18) ∧
    ((25 : Nat) ≠ 0 → hashParams 40 25 0
      = (25, if max (25 - 2) 1 + 8 > 40 - 1 then 40 - 10 else max (25 - 2) 1)) ∧
    ((35 : Nat) ≠ 0 → hashParams 40 0 35
      = ((if 35 + 8 > 40 - 1 then 40 - 10 else 35) + 2,
         if 35 + 8 > 40 - 1 then 40 - 10 else 35)) ∧
    ((25 : Nat) ≠ 0 → (35 : Nat) ≠ 0 → hashParams 40 25 35
      = (25, if 35 + 8 > 40 - 1 then 40 - 10 else 35)) ∧
    (hashParams 40 25 35).2 ≤ 40 - 9 :=
  C33_hash_param_defaulting 40 25 35 (by decide) (by decide) (by decide)

/-- C34: for every problem size `17 <= N <= 128` and all inputs `h, m <= 63` the
preprocessing ends with `nodeBits = 8 + nodeHashedNumbers`, `nodeHashedNumbers >= 1` and
`nodeHashedNumbers + 8 <= N - 1`, so the main region `N - nodeBits` is not empty; for
`1 <= N <= 16` `nodeBits` stays 0 and `generateWork` is the exhaustive enumeration of
`solveSmallProblem`, which puts exactly the non-empty zero-sum subsets. -/
theorem C34_node_bits (N h m : Nat) (problem : List Int) (_hh : h ≤ 63) (_hm : m ≤ 63) :
    (17 ≤ N → N ≤ 128 →
      hashControllerNodeBits N h m = 8 + (hashParams N h m).2 ∧
      1 ≤ (hashParams N h m).2 ∧ (hashParams N h m).2 + 8 ≤ N - 1 ∧
      1 ≤ N - hashControllerNodeBits N h m) ∧
    (1 ≤ problem.length → problem.length ≤ 16 →
      hashControllerNodeBits problem.length h m = 0 ∧
      hashControllerGenerateWork problem h m
        = some (Sum.inl ((List.range' 1 (2 ^ problem.length - 1)).filter
            (fun B => decide (selSum128 problem B = 0))))) := by
  constructor
  · intro h17 _
    obtain ⟨b1, b2⟩ := hashParams_bounds N h m (by omega)
    have e : hashControllerNodeBits N h m = 8 + (hashParams N h m).2 := by
      unfold hashControllerNodeBits
      rw [if_neg (by omega)]
    refine ⟨e, b1, b2, ?_⟩
    rw [e]; omega
  · intro h1 h16
    constructor
    · unfold hashControllerNodeBits
      rw [if_pos h16]
    · unfold hashControllerGenerateWork
      rw [if_pos h16]
      have hss : solveSmallProblem problem =
          some ((List.range' 1 (2 ^ problem.length - 1)).filter
            (fun B => decide (selSum128 problem B = 0))) := by
        unfold solveSmallProblem
        rw [shl128_one _ (by omega)]
        have hpos : 0 < 2 ^ problem.length := Nat.pow_pos (by decide)
        have := solveSmallLoop_eq problem problem.length (by omega) (2 ^ problem.length - 1) 1
          (le_refl _) (by omega)
        rw [Nat.sub_add_cancel hpos] at this
        simpa [selSum_zero, wrap128] using this
      rw [hss]
      rfl

theorem C34_node_bits_witness :
    (17 ≤ 40 → 40 ≤ 128 →
      hashControllerNodeBits 40 25 35 = 8 + (hashParams 40 25 35).2 ∧
      1 ≤ (hashParams 40 25 35).2 ∧ (hashParams 40 25 35).2 + 8 ≤ 40 - 1 ∧
      1 ≤ 40 - hashControllerNodeBits 40 25 35) ∧
    (1 ≤ [3, -3, (7 : Int)].length → [3, -3, (7 : Int)].length ≤ 16 →
      hashControllerNodeBits [3, -3, (7 : Int)].length 25 35 = 0 ∧
      hashControllerGenerateWork [3, -3, 7] 25 35
        = some (Sum.inl ((List.range' 1 (2 ^ [3, -3, (7 : Int)].length - 1)).filter
            (fun B => decide (selSum128 [3, -3, 7] B = 0))))) :=
  C34_node_bits 40 25 35 [3, -3, 7] (by decide) (by decide)

set_option maxRecDepth 4000 in
theorem countingProblem128_valid : ValidProblem countingProblem128 := by
  decide

set_option maxRecDepth 4000 in
theorem countingProblem128_length : countingProblem128.length = 128 := by
  decide

/-- C37 fails: for the 128-element problem `1, ..., 128` and the admitted inputs `h = 0`,
`m = 1` the constructor fills `mainProblem`, `mainTransTable` and `hashMinMaxTable` with
`128 - 9 = 119` entries, more than their capacity 112; for `h = 0`, `m = 63` it fills
`nodeProblem` and `nodeTransTable` with `71` entries, more than their capacity 64. -/
theorem C37_capacity_exceeded :
    countingProblem128.length = 128 ∧
    (∃ c, hashControllerInit countingProblem128 0 1 = some c ∧
      c.mainProblem.length = 119 ∧ c.mainTransTable.length = 119 ∧
      ¬ c.mainProblem.length ≤ mainProblemCapacity) ∧
    (∃ c, hashControllerInit countingProblem128 0 63 = some c ∧
      c.nodeProblem.length = 71 ∧ ¬ c.nodeProblem.length ≤ nodeProblemCapacity) := by
  have hlen : countingProblem128.length = 128 := countingProblem128_length
  refine ⟨hlen, ?_, ?_⟩
  · obtain ⟨c, h1, _, _, _, _, h6, h7, _⟩ := hashControllerInit_spec countingProblem128 0 1
      countingProblem128_valid (by rw [hlen]; decide)
    rw [hlen] at h6 h7
    have e : (hashParams 128 0 1).2 = 1 := by decide
    rw [e] at h6 h7
    refine ⟨c, h1, h6, h7, ?_⟩
    rw [h6]; decide
  · obtain ⟨c, h1, _, _, _, _, _, _, h8, _⟩ := hashControllerInit_spec countingProblem128 0 63
      countingProblem128_valid (by rw [hlen]; decide)
    rw [hlen] at h8
    have e : (hashParams 128 0 63).2 = 63 := by decide
    rw [e] at h8
    refine ⟨c, h1, h8, ?_⟩
    rw [h8]; decide

theorem updateProgress_inv (p : Progress) (n total : Nat)
    (h1 : p.subMegas < 1000000) (h2 : p.mNodesCount * 1000000 + p.subMegas = total)
    (h3 : total + n < 18446744073709551616 * 1000000) :
    (updateProgress p n).subMegas < 1000000 ∧
    (updateProgress p n).mNodesCount * 1000000 + (updateProgress p n).subMegas = total + n := by
  unfold updateProgress
  simp only
  generalize p.mNodesCount = m at *
  generalize p.subMegas = s at *
  have hq : n = n / 1000000 * 1000000 + n % 1000000 := by omega
  have hsub : n - n / 1000000 * 1000000 = n % 1000000 := by omega
  rw [hsub]
  have hr := Nat.mod_lt n (show 0 < 1000000 by decide)
  generalize n / 1000000 = q at *
  generalize n % 1000000 = r at *
  have hs : (s + r) % 4294967296 = s + r := Nat.mod_eq_of_lt (by omega)
  rw [hs]
  have hm : (m + q) % 18446744073709551616 = m + q := Nat.mod_eq_of_lt (by omega)
  rw [hm]
  by_cases hc : s + r ≥ 1000000
  · rw [if_pos hc]
    have hm1 : (m + q + 1) % 18446744073709551616 = m + q + 1 := Nat.mod_eq_of_lt (by omega)
    rw [hm1]
    simp only
    omega
  · rw [if_neg hc]
    simp only
    omega

theorem updateProgress_run (ns : List Nat) : ∀ (p : Progress) (total : Nat),
    p.subMegas < 1000000 → p.mNodesCount * 1000000 + p.subMegas = total →
    total + ns.sum < 18446744073709551616 * 1000000 →
    (ns.foldl updateProgress p).subMegas < 1000000 ∧
    (ns.foldl updateProgress p).mNodesCount * 1000000 + (ns.foldl updateProgress p).subMegas
      = total + ns.sum := by
  induction ns with
  | nil => intro p total h1 h2 _; simpa using ⟨h1, h2⟩
  | cons n rest ih =>
    intro p total h1 h2 h3
    rw [List.sum_cons] at h3
    obtain ⟨a, b⟩ := updateProgress_inv p n total h1 h2 (by omega)
    have := ih (updateProgress p n) (total + n) a b (by omega)
    rw [List.foldl_cons, List.sum_cons]
    rw [Nat.add_assoc] at this
    exact this

/-- C39: after any sequence of `updateProgress` calls with `guint64` node counts
`n_1, ..., n_k` whose total stays below `2^64 * 10^6` (the `guint64` counter of mega-nodes
does not overflow), `subMegas < 1000000` and
`mNodesCount * 1000000 + subMegas = n_1 + ... + n_k`: the single carry of each call
suffices. -/
theorem C39_progress_counters (ns : List Nat) (_h64 : ∀ n ∈ ns, n < 18446744073709551616)
    (hno : ns.sum < 18446744073709551616 * 1000000) :
    (ns.foldl updateProgress Progress.init).subMegas < 1000000 ∧
    (ns.foldl updateProgress Progress.init).mNodesCount * 1000000
      + (ns.foldl updateProgress Progress.init).subMegas = ns.sum := by
  have := updateProgress_run ns Progress.init 0 (by decide) (by decide) (by omega)
  simpa using this

theorem C39_progress_counters_witness :
    ([999999, 1, 18446744073709551615, 2500000].foldl updateProgress Progress.init).subMegas
      < 1000000 ∧
    ([999999, 1, 18446744073709551615, 2500000].foldl updateProgress Progress.init).mNodesCount
        * 1000000
      + ([999999, 1, 18446744073709551615, 2500000].foldl updateProgress Progress.init).subMegas
      = [999999, 1, 18446744073709551615, 2500000].sum :=
  C39_progress_counters [999999, 1, 18446744073709551615, 2500000] (by decide) (by decide)

theorem naiveSteps_append (a : List Int) : ∀ (s : Int) (b : List Int),
    naiveSteps s (a ++ b) = naiveSteps s a ++ naiveSteps (a.foldl add64 s) b := by
  induction a with
  | nil => intro s b; rfl
  | cons d ds ih =>
    intro s b
    show add64 s d :: naiveSteps (add64 s d) (ds ++ b) = _
    rw [ih]; rfl

theorem foldl_naiveStep_fst (ds : List Int) : ∀ (σ : Int) (f : Bool),
    (ds.foldl naiveStep (σ, f)).1 = ds.foldl add64 σ := by
  induction ds with
  | nil => intro σ f; rfl
  | cons d ds ih =>
    intro σ f
    simp only [List.foldl_cons, naiveStep]
    exact ih _ _

theorem naiveCore_length (v : Nat → Int) : ∀ k, (naiveCore v k).length = 2 ^ (k + 1) - 1 := by
  intro k
  induction k with
  | zero => rfl
  | succ k ih =>
    simp only [naiveCore, List.length_append, List.length_singleton, ih]
    have hpos : 0 < 2 ^ (k + 1) := Nat.pow_pos (by decide)
    have hpow : 2 ^ (k + 1 + 1) = 2 ^ (k + 1) + 2 ^ (k + 1) := by rw [Nat.pow_succ]; omega
    omega

/-- The walk of `NAIVE_CORE_k` started at `σ` visits, in this order, `σ` plus the sum of the
suffix `t` for `t = 1, 2, ..., 2^(k+1) - 1`. -/
theorem naiveSteps_core (sc : List Int) : ∀ (k : Nat) (σ : Int),
    naiveSteps σ (naiveCore (fun k => (naiveVS sc k).1) k)
      = (List.range (2 ^ (k + 1) - 1)).map
          (fun j => wrap64 (σ + selSum (sc.drop 32) (j + 1))) := by
  have hrd : ∀ i, rd sc (32 + i) = rd (sc.drop 32) i := by
    intro i; simp [rd, List.getD_eq_getElem?_getD, List.getElem?_drop]
  intro k
  induction k with
  | zero =>
    intro σ
    have h1 : selSum (sc.drop 32) 1 = rd sc 32 := by
      have := selSum_pow (sc.drop 32) 0
      simp only [pow_zero] at this
      rw [this, ← hrd 0]
    have hr : List.range 1 = [0] := rfl
    simp [naiveCore, naiveSteps, naiveVS, add64, h1, hr]
  | succ k ih =>
    intro σ
    have hpos : 0 < 2 ^ (k + 1) := Nat.pow_pos (by decide)
    have hpow : 2 ^ (k + 1 + 1) = 2 ^ (k + 1) + 2 ^ (k + 1) := by rw [Nat.pow_succ]; omega
    obtain ⟨_, hv2⟩ := naiveVS_spec sc k
    obtain ⟨e1, _⟩ := naiveCore_walk sc k σ
    rw [foldl_naiveStep_fst] at e1
    have hmid : add64 (wrap64 (σ + selSum (sc.drop 32) (2 ^ (k + 1) - 1))) (naiveVS sc (k + 1)).1
        = wrap64 (σ + rd (sc.drop 32) (k + 1)) := by
      unfold add64
      rw [wrap64_add_left, ← wrap64_add_right, hv2, wrap64_add_right]
      congr 1; ring
    have hsplit : ∀ t, t < 2 ^ (k + 1) →
        selSum (sc.drop 32) (2 ^ (k + 1) + t) = selSum (sc.drop 32) t + rd (sc.drop 32) (k + 1) :=
      fun t ht => selSum_pow_add _ _ _ ht
    obtain ⟨n, hn⟩ : ∃ n, 2 ^ (k + 1) = n + 1 := ⟨2 ^ (k + 1) - 1, by omega⟩
    have hlen : 2 ^ (k + 1 + 1) - 1 = (n + 1) + n := by omega
    have hn1 : 2 ^ (k + 1) - 1 = n := by omega
    rw [hlen, List.range_add, List.range_succ, List.map_append, List.map_append, List.map_map]
    simp only [naiveCore]
    rw [List.append_assoc, naiveSteps_append, List.singleton_append, naiveSteps, e1, hmid,
      ih σ, ih (wrap64 (σ + rd (sc.drop 32) (k + 1))), hn1]
    rw [List.append_assoc]
    congr 1
    simp only [List.map_cons, List.map_nil, List.singleton_append]
    congr 1
    · rw [← hn, selSum_pow]
    · apply List.map_congr_left
      intro j hj
      have hj1 : j + 1 < 2 ^ (k + 1) := by
        have := List.mem_range.1 hj; omega
      simp only [Function.comp]
      have e : n + 1 + j + 1 = 2 ^ (k + 1) + (j + 1) := by omega
      rw [e, hsplit _ hj1, wrap64_add_left]
      congr 1; ring

theorem wrap64_eq_zero_iff (x : Int) : wrap64 x = 0 ↔ x % 18446744073709551616 = 0 := by
  unfold wrap64; omega

set_option maxRecDepth 4000 in
/-- The 512 values of `sum` tested in the pass `c` are the sums of the suffixes
`t = 0, 1, ..., 511`, in this order. -/
theorem naiveVisited_eq (sumChanges : List Int) (inputSum : Int) (c : Nat) :
    naiveVisited sumChanges inputSum c
      = (List.range 512).map (fun t =>
          wrap64 (inputSum + rd sumChanges c + selSum (sumChanges.drop 32) t)) := by
  unfold naiveVisited
  rw [naiveSteps_core sumChanges 8]
  have e511 : 2 ^ (8 + 1) - 1 = 511 := rfl
  have hr : List.range 512 = 0 :: (List.range 511).map Nat.succ :=
    List.range_succ_eq_map 511
  rw [hr, List.map_cons, List.map_map, e511]
  congr 1
  · unfold add64
    rw [selSum_zero, add_zero]
  · apply List.map_congr_left
    intro j _
    simp only [Function.comp, Nat.succ_eq_add_one]
    unfold add64
    rw [wrap64_add_left]

/-- C31: for every `sumChanges` table and every `inputSum`, `subsetSumNaiveMethod` returns, in
increasing order, exactly the prefixes `c < 32` for which some 9-bit suffix `t < 512` makes
`inputSum + sumChanges[c] + (sum of sumChanges[32+i] over the bits i of t)` zero modulo
`2^64`; `NAIVE_CORE_8` consists of 511 additions, and the 512 values of `sum` that are tested
in the pass `c` are the sums of the suffixes `t = 0, 1, ..., 511`, in this order. -/
theorem C31_naive_method (sumChanges : List Int) (inputSum : Int) :
    subsetSumNaiveMethod sumChanges inputSum
      = (List.range 32).filter (fun c => (List.range 512).any (fun t =>
          decide ((inputSum + rd sumChanges c + selSum (sumChanges.drop 32) t)
            % 18446744073709551616 = 0))) ∧
    (subsetSumNaiveMethod sumChanges inputSum).Pairwise (fun a b => a < b) ∧
    (naiveCore (fun k => (naiveVS sumChanges k).1) 8).length = 511 ∧
    ∀ c, naiveVisited sumChanges inputSum c
      = (List.range 512).map (fun t =>
          wrap64 (inputSum + rd sumChanges c + selSum (sumChanges.drop 32) t)) := by
  refine ⟨?_, ?_, ?_, ?_⟩
  · unfold subsetSumNaiveMethod
    apply List.filter_congr
    intro c _
    rw [Bool.eq_iff_iff, naiveFind_iff, List.any_eq_true]
    constructor
    · rintro ⟨t, h1, h2⟩
      exact ⟨t, List.mem_range.2 h1, by
        rw [decide_eq_true_eq]; exact (wrap64_eq_zero_iff _).1 h2⟩
    · rintro ⟨t, h1, h2⟩
      rw [decide_eq_true_eq] at h2
      exact ⟨t, List.mem_range.1 h1, (wrap64_eq_zero_iff _).2 h2⟩
  · unfold subsetSumNaiveMethod
    exact List.Pairwise.sublist (List.filter_sublist _) (List.pairwise_lt_range 32)
  · rw [naiveCore_length]; rfl
  · exact naiveVisited_eq sumChanges inputSum

/-- An injective map of the masks below `2^N` into the masks below `2^N` reaches each of
them. -/
theorem surj_of_inj_below (n : Nat) (f : Nat → Nat) (hlt : ∀ B, B < n → f B < n)
    (hinj : ∀ B B2, B < n → B2 < n → f B = f B2 → B = B2) (A : Nat) (hA : A < n) :
    ∃ B, B < n ∧ f B = A := by
  have hi : Function.Injective (fun b : Fin n => (⟨f b.1, hlt b.1 b.2⟩ : Fin n)) := by
    intro a b hab
    have := Fin.mk.inj_iff.1 hab
    exact Fin.ext (hinj a.1 b.1 a.2 b.2 this)
  obtain ⟨b, hb⟩ := (Finite.injective_iff_surjective.1 hi) ⟨A, hA⟩
  exact ⟨b.1, b.2, Fin.mk.inj_iff.1 hb⟩

/-- C32: for a valid problem `numbers` with `16 < N <= 128` elements whose tables fit the
member arrays (`N - nodeBits <= 112`, `nodeBits <= 64`) the constructor of `HashController`
returns and all its writes stay inside the arrays; `mainTransTable` (of `N - nodeBits`
entries) followed by `nodeTransTable` (of `nodeBits` entries) is a permutation of `0 .. N-1`,
with
`mainProblem[i] = numbers[mainTransTable[i]]` and `nodeProblem[j] = numbers[nodeTransTable[j]]`;
`translateSubset` maps the masks below `2^N` into themselves, injectively and onto, and the
elements selected by `translateSubset(B)` in the original order have the same sum as those
selected by `B` in the reordered order (main region, then node region). -/
theorem C32_reorder_tables (numbers : List Int) (initNodeHashBits initNodeHashedNumbers : Nat)
    (hv : ValidProblem numbers) (h16 : 16 < numbers.length) (h128 : numbers.length ≤ 128)
    (hcap : FitsCapacity numbers.length initNodeHashBits initNodeHashedNumbers) :
    ∃ c, hashControllerInit numbers initNodeHashBits initNodeHashedNumbers = some c ∧
      c.numbersNum = numbers.length ∧
      c.mainTransTable.length = numbers.length - c.nodeBits ∧
      c.nodeTransTable.length = c.nodeBits ∧
      c.mainTransTable.length ≤ mainProblemCapacity ∧
      c.mainProblem.length ≤ mainProblemCapacity ∧
      c.nodeTransTable.length ≤ nodeProblemCapacity ∧
      c.nodeProblem.length ≤ nodeProblemCapacity ∧
      (c.mainTransTable ++ c.nodeTransTable).Perm (List.range numbers.length) ∧
      c.mainProblem = c.mainTransTable.map (rd numbers) ∧
      c.nodeProblem = c.nodeTransTable.map (rd numbers) ∧
      (∀ B, B < 2 ^ numbers.length → translateSubset c B < 2 ^ numbers.length) ∧
      (∀ B B2, B < 2 ^ numbers.length → B2 < 2 ^ numbers.length →
        translateSubset c B = translateSubset c B2 → B = B2) ∧
      (∀ A, A < 2 ^ numbers.length →
        ∃ B, B < 2 ^ numbers.length ∧ translateSubset c B = A) ∧
      (∀ B, B < 2 ^ numbers.length →
        selSum numbers (translateSubset c B) = selSum (c.mainProblem ++ c.nodeProblem) B) := by
  obtain ⟨c, hc, h1, _, _, h4, h5, h6, h7, h8, h9, _⟩ :=
    hashControllerInit_spec numbers initNodeHashBits initNodeHashedNumbers hv h16
  obtain ⟨_, hb2⟩ := hashParams_bounds numbers.length initNodeHashBits initNodeHashedNumbers h16
  have hlenall := h8.length_eq
  rw [List.length_append, List.length_range] at hlenall
  have htr : ∀ B, translateSubset c B
      = translateLoop c.mainTransTable c.nodeTransTable c.mainTransTable.length B
          numbers.length := by
    intro B
    unfold translateSubset
    rw [h1, h6, h4]
  have hlt : ∀ B, B < 2 ^ numbers.length → translateSubset c B < 2 ^ numbers.length := by
    intro B _
    rw [htr]
    exact translate_lt _ _ _ _ h128 h8
  have hinj : ∀ B B2, B < 2 ^ numbers.length → B2 < 2 ^ numbers.length →
      translateSubset c B = translateSubset c B2 → B = B2 := by
    intro B B2 hB hB2 heq
    rw [htr, htr] at heq
    exact translate_injective _ _ _ _ _ h128 h8 hB hB2 heq
  have h9b : c.mainProblem ++ c.nodeProblem
      = c.mainTransTable.map (rd numbers) ++ c.nodeTransTable.map (rd numbers) := by
    rw [h9, List.map_append]
  have happ := List.append_inj h9b (by rw [h5, List.length_map, h6])
  have hnb : hashControllerNodeBits numbers.length initNodeHashBits initNodeHashedNumbers
      = 8 + (hashParams numbers.length initNodeHashBits initNodeHashedNumbers).2 := by
    unfold hashControllerNodeBits
    rw [if_neg (by omega)]
  obtain ⟨hc1, hc2⟩ := hcap
  rw [hnb] at hc1 hc2
  refine ⟨c, hc, h1, by rw [h6, h4], by rw [h4]; omega, by rw [h6]; exact hc1,
    by rw [h5]; exact hc1, by omega, by rw [h7]; exact hc2, h8, ?_, ?_, hlt, hinj, ?_, ?_⟩
  · rw [happ.1]
  · rw [happ.2]
  · intro A hA
    exact surj_of_inj_below _ _ hlt hinj A hA
  · intro B hB
    rw [htr, translate_selSum _ _ numbers _ h128 h8, ← h9, Nat.mod_eq_of_lt hB]

theorem C32_reorder_tables_witness :
    ∃ c, hashControllerInit mainOnlyProblem 0 0 = some c ∧
      c.numbersNum = mainOnlyProblem.length ∧
      c.mainTransTable.length = mainOnlyProblem.length - c.nodeBits ∧
      c.nodeTransTable.length = c.nodeBits ∧
      c.mainTransTable.length ≤ mainProblemCapacity ∧
      c.mainProblem.length ≤ mainProblemCapacity ∧
      c.nodeTransTable.length ≤ nodeProblemCapacity ∧
      c.nodeProblem.length ≤ nodeProblemCapacity ∧
      (c.mainTransTable ++ c.nodeTransTable).Perm (List.range mainOnlyProblem.length) ∧
      c.mainProblem = c.mainTransTable.map (rd mainOnlyProblem) ∧
      c.nodeProblem = c.nodeTransTable.map (rd mainOnlyProblem) ∧
      (∀ B, B < 2 ^ mainOnlyProblem.length → translateSubset c B < 2 ^ mainOnlyProblem.length) ∧
      (∀ B B2, B < 2 ^ mainOnlyProblem.length → B2 < 2 ^ mainOnlyProblem.length →
        translateSubset c B = translateSubset c B2 → B = B2) ∧
      (∀ A, A < 2 ^ mainOnlyProblem.length →
        ∃ B, B < 2 ^ mainOnlyProblem.length ∧ translateSubset c B = A) ∧
      (∀ B, B < 2 ^ mainOnlyProblem.length →
        selSum mainOnlyProblem (translateSubset c B)
          = selSum (c.mainProblem ++ c.nodeProblem) B) :=
  C32_reorder_tables mainOnlyProblem 0 0 (by decide) (by decide) (by decide) (by decide)

/-- The envelope of a non-empty window of an ascending array without overflow is ordered and
fits in an `Int128`. -/
theorem windowPair_le (numbers : List NumberEntry) (hs : Ascending numbers)
    (hv : NoSignOverflow numbers) (L R : Nat) (hLR : L < R) (hR : R ≤ numbers.length) :
    -maxInt128 ≤ (windowPair numbers L (R - L)).1 ∧
    (windowPair numbers L (R - L)).1 ≤ (windowPair numbers L (R - L)).2 ∧
    (windowPair numbers L (R - L)).2 ≤ maxInt128 := by
  obtain ⟨c, hc⟩ : ∃ c, R - L = c + 1 := ⟨R - L - 1, by omega⟩
  have h1 := negS_le_first numbers L (R - L) (by omega)
  have h2 := posS_ge_last numbers L (R - L) (by omega)
  have h3 := le_trans hv.2 (negS_window_ge numbers L (R - L) (by omega))
  have h4 := le_trans (posS_window_le numbers L (R - L) (by omega)) hv.1
  have h5 := ascending_le numbers hs L (L + (R - L) - 1) (by omega) (by omega)
  unfold windowPair
  simp only
  generalize negS numbers L (R - L) = a at *
  generalize posS numbers L (R - L) = b at *
  generalize num numbers L = x at *
  generalize num numbers (L + (R - L) - 1) = y at *
  generalize maxInt128 = M at *
  split_ifs <;> omega

theorem gateOf_le (numbers : List NumberEntry) (hs : Ascending numbers)
    (hv : NoSignOverflow numbers) (L R : Nat) (hLR : L < R) (hR : R ≤ numbers.length) :
    (gateOf numbers L R).minValue ≤ (gateOf numbers L R).maxValue := by
  obtain ⟨h1, h2, h3⟩ := windowPair_le numbers hs hv L R hLR hR
  unfold gateOf
  simp only
  rw [neg128_exact _ (by omega) (by omega), neg128_exact _ (by omega) (by omega)]
  omega

theorem envChain_gates_le (numbers : List NumberEntry) (hs : Ascending numbers)
    (hv : NoSignOverflow numbers) : ∀ (es : List OrderEntry) (L R : Nat), L < R →
    R ≤ numbers.length → EnvChain numbers L R es →
    ∀ e ∈ es, e.minMax.minValue ≤ e.minMax.maxValue := by
  intro es
  induction es with
  | nil => intro _ _ _ _ _ e he; simp at he
  | cons e0 rest ih =>
    intro L R hLR hR hch e he
    obtain ⟨hg, hrest⟩ := hch
    rcases List.mem_cons.1 he with h | h
    · rw [h, hg]
      exact gateOf_le numbers hs hv L R hLR hR
    · rcases hrest with ⟨h1, _, _, h4⟩ | ⟨h1, _, _, h4⟩
      · exact ih (L - 1) R (by omega) hR h4 e h
      · exact ih L (R + 1) (by omega) (by omega) h4 e h

/-- C35: for every ascending array of non-zero values whose per-sign sums do not overflow an
`Int128` and every non-empty starting window `numbers[p .. p+W)`, `orderNumberRanges` returns
and every entry it has written to `destMinMax` has `minValue <= maxValue`. -/
theorem C35_min_le_max (numbers : List NumberEntry) (hs : Ascending numbers)
    (hz : ZeroFree numbers) (hv : NoSignOverflow numbers) (p W : Nat) (hW : 1 ≤ W)
    (hpW : p + W ≤ numbers.length) :
    ∃ o, orderNumberRanges ((p : Int) - 1) ((p : Int) + (W : Int)) numbers.length numbers
        = some o ∧
      o.destMinMax.length = max 1 (numbers.length - W) ∧
      ∀ g ∈ o.destMinMax, g.minValue ≤ g.maxValue := by
  obtain ⟨es, h1, h2, h3⟩ := orderNumberRanges_run numbers hs hz hv p W hW hpW
  have hall : ∀ g ∈ (orderResult (gateOf numbers p (p + W)) es).destMinMax,
      g.minValue ≤ g.maxValue := by
    intro g hg
    cases es with
    | nil =>
      simp only [orderResult, List.mem_singleton] at hg
      rw [hg]
      exact gateOf_le numbers hs hv p (p + W) (by omega) hpW
    | cons e0 rest =>
      simp only [orderResult, List.mem_map] at hg
      obtain ⟨e, he, rfl⟩ := hg
      exact envChain_gates_le numbers hs hv _ p (p + W) (by omega) hpW h3 e he
  refine ⟨_, h1, ?_, hall⟩
  · cases es with
    | nil =>
      simp only [List.length_nil] at h2
      simp only [orderResult, List.length_singleton]
      omega
    | cons e0 rest =>
      simp only [List.length_cons] at h2
      simp only [orderResult, List.length_map, List.length_cons]
      omega

theorem C35_min_le_max_witness :
    ∃ o, orderNumberRanges ((1 : Nat) - 1 : Int) (((1 : Nat) : Int) + ((2 : Nat) : Int))
        (entriesOf [-3, -1, 2, 5]).length (entriesOf [-3, -1, 2, 5]) = some o ∧
      o.destMinMax.length = max 1 ((entriesOf [-3, -1, 2, 5]).length - 2) ∧
      ∀ g ∈ o.destMinMax, g.minValue ≤ g.maxValue :=
  C35_min_le_max (entriesOf [-3, -1, 2, 5]) (by decide) (by decide) (by decide) 1 2
    (by decide) (by decide)

theorem descendReads_lt (table : List MinMaxStep) (sum : Int) :
    ∀ r, ∀ i ∈ descendReads table sum r, i < r := by
  intro r
  induction r with
  | zero => intro i hi; simp [descendReads] at hi
  | succ r ih =>
    intro i hi
    simp only [descendReads, List.mem_cons] at hi
    rcases hi with h | h
    · omega
    · split_ifs at h
      · have := ih i h; omega
      · simp at h

theorem ascendReads_lt (M : Nat) : ∀ (fuel subset ri : Nat),
    ∀ i ∈ ascendReads M fuel subset ri, i < M := by
  intro fuel
  induction fuel with
  | zero => intro _ _ i hi; simp [ascendReads] at hi
  | succ fuel ih =>
    intro subset ri i hi
    simp only [ascendReads] at hi
    split_ifs at hi with hc
    · rcases List.mem_cons.1 hi with h | h
      · omega
      · exact ih _ _ i h
    · simp at hi

theorem workTrace_succ (table : List MinMaxStep) (main : List Int) (M fuel r subset : Nat)
    (sum : Int) :
    workTrace table main M (fuel + 1) r subset sum =
      if (ascend main M M subset sum
          (if descend table sum r = 0 then 0 else descend table sum r - 1)).2.2 ≥ M then
        some [{ subset := subset,
                pushed := if descend table sum r = 0 then [{ sum := sum, subset := subset }]
                  else [],
                tableReads := descendReads table sum r,
                mainReads := ascendReads M M subset
                  (if descend table sum r = 0 then 0 else descend table sum r - 1) }]
      else
        (workTrace table main M fuel
          ((ascend main M M subset sum
            (if descend table sum r = 0 then 0 else descend table sum r - 1)).2.2 + 1)
          ((ascend main M M subset sum
            (if descend table sum r = 0 then 0 else descend table sum r - 1)).1 |||
            shl128 1 (ascend main M M subset sum
              (if descend table sum r = 0 then 0 else descend table sum r - 1)).2.2)
          (add128 (ascend main M M subset sum
              (if descend table sum r = 0 then 0 else descend table sum r - 1)).2.1
            (rd main (ascend main M M subset sum
              (if descend table sum r = 0 then 0 else descend table sum r - 1)).2.2))).map
          (fun rest =>
            { subset := subset,
              pushed := if descend table sum r = 0 then [{ sum := sum, subset := subset }]
                else [],
              tableReads := descendReads table sum r,
              mainReads := ascendReads M M subset
                  (if descend table sum r = 0 then 0 else descend table sum r - 1) ++
                [(ascend main M M subset sum
                  (if descend table sum r = 0 then 0 else descend table sum r - 1)).2.2] }
              :: rest) := rfl

/-- The recorded loop pushes the packets of `workLoop`. -/
theorem workLoop_eq_trace (table : List MinMaxStep) (main : List Int) (M : Nat) :
    ∀ (fuel r subset : Nat) (sum : Int),
      workLoop table main M fuel r subset sum
        = (workTrace table main M fuel r subset sum).map
            (fun tr => tr.flatMap WorkPass.pushed) := by
  intro fuel
  induction fuel with
  | zero => intro _ _ _; rfl
  | succ fuel ih =>
    intro r subset sum
    rw [workLoop_succ, workTrace_succ]
    split_ifs with hc h0
    all_goals first
      | (simp; done)
      | (rw [ih, Option.map_map, Option.map_map]; congr 1)

/-- Started at the top of a pass with the mask `2^(r-1) * a`, the loop ends within
`2^M - 2^(r-1) * a` passes; the masks at the tops of its passes increase strictly and stay
below `2^M`, and every index read is below `M`. -/
theorem workTrace_spec (table : List MinMaxStep) (main : List Int) (M : Nat) (hM : M ≤ 127) :
    ∀ (fuel r a : Nat), r ≤ M → 2 ^ (r - 1) * a < 2 ^ M → 2 ^ M - 2 ^ (r - 1) * a ≤ fuel →
      ∃ tr, workTrace table main M fuel r (2 ^ (r - 1) * a)
          (wrap128 (selSum main (2 ^ (r - 1) * a))) = some tr ∧
        tr.length ≤ 2 ^ M - 2 ^ (r - 1) * a ∧
        (tr.map WorkPass.subset).Pairwise (fun x y => x < y) ∧
        ∀ p ∈ tr, 2 ^ (r - 1) * a ≤ p.subset ∧ p.subset < 2 ^ M ∧
          (∀ i ∈ p.tableReads, i < M) ∧ (∀ i ∈ p.mainReads, i < M) := by
  intro fuel
  induction fuel with
  | zero =>
    intro r a _ hlt hf
    omega
  | succ fuel ih =>
    intro r a hr hlt hf
    rw [workTrace_succ]
    obtain ⟨hd1, _, _⟩ := descend_spec table (wrap128 (selSum main (2 ^ (r - 1) * a))) r
    have hreads1 := descendReads_lt table (wrap128 (selSum main (2 ^ (r - 1) * a))) r
    generalize descendReads table (wrap128 (selSum main (2 ^ (r - 1) * a))) r = treads at *
    generalize hr1 : descend table (wrap128 (selSum main (2 ^ (r - 1) * a))) r = r1 at *
    generalize hri : (if r1 = 0 then 0 else r1 - 1) = ri at *
    have hri_le : ri ≤ r - 1 := by
      rw [← hri]; split_ifs <;> omega
    have hs : 2 ^ (r - 1) * a = 2 ^ ri * (2 ^ (r - 1 - ri) * a) := by
      rw [← Nat.mul_assoc, ← Nat.pow_add]
      congr 2; omega
    obtain ⟨a2, ri2, h1, h2, h3, h4, h5, h6, h7⟩ :=
      ascend_spec main M hM M ri (2 ^ (r - 1 - ri) * a) (by omega) (by omega)
        (by rw [← hs]; exact hlt)
    rw [← hs] at h1 h7
    have hblock : 2 ^ ri2 * (a2 + 1) = 2 ^ (r - 1) * a + 2 ^ ri := by
      rw [h4, Nat.mul_add, ← hs, Nat.mul_one]
    clear h4
    have hreads2 := ascendReads_lt M M (2 ^ (r - 1) * a) ri
    generalize ascendReads M M (2 ^ (r - 1) * a) ri = mreads at *
    generalize hsdef : 2 ^ (r - 1) * a = s at *
    have hpos : 0 < 2 ^ ri := Nat.pow_pos (by decide)
    rw [h1]
    by_cases hend : ri2 ≥ M
    · rw [if_pos hend]
      refine ⟨_, rfl, ?_, ?_, ?_⟩
      · simp only [List.length_singleton]; omega
      · simp
      · intro p hp
        rw [List.mem_singleton] at hp
        subst hp
        exact ⟨le_refl _, hlt, fun i hi => lt_of_lt_of_le (hreads1 i hi) hr, hreads2⟩
    · have hri2 : ri2 < M := by omega
      have heven : a2 % 2 = 0 := h5 hri2
      have hset : (2 ^ ri2 * a2) ||| shl128 1 ri2 = 2 ^ (ri2 + 1 - 1) * (a2 + 1) := by
        rw [shl128_one _ (by omega), set_bit_eq a2 ri2 heven, Nat.add_sub_cancel]
      have hsum : add128 (wrap128 (selSum main (2 ^ ri2 * a2))) (rd main ri2)
          = wrap128 (selSum main (2 ^ (ri2 + 1 - 1) * (a2 + 1))) := by
        unfold add128
        rw [wrap128_add_left, Nat.add_sub_cancel, selSum_odd main (a2 + 1) ri2 (by omega),
          Nat.add_sub_cancel]
      have hnext : 2 ^ (ri2 + 1 - 1) * (a2 + 1) = s + 2 ^ ri := by
        rw [Nat.add_sub_cancel]; exact hblock
      have hlt2 : 2 ^ (ri2 + 1 - 1) * (a2 + 1) < 2 ^ M := by
        rw [Nat.add_sub_cancel]
        have hd : 2 ^ (ri2 + 1) ∣ 2 ^ ri2 * a2 := by
          rw [← pow_mul_half_even ri2 a2 heven]; exact Nat.dvd_mul_right _ _
        have := add_le_of_dvd_lt _ _ _ hd (Nat.pow_dvd_pow 2 (by omega)) h6
        have h2p : 2 ^ (ri2 + 1) = 2 ^ ri2 + 2 ^ ri2 := by rw [Nat.pow_succ]; omega
        have hp2 : 0 < 2 ^ ri2 := Nat.pow_pos (by decide)
        rw [Nat.mul_add, Nat.mul_one]
        omega
      obtain ⟨tr, e1, e2, e3, e4⟩ :=
        ih (ri2 + 1) (a2 + 1) (by omega) hlt2 (by rw [hnext]; omega)
      rw [if_neg hend, hset, hsum, e1]
      rw [hnext] at e2 e4 hlt2
      refine ⟨_, rfl, ?_, ?_, ?_⟩
      · simp only [List.length_cons]; omega
      · simp only [List.map_cons, List.pairwise_cons]
        refine ⟨?_, e3⟩
        intro x hx
        rw [List.mem_map] at hx
        obtain ⟨p, hp, rfl⟩ := hx
        have := (e4 p hp).1
        omega
      · intro p hp
        rcases List.mem_cons.1 hp with h | h
        · subst h
          refine ⟨le_refl _, hlt, fun i hi => lt_of_lt_of_le (hreads1 i hi) hr, ?_⟩
          intro i hi
          rcases List.mem_append.1 hi with h | h
          · exact hreads2 i h
          · rw [List.mem_singleton] at h
            rw [h]; exact hri2
        · obtain ⟨q1, q2, q3, q4⟩ := e4 p h
          exact ⟨by omega, q2, q3, q4⟩

/-- C38: for every main problem, every min/max table and every `mainNumbersNum <= 127`, the
loop of `HashController::generateWork` ends within `2^mainNumbersNum` passes: the values of
`subset` at the tops of its passes increase strictly and stay below `2^mainNumbersNum`, and
every index at which `hashMinMaxTable` or `mainProblem` is read lies below `mainNumbersNum`
(the tables are read at `rangeIndex` only behind the tests that keep it non-negative). The
packets pushed in the recorded passes are those of `hashGenerateWork`. -/
theorem C38_generate_work_terminates (table : List MinMaxStep) (mainProblem : List Int)
    (mainNumbersNum : Nat) (hM : mainNumbersNum ≤ 127) :
    ∃ tr, workTrace table mainProblem mainNumbersNum (2 ^ mainNumbersNum) mainNumbersNum 0 0
        = some tr ∧
      hashGenerateWork table mainProblem mainNumbersNum
        = some (tr.flatMap WorkPass.pushed) ∧
      tr.length ≤ 2 ^ mainNumbersNum ∧
      (tr.map WorkPass.subset).Pairwise (fun x y => x < y) ∧
      ∀ p ∈ tr, p.subset < 2 ^ mainNumbersNum ∧
        (∀ i ∈ p.tableReads, i < mainNumbersNum) ∧
        (∀ i ∈ p.mainReads, i < mainNumbersNum) := by
  have hpos : 0 < 2 ^ mainNumbersNum := Nat.pow_pos (by decide)
  obtain ⟨tr, e1, e2, e3, e4⟩ :=
    workTrace_spec table mainProblem mainNumbersNum hM (2 ^ mainNumbersNum) mainNumbersNum 0
      (le_refl _) (by simp) (by simp)
  simp only [Nat.mul_zero, selSum_zero, wrap128_zero, Nat.sub_zero] at e1 e2 e4
  refine ⟨tr, e1, ?_, e2, e3, fun p hp => (e4 p hp).2⟩
  unfold hashGenerateWork
  rw [workLoop_eq_trace, e1]
  rfl

theorem C38_generate_work_terminates_witness :
    ∃ tr, workTrace [{ minValue := -1, maxValue := 1 }, { minValue := 0, maxValue := 5 }]
        [1, -2] 2 (2 ^ 2) 2 0 0 = some tr ∧
      hashGenerateWork [{ minValue := -1, maxValue := 1 }, { minValue := 0, maxValue := 5 }]
        [1, -2] 2 = some (tr.flatMap WorkPass.pushed) ∧
      tr.length ≤ 2 ^ 2 ∧
      (tr.map WorkPass.subset).Pairwise (fun x y => x < y) ∧
      ∀ p ∈ tr, p.subset < 2 ^ 2 ∧
        (∀ i ∈ p.tableReads, i < 2) ∧
        (∀ i ∈ p.mainReads, i < 2) :=
  C38_generate_work_terminates
    [{ minValue := -1, maxValue := 1 }, { minValue := 0, maxValue := 5 }] [1, -2] 2 (by decide)

theorem toU64_add64 (x y : Int) :
    toU64 (add64 x y) = (toU64 x + toU64 y) % 18446744073709551616 := by
  unfold toU64 add64 wrap64
  omega

theorem toU64_sub64 (x y : Int) :
    toU64 (sub64 x y)
      = (toU64 x + (18446744073709551616 - toU64 y % 18446744073709551616))
          % 18446744073709551616 := by
  unfold toU64 sub64 wrap64
  omega

theorem add64_eq_zero_iff (x y : Int) : add64 x y = 0 ↔ toU64 (add64 x y) = 0 := by
  unfold toU64 add64 wrap64
  omega

theorem set1_add (x y : Int) :
    _mm_add_epi64 (_mm_set1_epi64 x) (_mm_set1_epi64 y) = _mm_set1_epi64 (add64 x y) := by
  simp only [_mm_add_epi64, _mm_set1_epi64, toU64_add64]

theorem set1_sub (x y : Int) :
    _mm_sub_epi64 (_mm_set1_epi64 x) (_mm_set1_epi64 y) = _mm_set1_epi64 (sub64 x y) := by
  simp only [_mm_sub_epi64, _mm_set1_epi64, toU64_sub64]

/-- The vector constants hold the scalar constants in both lanes. -/
theorem naiveVSSSE2_eq (sc : List Int) : ∀ k,
    naiveVSSSE2 sc k = (_mm_set1_epi64 (naiveVS sc k).1, _mm_set1_epi64 (naiveVS sc k).2) := by
  intro k
  induction k with
  | zero => rfl
  | succ k ih =>
    simp only [naiveVSSSE2, naiveVS, ih, set1_add, set1_sub]

theorem naiveCoreSSE2_map (v : Nat → Int) : ∀ k,
    naiveCoreSSE2 (fun k => _mm_set1_epi64 (v k)) k = (naiveCore v k).map _mm_set1_epi64 := by
  intro k
  induction k with
  | zero => rfl
  | succ k ih =>
    simp only [naiveCoreSSE2, naiveCore, ih, List.map_append, List.map_cons, List.map_nil]

theorem findLane (m u : Nat) (f : Bool) (hu : u < 18446744073709551616) (hm : m = findMask f) :
    m ||| ((cmpeq32Lane u 0 >>> 32) &&& cmpeq32Lane u 0) = findMask (f || decide (u = 0)) := by
  subst hm
  unfold cmpeq32Lane
  by_cases h1 : u % 4294967296 = 0 <;> by_cases h2 : u / 4294967296 % 4294967296 = 0
  · have hz : u = 0 := by omega
    subst hz
    cases f <;> decide
  · have hz : ¬ u = 0 := by omega
    rw [if_pos h1, if_neg h2]
    simp only [hz, decide_False, Bool.or_false]
    cases f <;> decide
  · have hz : ¬ u = 0 := by omega
    rw [if_neg h1, if_pos h2]
    simp only [hz, decide_False, Bool.or_false]
    cases f <;> decide
  · have hz : ¬ u = 0 := by omega
    rw [if_neg h1, if_neg h2]
    simp only [hz, decide_False, Bool.or_false]
    cases f <;> decide

theorem naiveStepSSE2_sim (st : M128 × M128) (a b : Int × Bool) (d : Int)
    (h : LaneSim st a b) :
    LaneSim (naiveStepSSE2 st (_mm_set1_epi64 d)) (naiveStep a d) (naiveStep b d) := by
  obtain ⟨h1, h2, h3, h4⟩ := h
  have k1 : (st.1.q0 + toU64 d) % 18446744073709551616 = toU64 (add64 a.1 d) := by
    rw [toU64_add64, h1]
  have k2 : (st.1.q1 + toU64 d) % 18446744073709551616 = toU64 (add64 b.1 d) := by
    rw [toU64_add64, h2]
  have z1 : decide (toU64 (add64 a.1 d) = 0) = (add64 a.1 d == 0) := by
    rw [Bool.eq_iff_iff, decide_eq_true_eq, beq_iff_eq, ← add64_eq_zero_iff]
  have z2 : decide (toU64 (add64 b.1 d) = 0) = (add64 b.1 d == 0) := by
    rw [Bool.eq_iff_iff, decide_eq_true_eq, beq_iff_eq, ← add64_eq_zero_iff]
  refine ⟨?_, ?_, ?_, ?_⟩
  · simp only [naiveStepSSE2, naiveStep, _mm_add_epi64, _mm_set1_epi64, k1]
  · simp only [naiveStepSSE2, naiveStep, _mm_add_epi64, _mm_set1_epi64, k2]
  · simp only [naiveStepSSE2, naiveStep, findUpdateSSE2, _mm_add_epi64, _mm_set1_epi64,
      _mm_or_si128, _mm_and_si128, _mm_srli_epi64, _mm_cmpeq_epi32, _mm_setzero_si128, k1]
    rw [findLane _ _ a.2 (toU64_lt _) h3, z1]
  · simp only [naiveStepSSE2, naiveStep, findUpdateSSE2, _mm_add_epi64, _mm_set1_epi64,
      _mm_or_si128, _mm_and_si128, _mm_srli_epi64, _mm_cmpeq_epi32, _mm_setzero_si128, k2]
    rw [findLane _ _ b.2 (toU64_lt _) h4, z2]

theorem foldl_naiveStepSSE2_sim (ds : List Int) : ∀ (st : M128 × M128) (a b : Int × Bool),
    LaneSim st a b →
    LaneSim ((ds.map _mm_set1_epi64).foldl naiveStepSSE2 st) (ds.foldl naiveStep a)
      (ds.foldl naiveStep b) := by
  induction ds with
  | nil => intro st a b h; exact h
  | cons d ds ih =>
    intro st a b h
    simp only [List.map_cons, List.foldl_cons]
    exact ih _ _ _ (naiveStepSSE2_sim st a b d h)

theorem findMask_extract (f : Bool) : (findMask f >>> (16 * 0)) % 65536 ≠ 0 ↔ f = true := by
  cases f <;> decide

/-- The two words tested at the end of a pass are set exactly when the scalar kernel sets
`find` for the first and for the second sum. -/
theorem naiveFindSSE2_spec (sc : List Int) (s1 s2 : Int) (c : Nat) :
    (_mm_extract_epi16 (naiveFindSSE2 sc s1 s2 c) 0 ≠ 0 ↔ naiveFind sc s1 c = true) ∧
    (_mm_extract_epi16 (naiveFindSSE2 sc s1 s2 c) 4 ≠ 0 ↔ naiveFind sc s2 c = true) := by
  have hv : (fun k => (naiveVSSSE2 sc k).1) = fun k => _mm_set1_epi64 ((naiveVS sc k).1) := by
    funext k; rw [naiveVSSSE2_eq]
  have hinit : LaneSim
      (_mm_add_epi64 (_mm_set1_epi64 (rd sc c)) (_mm_set_epi64 s2 s1),
        findUpdateSSE2 _mm_setzero_si128
          (_mm_add_epi64 (_mm_set1_epi64 (rd sc c)) (_mm_set_epi64 s2 s1)))
      (add64 s1 (rd sc c), add64 s1 (rd sc c) == 0)
      (add64 s2 (rd sc c), add64 s2 (rd sc c) == 0) := by
    have k1 : (toU64 (rd sc c) + toU64 s1) % 18446744073709551616
        = toU64 (add64 s1 (rd sc c)) := by rw [toU64_add64, Nat.add_comm]
    have k2 : (toU64 (rd sc c) + toU64 s2) % 18446744073709551616
        = toU64 (add64 s2 (rd sc c)) := by rw [toU64_add64, Nat.add_comm]
    have z1 : decide (toU64 (add64 s1 (rd sc c)) = 0) = (add64 s1 (rd sc c) == 0) := by
      rw [Bool.eq_iff_iff, decide_eq_true_eq, beq_iff_eq, ← add64_eq_zero_iff]
    have z2 : decide (toU64 (add64 s2 (rd sc c)) = 0) = (add64 s2 (rd sc c) == 0) := by
      rw [Bool.eq_iff_iff, decide_eq_true_eq, beq_iff_eq, ← add64_eq_zero_iff]
    refine ⟨?_, ?_, ?_, ?_⟩
    · simp only [_mm_add_epi64, _mm_set1_epi64, _mm_set_epi64, k1]
    · simp only [_mm_add_epi64, _mm_set1_epi64, _mm_set_epi64, k2]
    · simp only [findUpdateSSE2, _mm_add_epi64, _mm_set1_epi64, _mm_set_epi64,
        _mm_or_si128, _mm_and_si128, _mm_srli_epi64, _mm_cmpeq_epi32, _mm_setzero_si128, k1]
      exact (findLane 0 _ false (toU64_lt _) rfl).trans (by rw [z1, Bool.false_or])
    · simp only [findUpdateSSE2, _mm_add_epi64, _mm_set1_epi64, _mm_set_epi64,
        _mm_or_si128, _mm_and_si128, _mm_srli_epi64, _mm_cmpeq_epi32, _mm_setzero_si128, k2]
      exact (findLane 0 _ false (toU64_lt _) rfl).trans (by rw [z2, Bool.false_or])
  have hsim := foldl_naiveStepSSE2_sim (naiveCore (fun k => (naiveVS sc k).1) 8) _ _ _ hinit
  rw [← naiveCoreSSE2_map, ← hv] at hsim
  obtain ⟨_, _, h3, h4⟩ := hsim
  unfold naiveFindSSE2 naiveFind _mm_extract_epi16
  simp only
  constructor
  · rw [if_pos (by decide), h3]
    exact findMask_extract _
  · rw [if_neg (by decide), h4]
    exact findMask_extract _

/-- C40: for every `sumChanges` table and every pair of sums `s1`, `s2`,
`subsetSumNaiveMethodSSE2` stores, for `current = 0, ..., 31` in this order, `current` when
the scalar `subsetSumNaiveMethod` reports `current` for `s1` and then `current + 32` when it
reports `current` for `s2`; so for `c < 32` it reports `c` exactly when the scalar kernel
reports `c` for `s1`, and `c + 32` exactly when the scalar kernel reports `c` for `s2`. -/
theorem C40_sse2_matches_scalar (sumChanges : List Int) (s1 s2 : Int) (c : Nat) (hc : c < 32) :
    subsetSumNaiveMethodSSE2 sumChanges s1 s2
      = (List.range 32).flatMap (fun current =>
          (if current ∈ subsetSumNaiveMethod sumChanges s1 then [current] else []) ++
          (if current ∈ subsetSumNaiveMethod sumChanges s2 then [current + 32] else [])) ∧
    (c ∈ subsetSumNaiveMethodSSE2 sumChanges s1 s2 ↔ c ∈ subsetSumNaiveMethod sumChanges s1) ∧
    (c + 32 ∈ subsetSumNaiveMethodSSE2 sumChanges s1 s2
      ↔ c ∈ subsetSumNaiveMethod sumChanges s2) := by
  have hmem : ∀ s current, current < 32 →
      (current ∈ subsetSumNaiveMethod sumChanges s ↔ naiveFind sumChanges s current = true) := by
    intro s current h
    unfold subsetSumNaiveMethod
    rw [List.mem_filter, List.mem_range]
    exact ⟨fun h2 => h2.2, fun h2 => ⟨h, h2⟩⟩
  have hlt : ∀ s current, current ∈ subsetSumNaiveMethod sumChanges s → current < 32 := by
    intro s current h
    unfold subsetSumNaiveMethod at h
    rw [List.mem_filter, List.mem_range] at h
    exact h.1
  have heq : subsetSumNaiveMethodSSE2 sumChanges s1 s2
      = (List.range 32).flatMap (fun current =>
          (if current ∈ subsetSumNaiveMethod sumChanges s1 then [current] else []) ++
          (if current ∈ subsetSumNaiveMethod sumChanges s2 then [current + 32] else [])) := by
    unfold subsetSumNaiveMethodSSE2
    apply List.flatMap_congr
    intro current hcur
    have hcl := List.mem_range.1 hcur
    obtain ⟨e1, e2⟩ := naiveFindSSE2_spec sumChanges s1 s2 current
    have a1 := e1.trans (hmem s1 current hcl).symm
    have a2 := e2.trans (hmem s2 current hcl).symm
    simp only [a1, a2]
  refine ⟨heq, ?_, ?_⟩
  · rw [heq, List.mem_flatMap]
    constructor
    · rintro ⟨cur, _, h⟩
      rcases List.mem_append.1 h with h | h
      · split_ifs at h with hh
        · rw [List.mem_singleton] at h; rw [h]; exact hh
        · simp at h
      · split_ifs at h with hh
        · rw [List.mem_singleton] at h; omega
        · simp at h
    · intro h
      exact ⟨c, List.mem_range.2 hc, List.mem_append.2 (Or.inl (by rw [if_pos h]; simp))⟩
  · rw [heq, List.mem_flatMap]
    constructor
    · rintro ⟨cur, hcur, h⟩
      rcases List.mem_append.1 h with h | h
      · split_ifs at h with hh
        · rw [List.mem_singleton] at h
          have := List.mem_range.1 hcur
          omega
        · simp at h
      · split_ifs at h with hh
        · rw [List.mem_singleton] at h
          have : c = cur := by omega
          rw [this]; exact hh
        · simp at h
    · intro h
      exact ⟨c, List.mem_range.2 hc, List.mem_append.2 (Or.inr (by rw [if_pos h]; simp))⟩

theorem C40_sse2_matches_scalar_witness :
    subsetSumNaiveMethodSSE2 exampleSumChanges 3 (-1)
      = (List.range 32).flatMap (fun current =>
          (if current ∈ subsetSumNaiveMethod exampleSumChanges 3 then [current] else []) ++
          (if current ∈ subsetSumNaiveMethod exampleSumChanges (-1) then [current + 32]
            else [])) ∧
    (5 ∈ subsetSumNaiveMethodSSE2 exampleSumChanges 3 (-1)
      ↔ 5 ∈ subsetSumNaiveMethod exampleSumChanges 3) ∧
    (5 + 32 ∈ subsetSumNaiveMethodSSE2 exampleSumChanges 3 (-1)
      ↔ 5 ∈ subsetSumNaiveMethod exampleSumChanges (-1)) :=
  C40_sse2_matches_scalar exampleSumChanges 3 (-1) 5 (by decide)

theorem radix128_eq : ∀ k, k < 39 → radix128 k = 10 ^ k := by
  decide

theorem digitChar_toNat (d : Nat) (hd : d ≤ 9) : (Char.ofNat ((48 + d) % 256)).toNat = 48 + d := by
  interval_cases d <;> rfl

/-- The binary search of a digit: with `radixVal = 2^(n-1) * R` and `0 <= absVal < 2^n * R`,
the `n` passes add the quotient `absVal / R` to `digitVal` and leave the remainder. -/
theorem digitLoop_spec (R : Int) (hR : 0 < R) : ∀ (n : Nat) (ρ A : Int) (a : Nat),
    (1 ≤ n → ρ = 2 ^ (n - 1) * R) → 0 ≤ A → A < 2 ^ n * R → A ≤ maxInt128 →
    digitLoop n ρ A (2 ^ n * a) = (2 ^ n * a + (A / R).toNat, A % R) := by
  intro n
  induction n with
  | zero =>
    intro ρ A a _ h0 h1 _
    simp only [pow_zero, one_mul] at h1
    simp only [digitLoop, pow_zero, Nat.one_mul, Int.ediv_eq_zero_of_lt h0 h1,
      Int.emod_eq_of_lt h0 h1, Int.toNat_zero, Nat.add_zero]
  | succ n ih =>
    intro ρ A a hρ h0 h1 hmax
    have hρ1 : ρ = 2 ^ n * R := by
      have := hρ (by omega)
      rw [Nat.add_sub_cancel] at this
      exact this
    have hpow : (2 : Int) ^ (n + 1) = 2 * 2 ^ n := by rw [pow_succ]; ring
    have hpowN : (2 : Nat) ^ (n + 1) = 2 * 2 ^ n := by rw [Nat.pow_succ]; ring
    have hpos : (0 : Int) < 2 ^ n := by positivity
    have hρpos : 0 < ρ := by rw [hρ1]; positivity
    have hhalf : 1 ≤ n → ρ / 2 = 2 ^ (n - 1) * R := by
      intro hn
      obtain ⟨m, rfl⟩ : ∃ m, n = m + 1 := ⟨n - 1, by omega⟩
      rw [hρ1, Nat.add_sub_cancel, pow_succ]
      have : (2 : Int) ^ m * 2 * R = 2 ^ m * R * 2 := by ring
      rw [this, Int.mul_ediv_cancel _ (by decide)]
    rw [digitLoop]
    by_cases hc : ρ ≤ A
    · rw [if_pos hc]
      have hsub : sub128 A ρ = A - ρ := by
        apply sub128_exact
        · have := maxInt128_pos; omega
        · omega
      have hd : 2 ^ (n + 1) * a ||| 2 ^ n = 2 ^ n * (2 * a + 1) := by
        have := set_bit_eq (2 * a) n (by omega)
        rw [← this, hpowN]
        congr 1; ring
      have hlt : A - ρ < 2 ^ n * R := by
        rw [hpow] at h1
        rw [hρ1]
        nlinarith
      rw [hsub, hd, ih (ρ / 2) (A - ρ) (2 * a + 1) hhalf (by omega) hlt (by omega)]
      have hdiv : (A - ρ) / R = A / R - 2 ^ n := by
        have := Int.add_mul_ediv_right A (-(2 ^ n)) (ne_of_gt hR)
        rw [hρ1]
        have e : A - 2 ^ n * R = A + -(2 ^ n) * R := by ring
        rw [e, this]; ring
      have hmod : (A - ρ) % R = A % R := by
        rw [hρ1]
        have e : A - 2 ^ n * R = A + R * (-(2 ^ n)) := by ring
        rw [e, Int.add_mul_emod_self_left]
      have hq : (2 : Int) ^ n ≤ A / R := by
        rw [Int.le_ediv_iff_mul_le hR, ← hρ1]; exact hc
      rw [hdiv, hmod]
      congr 1
      have hcast : ((2 ^ n : Nat) : Int) = 2 ^ n := by push_cast; rfl
      have : (A / R - 2 ^ n).toNat + 2 ^ n = (A / R).toNat := by
        zify
        rw [Int.toNat_of_nonneg (by omega), Int.toNat_of_nonneg (by omega)]
        ring
      rw [hpowN]
      have e2 : 2 ^ n * (2 * a + 1) = 2 * 2 ^ n * a + 2 ^ n := by ring
      rw [e2]
      omega
    · rw [if_neg hc]
      have hd : 2 ^ (n + 1) * a = 2 ^ n * (2 * a) := by rw [hpowN]; ring
      rw [hd]
      exact ih (ρ / 2) A (2 * a) hhalf h0 (by rw [← hρ1]; omega) hmax

theorem pow10_le (n m : Nat) (h : n ≤ m) : (10 : Int) ^ n ≤ 10 ^ m :=
  pow_le_pow_right₀ (by norm_num) h

/-- One pass of the digit loop of `int128tostr` writes the leading digit and leaves the
rest. -/
theorem tostrLoop_succ (n : Nat) (A : Int) (hn : n ≤ 38) (h0 : 0 ≤ A) (h1 : A < 10 ^ (n + 1))
    (hmax : A ≤ maxInt128) :
    tostrLoop (n + 1) A
      = Char.ofNat ((48 + (A / 10 ^ n).toNat) % 256) :: tostrLoop n (A % 10 ^ n) := by
  have hR : (0 : Int) < 10 ^ n := by positivity
  have hrad : radix128 n = 10 ^ n := radix128_eq n (by omega)
  rw [tostrLoop]
  by_cases h38 : n = 38
  · subst h38
    rw [if_neg (by simp), hrad]
    have h := digitLoop_spec (10 ^ 38) hR 1 (10 ^ 38) A 0 (fun _ => by norm_num) h0
      (by unfold maxInt128 at hmax; norm_num; omega) hmax
    simp only [Nat.mul_zero, Nat.zero_add] at h
    rw [h]
  · rw [if_pos h38, hrad]
    have hle : (10 : Int) ^ n ≤ 10 ^ 37 := pow10_le n 37 (by omega)
    have h37 : (10 : Int) ^ 37 = 10000000000000000000000000000000000000 := by norm_num
    rw [h37] at hle
    have hw : wrap128 (10 ^ n * 2 ^ 3) = 2 ^ (4 - 1) * 10 ^ n := by
      rw [wrap128_of_range]
      · norm_num; ring
      · unfold IsInt128
        constructor
        · norm_num; omega
        · norm_num; omega
    have h10 : (10 : Int) ^ (n + 1) = 10 * 10 ^ n := by rw [pow_succ]; ring
    have h := digitLoop_spec (10 ^ n) hR 4 (wrap128 (10 ^ n * 2 ^ 3)) A 0 (fun _ => hw) h0
      (by rw [h10] at h1; norm_num; omega) hmax
    simp only [Nat.mul_zero, Nat.zero_add] at h
    rw [h]

theorem digit_le_nine (n : Nat) (A : Int) (h0 : 0 ≤ A) (h1 : A < 10 ^ (n + 1)) :
    (A / 10 ^ n).toNat ≤ 9 := by
  have hR : (0 : Int) < 10 ^ n := by positivity
  have h10 : (10 : Int) ^ (n + 1) = 10 * 10 ^ n := by rw [pow_succ]; ring
  have : A / 10 ^ n < 10 := by
    rw [Int.ediv_lt_iff_lt_mul hR, ← h10]; exact h1
  have : 0 ≤ A / 10 ^ n := Int.ediv_nonneg h0 (le_of_lt hR)
  omega

/-- The digit loop of `int128tostr` entered with `decIdx = n - 1` and `0 <= absVal < 10^n`
writes the `n` decimal digits of `absVal`. -/
theorem tostrLoop_spec : ∀ (n : Nat) (A : Int), n ≤ 39 → 0 ≤ A → A < 10 ^ n →
    A ≤ maxInt128 →
    (tostrLoop n A).length = n ∧ AllDigits (tostrLoop n A) ∧
    ∀ acc : Int, (tostrLoop n A).foldl
        (fun acc c => acc * 10 + ((c.toNat - 48 : Nat) : Int)) acc = acc * 10 ^ n + A := by
  intro n
  induction n with
  | zero =>
    intro A _ h0 h1 _
    have hA : A = 0 := by simp only [pow_zero] at h1; omega
    subst hA
    refine ⟨rfl, ?_, ?_⟩
    · intro c hc; simp [tostrLoop] at hc
    · intro acc; simp [tostrLoop]
  | succ n ih =>
    intro A hn h0 h1 hmax
    have hR : (0 : Int) < 10 ^ n := by positivity
    have hd := digit_le_nine n A h0 h1
    have hq0 : 0 ≤ A / 10 ^ n := Int.ediv_nonneg h0 (le_of_lt hR)
    have hm0 : 0 ≤ A % 10 ^ n := Int.emod_nonneg _ (ne_of_gt hR)
    have hm1 : A % 10 ^ n < 10 ^ n := Int.emod_lt_of_pos _ hR
    have hmle : A % 10 ^ n ≤ A := by
      have e2 := Int.ediv_add_emod A (10 ^ n)
      have : 0 ≤ 10 ^ n * (A / 10 ^ n) := mul_nonneg (le_of_lt hR) hq0
      linarith
    obtain ⟨i1, i2, i3⟩ := ih (A % 10 ^ n) (by omega) hm0 hm1 (by omega)
    rw [tostrLoop_succ n A (by omega) h0 h1 hmax]
    refine ⟨by rw [List.length_cons, i1], ?_, ?_⟩
    · intro c hc
      rcases List.mem_cons.1 hc with h | h
      · rw [h, digitChar_toNat _ hd]; omega
      · exact i2 c h
    · intro acc
      rw [List.foldl_cons, i3, digitChar_toNat _ hd]
      have e1 : ((48 + (A / 10 ^ n).toNat - 48 : Nat) : Int) = A / 10 ^ n := by
        rw [Nat.add_sub_cancel_left, Int.toNat_of_nonneg hq0]
      rw [e1]
      have e2 := Int.ediv_add_emod A (10 ^ n)
      have h10 : (10 : Int) ^ (n + 1) = 10 * 10 ^ n := by rw [pow_succ]; ring
      rw [h10]
      linear_combination e2

/-- The search loop of `int128tostr` ends with `decIdx` the number of decimal digits of
`absVal` (at most 39). -/
theorem decIdxLoop_spec (A : Int) : ∀ (fuel d : Nat), 39 ≤ d + fuel → d ≤ 39 →
    (1 ≤ d → 10 ^ (d - 1) ≤ A) →
    d ≤ decIdxLoop A fuel d ∧ decIdxLoop A fuel d ≤ 39 ∧
    (1 ≤ decIdxLoop A fuel d → 10 ^ (decIdxLoop A fuel d - 1) ≤ A) ∧
    (decIdxLoop A fuel d < 39 → A < 10 ^ decIdxLoop A fuel d) := by
  intro fuel
  induction fuel with
  | zero =>
    intro d h1 h2 h3
    simp only [decIdxLoop]
    exact ⟨le_refl _, h2, h3, fun h => by omega⟩
  | succ fuel ih =>
    intro d h1 h2 h3
    rw [decIdxLoop]
    by_cases hc : d < 39 ∧ radix128 d ≤ A
    · rw [if_pos hc]
      obtain ⟨i1, i2, i3, i4⟩ := ih (d + 1) (by omega) (by omega)
        (fun _ => by rw [Nat.add_sub_cancel, ← radix128_eq d hc.1]; exact hc.2)
      exact ⟨by omega, i2, i3, i4⟩
    · rw [if_neg hc]
      refine ⟨le_refl _, h2, h3, ?_⟩
      intro hd
      rw [← radix128_eq d hd]
      by_contra hge
      exact hc ⟨hd, by omega⟩

theorem decFold_ge (ds : List Char) : ∀ acc : Int, 0 ≤ acc →
    acc ≤ ds.foldl (fun acc c => acc * 10 + ((c.toNat - 48 : Nat) : Int)) acc := by
  induction ds with
  | nil => intro acc _; exact le_refl _
  | cons c rest ih =>
    intro acc h
    rw [List.foldl_cons]
    have := ih (acc * 10 + ((c.toNat - 48 : Nat) : Int)) (by omega)
    omega

/-- On a string of digits whose value fits in an `Int128` (and whose first digit is at most
`1` when there are 39 of them) the loop of `strtoint128` computes the value. -/
theorem strtoint128Loop_digits (isneg : Bool) (fd : Nat) : ∀ (ds : List Char) (radix : Nat)
    (cur : Int), AllDigits ds → 0 ≤ cur →
    ds.foldl (fun acc c => acc * 10 + ((c.toNat - 48 : Nat) : Int)) cur ≤ maxInt128 →
    (fd ≤ 49 ∨ radix + ds.length ≤ 38) →
    strtoint128Loop isneg fd ds radix cur
      = some (ds.foldl (fun acc c => acc * 10 + ((c.toNat - 48 : Nat) : Int)) cur) := by
  intro ds
  induction ds with
  | nil => intro radix cur _ _ _ _; rfl
  | cons c rest ih =>
    intro radix cur hd h0 hmax hfd
    have hc := hd c (List.mem_cons_self _ _)
    rw [List.foldl_cons] at hmax ⊢
    have hge := decFold_ge rest (cur * 10 + ((c.toNat - 48 : Nat) : Int)) (by omega)
    have hmaxv : maxInt128 = 170141183460469231731687303715884105727 := rfl
    have hw8 : wrap128 (cur * 2 ^ 3) = cur * 8 := by
      rw [wrap128_of_range]
      · norm_num
      · unfold IsInt128; norm_num; omega
    have hw2 : wrap128 (cur * 2 ^ 1) = cur * 2 := by
      rw [wrap128_of_range]
      · norm_num
      · unfold IsInt128; norm_num; omega
    have ha1 : add128 (cur * 8) (cur * 2) = cur * 10 := by
      rw [add128_exact _ _ (by omega) (by omega)]; ring
    have ha2 : add128 (cur * 10) ((c.toNat - 48 : Nat) : Int)
        = cur * 10 + ((c.toNat - 48 : Nat) : Int) :=
      add128_exact _ _ (by omega) (by omega)
    rw [strtoint128Loop, if_neg (by omega), if_neg (by
      rintro ⟨h1, h2⟩
      rw [List.length_cons] at hfd
      omega)]
    simp only [hw8, hw2, ha1, ha2]
    rw [if_neg (by omega)]
    apply ih (radix + 1) _ (fun x hx => hd x (List.mem_cons_of_mem _ hx)) (by omega) hmax
    rw [List.length_cons] at hfd
    omega

/-- On a canonical string of digits `strtoint128` returns the value, and the negated value
after a leading `-`. -/
theorem strtoint128_of_digits (c0 : Char) (rest : List Char) (hd : AllDigits (c0 :: rest))
    (hmax : decimalValue (c0 :: rest) ≤ maxInt128)
    (hfd : c0.toNat ≤ 49 ∨ (c0 :: rest).length ≤ 38) :
    strtoint128 (c0 :: rest) = some (decimalValue (c0 :: rest)) ∧
    strtoint128 ('-' :: c0 :: rest) = some (neg128 (decimalValue (c0 :: rest))) := by
  have hc0 := hd c0 (List.mem_cons_self _ _)
  have hp : ¬ c0 = '+' := by
    rintro rfl
    exact absurd hc0 (by decide)
  have hm : ¬ c0 = '-' := by
    rintro rfl
    exact absurd hc0 (by decide)
  have hl1 := strtoint128Loop_digits false c0.toNat (c0 :: rest) 0 0 hd (le_refl _) hmax
    (by omega)
  have hl2 := strtoint128Loop_digits true c0.toNat (c0 :: rest) 0 0 hd (le_refl _) hmax
    (by omega)
  constructor
  · simp only [strtoint128, hp, hm, or_self, if_false, decide_False, hl1, Option.map_some',
      Bool.false_eq_true]
    rfl
  · simp only [strtoint128, or_true, if_true, decide_True, hl2, Option.map_some']
    rfl

/-- The digits written by `int128tostr` for a positive `absVal`. -/
theorem tostr_digits (A : Int) (h1 : 1 ≤ A) (hmax : A ≤ maxInt128) :
    decIdxLoop A 39 0 ≠ 0 ∧
    ∃ c0 rest, tostrLoop (decIdxLoop A 39 0) A = c0 :: rest ∧ AllDigits (c0 :: rest) ∧
      decimalValue (c0 :: rest) = A ∧ c0 ≠ '0' ∧
      (c0.toNat ≤ 49 ∨ (c0 :: rest).length ≤ 38) := by
  obtain ⟨_, hL39, hlow, hup⟩ := decIdxLoop_spec A 39 0 (by omega) (by omega) (fun h => by omega)
  generalize decIdxLoop A 39 0 = L at *
  have hL0 : L ≠ 0 := by
    intro h0
    subst h0
    have := hup (by omega)
    simp only [pow_zero] at this
    omega
  obtain ⟨n, rfl⟩ : ∃ n, L = n + 1 := ⟨L - 1, by omega⟩
  have hmaxv : maxInt128 = 170141183460469231731687303715884105727 := rfl
  have hlow1 : (10 : Int) ^ n ≤ A := by
    have := hlow (by omega)
    rw [Nat.add_sub_cancel] at this
    exact this
  have hup1 : A < 10 ^ (n + 1) := by
    by_cases h : n + 1 < 39
    · exact hup h
    · have hn : n + 1 = 39 := by omega
      rw [hn]
      norm_num
      omega
  have hR : (0 : Int) < 10 ^ n := by positivity
  obtain ⟨s1, s2, s3⟩ := tostrLoop_spec (n + 1) A hL39 (by omega) hup1 hmax
  have hsucc := tostrLoop_succ n A (by omega) (by omega) hup1 hmax
  have hd9 := digit_le_nine n A (by omega) hup1
  have hq1 : 1 ≤ A / 10 ^ n := by
    rw [Int.le_ediv_iff_mul_le hR, one_mul]; exact hlow1
  have hch := digitChar_toNat _ hd9
  refine ⟨hL0, _, _, hsucc, ?_, ?_, ?_, ?_⟩
  · rw [← hsucc]; exact s2
  · rw [← hsucc]
    unfold decimalValue
    rw [s3 0]; ring
  · intro h0
    rw [h0] at hch
    have : ('0' : Char).toNat = 48 := rfl
    omega
  · by_cases h : n + 1 < 39
    · right
      rw [← hsucc, s1]; omega
    · left
      have hn : n = 38 := by omega
      subst hn
      rw [hch]
      have : A / 10 ^ 38 < 2 := by
        rw [Int.ediv_lt_iff_lt_mul hR]
        norm_num
        omega
      omega

/-- C36: for every `Int128` value `v`, including `-2^127` and `2^127 - 1`, `strtoint128`
returns `v` on the string `int128tostr(v)`, and `int128tostr(v)` is the canonical decimal
representation of `v`: a `-` sign exactly for the negative values, then the decimal digits
of `|v|` without a leading zero (the single digit `0` for zero). -/
theorem C36_int128_string_round_trip (v : Int) (hv : IsInt128 v) :
    strtoint128 (int128tostr v) = some v ∧ CanonicalDecimal v (int128tostr v) := by
  have hmaxv : maxInt128 = 170141183460469231731687303715884105727 := rfl
  by_cases hmin : v = -170141183460469231731687303715884105728
  · subst hmin
    have e : int128tostr (-170141183460469231731687303715884105728)
        = "-170141183460469231731687303715884105728".toList := by decide
    rw [e]
    refine ⟨by decide, "170141183460469231731687303715884105728".toList, by decide, by decide,
      by decide, by decide, by decide⟩
  · unfold IsInt128 at hv
    rcases lt_trichotomy v 0 with hneg | hzero | hpos
    · obtain ⟨hL, c0, rest, h1, h2, h3, h4, h5⟩ := tostr_digits (-v) (by omega) (by omega)
      obtain ⟨_, r2⟩ := strtoint128_of_digits c0 rest h2 (by rw [h3]; omega) h5
      have hn : neg128 v = -v := neg128_exact v (by omega) (by omega)
      have e : int128tostr v = '-' :: c0 :: rest := by
        unfold int128tostr
        simp only [hneg, decide_True, if_true, hn, if_neg hmin, if_neg hL, h1]
        rfl
      rw [e, r2, h3]
      refine ⟨by rw [neg128_exact _ (by omega) (by omega), neg_neg], c0 :: rest, ?_, h2,
        by simp, ?_, ?_⟩
      · rw [if_pos hneg]; rfl
      · intro hh
        simp only [List.head?_cons, Option.some.injEq] at hh
        exact absurd hh h4
      · rw [h3, abs_of_neg hneg]
    · subst hzero
      have e : int128tostr 0 = ['0'] := by decide
      rw [e]
      exact ⟨by decide, ['0'], by decide, by decide, by decide, by decide, by decide⟩
    · obtain ⟨hL, c0, rest, h1, h2, h3, h4, h5⟩ := tostr_digits v (by omega) (by omega)
      obtain ⟨r1, _⟩ := strtoint128_of_digits c0 rest h2 (by rw [h3]; omega) h5
      have hnn : ¬ v < 0 := by omega
      have e : int128tostr v = c0 :: rest := by
        unfold int128tostr
        simp only [hnn, decide_False, if_false, if_neg hmin, if_neg hL, h1, Bool.false_eq_true]
        rfl
      rw [e, r1, h3]
      refine ⟨rfl, c0 :: rest, ?_, h2, by simp, ?_, ?_⟩
      · rw [if_neg hnn]; rfl
      · intro hh
        simp only [List.head?_cons, Option.some.injEq] at hh
        exact absurd hh h4
      · rw [h3, abs_of_pos hpos]

theorem C36_int128_string_round_trip_witness :
    strtoint128 (int128tostr (-170141183460469231731687303715884105728))
      = some (-170141183460469231731687303715884105728) ∧
    CanonicalDecimal (-170141183460469231731687303715884105728)
      (int128tostr (-170141183460469231731687303715884105728)) :=
  C36_int128_string_round_trip (-170141183460469231731687303715884105728) (by decide)

end SubsetSum
